import Mathlib

/-!
# JCRON (C port): a shallow embedding of the scheduling core

The development follows the C sources `jcron.h`, `jcron_core.c`, `jcron_parse.c`,
`jcron_time.c` and `jcron_simd.c`.

Conventions of the embedding.

* A C string is the list of its characters before the terminating NUL.
* `int` values are integers.  Where the compiler of patterns computes in `int` (the value
  of a numeral in `parse_int`, the index `i += step` of the bit loops), a result outside the
  range of `int` wraps around (`int_wrap`), as the compiled code does; C leaves this
  overflow undefined.  The calendar arithmetic of the solvers stays far inside the range.
* A shift `1 << n`, `1U << n` or `1ULL << n` by a count of type `int` takes the count modulo
  the width of the shifted operand (32 or 64), as the shift instruction does; C leaves a
  count outside the width undefined.  The vector shifts of `jcron_simd.c` give 0 for a count
  of 32 or more.
* Bit masks are natural numbers; a store into a `uintN_t` object reduces modulo `2^N`.
* `struct tm` is the record `Tm` with the seven fields the code reads or writes.
-/

namespace JCron

/-! ## Error codes (`jcron_error_t`) -/

def JCRON_OK : Int := 0
def JCRON_ERR_INVALID_PATTERN : Int := -1
def JCRON_ERR_INVALID_TIME : Int := -2
def JCRON_ERR_NO_MATCH : Int := -3
def JCRON_ERR_OVERFLOW : Int := -4
def JCRON_ERR_NULL_POINTER : Int := -5

/-! ## Data structures -/

/-- The compiled pattern `jcron_pattern_t` (the reserved padding and the time zone text are
never read or written by the core and are left out). -/
structure jcron_pattern_t where
  minutes : Nat
  hours : Nat
  days_of_month : Nat
  months : Nat
  days_of_week : Nat
  eod_type : Int
  eod_modifier : Int
  eod_unit : Char
  sod_type : Int
  sod_modifier : Int
  sod_unit : Char
  woy_modifier : Nat
  woy_count : Nat
  has_last : Nat
  has_nth_weekday : Nat
  nth_weekday_n : Nat
  nth_weekday_dow : Nat
  has_nearest_weekday : Nat
  nearest_weekday_day : Nat
  has_timezone : Nat
  is_eod_pattern : Nat
  is_sod_pattern : Nat
  has_cron : Nat
  deriving DecidableEq, Repr

/-- The broken-down time `struct tm`, with the C field meanings: `tm_year` counts from 1900,
`tm_mon` is 0-based, `tm_wday` has Sunday = 0. -/
structure Tm where
  tm_sec : Int
  tm_min : Int
  tm_hour : Int
  tm_mday : Int
  tm_mon : Int
  tm_year : Int
  tm_wday : Int
  deriving DecidableEq, Repr

/-- The result record `jcron_result_t`. -/
structure jcron_result_t where
  next_time : Int
  prev_time : Int
  time : Tm
  error_code : Int
  deriving DecidableEq, Repr

/-- The state of a pattern record after `memset(out, 0, sizeof ...)`. -/
def pattern_zero : jcron_pattern_t :=
  { minutes := 0, hours := 0, days_of_month := 0, months := 0, days_of_week := 0,
    eod_type := 0, eod_modifier := 0, eod_unit := Char.ofNat 0,
    sod_type := 0, sod_modifier := 0, sod_unit := Char.ofNat 0,
    woy_modifier := 0, woy_count := 0, has_last := 0, has_nth_weekday := 0,
    nth_weekday_n := 0, nth_weekday_dow := 0, has_nearest_weekday := 0,
    nearest_weekday_day := 0, has_timezone := 0,
    is_eod_pattern := 0, is_sod_pattern := 0, has_cron := 0 }

/-- The state of a result record after `memset(out, 0, sizeof ...)`. -/
def result_zero : jcron_result_t :=
  { next_time := 0, prev_time := 0,
    time := { tm_sec := 0, tm_min := 0, tm_hour := 0, tm_mday := 0, tm_mon := 0,
              tm_year := 0, tm_wday := 0 },
    error_code := 0 }

/-! ## Character classes and small parsing helpers (`jcron_parse.c`) -/

/-- The C library `isspace` in the "C" locale. -/
def isspace (c : Char) : Bool :=
  c == ' ' || c == '\t' || c == '\n' || c == Char.ofNat 11 || c == Char.ofNat 12 || c == '\r'

/-- The C library `isdigit`. -/
def isdigit (c : Char) : Bool :=
  decide (48 ≤ c.toNat) && decide (c.toNat ≤ 57)

/-- The function `skip_whitespace`. -/
def skip_whitespace : List Char → List Char
  | [] => []
  | c :: cs => if isspace c then skip_whitespace cs else c :: cs

/-- The value that an `int` holds when an arithmetic result `x` is stored in it: the result
wraps around to the range `-2^31 .. 2^31 - 1`.  (C leaves signed overflow undefined; the
compiled code wraps.) -/
def int_wrap (x : Int) : Int := (x + 2147483648) % 4294967296 - 2147483648

/-- The digit loop of `parse_int`: `value = value * 10 + (*p - '0')` on an `int`. -/
def parse_digits : Int → List Char → Int × List Char
  | value, [] => (value, [])
  | value, c :: cs =>
    if isdigit c then parse_digits (int_wrap (value * 10 + ((c.toNat : Int) - 48))) cs
    else (value, c :: cs)

/-- The function `parse_int`: `none` stands for the return value `-1` (not a number),
`some (value, rest)` for `0` with `*out = value` and `*str = rest`. -/
def parse_int (p : List Char) : Option (Int × List Char) :=
  match p with
  | [] => none
  | c :: _ => if isdigit c then some (parse_digits 0 p) else none

/-- Which of the four mask pointers handed to `parse_cron_field` is not `NULL`. -/
inductive MaskPtr where
  | mask_64
  | mask_32
  | mask_16
  | mask_8
  | null
  deriving DecidableEq, Repr

/-- One store `*mask |= (1 << i)` through the non-null pointer (`jcron_set_bit_64`,
`jcron_set_bit_32`, or the inline forms for 16 and 8 bits).  The shift takes its count `i`
modulo the width of the shifted operand, 64 for `1ULL << i` and 32 for `1U << i` and
`1 << i`, as the machine does for a count outside the width; the result is stored in the
width of the mask. -/
def set_mask_bit (w : MaskPtr) (mask : Nat) (i : Int) : Nat :=
  match w with
  | MaskPtr.mask_64 => (mask ||| (1 <<< (i % 64).toNat)) % 2 ^ 64
  | MaskPtr.mask_32 => (mask ||| (1 <<< (i % 32).toNat)) % 2 ^ 32
  | MaskPtr.mask_16 => (mask ||| (1 <<< (i % 32).toNat)) % 2 ^ 16
  | MaskPtr.mask_8 => (mask ||| (1 <<< (i % 32).toNat)) % 2 ^ 8
  | MaskPtr.null => mask

/-- The loop `for (int i = start; i <= end; i += step) set bit i`, with `i += step` on an
`int`; the first argument bounds the number of iterations. -/
def set_bits_step (w : MaskPtr) (stop step : Int) : Nat → Int → Nat → Nat
  | 0, _, mask => mask
  | fuel + 1, i, mask =>
    if i ≤ stop then set_bits_step w stop step fuel (int_wrap (i + step)) (set_mask_bit w mask i)
    else mask

/-- A number of iterations that the loop `for (int i = start; i <= end; i += step)` does not
reach, for `0 ≤ start ≤ end ≤ 63` and `1 ≤ step`. -/
def loop_fuel (stop : Int) : Nat := 2 * stop.toNat + 4

/-- The functions `set_range_64`, `set_range_32`, `set_range_16`, `set_range_8`. -/
def set_range (w : MaskPtr) (mask : Nat) (start stop : Nat) : Nat :=
  set_bits_step w stop 1 (loop_fuel stop) start mask

/-- The optional `-M` part of a list item: `none` is the error return, otherwise the end of
the range and the remaining text. -/
def parse_range_end (min_val max_val : Nat) (start : Int) (p : List Char) :
    Option (Int × List Char) :=
  match p with
  | '-' :: p1 =>
    match parse_int p1 with
    | none => none
    | some (stop, p2) =>
      if stop < (min_val : Int) ∨ stop > (max_val : Int) ∨ stop < start then none
      else some (stop, p2)
  | _ => some (start, p)

/-- The optional `/S` part of a list item. -/
def parse_step (p : List Char) : Option (Int × List Char) :=
  match p with
  | '/' :: p1 =>
    match parse_int p1 with
    | none => none
    | some (step, p2) => if step ≤ 0 then none else some (step, p2)
  | _ => some (1, p)

/-- The `while (*p)` loop of `parse_cron_field` over the items of a list; the first
argument bounds the number of iterations (every iteration consumes a digit). -/
def parse_field_items (w : MaskPtr) (min_val max_val : Nat) :
    Nat → List Char → Nat → Int × Nat
  | 0, _, mask => (JCRON_ERR_INVALID_PATTERN, mask)
  | fuel + 1, p, mask =>
    match p with
    | [] => (JCRON_OK, mask)
    | _ :: _ =>
      match parse_int (skip_whitespace p) with
      | none => (JCRON_ERR_INVALID_PATTERN, mask)
      | some (start, p1) =>
        if start < (min_val : Int) ∨ start > (max_val : Int) then
          (JCRON_ERR_INVALID_PATTERN, mask)
        else
          match parse_range_end min_val max_val start p1 with
          | none => (JCRON_ERR_INVALID_PATTERN, mask)
          | some (stop, p2) =>
            match parse_step p2 with
            | none => (JCRON_ERR_INVALID_PATTERN, mask)
            | some (step, p3) =>
              let mask1 := set_bits_step w stop step (loop_fuel stop) start mask
              match skip_whitespace p3 with
              | [] => (JCRON_OK, mask1)
              | ',' :: p4 => parse_field_items w min_val max_val fuel p4 mask1
              | _ :: _ => (JCRON_ERR_INVALID_PATTERN, mask1)

/-- The function `parse_cron_field`: the returned pair is the return code and the mask
behind the non-null pointer after the call. -/
def parse_cron_field (field : List Char) (min_val max_val : Nat) (w : MaskPtr) (mask : Nat) :
    Int × Nat :=
  match skip_whitespace field with
  | '*' :: p1 =>
    match p1 with
    | '/' :: p2 =>
      match parse_int p2 with
      | none => (JCRON_ERR_INVALID_PATTERN, mask)
      | some (step, _) =>
        if step ≤ 0 then (JCRON_ERR_INVALID_PATTERN, mask)
        else (JCRON_OK, set_bits_step w max_val step (loop_fuel max_val) min_val mask)
    | _ => (JCRON_OK, set_range w mask min_val max_val)
  | p => parse_field_items w min_val max_val (p.length + 1) p mask

/-! ## SOD / EOD modifier parsing -/

/-- The common body of `jcron_parse_sod` (`tag = 'S'`) and `jcron_parse_eod` (`tag = 'E'`):
the result is the return code and the values behind `type`, `modifier_val` and `unit`
after the call. -/
def parse_modifier (tag : Char) (modifier : List Char) (type modifier_val : Int) (unit : Char) :
    Int × Int × Int × Char :=
  match modifier with
  | c0 :: c1 :: rest =>
    if c0 ≠ tag ∨ ¬ isdigit c1 then (JCRON_ERR_INVALID_PATTERN, type, modifier_val, unit)
    else
      let type1 : Int := (c1.toNat : Int) - 48
      match rest with
      | [] => (JCRON_OK, type1, 0, 'D')
      | u :: _ =>
        if u ≠ 'H' ∧ u ≠ 'D' ∧ u ≠ 'W' ∧ u ≠ 'M' then
          (JCRON_ERR_INVALID_PATTERN, type1, type1, u)
        else (JCRON_OK, type1, type1, u)
  | _ => (JCRON_ERR_INVALID_PATTERN, type, modifier_val, unit)

/-- The function `jcron_parse_sod`. -/
def jcron_parse_sod (modifier : List Char) (type modifier_val : Int) (unit : Char) :
    Int × Int × Int × Char :=
  parse_modifier 'S' modifier type modifier_val unit

/-- The function `jcron_parse_eod`. -/
def jcron_parse_eod (modifier : List Char) (type modifier_val : Int) (unit : Char) :
    Int × Int × Int × Char :=
  parse_modifier 'E' modifier type modifier_val unit

/-! ## The pattern compiler `jcron_parse` -/

/-- The delimiters handed to `strtok`: space and tab. -/
def is_delim (c : Char) : Bool := c == ' ' || c == '\t'

/-- The successive results of `strtok(buffer, " \t")`: the maximal runs of non-delimiter
characters.  The second argument collects the current token in reverse. -/
def strtok_tokens : List Char → List Char → List (List Char)
  | [], cur => if cur = [] then [] else [cur.reverse]
  | c :: cs, cur =>
    if is_delim c then
      (if cur = [] then strtok_tokens cs [] else cur.reverse :: strtok_tokens cs [])
    else strtok_tokens cs (c :: cur)

/-- The test `strncmp(pattern, lit, 4) == 0` for a four character literal. -/
def has_prefix4 (pattern lit : List Char) : Bool := decide (pattern.take 4 = lit)

/-- The start of `jcron_parse`: `memset` followed by the four sentinel stores. -/
def pattern_init : jcron_pattern_t :=
  { pattern_zero with eod_type := -1, sod_type := -1, eod_modifier := -1, sod_modifier := -1 }

/-- The optional seventh token of a cron pattern (`fields[6]`).  The return codes of
`jcron_parse_sod` and `jcron_parse_eod` are not inspected by the caller. -/
def parse_modifier_field (out : jcron_pattern_t) (modifier : List Char) : jcron_pattern_t :=
  if modifier = ['W', 'O', 'Y'] then { out with woy_modifier := 1 }
  else
    match modifier with
    | c0 :: c1 :: _ =>
      if c0 = 'S' ∧ isdigit c1 then
        let r := jcron_parse_sod modifier out.sod_type out.sod_modifier out.sod_unit
        { out with sod_type := r.2.1, sod_modifier := r.2.2.1, sod_unit := r.2.2.2 }
      else if c0 = 'E' ∧ isdigit c1 then
        let r := jcron_parse_eod modifier out.eod_type out.eod_modifier out.eod_unit
        { out with eod_type := r.2.1, eod_modifier := r.2.2.1, eod_unit := r.2.2.2 }
      else out
    | _ => out

/-- The end of `jcron_parse`: the check for the optional modifier and `return JCRON_OK`. -/
def parse_cron_tail (fields : List (List Char)) (out : jcron_pattern_t) :
    Int × jcron_pattern_t :=
  if fields.length ≥ 7 then (JCRON_OK, parse_modifier_field out (fields.getD 6 []))
  else (JCRON_OK, out)

/-- The last part of `jcron_parse`: the six-field cron pattern, from the copy into
`buffer[512]` to the end of the function. -/
def parse_cron_body (pattern : List Char) (out : jcron_pattern_t) : Int × jcron_pattern_t :=
  let buffer := pattern.take 511
  let fields := (strtok_tokens buffer []).take 7
  if fields.length < 6 then (JCRON_ERR_INVALID_PATTERN, out)
  else
    let out := { out with has_cron := 1 }
    let r1 := parse_cron_field (fields.getD 1 []) 0 59 MaskPtr.mask_64 out.minutes
    let out := { out with minutes := r1.2 }
    if r1.1 ≠ JCRON_OK then (r1.1, out)
    else
      let r2 := parse_cron_field (fields.getD 2 []) 0 23 MaskPtr.mask_32 out.hours
      let out := { out with hours := r2.2 }
      if r2.1 ≠ JCRON_OK then (r2.1, out)
      else
        let r3 := parse_cron_field (fields.getD 3 []) 1 31 MaskPtr.mask_32 out.days_of_month
        let out := { out with days_of_month := r3.2 }
        if r3.1 ≠ JCRON_OK then (r3.1, out)
        else
          let r4 := parse_cron_field (fields.getD 4 []) 1 12 MaskPtr.mask_16 out.months
          let out := { out with months := r4.2 }
          if r4.1 ≠ JCRON_OK then (r4.1, out)
          else
            if out.woy_modifier ≠ 0 then
              let r5 := parse_cron_field (fields.getD 5 []) 1 53 MaskPtr.null 0
              if r5.1 ≠ JCRON_OK then (r5.1, out)
              else parse_cron_tail fields { out with days_of_week := 127 }
            else
              let r5 := parse_cron_field (fields.getD 5 []) 0 6 MaskPtr.mask_8 out.days_of_week
              let out := { out with days_of_week := r5.2 }
              if r5.1 ≠ JCRON_OK then (r5.1, out)
              else parse_cron_tail fields out

/-- The function `jcron_parse` for a non-null `pattern` and `out`; the result is the return
code and the record behind `out` after the call.  The first argument bounds the depth of the
recursion on the text after a `|`. -/
def jcron_parse_fuel : Nat → List Char → Int × jcron_pattern_t
  | 0, _ => (JCRON_ERR_INVALID_PATTERN, pattern_init)
  | fuel + 1, pattern =>
    let out := pattern_init
    if has_prefix4 pattern ['E', 'O', 'D', ':'] then
      let out := { out with is_eod_pattern := 1 }
      let r := jcron_parse_eod pattern out.eod_type out.eod_modifier out.eod_unit
      (r.1, { out with eod_type := r.2.1, eod_modifier := r.2.2.1, eod_unit := r.2.2.2 })
    else if has_prefix4 pattern ['S', 'O', 'D', ':'] then
      let out := { out with is_sod_pattern := 1 }
      let r := jcron_parse_sod pattern out.sod_type out.sod_modifier out.sod_unit
      (r.1, { out with sod_type := r.2.1, sod_modifier := r.2.2.1, sod_unit := r.2.2.2 })
    else if pattern.contains '|' then
      let pattern1 := pattern.takeWhile (fun c => c != '|')
      if pattern1.length ≥ 256 then (JCRON_ERR_INVALID_PATTERN, out)
      else
        let pattern2 := skip_whitespace ((pattern.dropWhile (fun c => c != '|')).drop 1)
        if pattern2.length ≥ 256 then (JCRON_ERR_INVALID_PATTERN, out)
        else
          let r1 := jcron_parse_fuel fuel pattern1
          if r1.1 ≠ JCRON_OK then (r1.1, out)
          else
            let r2 := jcron_parse_fuel fuel pattern2
            if r2.1 ≠ JCRON_OK then (r2.1, out)
            else
              let pat1 := r1.2
              let pat2 := r2.2
              (JCRON_OK,
                { out with
                  has_cron := 1
                  minutes := pat1.minutes ||| pat2.minutes
                  hours := pat1.hours ||| pat2.hours
                  days_of_month := pat1.days_of_month ||| pat2.days_of_month
                  months := pat1.months ||| pat2.months
                  days_of_week := pat1.days_of_week ||| pat2.days_of_week
                  woy_modifier := pat1.woy_modifier
                  sod_type := pat1.sod_type
                  sod_modifier := pat1.sod_modifier
                  sod_unit := pat1.sod_unit
                  eod_type := pat1.eod_type
                  eod_modifier := pat1.eod_modifier
                  eod_unit := pat1.eod_unit })
    else parse_cron_body pattern out

/-- The function `jcron_parse` on a pattern text: every recursive call is on a strictly
shorter text, so a recursion depth of `length + 1` is never exhausted. -/
def jcron_parse (pattern : List Char) : Int × jcron_pattern_t :=
  jcron_parse_fuel (pattern.length + 1) pattern

/-! ## Bit-field primitives (`jcron.h`, `jcron_core.c`) -/

/-- The function `jcron_test_bit_64`: `(mask & (1ULL << bit)) != 0`.  The shift takes its
count `bit`, an `int`, modulo 64, as the machine does for a count outside 0..63 (which C
leaves undefined). -/
def jcron_test_bit_64 (mask : Nat) (bit : Int) : Bool :=
  mask &&& (1 <<< (bit % 64).toNat) != 0

/-- The function `jcron_test_bit_32`: `(mask & (1U << bit)) != 0`, the count taken modulo
32. -/
def jcron_test_bit_32 (mask : Nat) (bit : Int) : Bool :=
  mask &&& (1 <<< (bit % 32).toNat) != 0

/-- The compiler intrinsics `__builtin_ctz` (width 32) and `__builtin_ctzll` (width 64) on a
non-zero argument: the number of trailing zero bits. -/
def builtin_ctz : Nat → Nat → Nat
  | 0, _ => 0
  | w + 1, x => if x % 2 = 1 then 0 else 1 + builtin_ctz w (x / 2)

/-- The function `jcron_next_bit_32_branchless`; `~x` on 32 bits is `2^32 - 1 - x`, and the
shift `1U << start_bit` takes its count modulo 32. -/
def jcron_next_bit_32_branchless (mask : Nat) (start_bit : Int) : Int :=
  if start_bit ≥ 32 then -1
  else
    let mask := mask &&& (2 ^ 32 - 1 - ((1 <<< (start_bit % 32).toNat) % 2 ^ 32 - 1))
    if mask = 0 then -1 else (builtin_ctz 32 mask : Int)

/-- The function `jcron_next_bit_64_branchless`; the shift `1ULL << start_bit` takes its
count modulo 64. -/
def jcron_next_bit_64_branchless (mask : Nat) (start_bit : Int) : Int :=
  if start_bit ≥ 64 then -1
  else
    let mask := mask &&& (2 ^ 64 - 1 - ((1 <<< (start_bit % 64).toNat) % 2 ^ 64 - 1))
    if mask = 0 then -1 else (builtin_ctz 64 mask : Int)

/-- The function `jcron_next_bit_64`. -/
def jcron_next_bit_64 (mask : Nat) (start_bit : Int) : Int :=
  jcron_next_bit_64_branchless mask start_bit

/-- The function `jcron_next_bit_32`. -/
def jcron_next_bit_32 (mask : Nat) (start_bit : Int) : Int :=
  jcron_next_bit_32_branchless mask start_bit

/-- The function `jcron_first_bit_64`. -/
def jcron_first_bit_64 (mask : Nat) : Int := jcron_next_bit_64 mask 0

/-- The function `jcron_first_bit_32`. -/
def jcron_first_bit_32 (mask : Nat) : Int := jcron_next_bit_32 mask 0

/-- The compiler intrinsics `__builtin_clz` (width 32) and `__builtin_clzll` (width 64) on a
non-zero argument: the number of leading zero bits, counted down from bit `w - 1`. -/
def builtin_clz : Nat → Nat → Nat
  | 0, _ => 0
  | w + 1, x => if x.testBit w then 0 else 1 + builtin_clz w x

/-- The function `jcron_last_bit_64`, in the branch compiled under `__GNUC__`:
`if (mask == 0) return -1; return 63 - __builtin_clzll(mask);`. -/
def jcron_last_bit_64 (mask : Nat) : Int :=
  if mask = 0 then -1 else 63 - (builtin_clz 64 mask : Int)

/-- The function `jcron_last_bit_32`, in the branch compiled under `__GNUC__`:
`if (mask == 0) return -1; return 31 - __builtin_clz(mask);`. -/
def jcron_last_bit_32 (mask : Nat) : Int :=
  if mask = 0 then -1 else 31 - (builtin_clz 32 mask : Int)

/-- The function `jcron_prev_bit_64`: `-1` for `before_bit <= 0`; for `before_bit < 64` the
mask is cut by `mask &= (1ULL << before_bit) - 1`; then `jcron_last_bit_64(mask)`. -/
def jcron_prev_bit_64 (mask : Nat) (before_bit : Int) : Int :=
  if before_bit ≤ 0 then -1
  else
    let mask :=
      if before_bit < 64 then mask &&& ((1 <<< before_bit.toNat) % 2 ^ 64 - 1) else mask
    jcron_last_bit_64 mask

/-- The function `jcron_prev_bit_32`: `-1` for `before_bit <= 0`; for `before_bit < 32` the
mask is cut by `mask &= (1U << before_bit) - 1`; then `jcron_last_bit_32(mask)`. -/
def jcron_prev_bit_32 (mask : Nat) (before_bit : Int) : Int :=
  if before_bit ≤ 0 then -1
  else
    let mask :=
      if before_bit < 32 then mask &&& ((1 <<< before_bit.toNat) % 2 ^ 32 - 1) else mask
    jcron_last_bit_32 mask

/-! ## Calendar primitives (`jcron_core.c`, `jcron_time.c`)

C division and remainder truncate towards zero: they are `Int.tdiv` and `Int.tmod`. -/

/-- The function `jcron_is_leap_year`. -/
def jcron_is_leap_year (year : Int) : Int :=
  if (year.tmod 4 = 0 ∧ year.tmod 100 ≠ 0) ∨ year.tmod 400 = 0 then 1 else 0

/-- The function `jcron_days_in_month`. -/
def jcron_days_in_month (year month : Int) : Int :=
  if month < 1 ∨ month > 12 then 0
  else
    let d : Int := [31, 28, 31, 30, 31, 30, 31, 31, 30, 31, 30, 31].getD (month - 1).toNat 0
    if month = 2 ∧ jcron_is_leap_year year ≠ 0 then 29 else d

/-- The table `month_days[13]` of `tm_to_timestamp_fast` and `tm_to_timestamp_legacy`. -/
def month_days : List Int := [0, 31, 59, 90, 120, 151, 181, 212, 243, 273, 304, 334, 365]

/-- The function `tm_to_timestamp_fast` (closed form). -/
def tm_to_timestamp_fast (tm : Tm) : Int :=
  let year := tm.tm_year + 1900
  let month := tm.tm_mon + 1
  let day := tm.tm_mday
  let days := (year - 1970) * 365 + (year - 1969).tdiv 4 - (year - 1901).tdiv 100
                + (year - 1601).tdiv 400
  let days := days + (month_days.getD (month - 1).toNat 0 + day - 1)
  let days :=
    if month > 2 ∧ ((year.tmod 4 = 0 ∧ year.tmod 100 ≠ 0) ∨ year.tmod 400 = 0) then days + 1
    else days
  days * 86400 + tm.tm_hour * 3600 + tm.tm_min * 60 + tm.tm_sec

/-- The function `tm_to_timestamp_legacy` (the same body as `tm_to_timestamp_fast`). -/
def tm_to_timestamp_legacy (tm : Tm) : Int :=
  let year := tm.tm_year + 1900
  let month := tm.tm_mon + 1
  let day := tm.tm_mday
  let days := (year - 1970) * 365 + (year - 1969).tdiv 4 - (year - 1901).tdiv 100
                + (year - 1601).tdiv 400
  let days := days + (month_days.getD (month - 1).toNat 0 + day - 1)
  let days :=
    if month > 2 ∧ ((year.tmod 4 = 0 ∧ year.tmod 100 ≠ 0) ∨ year.tmod 400 = 0) then days + 1
    else days
  days * 86400 + tm.tm_hour * 3600 + tm.tm_min * 60 + tm.tm_sec

/-- The function `calc_day_of_week` (Zeller form). -/
def calc_day_of_week (year month day : Int) : Int :=
  let year := if month < 3 then year - 1 else year
  let month := if month < 3 then month + 12 else month
  let k := year.tmod 100
  let j := year.tdiv 100
  let h := (day + (13 * (month + 1)).tdiv 5 + k + k.tdiv 4 + j.tdiv 4 - 2 * j).tmod 7
  let dow := (h + 6).tmod 7
  if dow < 0 then dow + 7 else dow

/-- The function `calc_day_of_week_fast` (Sakamoto form). -/
def calc_day_of_week_fast (year month day : Int) : Int :=
  let t : List Int := [0, 3, 2, 5, 0, 3, 5, 1, 4, 6, 2, 4]
  let year := if month < 3 then year - 1 else year
  (year + year.tdiv 4 - year.tdiv 100 + year.tdiv 400 + t.getD (month - 1).toNat 0 + day).tmod 7

/-- The table `DAYS_SINCE_1970[131]`: the source lists 130 initialisers (1970..2099), so the
last element (index 130, the year 2100) is zero-initialised. -/
def DAYS_SINCE_1970 : List Int :=
  [0, 365, 730, 1096, 1461, 1826, 2191, 2557, 2922, 3287,
   3652, 4018, 4383, 4748, 5113, 5479, 5844, 6209, 6574, 6940,
   7305, 7670, 8035, 8401, 8766, 9131, 9496, 9862, 10227, 10592,
   10957, 11323, 11688, 12053, 12418, 12784, 13149, 13514, 13879, 14245,
   14610, 14975, 15340, 15706, 16071, 16436, 16801, 17167, 17532, 17897,
   18262, 18628, 18993, 19358, 19723, 20089, 20454, 20819, 21184, 21550,
   21915, 22280, 22645, 23011, 23376, 23741, 24106, 24472, 24837, 25202,
   25567, 25933, 26298, 26663, 27028, 27394, 27759, 28124, 28489, 28855,
   29220, 29585, 29950, 30316, 30681, 31046, 31411, 31777, 32142, 32507,
   32872, 33238, 33603, 33968, 34333, 34699, 35064, 35429, 35794, 36160,
   36525, 36890, 37255, 37621, 37986, 38351, 38716, 39082, 39447, 39812,
   40177, 40543, 40908, 41273, 41638, 42004, 42369, 42734, 43099, 43465,
   43830, 44195, 44560, 44926, 45291, 45656, 46021, 46387, 46752, 47117,
   0]

/-- The table `MONTH_DAYS[2][13]`. -/
def MONTH_DAYS : List (List Int) :=
  [[0, 31, 59, 90, 120, 151, 181, 212, 243, 273, 304, 334, 365],
   [0, 31, 60, 91, 121, 152, 182, 213, 244, 274, 305, 335, 366]]

/-- The function `tm_to_timestamp_ultra_fast`. -/
def tm_to_timestamp_ultra_fast (tm : Tm) : Int :=
  let year := tm.tm_year + 1900
  let month := tm.tm_mon + 1
  let day := tm.tm_mday
  if year < 1970 ∨ year > 2100 then tm_to_timestamp_fast tm
  else
    let year_idx := year - 1970
    let is_leap : Nat :=
      if (year.tmod 4 = 0 ∧ year.tmod 100 ≠ 0) ∨ year.tmod 400 = 0 then 1 else 0
    let days := DAYS_SINCE_1970.getD year_idx.toNat 0
                  + (MONTH_DAYS.getD is_leap []).getD (month - 1).toNat 0 + day - 1
    days * 86400 + tm.tm_hour * 3600 + tm.tm_min * 60 + tm.tm_sec

/-- The function `tm_to_timestamp_select`. -/
def tm_to_timestamp_select (tm : Tm) : Int :=
  if tm.tm_year + 1900 ≥ 1970 ∧ tm.tm_year + 1900 ≤ 2100 then tm_to_timestamp_ultra_fast tm
  else tm_to_timestamp_legacy tm

/-- Modelled from the spec: `timestamp_to_tm` wraps the C library call `gmtime_r`, whose code
is not part of the sources.  Per §4.2 it is the standard UTC decomposition of a signed Unix
timestamp into the proleptic Gregorian calendar record, weekday included: split into days and
seconds of the day, then into 400-year, 100-year and 4-year cycles counted from 1 March of
year 0, then into the month and the day.  Here `/` and `%` round towards minus infinity. -/
def timestamp_to_tm (timestamp : Int) : Tm :=
  let days := timestamp / 86400
  let remsecs := timestamp % 86400
  let z := days + 719468
  let qc_cycles := z / 146097
  let r0 := z % 146097
  let c_cycles := min (r0 / 36524) 3
  let r1 := r0 - c_cycles * 36524
  let q_cycles := min (r1 / 1461) 24
  let r2 := r1 - q_cycles * 1461
  let remyears := min (r2 / 365) 3
  let remdays := r2 - remyears * 365
  let years := remyears + 4 * q_cycles + 100 * c_cycles + 400 * qc_cycles
  let mp := (5 * remdays + 2) / 153
  let mday := remdays - (153 * mp + 2) / 5 + 1
  let mon := if mp < 10 then mp + 2 else mp - 10
  let year := if mp < 10 then years else years + 1
  { tm_sec := remsecs % 60,
    tm_min := remsecs / 60 % 60,
    tm_hour := remsecs / 3600,
    tm_mday := mday,
    tm_mon := mon,
    tm_year := year - 1900,
    tm_wday := (days + 4) % 7 }

/-! ## Modifier application (`apply_sod_eod_modifiers`) -/

/-- The function `apply_sod_eod_modifiers`. -/
def apply_sod_eod_modifiers (timestamp : Int) (pattern : jcron_pattern_t) : Int :=
  let sod_done : Option Int :=
    if pattern.sod_type ≥ 0 then
      if pattern.sod_unit = 'M' then
        let tm : Tm := timestamp_to_tm timestamp
        let tm : Tm := { tm with tm_mon := tm.tm_mon + pattern.sod_modifier }
        let tm :=
          if tm.tm_mon > 11 then
            { tm with tm_year := tm.tm_year + tm.tm_mon.tdiv 12, tm_mon := tm.tm_mon.tmod 12 }
          else tm
        let tm : Tm := { tm with tm_mday := 1, tm_hour := 0, tm_min := 0, tm_sec := 0 }
        some (tm_to_timestamp_ultra_fast tm)
      else none
    else none
  match sod_done with
  | some r => r
  | none =>
    let timestamp :=
      if pattern.sod_type ≥ 0 then
        let offset : Int :=
          if pattern.sod_unit = 'H' then pattern.sod_modifier * 3600
          else if pattern.sod_unit = 'D' then pattern.sod_modifier * 86400
          else if pattern.sod_unit = 'W' then pattern.sod_modifier * 604800
          else 0
        timestamp + offset
      else timestamp
    if pattern.eod_type ≥ 0 then
      let tm : Tm := timestamp_to_tm timestamp
      let tm :=
        if pattern.eod_unit = 'H' then { tm with tm_hour := 23, tm_min := 59, tm_sec := 59 }
        else if pattern.eod_unit = 'D' then { tm with tm_hour := 23, tm_min := 59, tm_sec := 59 }
        else if pattern.eod_unit = 'W' then
          { tm with tm_mday := tm.tm_mday + (6 - tm.tm_wday),
                    tm_hour := 23, tm_min := 59, tm_sec := 59 }
        else if pattern.eod_unit = 'M' then
          { tm with tm_mday := jcron_days_in_month (tm.tm_year + 1900) (tm.tm_mon + 1),
                    tm_hour := 23, tm_min := 59, tm_sec := 59 }
        else tm
      let tm :=
        if pattern.eod_unit = 'H' then { tm with tm_hour := tm.tm_hour - pattern.eod_modifier }
        else if pattern.eod_unit = 'D' then
          { tm with tm_mday := tm.tm_mday - pattern.eod_modifier }
        else if pattern.eod_unit = 'W' then
          { tm with tm_mday := tm.tm_mday - pattern.eod_modifier * 7 }
        else if pattern.eod_unit = 'M' then
          let tm : Tm := { tm with tm_mon := tm.tm_mon - pattern.eod_modifier }
          let tm :=
            if tm.tm_mon < 0 then { tm with tm_year := tm.tm_year - 1, tm_mon := tm.tm_mon + 12 }
            else tm
          { tm with tm_mday := jcron_days_in_month (tm.tm_year + 1900) (tm.tm_mon + 1) }
        else tm
      tm_to_timestamp_ultra_fast tm
    else timestamp

/-! ## The forward solver `jcron_next` -/

/-- What one pass through the body of a solver loop does. -/
inductive LoopStep where
  | next_iteration (tm : Tm)
  | stop (code : Int)
  | found (tm : Tm)
  deriving DecidableEq, Repr

/-- The month overflow check that follows every `tm.tm_mday++` in `jcron_next`:
`if (tm.tm_mday > days_in_month) { tm.tm_mday = 1; tm.tm_mon++; if (tm.tm_mon > 11) ... }`. -/
def month_overflow (tm : Tm) : Tm :=
  let days_in_month := jcron_days_in_month (tm.tm_year + 1900) (tm.tm_mon + 1)
  if tm.tm_mday > days_in_month then
    let tm := { tm with tm_mday := 1, tm_mon := tm.tm_mon + 1 }
    if tm.tm_mon > 11 then { tm with tm_mon := 0, tm_year := tm.tm_year + 1 } else tm
  else tm

/-- Step 1 of the loop body of `jcron_next`: the month does not match. -/
def next_month_step (pattern : jcron_pattern_t) (tm : Tm) : LoopStep :=
  let next_month := jcron_next_bit_32 pattern.months (tm.tm_mon + 2)
  if next_month < 0 then
    let next_month := jcron_first_bit_32 pattern.months
    if next_month < 0 then LoopStep.stop JCRON_ERR_NO_MATCH
    else
      let tm := { tm with tm_year := tm.tm_year + 1 }
      let tm := { tm with tm_mon := next_month - 1, tm_mday := 1, tm_hour := 0, tm_min := 0 }
      LoopStep.next_iteration
        { tm with tm_wday := calc_day_of_week (tm.tm_year + 1900) (tm.tm_mon + 1) tm.tm_mday }
  else
    let tm := { tm with tm_mon := next_month - 1, tm_mday := 1, tm_hour := 0, tm_min := 0 }
    LoopStep.next_iteration
      { tm with tm_wday := calc_day_of_week (tm.tm_year + 1900) (tm.tm_mon + 1) tm.tm_mday }

/-- Step 2 of the loop body of `jcron_next`: the day does not match. -/
def next_day_step (tm : Tm) : LoopStep :=
  let tm := { tm with tm_mday := tm.tm_mday + 1, tm_hour := 0, tm_min := 0 }
  let tm := month_overflow tm
  LoopStep.next_iteration
    { tm with tm_wday := calc_day_of_week_fast (tm.tm_year + 1900) (tm.tm_mon + 1) tm.tm_mday }

/-- Step 3 of the loop body of `jcron_next`: the hour does not match. -/
def next_hour_step (pattern : jcron_pattern_t) (tm : Tm) : LoopStep :=
  let next_hour := jcron_next_bit_32 pattern.hours (tm.tm_hour + 1)
  if next_hour < 0 then
    let next_hour := jcron_first_bit_32 pattern.hours
    if next_hour < 0 then LoopStep.stop JCRON_ERR_NO_MATCH
    else
      let tm := month_overflow { tm with tm_mday := tm.tm_mday + 1 }
      let tm :=
        { tm with tm_wday := calc_day_of_week (tm.tm_year + 1900) (tm.tm_mon + 1) tm.tm_mday }
      LoopStep.next_iteration { tm with tm_hour := next_hour, tm_min := 0 }
  else LoopStep.next_iteration { tm with tm_hour := next_hour, tm_min := 0 }

/-- Step 4 of the loop body of `jcron_next`: the minute does not match. -/
def next_minute_step (pattern : jcron_pattern_t) (tm : Tm) : LoopStep :=
  let next_min := jcron_next_bit_64 pattern.minutes (tm.tm_min + 1)
  if next_min < 0 then
    let next_min := jcron_first_bit_64 pattern.minutes
    if next_min < 0 then LoopStep.stop JCRON_ERR_NO_MATCH
    else
      let tm := { tm with tm_hour := tm.tm_hour + 1 }
      let tm :=
        if tm.tm_hour > 23 then
          let tm := month_overflow { tm with tm_hour := 0, tm_mday := tm.tm_mday + 1 }
          { tm with tm_wday := calc_day_of_week (tm.tm_year + 1900) (tm.tm_mon + 1) tm.tm_mday }
        else tm
      LoopStep.next_iteration { tm with tm_min := next_min }
  else LoopStep.next_iteration { tm with tm_min := next_min }

/-- The body of the `for` loop of `jcron_next`.  The shifts `1 << (tm.tm_mon + 1)` and
`1 << tm.tm_wday` take their count modulo 32, as the machine does for a count outside 0..31
(which C leaves undefined): for a negative `tm_wday` the bit tested lies above the weekday
mask. -/
def next_body (pattern : jcron_pattern_t) (tm : Tm) : LoopStep :=
  if pattern.months &&& (1 <<< ((tm.tm_mon + 1) % 32).toNat) = 0 then
    next_month_step pattern tm
  else if !jcron_test_bit_32 pattern.days_of_month tm.tm_mday
      || decide (pattern.days_of_week &&& (1 <<< (tm.tm_wday % 32).toNat) = 0) then
    next_day_step tm
  else if !jcron_test_bit_32 pattern.hours tm.tm_hour then next_hour_step pattern tm
  else if !jcron_test_bit_64 pattern.minutes tm.tm_min then next_minute_step pattern tm
  else LoopStep.found tm

/-- The `for (iter = 0; iter < max_iterations; iter++)` loop of `jcron_next`, with the number
of iterations left as first argument: `Except.error` carries an error return code,
`Except.ok` the record at which all fields matched. -/
def next_loop (pattern : jcron_pattern_t) : Nat → Tm → Except Int Tm
  | 0, _ => Except.error JCRON_ERR_NO_MATCH
  | iters + 1, tm =>
    match next_body pattern tm with
    | LoopStep.next_iteration tm1 => next_loop pattern iters tm1
    | LoopStep.stop code => Except.error code
    | LoopStep.found tm1 => Except.ok tm1

/-- The function `jcron_next` for non-null arguments: the return code and the record behind
`out` after the call.  The value `match_time`, to which the modifiers are applied, is computed
and not stored; `out->next_time` is assigned `tm_to_timestamp_ultra_fast(&tm)`. -/
def jcron_next (from_timestamp : Int) (pattern : jcron_pattern_t) : Int × jcron_result_t :=
  let out := result_zero
  if pattern.has_cron = 0 then (JCRON_ERR_INVALID_PATTERN, out)
  else
    let tm := { timestamp_to_tm from_timestamp with tm_sec := 0 }
    match next_loop pattern 10000 tm with
    | Except.error code => (code, out)
    | Except.ok tm1 =>
      let match_time := tm_to_timestamp_select tm1
      let _match_time := apply_sod_eod_modifiers match_time pattern
      (JCRON_OK, { out with next_time := tm_to_timestamp_ultra_fast tm1 })

/-! ## The backward solver `jcron_prev` -/

/-- The first half of the loop body of `jcron_prev`: one minute back, with borrow. -/
def prev_minute (tm : Tm) : Tm :=
  let tm := { tm with tm_min := tm.tm_min - 1 }
  if tm.tm_min < 0 then
    let tm := { tm with tm_min := 59, tm_hour := tm.tm_hour - 1 }
    if tm.tm_hour < 0 then
      let tm := { tm with tm_hour := 23, tm_mday := tm.tm_mday - 1 }
      let tm :=
        if tm.tm_mday < 1 then
          let tm := { tm with tm_mon := tm.tm_mon - 1 }
          let tm :=
            if tm.tm_mon < 0 then { tm with tm_mon := 11, tm_year := tm.tm_year - 1 } else tm
          { tm with tm_mday := jcron_days_in_month (tm.tm_year + 1900) (tm.tm_mon + 1) }
        else tm
      { tm with tm_wday := calc_day_of_week (tm.tm_year + 1900) (tm.tm_mon + 1) tm.tm_mday }
    else tm
  else tm

/-- The test in the second half of the loop body of `jcron_prev`; the shifts take their
count modulo 32, as in the loop of `jcron_next`. -/
def prev_test (pattern : jcron_pattern_t) (tm : Tm) : Bool :=
  decide (pattern.months &&& (1 <<< ((tm.tm_mon + 1) % 32).toNat) ≠ 0)
    && jcron_test_bit_32 pattern.days_of_month tm.tm_mday
    && decide (pattern.days_of_week &&& (1 <<< (tm.tm_wday % 32).toNat) ≠ 0)
    && jcron_test_bit_32 pattern.hours tm.tm_hour
    && jcron_test_bit_64 pattern.minutes tm.tm_min

/-- The `for` loop of `jcron_prev`, with the number of iterations left as first argument. -/
def prev_loop (pattern : jcron_pattern_t) : Nat → Tm → Except Int Tm
  | 0, _ => Except.error JCRON_ERR_NO_MATCH
  | iters + 1, tm =>
    let tm := prev_minute tm
    if prev_test pattern tm then Except.ok tm else prev_loop pattern iters tm

/-- The function `jcron_prev` for non-null arguments. -/
def jcron_prev (from_timestamp : Int) (pattern : jcron_pattern_t) : Int × jcron_result_t :=
  let out := result_zero
  if pattern.has_cron = 0 then (JCRON_ERR_INVALID_PATTERN, out)
  else
    let tm := { timestamp_to_tm from_timestamp with tm_sec := 0 }
    match prev_loop pattern 10000 tm with
    | Except.error code => (code, out)
    | Except.ok tm1 =>
      let match_time := tm_to_timestamp_select tm1
      let match_time := apply_sod_eod_modifiers match_time pattern
      (JCRON_OK, { out with prev_time := match_time })

/-! ## The match predicate and the batched driver -/

/-- The function `jcron_simd_bitmask_match_avx2`, compiled when `__AVX2__` is defined, for
the five fields of a cron pattern (`num_fields = 5`): the vector shift
`_mm256_sllv_epi32(ones, times)` gives `1 << time_values[i]` for a count below 32 and 0 for a
count of 32 or more; the result is 1 when `pattern_masks[i] & bit_masks[i]` is non-zero in
each of the five lanes. -/
def jcron_simd_bitmask_match_avx2 : List Nat → List Nat → Int
  | m :: ms, v :: vs =>
    if m &&& (if v < 32 then 1 <<< v else 0) = 0 then 0
    else jcron_simd_bitmask_match_avx2 ms vs
  | _, _ => 1

/-- The function `jcron_simd_bitmask_match` as compiled when neither `__AVX2__` nor NEON is
defined, the scalar loop: every element must have `pattern_masks[i] & (1U << time_values[i])`
non-zero.  The shift `1U << time_values[i]` takes its count modulo 32, as the machine does
for a count of 32 or more (which C leaves undefined). -/
def jcron_simd_bitmask_match : List Nat → List Nat → Int
  | m :: ms, v :: vs =>
    if m &&& (1 <<< (v % 32)) = 0 then 0 else jcron_simd_bitmask_match ms vs
  | _, _ => 1

/-- The function `jcron_simd_bitmask_match_neon`, compiled when NEON is defined and
`__AVX2__` is not, for `num_fields ≥ 4`: the vector shift `vshlq_u32(ones, times)` of the
first four lanes takes the low byte of `time_values[i]` as its count and gives 0 for a count
of 32 or more; the remaining fields go through the scalar loop. -/
def jcron_simd_bitmask_match_neon : List Nat → List Nat → Int
  | m0 :: m1 :: m2 :: m3 :: ms, v0 :: v1 :: v2 :: v3 :: vs =>
    if [(m0, v0), (m1, v1), (m2, v2), (m3, v3)].any
        (fun x => x.1 &&& (if x.2 % 256 < 32 then 1 <<< (x.2 % 256) else 0) == 0) then 0
    else jcron_simd_bitmask_match ms vs
  | ms, vs => jcron_simd_bitmask_match ms vs

/-- The local array `pattern_masks` of `jcron_matches`: the five masks stored as `uint32_t`,
which keeps the low 32 bits of the 64-bit `minutes` mask. -/
def pattern_masks (pattern : jcron_pattern_t) : List Nat :=
  [pattern.minutes % 2 ^ 32, pattern.hours, pattern.days_of_month, pattern.months,
   pattern.days_of_week]

/-- The local array `time_values` of `jcron_matches`: the five calendar fields, of type `int`,
stored as `uint32_t`. -/
def time_values (tm : Tm) : List Nat :=
  [(tm.tm_min % 4294967296).toNat, (tm.tm_hour % 4294967296).toNat,
   (tm.tm_mday % 4294967296).toNat, ((tm.tm_mon + 1) % 4294967296).toNat,
   (tm.tm_wday % 4294967296).toNat]

/-- The function `jcron_matches` for a non-null pattern, with the scalar form of
`jcron_simd_bitmask_match`. -/
def jcron_matches (timestamp : Int) (pattern : jcron_pattern_t) : Int :=
  if pattern.has_cron = 0 then 0
  else
    jcron_simd_bitmask_match (pattern_masks pattern) (time_values (timestamp_to_tm timestamp))

/-- The loop of `jcron_next_n`: the slots written so far are collected in order. -/
def next_n_loop (pattern : jcron_pattern_t) :
    Nat → Int → List jcron_result_t → Int × List jcron_result_t
  | 0, _, results => (JCRON_OK, results)
  | k + 1, current, results =>
    let r := jcron_next current pattern
    if r.1 ≠ JCRON_OK then (r.1, results ++ [r.2])
    else next_n_loop pattern k r.2.next_time (results ++ [r.2])

/-- The function `jcron_next_n` for non-null arguments: the return code and the slots of
`results` that were written. -/
def jcron_next_n (from_timestamp : Int) (pattern : jcron_pattern_t) (count : Int) :
    Int × List jcron_result_t :=
  if count ≤ 0 then (JCRON_ERR_NULL_POINTER, [])
  else next_n_loop pattern count.toNat from_timestamp []


/-! ## Calendar helper left as a stub (`jcron_core.c`) -/

/-- The function `jcron_get_nth_weekday`: the body discards its four arguments
(`(void)year; (void)month; (void)weekday; (void)n;`) and executes `return 0;`. -/
def jcron_get_nth_weekday (_year _month _weekday _n : Int) : Int := 0
/-! ## Reference notions used to state the properties

These definitions do not come from the C sources: they are the mathematical calendar (the
proleptic Gregorian day count, with `/` and `%` rounding towards minus infinity) and the
predicates in which the properties of the solvers are phrased. -/

/-- Every set bit of `mask` has its index in `lo..hi`. -/
def bits_in (lo hi : Nat) (mask : Nat) : Prop :=
  ∀ i : Nat, mask.testBit i = true → lo ≤ i ∧ i ≤ hi

/-- The five field masks of a pattern stay within the declared ranges. -/
def mask_ranges (P : jcron_pattern_t) : Prop :=
  bits_in 0 59 P.minutes ∧ bits_in 0 23 P.hours ∧ bits_in 1 31 P.days_of_month ∧
    bits_in 1 12 P.months ∧ bits_in 0 6 P.days_of_week

/-- Gregorian leap years, as a 0/1 count of the extra day. -/
def leap_day (y : Int) : Int :=
  if (y % 4 = 0 ∧ y % 100 ≠ 0) ∨ y % 400 = 0 then 1 else 0

/-- Days from 1970-01-01 to the first of January of year `y`. -/
def days_before_year (y : Int) : Int :=
  365 * (y - 1970) + ((y - 1) / 4 - (y - 1) / 100 + (y - 1) / 400) - 477

/-- Days from the first of January to the first of month `m` (1..12) in year `y`. -/
def days_before_month (y m : Int) : Int :=
  if m ≤ 2 then 31 * (m - 1) else (153 * (m - 3) + 2) / 5 + 59 + leap_day y

/-- Days from 1970-01-01 to the date `y`-`m`-`d`. -/
def days_from_civil (y m d : Int) : Int :=
  days_before_year y + days_before_month y m + (d - 1)

/-- The day count of the date held in a calendar record. -/
def tm_days (tm : Tm) : Int :=
  days_from_civil (tm.tm_year + 1900) (tm.tm_mon + 1) tm.tm_mday

/-- The Unix timestamp of the UTC instant a calendar record denotes. -/
def civil_timestamp (tm : Tm) : Int :=
  tm_days tm * 86400 + tm.tm_hour * 3600 + tm.tm_min * 60 + tm.tm_sec

/-- The fields of a calendar record other than the weekday are within their ranges for the
month and year at hand. -/
def valid_fields (tm : Tm) : Prop :=
  0 ≤ tm.tm_sec ∧ tm.tm_sec ≤ 59 ∧ 0 ≤ tm.tm_min ∧ tm.tm_min ≤ 59 ∧
  0 ≤ tm.tm_hour ∧ tm.tm_hour ≤ 23 ∧ 0 ≤ tm.tm_mon ∧ tm.tm_mon ≤ 11 ∧
  1 ≤ tm.tm_mday ∧ tm.tm_mday ≤ jcron_days_in_month (tm.tm_year + 1900) (tm.tm_mon + 1)

/-- The weekday field is that of the date (1970-01-01 was a Thursday). -/
def wday_ok (tm : Tm) : Prop :=
  tm.tm_wday = (tm_days tm + 4) % 7

/-- A calendar record that denotes a real UTC instant. -/
def valid_tm (tm : Tm) : Prop :=
  valid_fields tm ∧ wday_ok tm

/-- The calendar fields of a record satisfy all five masks of a pattern: the minute bit in
`minutes`, the hour bit in `hours`, the day bit in `days_of_month`, the 1-based month bit in
`months` and the weekday bit (Sunday = 0) in `days_of_week`. -/
def fields_match (P : jcron_pattern_t) (tm : Tm) : Prop :=
  P.minutes.testBit tm.tm_min.toNat = true ∧ P.hours.testBit tm.tm_hour.toNat = true ∧
  P.days_of_month.testBit tm.tm_mday.toNat = true ∧
  P.months.testBit (tm.tm_mon + 1).toNat = true ∧
  P.days_of_week.testBit tm.tm_wday.toNat = true

/-- No instant from `c` (included) to `c1` (excluded) satisfies the masks of `P`. -/
def skips (P : jcron_pattern_t) (c c1 : Tm) : Prop :=
  ∀ u : Tm, valid_tm u → civil_timestamp c ≤ civil_timestamp u →
    civil_timestamp u < civil_timestamp c1 → ¬ fields_match P u

/-- An auxiliary measure for the loop of `jcron_next`: how far into an admissible month the
record is, or whether a non-admissible month is about to wrap into the next year. -/
def month_credit (P : jcron_pattern_t) (c : Tm) : Int :=
  if P.months.testBit (c.tm_mon + 1).toNat = true then min c.tm_mday 28
  else if jcron_next_bit_32 P.months (c.tm_mon + 2) < 0 then 29 else 0

/-- An auxiliary measure for the loop of `jcron_next`: it grows by at most 3 in one pass,
and by more than 30 for each year the record advances. -/
def year_potential (P : jcron_pattern_t) (c : Tm) : Int :=
  30 * c.tm_year + month_credit P c

/-- The five cron fields that are compiled into masks (the seconds token is read past). -/
inductive CronField where
  | minute
  | hour
  | day_of_month
  | month
  | day_of_week
  deriving DecidableEq, Repr

/-- The position of a field among the tokens of a pattern (token 0 is the seconds). -/
def CronField.index : CronField → Nat
  | CronField.minute => 1
  | CronField.hour => 2
  | CronField.day_of_month => 3
  | CronField.month => 4
  | CronField.day_of_week => 5

/-- The smallest admissible value of a field. -/
def CronField.lo : CronField → Nat
  | CronField.minute => 0
  | CronField.hour => 0
  | CronField.day_of_month => 1
  | CronField.month => 1
  | CronField.day_of_week => 0

/-- The largest admissible value of a field. -/
def CronField.hi : CronField → Nat
  | CronField.minute => 59
  | CronField.hour => 23
  | CronField.day_of_month => 31
  | CronField.month => 12
  | CronField.day_of_week => 6

/-- The mask pointer through which `jcron_parse` has a field written. -/
def CronField.ptr : CronField → MaskPtr
  | CronField.minute => MaskPtr.mask_64
  | CronField.hour => MaskPtr.mask_32
  | CronField.day_of_month => MaskPtr.mask_32
  | CronField.month => MaskPtr.mask_16
  | CronField.day_of_week => MaskPtr.mask_8

/-- The mask of a field in a compiled pattern. -/
def CronField.mask (f : CronField) (P : jcron_pattern_t) : Nat :=
  match f with
  | CronField.minute => P.minutes
  | CronField.hour => P.hours
  | CronField.day_of_month => P.days_of_month
  | CronField.month => P.months
  | CronField.day_of_week => P.days_of_week

/-- The number of bits of the object behind a mask pointer. -/
def mask_width : MaskPtr → Nat
  | MaskPtr.mask_64 => 64
  | MaskPtr.mask_32 => 32
  | MaskPtr.mask_16 => 16
  | MaskPtr.mask_8 => 8
  | MaskPtr.null => 0

/-- The tokens of a pattern text as the compiler sees them: the text is copied into a buffer
that holds its first 511 characters, the buffer is split at runs of space and tab, and the
first seven tokens are kept. -/
def cron_fields (s : List Char) : List (List Char) :=
  (strtok_tokens (s.take 511) []).take 7

/-- The token of a field in a pattern text. -/
def field_token (f : CronField) (s : List Char) : List Char :=
  (cron_fields s).getD f.index []

/-- A decimal numeral: a non-empty run of decimal digits. -/
def is_number (ds : List Char) : Prop :=
  ds ≠ [] ∧ ∀ c ∈ ds, isdigit c = true

instance (ds : List Char) : Decidable (is_number ds) := by
  unfold is_number; infer_instance

/-- The value of a decimal numeral. -/
def decimal_value (ds : List Char) : Nat :=
  ds.foldl (fun acc c => acc * 10 + (c.toNat - 48)) 0

/-- One item of a field list, by its numerals: `N`, `N-M`, `N-M/S` or `N/S`. -/
structure FieldItem where
  first : List Char
  last : Option (List Char)
  step : Option (List Char)

/-- The numerals of an item are decimal numerals. -/
def FieldItem.shaped (it : FieldItem) : Prop :=
  is_number it.first ∧ (∀ m, it.last = some m → is_number m) ∧
    (∀ st, it.step = some st → is_number st)

/-- The text of the `-M` part of an item. -/
def FieldItem.last_text (it : FieldItem) : List Char :=
  match it.last with
  | some m => '-' :: m
  | none => []

/-- The text of the `/S` part of an item. -/
def FieldItem.step_text (it : FieldItem) : List Char :=
  match it.step with
  | some st => '/' :: st
  | none => []

/-- The text of an item. -/
def FieldItem.text (it : FieldItem) : List Char :=
  it.first ++ (it.last_text ++ it.step_text)

/-- The text of a comma-separated list of items. -/
def list_text : List FieldItem → List Char
  | [] => []
  | [it] => it.text
  | it :: it2 :: rest => it.text ++ ',' :: list_text (it2 :: rest)

/-- The value `N` of an item. -/
def FieldItem.lo_val (it : FieldItem) : Nat := decimal_value it.first

/-- The value `M` of an item, `N` when the item has no `-M` part. -/
def FieldItem.hi_val (it : FieldItem) : Nat :=
  match it.last with
  | some m => decimal_value m
  | none => decimal_value it.first

/-- The step `S` of an item, 1 when the item has no `/S` part. -/
def FieldItem.step_val (it : FieldItem) : Nat :=
  match it.step with
  | some st => decimal_value st
  | none => 1

/-- An item within the grammar for the bounds `lo..hi`: `lo ≤ N ≤ M ≤ hi` and `S ≥ 1`. -/
def FieldItem.good (lo hi : Nat) (it : FieldItem) : Prop :=
  lo ≤ it.lo_val ∧ it.lo_val ≤ it.hi_val ∧ it.hi_val ≤ hi ∧ 1 ≤ it.step_val

instance (lo hi : Nat) (it : FieldItem) : Decidable (it.good lo hi) := by
  unfold FieldItem.good; infer_instance

/-- An item that the grammar excludes for the bounds `lo..hi`: `N` or `M` outside the bounds,
`M < N`, or a step `S = 0`. -/
def FieldItem.bad (lo hi : Nat) (it : FieldItem) : Prop :=
  it.lo_val < lo ∨ hi < it.lo_val ∨ it.hi_val < lo ∨ hi < it.hi_val ∨ it.hi_val < it.lo_val ∨
    it.step_val = 0

instance (lo hi : Nat) (it : FieldItem) : Decidable (it.bad lo hi) := by
  unfold FieldItem.bad; infer_instance

/-- The values from `N` to `M` in steps of `S`, with `M = N` when the item has no `-M` part:
the indices that the bit loop of `parse_cron_field` visits for an item. -/
def FieldItem.sets (it : FieldItem) (v : Nat) : Prop :=
  it.lo_val ≤ v ∧ v ≤ it.hi_val ∧ (v - it.lo_val) % it.step_val = 0

instance (it : FieldItem) (v : Nat) : Decidable (it.sets v) := by
  unfold FieldItem.sets; infer_instance

/-- The last value that an item reaches in a field with largest value `hi`: `M` for `N-M` and
`N-M/S`, `N` for the single value `N`, and `hi` for the stepped open range `N/S`. -/
def FieldItem.top (hi : Nat) (it : FieldItem) : Nat :=
  match it.last, it.step with
  | some m, _ => decimal_value m
  | none, some _ => hi
  | none, none => decimal_value it.first

/-- The value `v` is covered by an item in a field with largest value `hi`: `v` is one of
`N`, `N + S`, `N + 2S`, … up to the last value of the item. -/
def FieldItem.covers (hi : Nat) (it : FieldItem) (v : Nat) : Prop :=
  it.lo_val ≤ v ∧ v ≤ it.top hi ∧ (v - it.lo_val) % it.step_val = 0

instance (hi : Nat) (it : FieldItem) (v : Nat) : Decidable (it.covers hi v) := by
  unfold FieldItem.covers; infer_instance

/-- The largest value of the C type `int`, in which the compiler computes the values of
numerals and the loop index `i += step`. -/
def INT_MAX : Nat := 2147483647

/-- No run of consecutive decimal digits of the text reaches beyond nine characters, `k`
digits standing immediately before the text. -/
def digit_run_ok : Nat → List Char → Bool
  | _, [] => true
  | k, c :: cs =>
    if isdigit c then decide (k + 1 ≤ 9) && digit_run_ok (k + 1) cs else digit_run_ok 0 cs

/-- A text in which every numeral has at most nine digits, so that its value, and its sum with
a field value, is within `int`. -/
def short_numerals (s : List Char) : Prop := digit_run_ok 0 s = true

instance (s : List Char) : Decidable (short_numerals s) := by
  unfold short_numerals; infer_instance

/-- The record that `jcron_parse` holds once the five fields of a cron pattern are compiled
into the masks `a`, `b`, `c`, `d`, `e`: the sentinels of the start and `has_cron`. -/
def cron_record (a b c d e : Nat) : jcron_pattern_t :=
  { pattern_init with
    has_cron := 1, minutes := a, hours := b, days_of_month := c, months := d, days_of_week := e }

/-- The call of `parse_cron_field` that `jcron_parse` makes for a field of a pattern text
without `|`: the token of the field, the bounds of the field, and its mask, still zero. -/
def field_result (f : CronField) (s : List Char) : Int × Nat :=
  parse_cron_field (field_token f s) f.lo f.hi f.ptr 0

/-- A six-field cron body of 511 characters: its minute field lists the value 0 two hundred
and fifty-one times. -/
def long_body : List Char :=
  "* ".toList ++ (List.replicate 250 ['0', ',']).flatten ++ "0 * * * *".toList

/-- The weekdays, as a set of bits, on which the first of January falls in the `n` years
after the year `r` (`shift = false`), or on which the first of March falls, up to a constant
rotation (`shift = true`: the leap day of the year is added). -/
def year_span (shift : Bool) (r : Nat) : Nat → Nat
  | 0 => 0
  | k + 1 =>
    year_span shift r k |||
      (1 <<< ((days_before_year ((r : Int) + ((k : Int) + 1)) +
        (if shift then leap_day ((r : Int) + ((k : Int) + 1)) else 0)) % 7).toNat)

/-- The weekdays, as a set of bits and up to a constant rotation, on which the 29th of
February falls in the leap years among the `n` years after the year `r`. -/
def leap_span (r : Nat) : Nat → Nat
  | 0 => 0
  | k + 1 =>
    leap_span r k |||
      (if leap_day ((r : Int) + ((k : Int) + 1)) = 1 then
        1 <<< (days_before_year ((r : Int) + ((k : Int) + 1)) % 7).toNat
      else 0)
/-- The date of a record satisfies the three day-level masks of a pattern: the month, the
day of the month and the weekday. -/
def day_good (P : jcron_pattern_t) (c : Tm) : Prop :=
  P.months.testBit (c.tm_mon + 1).toNat = true ∧
    P.days_of_month.testBit c.tm_mday.toNat = true ∧
    P.days_of_week.testBit c.tm_wday.toNat = true

/-- A measure of the date of a record for a pattern whose only month is February: it grows
by at least 1 with every pass of the loop of `jcron_next` that changes the date, and by 32
from one year to the next. -/
def feb_measure (c : Tm) : Int :=
  32 * c.tm_year + (if c.tm_mon = 0 then 0 else if c.tm_mon = 1 then c.tm_mday else 30)

/-- The measure of the date of a record by which the passes of the loop of `jcron_next` are
counted: the day count, or `feb_measure` when February is the only month of the pattern. -/
def day_measure (P : jcron_pattern_t) (c : Tm) : Int :=
  if P.months = 4 then feb_measure c else tm_days c

/-- The year of the month that lies `d` months before month `m` (1..12) of year `y`. -/
def months_back_year (y m d : Int) : Int := (12 * y + (m - 1) - d) / 12

/-- The month (1..12) that lies `d` months before month `m` (1..12) of year `y`. -/
def months_back_month (y m d : Int) : Int := (12 * y + (m - 1) - d) % 12 + 1

/-- The Unix timestamp of 23:59:59 UTC on the last day of month `m` (1..12) of year `y`. -/
def month_end_timestamp (y m : Int) : Int :=
  days_from_civil y m (jcron_days_in_month y m) * 86400 + 23 * 3600 + 59 * 60 + 59
/-! # Theorems -/

/-! ## Range invariant of the compiled masks -/

theorem bits_in_zero (lo hi : Nat) : bits_in lo hi 0 := by
  intro i h
  simp at h

theorem bits_in_or {lo hi a b : Nat} (ha : bits_in lo hi a) (hb : bits_in lo hi b) :
    bits_in lo hi (a ||| b) := by
  intro i h
  rw [Nat.testBit_or, Bool.or_eq_true] at h
  rcases h with h | h
  · exact ha i h
  · exact hb i h

theorem bits_in_lt {lo hi mask : Nat} (h : bits_in lo hi mask) : mask < 2 ^ (hi + 1) := by
  apply Nat.lt_pow_two_of_testBit
  intro i hi1
  cases hb : mask.testBit i with
  | false => rfl
  | true => have := (h i hb).2; omega

theorem testBit_one_shiftLeft (i j : Nat) : (1 <<< i).testBit j = decide (i = j) := by
  rw [Nat.one_shiftLeft, Nat.testBit_two_pow]

theorem int_wrap_eq {x : Int} (h1 : -2147483648 ≤ x) (h2 : x ≤ 2147483647) :
    int_wrap x = x := by
  unfold int_wrap
  omega

/-- An index below the width of the mask is the shift count itself. -/
theorem set_mask_bit_eq (w : MaskPtr) (hw : w ≠ MaskPtr.null) (mask i : Nat)
    (hi : i < mask_width w) :
    set_mask_bit w mask (i : Int) = (mask ||| (1 <<< i)) % 2 ^ mask_width w := by
  cases w
  · have e : ((i : Int) % 64).toNat = i := by simp only [mask_width] at hi; omega
    simp only [set_mask_bit, mask_width, e]
  · have e : ((i : Int) % 32).toNat = i := by simp only [mask_width] at hi; omega
    simp only [set_mask_bit, mask_width, e]
  · have e : ((i : Int) % 32).toNat = i := by simp only [mask_width] at hi; omega
    simp only [set_mask_bit, mask_width, e]
  · have e : ((i : Int) % 32).toNat = i := by simp only [mask_width] at hi; omega
    simp only [set_mask_bit, mask_width, e]
  · exact absurd rfl hw

theorem set_mask_bit_bits {lo hi : Nat} (w : MaskPtr) (hw : w ≠ MaskPtr.null)
    (hhi : hi < mask_width w) {mask i : Nat}
    (h : bits_in lo hi mask) (h1 : lo ≤ i) (h2 : i ≤ hi) :
    bits_in lo hi (set_mask_bit w mask (i : Int)) := by
  intro j hj
  rw [set_mask_bit_eq w hw mask i (by omega), Nat.testBit_mod_two_pow, Bool.and_eq_true,
    Nat.testBit_or, Bool.or_eq_true, testBit_one_shiftLeft] at hj
  rcases hj.2 with hk | hk
  · exact h j hk
  · have : i = j := by simpa using hk
    subst this
    exact ⟨h1, h2⟩

/-- While `i + step` stays within `int`, the loop sets bits between the bounds only. -/
theorem set_bits_step_bits {lo hi : Nat} (w : MaskPtr) (hw : w ≠ MaskPtr.null)
    (hhi : hi < mask_width w) (stop step : Nat) (hs : stop ≤ hi)
    (hint : step + hi ≤ INT_MAX) :
    ∀ (fuel i mask : Nat), bits_in lo hi mask → lo ≤ i →
      bits_in lo hi (set_bits_step w (stop : Int) (step : Int) fuel (i : Int) mask) := by
  have hmax : INT_MAX = 2147483647 := rfl
  intro fuel
  induction fuel with
  | zero => intro i mask h _; simpa [set_bits_step] using h
  | succ n ih =>
    intro i mask h hi1
    unfold set_bits_step
    split
    · rename_i hle
      have hle1 : i ≤ stop := by omega
      have e : int_wrap ((i : Int) + (step : Int)) = ((i + step : Nat) : Int) := by
        rw [int_wrap_eq (by omega) (by omega)]
        omega
      rw [e]
      exact ih (i + step) _ (set_mask_bit_bits w hw hhi h hi1 (le_trans hle1 hs)) (by omega)
    · exact h

/-- A mask that is a multiple of `2 ^ lo` and below `2 ^ (hi + 1)` has its bits in
`lo..hi`. -/
theorem bits_in_of_bounds {lo hi mask : Nat} (h1 : mask % 2 ^ lo = 0)
    (h2 : mask < 2 ^ (hi + 1)) : bits_in lo hi mask := by
  intro i hi1
  constructor
  · by_contra hc
    have h3 : (mask % 2 ^ lo).testBit i = true := by
      rw [Nat.testBit_mod_two_pow, hi1]
      simp
      omega
    rw [h1] at h3
    simp at h3
  · by_contra hc
    have h3 : mask < 2 ^ i := lt_of_lt_of_le h2 (Nat.pow_le_pow_right (by norm_num) (by omega))
    rw [Nat.testBit_lt_two_pow h3] at hi1
    exact Bool.noConfusion hi1

/-- A numerical test for the ranges of the five masks. -/
theorem mask_ranges_of_bounds (P : jcron_pattern_t)
    (h : P.minutes < 2 ^ 60 ∧ P.hours < 2 ^ 24 ∧
      P.days_of_month % 2 = 0 ∧ P.days_of_month < 2 ^ 32 ∧
      P.months % 2 = 0 ∧ P.months < 2 ^ 13 ∧ P.days_of_week < 2 ^ 7) : mask_ranges P := by
  obtain ⟨h1, h2, h3, h4, h5, h6, h7⟩ := h
  exact ⟨bits_in_of_bounds (Nat.mod_one _) h1, bits_in_of_bounds (Nat.mod_one _) h2,
    bits_in_of_bounds h3 h4, bits_in_of_bounds h5 h6, bits_in_of_bounds (Nat.mod_one _) h7⟩

theorem parse_modifier_field_masks (out : jcron_pattern_t) (m : List Char) :
    (parse_modifier_field out m).minutes = out.minutes ∧
    (parse_modifier_field out m).hours = out.hours ∧
    (parse_modifier_field out m).days_of_month = out.days_of_month ∧
    (parse_modifier_field out m).months = out.months ∧
    (parse_modifier_field out m).days_of_week = out.days_of_week ∧
    (parse_modifier_field out m).has_cron = out.has_cron := by
  unfold parse_modifier_field
  split
  · simp
  · split
    · split
      · simp
      · split <;> simp
    · simp


/-! ## The calendar: leap years, month lengths and the model of `gmtime_r` -/

theorem leap_day_cases (y : Int) : leap_day y = 0 ∨ leap_day y = 1 := by
  unfold leap_day; split <;> simp

theorem days_before_year_succ (y : Int) :
    days_before_year (y + 1) = days_before_year y + 365 + leap_day y := by
  unfold days_before_year leap_day
  split <;> omega

theorem tmod_eq_zero_iff (y k : Int) : y.tmod k = 0 ↔ y % k = 0 := by
  rw [← Int.dvd_iff_tmod_eq_zero, Int.dvd_iff_emod_eq_zero]

/-- The C leap-year test agrees with the mathematical one for every year. -/
theorem jcron_is_leap_year_eq (y : Int) : jcron_is_leap_year y = leap_day y := by
  unfold jcron_is_leap_year leap_day
  simp only [ne_eq, tmod_eq_zero_iff]

theorem jcron_days_in_month_eq (y m : Int) (h1 : 1 ≤ m) (h2 : m ≤ 12) :
    jcron_days_in_month y m = days_before_month y (m + 1) - days_before_month y m := by
  have hl := leap_day_cases y
  unfold jcron_days_in_month
  rw [jcron_is_leap_year_eq]
  have hm : m = 1 ∨ m = 2 ∨ m = 3 ∨ m = 4 ∨ m = 5 ∨ m = 6 ∨ m = 7 ∨ m = 8 ∨ m = 9 ∨
      m = 10 ∨ m = 11 ∨ m = 12 := by omega
  rcases hm with h | h | h | h | h | h | h | h | h | h | h | h <;> subst h <;>
    rcases hl with hl | hl <;> simp [days_before_month, hl]

theorem jcron_days_in_month_bounds (y m : Int) (h1 : 1 ≤ m) (h2 : m ≤ 12) :
    28 ≤ jcron_days_in_month y m ∧ jcron_days_in_month y m ≤ 31 := by
  rw [jcron_days_in_month_eq y m h1 h2]
  have hl := leap_day_cases y
  unfold days_before_month
  split <;> split <;> omega

theorem civil_from_days_aux (z : Int) :
    ∀ (qc r0 c r1 q r2 ry rd : Int),
      qc = z / 146097 → r0 = z % 146097 → c = min (r0 / 36524) 3 → r1 = r0 - c * 36524 →
      q = min (r1 / 1461) 24 → r2 = r1 - q * 1461 → ry = min (r2 / 365) 3 →
      rd = r2 - ry * 365 →
      0 ≤ ry ∧ ry ≤ 3 ∧ 0 ≤ q ∧ q ≤ 24 ∧ 0 ≤ c ∧ c ≤ 3 ∧
      0 ≤ rd ∧ rd ≤ 365 ∧ (rd = 365 → ry = 3 ∧ (q < 24 ∨ c = 3)) ∧
      z = 146097 * qc + 36524 * c + 1461 * q + 365 * ry + rd := by
  intro qc r0 c r1 q r2 ry rd h1 h2 h3 h4 h5 h6 h7 h8
  have hc : c = r0 / 36524 ∨ (c = 3 ∧ 3 ≤ r0 / 36524) := by
    rw [h3]; rcases le_total (r0 / 36524) 3 with h | h
    · left; exact min_eq_left h
    · right; exact ⟨min_eq_right h, h⟩
  have hq : q = r1 / 1461 ∨ (q = 24 ∧ 24 ≤ r1 / 1461) := by
    rw [h5]; rcases le_total (r1 / 1461) 24 with h | h
    · left; exact min_eq_left h
    · right; exact ⟨min_eq_right h, h⟩
  have hy : ry = r2 / 365 ∨ (ry = 3 ∧ 3 ≤ r2 / 365) := by
    rw [h7]; rcases le_total (r2 / 365) 3 with h | h
    · left; exact min_eq_left h
    · right; exact ⟨min_eq_right h, h⟩
  omega

theorem civil_from_days_year (z qc c q ry rd : Int)
    (hry : 0 ≤ ry ∧ ry ≤ 3) (hq : 0 ≤ q ∧ q ≤ 24) (hc : 0 ≤ c ∧ c ≤ 3)
    (h365 : rd = 365 → ry = 3 ∧ (q < 24 ∨ c = 3))
    (hz : z = 146097 * qc + 36524 * c + 1461 * q + 365 * ry + rd) :
    days_before_year (ry + 4 * q + 100 * c + 400 * qc + 1) = z - 719468 + 306 - rd ∧
      (rd = 365 → leap_day (ry + 4 * q + 100 * c + 400 * qc + 1) = 1) := by
  constructor
  · unfold days_before_year
    omega
  · intro h
    obtain ⟨h1, h2⟩ := h365 h
    unfold leap_day
    split
    · rfl
    · omega

theorem civil_from_days_date (z qc c q ry rd : Int)
    (hry : 0 ≤ ry ∧ ry ≤ 3) (hq : 0 ≤ q ∧ q ≤ 24) (hc : 0 ≤ c ∧ c ≤ 3)
    (hrd : 0 ≤ rd ∧ rd ≤ 365) (h365 : rd = 365 → ry = 3 ∧ (q < 24 ∨ c = 3))
    (hz : z = 146097 * qc + 36524 * c + 1461 * q + 365 * ry + rd) :
    ∀ (mp mon year mday : Int), mp = (5 * rd + 2) / 153 →
      mon = (if mp < 10 then mp + 2 else mp - 10) →
      year = (if mp < 10 then ry + 4 * q + 100 * c + 400 * qc
              else ry + 4 * q + 100 * c + 400 * qc + 1) →
      mday = rd - (153 * mp + 2) / 5 + 1 →
      0 ≤ mon ∧ mon ≤ 11 ∧ 1 ≤ mday ∧ mday ≤ jcron_days_in_month year (mon + 1) ∧
        days_from_civil year (mon + 1) mday = z - 719468 := by
  intro mp mon year mday hmp hmon hyear hmday
  obtain ⟨hY, hL⟩ := civil_from_days_year z qc c q ry rd hry hq hc h365 hz
  have hsucc := days_before_year_succ (ry + 4 * q + 100 * c + 400 * qc)
  have hl0 := leap_day_cases (ry + 4 * q + 100 * c + 400 * qc)
  have hl1 := leap_day_cases (ry + 4 * q + 100 * c + 400 * qc + 1)
  generalize ry + 4 * q + 100 * c + 400 * qc = Y at hyear hY hL hsucc hl0 hl1
  have hm1 : 0 ≤ mon ∧ mon ≤ 11 := by
    rw [hmon]; split <;> omega
  refine ⟨hm1.1, hm1.2, by omega, ?_, ?_⟩
  · rw [jcron_days_in_month_eq year (mon + 1) (by omega) (by omega)]
    unfold days_before_month
    have hmpc : mp = 0 ∨ mp = 1 ∨ mp = 2 ∨ mp = 3 ∨ mp = 4 ∨ mp = 5 ∨ mp = 6 ∨ mp = 7 ∨
        mp = 8 ∨ mp = 9 ∨ mp = 10 ∨ mp = 11 := by omega
    by_cases h10 : mp < 10
    · rw [if_pos h10] at hmon hyear
      subst hyear
      rcases hmpc with h | h | h | h | h | h | h | h | h | h | h | h <;>
        split_ifs <;> omega
    · rw [if_neg h10] at hmon hyear
      subst hyear
      split_ifs <;> omega
  · unfold days_from_civil days_before_month
    by_cases h10 : mp < 10
    · rw [if_pos h10] at hmon hyear
      subst hyear
      split_ifs <;> omega
    · rw [if_neg h10] at hmon hyear
      subst hyear
      split_ifs <;> omega

/-- The model of `gmtime_r` is the inverse of the day count: the record it returns is a valid
calendar record whose UTC instant is the timestamp it was given. -/
theorem timestamp_to_tm_spec (t : Int) :
    valid_tm (timestamp_to_tm t) ∧ civil_timestamp (timestamp_to_tm t) = t := by
  obtain ⟨a1, a2, a3, a4, a5, a6, a7, a8, a9, a10⟩ :=
    civil_from_days_aux (t / 86400 + 719468) _ _ _ _ _ _ _ _ rfl rfl rfl rfl rfl rfl rfl rfl
  obtain ⟨b1, b2, b3, b4, b5⟩ :=
    civil_from_days_date _ _ _ _ _ _ ⟨a1, a2⟩ ⟨a3, a4⟩ ⟨a5, a6⟩ ⟨a7, a8⟩ a9 a10 _ _ _ _
      rfl rfl rfl rfl
  unfold valid_tm valid_fields wday_ok civil_timestamp tm_days
  simp only [timestamp_to_tm, sub_add_cancel]
  rw [b5]
  refine ⟨⟨⟨?_, ?_, ?_, ?_, ?_, ?_, b1, b2, b3, b4⟩, ?_⟩, ?_⟩ <;> omega

/-! ## Bit-field primitives -/

theorem land_one_shiftLeft_eq_zero_iff (mask i : Nat) :
    mask &&& (1 <<< i) = 0 ↔ mask.testBit i = false := by
  constructor
  · intro h
    have h1 : (mask &&& (1 <<< i)).testBit i = false := by rw [h]; simp
    rw [Nat.testBit_and, testBit_one_shiftLeft] at h1
    simpa using h1
  · intro h
    apply Nat.eq_of_testBit_eq
    intro j
    rw [Nat.testBit_and, testBit_one_shiftLeft, Nat.zero_testBit]
    by_cases hij : i = j
    · subst hij; simp [h]
    · simp [hij]

theorem one_shiftLeft_mod (n w : Nat) (h : n < w) : (1 <<< n) % 2 ^ w = 1 <<< n := by
  rw [Nat.one_shiftLeft]
  exact Nat.mod_eq_of_lt (Nat.pow_lt_pow_right (by norm_num) h)

theorem shift_count_32 (x : Int) (h0 : 0 ≤ x) (h1 : x < 32) : (x % 32).toNat = x.toNat := by
  omega

theorem shift_count_64 (x : Int) (h0 : 0 ≤ x) (h1 : x < 64) : (x % 64).toNat = x.toNat := by
  omega

theorem wday_ok_range {c : Tm} (h : wday_ok c) : 0 ≤ c.tm_wday ∧ c.tm_wday < 7 := by
  unfold wday_ok at h
  omega

theorem jcron_test_bit_32_eq (mask : Nat) (bit : Int) (h0 : 0 ≤ bit) (h : bit < 32) :
    jcron_test_bit_32 mask bit = mask.testBit bit.toNat := by
  unfold jcron_test_bit_32
  rw [shift_count_32 bit h0 h]
  cases hb : mask.testBit bit.toNat with
  | false => simp [(land_one_shiftLeft_eq_zero_iff mask bit.toNat).2 hb]
  | true =>
    have : mask &&& (1 <<< bit.toNat) ≠ 0 := by
      intro h0
      rw [(land_one_shiftLeft_eq_zero_iff mask bit.toNat).1 h0] at hb
      exact Bool.noConfusion hb
    simp [this]

theorem jcron_test_bit_64_eq (mask : Nat) (bit : Int) (h0 : 0 ≤ bit) (h : bit < 64) :
    jcron_test_bit_64 mask bit = mask.testBit bit.toNat := by
  unfold jcron_test_bit_64
  rw [shift_count_64 bit h0 h]
  cases hb : mask.testBit bit.toNat with
  | false => simp [(land_one_shiftLeft_eq_zero_iff mask bit.toNat).2 hb]
  | true =>
    have : mask &&& (1 <<< bit.toNat) ≠ 0 := by
      intro h0
      rw [(land_one_shiftLeft_eq_zero_iff mask bit.toNat).1 h0] at hb
      exact Bool.noConfusion hb
    simp [this]

/-- The intrinsic returns the index of the lowest set bit of a non-zero word. -/
theorem builtin_ctz_spec : ∀ (w x : Nat), x ≠ 0 → x < 2 ^ w →
    x.testBit (builtin_ctz w x) = true ∧ builtin_ctz w x < w ∧
      ∀ j, j < builtin_ctz w x → x.testBit j = false := by
  intro w
  induction w with
  | zero => intro x h0 h1; simp at h1; exact absurd h1 h0
  | succ n ih =>
    intro x h0 h1
    unfold builtin_ctz
    split
    · rename_i hodd
      refine ⟨by simp [hodd], by omega, fun j hj => by omega⟩
    · rename_i heven
      have hx2 : x / 2 ≠ 0 := by omega
      have hlt : x / 2 < 2 ^ n := by
        have : 2 ^ (n + 1) = 2 * 2 ^ n := by ring
        omega
      obtain ⟨a, b, c⟩ := ih (x / 2) hx2 hlt
      refine ⟨?_, by omega, ?_⟩
      · rw [Nat.add_comm, Nat.testBit_succ]; exact a
      · intro j hj
        cases j with
        | zero => simp [heven]
        | succ k => rw [Nat.testBit_succ]; exact c k (by omega)

theorem next_bit_mask_testBit (w mask s j : Nat) (hs : s < w) :
    (mask &&& (2 ^ w - 1 - ((1 <<< s) % 2 ^ w - 1))).testBit j =
      (mask.testBit j && (decide (j < w) && decide (s ≤ j))) := by
  rw [one_shiftLeft_mod _ _ hs, Nat.one_shiftLeft]
  have hpos : 0 < 2 ^ s := Nat.two_pow_pos s
  have hlt : 2 ^ s - 1 < 2 ^ w := by
    have := Nat.pow_lt_pow_right (a := 2) (by norm_num) hs
    omega
  have e : 2 ^ w - 1 - (2 ^ s - 1) = 2 ^ w - (2 ^ s - 1 + 1) := by omega
  rw [Nat.testBit_and, e, Nat.testBit_two_pow_sub_succ hlt, Nat.testBit_two_pow_sub_one]
  congr 2
  by_cases h : j < s <;> simp [h]
  omega

/-- What `jcron_next_bit_32` returns for a start bit within the word. -/
theorem jcron_next_bit_32_spec (mask : Nat) (s : Int) (h0 : 0 ≤ s) (h1 : s < 32) :
    (jcron_next_bit_32 mask s = -1 ∧
        ∀ j : Nat, s.toNat ≤ j → j < 32 → mask.testBit j = false) ∨
    (∃ r : Nat, jcron_next_bit_32 mask s = (r : Int) ∧ s.toNat ≤ r ∧ r < 32 ∧
        mask.testBit r = true ∧ ∀ j : Nat, s.toNat ≤ j → j < r → mask.testBit j = false) := by
  have hs : s.toNat < 32 := by omega
  have hbit := fun j => next_bit_mask_testBit 32 mask s.toNat j hs
  unfold jcron_next_bit_32 jcron_next_bit_32_branchless
  rw [if_neg (by omega), shift_count_32 s h0 h1]
  simp only []
  split
  · rename_i hz
    left
    refine ⟨rfl, fun j hj1 hj2 => ?_⟩
    have := hbit j
    rw [hz, Nat.zero_testBit] at this
    simpa [hj1, hj2] using this.symm
  · rename_i hnz
    right
    have hlt : mask &&& (2 ^ 32 - 1 - ((1 <<< s.toNat) % 2 ^ 32 - 1)) < 2 ^ 32 :=
      Nat.and_lt_two_pow _ (by omega)
    obtain ⟨a, b, c⟩ := builtin_ctz_spec 32 _ hnz hlt
    rw [hbit] at a
    simp only [Bool.and_eq_true, decide_eq_true_eq] at a
    refine ⟨_, rfl, a.2.2, b, a.1, fun j hj1 hj2 => ?_⟩
    have := c j hj2
    rw [hbit] at this
    have hj3 : j < 32 := by omega
    simpa [hj1, hj3] using this

/-- What `jcron_next_bit_64` returns for a start bit within the word. -/
theorem jcron_next_bit_64_spec (mask : Nat) (s : Int) (h0 : 0 ≤ s) (h1 : s < 64) :
    (jcron_next_bit_64 mask s = -1 ∧
        ∀ j : Nat, s.toNat ≤ j → j < 64 → mask.testBit j = false) ∨
    (∃ r : Nat, jcron_next_bit_64 mask s = (r : Int) ∧ s.toNat ≤ r ∧ r < 64 ∧
        mask.testBit r = true ∧ ∀ j : Nat, s.toNat ≤ j → j < r → mask.testBit j = false) := by
  have hs : s.toNat < 64 := by omega
  have hbit := fun j => next_bit_mask_testBit 64 mask s.toNat j hs
  unfold jcron_next_bit_64 jcron_next_bit_64_branchless
  rw [if_neg (by omega), shift_count_64 s h0 h1]
  simp only []
  split
  · rename_i hz
    left
    refine ⟨rfl, fun j hj1 hj2 => ?_⟩
    have := hbit j
    rw [hz, Nat.zero_testBit] at this
    simpa [hj1, hj2] using this.symm
  · rename_i hnz
    right
    have hlt : mask &&& (2 ^ 64 - 1 - ((1 <<< s.toNat) % 2 ^ 64 - 1)) < 2 ^ 64 :=
      Nat.and_lt_two_pow _ (by omega)
    obtain ⟨a, b, c⟩ := builtin_ctz_spec 64 _ hnz hlt
    rw [hbit] at a
    simp only [Bool.and_eq_true, decide_eq_true_eq] at a
    refine ⟨_, rfl, a.2.2, b, a.1, fun j hj1 hj2 => ?_⟩
    have := c j hj2
    rw [hbit] at this
    have hj3 : j < 64 := by omega
    simpa [hj1, hj3] using this

/-! ## Order and injectivity of the day count -/

theorem days_before_year_mono (y1 y2 : Int) (h : y1 ≤ y2) :
    days_before_year y1 + 365 * (y2 - y1) ≤ days_before_year y2 := by
  refine Int.le_induction (P := fun y => days_before_year y1 + 365 * (y - y1) ≤
    days_before_year y) (by simp) (fun n _ ih => ?_) y2 h
  have := days_before_year_succ n
  have := leap_day_cases n
  simp only at ih ⊢
  omega

theorem days_before_month_bounds (y m : Int) (h1 : 1 ≤ m) (h2 : m ≤ 12) :
    0 ≤ days_before_month y m ∧
      days_before_month y m + jcron_days_in_month y m ≤ 365 + leap_day y := by
  rw [jcron_days_in_month_eq y m h1 h2]
  have := leap_day_cases y
  unfold days_before_month
  split <;> split <;> omega

theorem days_before_month_mono (y m1 m2 : Int) (h1 : 1 ≤ m1) (h : m1 < m2) (h2 : m2 ≤ 12) :
    days_before_month y m1 + jcron_days_in_month y m1 ≤ days_before_month y m2 := by
  rw [jcron_days_in_month_eq y m1 h1 (by omega)]
  have := leap_day_cases y
  unfold days_before_month
  split <;> split <;> split <;> omega

/-- A date in an earlier month (of the same or an earlier year) has a smaller day count. -/
theorem days_from_civil_lt (y1 m1 d1 y2 m2 d2 : Int)
    (hm1 : 1 ≤ m1 ∧ m1 ≤ 12) (hd1 : d1 ≤ jcron_days_in_month y1 m1)
    (hm2 : 1 ≤ m2 ∧ m2 ≤ 12) (hd2 : 1 ≤ d2)
    (h : y1 < y2 ∨ (y1 = y2 ∧ m1 < m2)) :
    days_from_civil y1 m1 d1 < days_from_civil y2 m2 d2 := by
  unfold days_from_civil
  rcases h with h | ⟨h, h'⟩
  · have a := days_before_month_bounds y1 m1 hm1.1 hm1.2
    have b := days_before_month_bounds y2 m2 hm2.1 hm2.2
    have c := days_before_year_succ y1
    have d := days_before_year_mono (y1 + 1) y2 (by omega)
    omega
  · subst h
    have a := days_before_month_mono y1 m1 m2 hm1.1 h' hm2.2
    omega

/-- Two records with valid fields and the same day count hold the same date. -/
theorem tm_days_inj (a b : Tm) (ha : valid_fields a) (hb : valid_fields b)
    (h : tm_days a = tm_days b) :
    a.tm_year = b.tm_year ∧ a.tm_mon = b.tm_mon ∧ a.tm_mday = b.tm_mday := by
  obtain ⟨_, _, _, _, _, _, a7, a8, a9, a10⟩ := ha
  obtain ⟨_, _, _, _, _, _, b7, b8, b9, b10⟩ := hb
  unfold tm_days at h
  have hym : a.tm_year = b.tm_year ∧ a.tm_mon = b.tm_mon := by
    by_contra hne
    have hcase : (a.tm_year + 1900 < b.tm_year + 1900 ∨
        (a.tm_year + 1900 = b.tm_year + 1900 ∧ a.tm_mon + 1 < b.tm_mon + 1)) ∨
        (b.tm_year + 1900 < a.tm_year + 1900 ∨
        (b.tm_year + 1900 = a.tm_year + 1900 ∧ b.tm_mon + 1 < a.tm_mon + 1)) := by omega
    rcases hcase with hc | hc
    · have := days_from_civil_lt _ _ _ _ _ _ ⟨by omega, by omega⟩ a10 ⟨by omega, by omega⟩ b9 hc
      omega
    · have := days_from_civil_lt _ _ _ _ _ _ ⟨by omega, by omega⟩ b10 ⟨by omega, by omega⟩ a9 hc
      omega
  refine ⟨hym.1, hym.2, ?_⟩
  rw [hym.1, hym.2] at h
  unfold days_from_civil at h
  omega

/-- The day count and the time of day of a record with valid fields are determined by its
timestamp. -/
theorem civil_timestamp_split (a b : Tm) (ha : valid_fields a) (hb : valid_fields b)
    (h : civil_timestamp a = civil_timestamp b) :
    tm_days a = tm_days b ∧ a.tm_hour = b.tm_hour ∧ a.tm_min = b.tm_min ∧
      a.tm_sec = b.tm_sec := by
  obtain ⟨a1, a2, a3, a4, a5, a6, _, _, _, _⟩ := ha
  obtain ⟨b1, b2, b3, b4, b5, b6, _, _, _, _⟩ := hb
  unfold civil_timestamp at h
  refine ⟨?_, ?_, ?_, ?_⟩ <;> omega

/-- Two valid records with the same timestamp are equal. -/
theorem civil_timestamp_inj (a b : Tm) (ha : valid_tm a) (hb : valid_tm b)
    (h : civil_timestamp a = civil_timestamp b) : a = b := by
  obtain ⟨hd, e4, e5, e6⟩ := civil_timestamp_split a b ha.1 hb.1 h
  obtain ⟨e1, e2, e3⟩ := tm_days_inj a b ha.1 hb.1 hd
  have e7 : a.tm_wday = b.tm_wday := by
    have h1 := ha.2
    have h2 := hb.2
    unfold wday_ok at h1 h2
    rw [h1, h2, hd]
  cases a
  cases b
  simp only [Tm.mk.injEq]
  simp only at e1 e2 e3 e4 e5 e6 e7
  exact ⟨e6, e5, e4, e3, e2, e1, e7⟩

/-- The model of `gmtime_r` recovers every valid record from its timestamp. -/
theorem timestamp_to_tm_civil (tm : Tm) (h : valid_tm tm) :
    timestamp_to_tm (civil_timestamp tm) = tm := by
  obtain ⟨hv, he⟩ := timestamp_to_tm_spec (civil_timestamp tm)
  exact civil_timestamp_inj _ _ hv h he

/-! ## Weekday routines and the table-accelerated conversion -/

theorem tdiv_of_nonneg (a b : Int) (ha : 0 ≤ a) (hb : 0 ≤ b) : a.tdiv b = a / b :=
  Int.tdiv_eq_ediv ha hb

theorem tmod_of_nonneg (a b : Int) (ha : 0 ≤ a) (hb : 0 ≤ b) : a.tmod b = a % b :=
  Int.tmod_eq_emod ha hb

theorem tdiv_of_neg (a b : Int) (ha : a < 0) (hb : 0 ≤ b) : a.tdiv b = -((-a) / b) := by
  have h := Int.tdiv_eq_ediv (a := -a) (b := b) (by omega) hb
  rw [Int.neg_tdiv] at h
  omega

theorem tmod_of_neg (a b : Int) (ha : a < 0) (hb : 0 ≤ b) : a.tmod b = -((-a) % b) := by
  have h1 := Int.tmod_def a b
  have h2 := tdiv_of_neg a b ha hb
  have h3 := Int.emod_def (-a) b
  rw [h1, h2, h3]
  rw [Int.mul_neg]
  omega

theorem leap_day_eq_div (y : Int) :
    leap_day y = (y / 4 - (y - 1) / 4) - (y / 100 - (y - 1) / 100) + (y / 400 - (y - 1) / 400) := by
  unfold leap_day
  split_ifs <;> omega

theorem days_from_civil_jan_feb (y m d : Int) (hm : m ≤ 2) :
    days_from_civil y m d =
      365 * (y - 1970) + ((y - 1) / 4 - (y - 1) / 100 + (y - 1) / 400) - 477
        + 31 * (m - 1) + (d - 1) := by
  unfold days_from_civil days_before_year days_before_month
  rw [if_pos hm]

theorem days_from_civil_mar_dec (y m d : Int) (hm : 3 ≤ m) :
    days_from_civil y m d =
      365 * (y - 1970) + (y / 4 - y / 100 + y / 400) - 477
        + ((153 * (m - 3) + 2) / 5 + 59) + (d - 1) := by
  unfold days_from_civil days_before_year days_before_month
  rw [if_neg (by omega), leap_day_eq_div]
  omega

/-- Sakamoto's routine returns the weekday of the date, for every year from 1 on. -/
theorem calc_day_of_week_fast_eq (y m d : Int) (hy : 1 ≤ y) (hm : 1 ≤ m ∧ m ≤ 12)
    (hd : 1 ≤ d) : calc_day_of_week_fast y m d = (days_from_civil y m d + 4) % 7 := by
  have hmc : m = 1 ∨ m = 2 ∨ m = 3 ∨ m = 4 ∨ m = 5 ∨ m = 6 ∨ m = 7 ∨ m = 8 ∨ m = 9 ∨
      m = 10 ∨ m = 11 ∨ m = 12 := by omega
  unfold calc_day_of_week_fast
  simp only []
  rcases hmc with h | h | h | h | h | h | h | h | h | h | h | h <;> subst h
  · have ht : ([0, 3, 2, 5, 0, 3, 5, 1, 4, 6, 2, 4] : List Int).getD ((1 : Int) - 1).toNat 0
        = 0 := by decide
    rw [ht, if_pos (by omega), days_from_civil_jan_feb y 1 d (by omega),
      tdiv_of_nonneg (y - 1) 4 (by omega) (by omega), tdiv_of_nonneg (y - 1) 100 (by omega) (by omega),
      tdiv_of_nonneg (y - 1) 400 (by omega) (by omega), tmod_of_nonneg _ 7 (by omega) (by omega)]
    omega
  · have ht : ([0, 3, 2, 5, 0, 3, 5, 1, 4, 6, 2, 4] : List Int).getD ((2 : Int) - 1).toNat 0
        = 3 := by decide
    rw [ht, if_pos (by omega), days_from_civil_jan_feb y 2 d (by omega),
      tdiv_of_nonneg (y - 1) 4 (by omega) (by omega), tdiv_of_nonneg (y - 1) 100 (by omega) (by omega),
      tdiv_of_nonneg (y - 1) 400 (by omega) (by omega), tmod_of_nonneg _ 7 (by omega) (by omega)]
    omega
  · have ht : ([0, 3, 2, 5, 0, 3, 5, 1, 4, 6, 2, 4] : List Int).getD ((3 : Int) - 1).toNat 0
        = 2 := by decide
    rw [ht, if_neg (by omega), days_from_civil_mar_dec y 3 d (by omega),
      tdiv_of_nonneg y 4 (by omega) (by omega), tdiv_of_nonneg y 100 (by omega) (by omega),
      tdiv_of_nonneg y 400 (by omega) (by omega), tmod_of_nonneg _ 7 (by omega) (by omega)]
    omega
  · have ht : ([0, 3, 2, 5, 0, 3, 5, 1, 4, 6, 2, 4] : List Int).getD ((4 : Int) - 1).toNat 0
        = 5 := by decide
    rw [ht, if_neg (by omega), days_from_civil_mar_dec y 4 d (by omega),
      tdiv_of_nonneg y 4 (by omega) (by omega), tdiv_of_nonneg y 100 (by omega) (by omega),
      tdiv_of_nonneg y 400 (by omega) (by omega), tmod_of_nonneg _ 7 (by omega) (by omega)]
    omega
  · have ht : ([0, 3, 2, 5, 0, 3, 5, 1, 4, 6, 2, 4] : List Int).getD ((5 : Int) - 1).toNat 0
        = 0 := by decide
    rw [ht, if_neg (by omega), days_from_civil_mar_dec y 5 d (by omega),
      tdiv_of_nonneg y 4 (by omega) (by omega), tdiv_of_nonneg y 100 (by omega) (by omega),
      tdiv_of_nonneg y 400 (by omega) (by omega), tmod_of_nonneg _ 7 (by omega) (by omega)]
    omega
  · have ht : ([0, 3, 2, 5, 0, 3, 5, 1, 4, 6, 2, 4] : List Int).getD ((6 : Int) - 1).toNat 0
        = 3 := by decide
    rw [ht, if_neg (by omega), days_from_civil_mar_dec y 6 d (by omega),
      tdiv_of_nonneg y 4 (by omega) (by omega), tdiv_of_nonneg y 100 (by omega) (by omega),
      tdiv_of_nonneg y 400 (by omega) (by omega), tmod_of_nonneg _ 7 (by omega) (by omega)]
    omega
  · have ht : ([0, 3, 2, 5, 0, 3, 5, 1, 4, 6, 2, 4] : List Int).getD ((7 : Int) - 1).toNat 0
        = 5 := by decide
    rw [ht, if_neg (by omega), days_from_civil_mar_dec y 7 d (by omega),
      tdiv_of_nonneg y 4 (by omega) (by omega), tdiv_of_nonneg y 100 (by omega) (by omega),
      tdiv_of_nonneg y 400 (by omega) (by omega), tmod_of_nonneg _ 7 (by omega) (by omega)]
    omega
  · have ht : ([0, 3, 2, 5, 0, 3, 5, 1, 4, 6, 2, 4] : List Int).getD ((8 : Int) - 1).toNat 0
        = 1 := by decide
    rw [ht, if_neg (by omega), days_from_civil_mar_dec y 8 d (by omega),
      tdiv_of_nonneg y 4 (by omega) (by omega), tdiv_of_nonneg y 100 (by omega) (by omega),
      tdiv_of_nonneg y 400 (by omega) (by omega), tmod_of_nonneg _ 7 (by omega) (by omega)]
    omega
  · have ht : ([0, 3, 2, 5, 0, 3, 5, 1, 4, 6, 2, 4] : List Int).getD ((9 : Int) - 1).toNat 0
        = 4 := by decide
    rw [ht, if_neg (by omega), days_from_civil_mar_dec y 9 d (by omega),
      tdiv_of_nonneg y 4 (by omega) (by omega), tdiv_of_nonneg y 100 (by omega) (by omega),
      tdiv_of_nonneg y 400 (by omega) (by omega), tmod_of_nonneg _ 7 (by omega) (by omega)]
    omega
  · have ht : ([0, 3, 2, 5, 0, 3, 5, 1, 4, 6, 2, 4] : List Int).getD ((10 : Int) - 1).toNat 0
        = 6 := by decide
    rw [ht, if_neg (by omega), days_from_civil_mar_dec y 10 d (by omega),
      tdiv_of_nonneg y 4 (by omega) (by omega), tdiv_of_nonneg y 100 (by omega) (by omega),
      tdiv_of_nonneg y 400 (by omega) (by omega), tmod_of_nonneg _ 7 (by omega) (by omega)]
    omega
  · have ht : ([0, 3, 2, 5, 0, 3, 5, 1, 4, 6, 2, 4] : List Int).getD ((11 : Int) - 1).toNat 0
        = 2 := by decide
    rw [ht, if_neg (by omega), days_from_civil_mar_dec y 11 d (by omega),
      tdiv_of_nonneg y 4 (by omega) (by omega), tdiv_of_nonneg y 100 (by omega) (by omega),
      tdiv_of_nonneg y 400 (by omega) (by omega), tmod_of_nonneg _ 7 (by omega) (by omega)]
    omega
  · have ht : ([0, 3, 2, 5, 0, 3, 5, 1, 4, 6, 2, 4] : List Int).getD ((12 : Int) - 1).toNat 0
        = 4 := by decide
    rw [ht, if_neg (by omega), days_from_civil_mar_dec y 12 d (by omega),
      tdiv_of_nonneg y 4 (by omega) (by omega), tdiv_of_nonneg y 100 (by omega) (by omega),
      tdiv_of_nonneg y 400 (by omega) (by omega), tmod_of_nonneg _ 7 (by omega) (by omega)]
    omega

theorem zeller_core (Y M d : Int) (hY : 0 ≤ Y) (hM : 0 ≤ M) :
    (if ((d + (13 * (M + 1)).tdiv 5 + Y.tmod 100 + (Y.tmod 100).tdiv 4 + (Y.tdiv 100).tdiv 4
            - 2 * Y.tdiv 100).tmod 7 + 6).tmod 7 < 0
      then ((d + (13 * (M + 1)).tdiv 5 + Y.tmod 100 + (Y.tmod 100).tdiv 4 + (Y.tdiv 100).tdiv 4
            - 2 * Y.tdiv 100).tmod 7 + 6).tmod 7 + 7
      else ((d + (13 * (M + 1)).tdiv 5 + Y.tmod 100 + (Y.tmod 100).tdiv 4 + (Y.tdiv 100).tdiv 4
            - 2 * Y.tdiv 100).tmod 7 + 6).tmod 7) =
      (d + (13 * (M + 1)) / 5 + Y + Y / 4 - Y / 100 + Y / 400 + 6) % 7 := by
  rw [tmod_of_nonneg Y 100 hY (by omega), tdiv_of_nonneg Y 100 hY (by omega),
    tdiv_of_nonneg (13 * (M + 1)) 5 (by omega) (by omega),
    tdiv_of_nonneg (Y % 100) 4 (by omega) (by omega),
    tdiv_of_nonneg (Y / 100) 4 (by omega) (by omega)]
  have e1 : Y / 4 = 25 * (Y / 100) + (Y % 100) / 4 := by omega
  have e2 : Y / 400 = (Y / 100) / 4 := by omega
  rcases Int.lt_or_le (d + 13 * (M + 1) / 5 + Y % 100 + Y % 100 / 4 + Y / 100 / 4 - 2 * (Y / 100)) 0
    with hs | hs
  · rw [tmod_of_neg _ 7 hs (by omega), tmod_of_nonneg _ 7 (by omega) (by omega)]
    split_ifs <;> omega
  · rw [tmod_of_nonneg _ 7 hs (by omega), tmod_of_nonneg _ 7 (by omega) (by omega)]
    split_ifs <;> omega

/-- Zeller's routine returns the weekday of the date, for every year from 1 on. -/
theorem calc_day_of_week_eq (y m d : Int) (hy : 1 ≤ y) (hm : 1 ≤ m ∧ m ≤ 12) :
    calc_day_of_week y m d = (days_from_civil y m d + 4) % 7 := by
  have hmc : m = 1 ∨ m = 2 ∨ m = 3 ∨ m = 4 ∨ m = 5 ∨ m = 6 ∨ m = 7 ∨ m = 8 ∨ m = 9 ∨
      m = 10 ∨ m = 11 ∨ m = 12 := by omega
  unfold calc_day_of_week
  simp only []
  rcases hmc with h | h | h | h | h | h | h | h | h | h | h | h <;> subst h
  · simp only [if_pos (show (1 : Int) < 3 by omega)]
    rw [zeller_core (y - 1) (1 + 12) d (by omega) (by omega), days_from_civil_jan_feb y 1 d (by omega)]
    omega
  · simp only [if_pos (show (2 : Int) < 3 by omega)]
    rw [zeller_core (y - 1) (2 + 12) d (by omega) (by omega), days_from_civil_jan_feb y 2 d (by omega)]
    omega
  · simp only [if_neg (show ¬ (3 : Int) < 3 by omega)]
    rw [zeller_core y 3 d (by omega) (by omega), days_from_civil_mar_dec y 3 d (by omega)]
    omega
  · simp only [if_neg (show ¬ (4 : Int) < 3 by omega)]
    rw [zeller_core y 4 d (by omega) (by omega), days_from_civil_mar_dec y 4 d (by omega)]
    omega
  · simp only [if_neg (show ¬ (5 : Int) < 3 by omega)]
    rw [zeller_core y 5 d (by omega) (by omega), days_from_civil_mar_dec y 5 d (by omega)]
    omega
  · simp only [if_neg (show ¬ (6 : Int) < 3 by omega)]
    rw [zeller_core y 6 d (by omega) (by omega), days_from_civil_mar_dec y 6 d (by omega)]
    omega
  · simp only [if_neg (show ¬ (7 : Int) < 3 by omega)]
    rw [zeller_core y 7 d (by omega) (by omega), days_from_civil_mar_dec y 7 d (by omega)]
    omega
  · simp only [if_neg (show ¬ (8 : Int) < 3 by omega)]
    rw [zeller_core y 8 d (by omega) (by omega), days_from_civil_mar_dec y 8 d (by omega)]
    omega
  · simp only [if_neg (show ¬ (9 : Int) < 3 by omega)]
    rw [zeller_core y 9 d (by omega) (by omega), days_from_civil_mar_dec y 9 d (by omega)]
    omega
  · simp only [if_neg (show ¬ (10 : Int) < 3 by omega)]
    rw [zeller_core y 10 d (by omega) (by omega), days_from_civil_mar_dec y 10 d (by omega)]
    omega
  · simp only [if_neg (show ¬ (11 : Int) < 3 by omega)]
    rw [zeller_core y 11 d (by omega) (by omega), days_from_civil_mar_dec y 11 d (by omega)]
    omega
  · simp only [if_neg (show ¬ (12 : Int) < 3 by omega)]
    rw [zeller_core y 12 d (by omega) (by omega), days_from_civil_mar_dec y 12 d (by omega)]
    omega

set_option maxRecDepth 100000 in
theorem DAYS_SINCE_1970_eq :
    ∀ i : Nat, i < 130 → DAYS_SINCE_1970.getD i 0 = days_before_year (1970 + (i : Int)) := by
  decide

theorem MONTH_DAYS_eq (y m : Int) (hm : 1 ≤ m ∧ m ≤ 12) :
    (MONTH_DAYS.getD
        (if (y.tmod 4 = 0 ∧ y.tmod 100 ≠ 0) ∨ y.tmod 400 = 0 then 1 else 0) []).getD
      (m - 1).toNat 0 = days_before_month y m := by
  have hmc : m = 1 ∨ m = 2 ∨ m = 3 ∨ m = 4 ∨ m = 5 ∨ m = 6 ∨ m = 7 ∨ m = 8 ∨ m = 9 ∨
      m = 10 ∨ m = 11 ∨ m = 12 := by omega
  unfold days_before_month leap_day
  simp only [ne_eq, tmod_eq_zero_iff]
  rcases hmc with h | h | h | h | h | h | h | h | h | h | h | h <;> subst h <;>
    split_ifs <;> simp [MONTH_DAYS] <;> omega

/-- Inside the band 1970..2099 the table-accelerated conversion is exact. -/
theorem tm_to_timestamp_ultra_fast_eq (tm : Tm)
    (hy : 1970 ≤ tm.tm_year + 1900 ∧ tm.tm_year + 1900 ≤ 2099)
    (hm : 0 ≤ tm.tm_mon ∧ tm.tm_mon ≤ 11) :
    tm_to_timestamp_ultra_fast tm = civil_timestamp tm := by
  unfold tm_to_timestamp_ultra_fast civil_timestamp tm_days days_from_civil
  simp only []
  rw [if_neg (by omega), MONTH_DAYS_eq _ _ (by omega)]
  have ht := DAYS_SINCE_1970_eq (tm.tm_year + 1900 - 1970).toNat (by omega)
  rw [ht]
  have e : (1970 : Int) + ((tm.tm_year + 1900 - 1970).toNat : Int) = tm.tm_year + 1900 := by
    omega
  rw [e]
  omega

/-! ## One pass of the forward solver -/

theorem valid_fields_tod {c : Tm} (h : valid_fields c) :
    0 ≤ c.tm_sec ∧ c.tm_sec ≤ 59 ∧ 0 ≤ c.tm_min ∧ c.tm_min ≤ 59 ∧
      0 ≤ c.tm_hour ∧ c.tm_hour ≤ 23 := by
  obtain ⟨a1, a2, a3, a4, a5, a6, _⟩ := h
  exact ⟨a1, a2, a3, a4, a5, a6⟩

/-- The month overflow check turns "one past the last day" into the first day of the next
month, and leaves the day count as it is. -/
theorem month_overflow_spec (t : Tm) (hm : 0 ≤ t.tm_mon ∧ t.tm_mon ≤ 11)
    (hd : 2 ≤ t.tm_mday ∧
      t.tm_mday ≤ jcron_days_in_month (t.tm_year + 1900) (t.tm_mon + 1) + 1) :
    (month_overflow t).tm_sec = t.tm_sec ∧ (month_overflow t).tm_min = t.tm_min ∧
    (month_overflow t).tm_hour = t.tm_hour ∧ (month_overflow t).tm_wday = t.tm_wday ∧
    0 ≤ (month_overflow t).tm_mon ∧ (month_overflow t).tm_mon ≤ 11 ∧
    1 ≤ (month_overflow t).tm_mday ∧
    (month_overflow t).tm_mday ≤
      jcron_days_in_month ((month_overflow t).tm_year + 1900) ((month_overflow t).tm_mon + 1) ∧
    tm_days (month_overflow t) = tm_days t ∧
    t.tm_year ≤ (month_overflow t).tm_year ∧ (month_overflow t).tm_year ≤ t.tm_year + 1 ∧
    ((month_overflow t).tm_year = t.tm_year + 1 → (month_overflow t).tm_mon = 0) ∧
    (((month_overflow t).tm_mday = 1 ∧
        t.tm_mday = jcron_days_in_month (t.tm_year + 1900) (t.tm_mon + 1) + 1 ∧
        (((month_overflow t).tm_year = t.tm_year ∧ (month_overflow t).tm_mon = t.tm_mon + 1) ∨
          ((month_overflow t).tm_year = t.tm_year + 1 ∧ (month_overflow t).tm_mon = 0 ∧
            t.tm_mon = 11))) ∨
      ((month_overflow t).tm_mon = t.tm_mon ∧ (month_overflow t).tm_year = t.tm_year ∧
        (month_overflow t).tm_mday = t.tm_mday)) := by
  have hdim := jcron_days_in_month_eq (t.tm_year + 1900) (t.tm_mon + 1) (by omega) (by omega)
  unfold month_overflow
  simp only []
  split
  · rename_i hov
    split
    · rename_i h11
      have hb := jcron_days_in_month_bounds (t.tm_year + 1 + 1900) (0 + 1) (by omega) (by omega)
      have hb1 : 1 ≤ jcron_days_in_month (t.tm_year + 1 + 1900) (0 + 1) := by omega
      have hs := days_before_year_succ (t.tm_year + 1900)
      have hmon : t.tm_mon = 11 := by omega
      refine ⟨rfl, rfl, rfl, rfl, by simp, by simp, by simp, hb1, ?_,
        by simp, by simp, by simp, Or.inl ⟨rfl, by omega, Or.inr ⟨rfl, rfl, hmon⟩⟩⟩
      unfold tm_days days_from_civil
      simp only []
      rw [hmon] at hdim hov hd ⊢
      have e : t.tm_year + 1 + 1900 = t.tm_year + 1900 + 1 := by omega
      rw [e, hs]
      have h13 : days_before_month (t.tm_year + 1900) (11 + 1 + 1) =
          365 + leap_day (t.tm_year + 1900) := by
        unfold days_before_month; omega
      have h1 : days_before_month (t.tm_year + 1900 + 1) (0 + 1) = 0 := by
        unfold days_before_month; omega
      rw [h13] at hdim
      rw [h1]
      omega
    · rename_i h11
      have hb := jcron_days_in_month_bounds (t.tm_year + 1900) (t.tm_mon + 1 + 1)
        (by omega) (by omega)
      have hb1 : 1 ≤ jcron_days_in_month (t.tm_year + 1900) (t.tm_mon + 1 + 1) := by omega
      refine ⟨rfl, rfl, rfl, rfl, by simp; omega, by simp; omega, by simp,
        hb1, ?_, by simp, by simp, by simp, Or.inl ⟨rfl, by omega, Or.inl ⟨rfl, rfl⟩⟩⟩
      unfold tm_days days_from_civil
      simp only []
      omega
  · rename_i hov
    refine ⟨rfl, rfl, rfl, rfl, hm.1, hm.2, by omega, by omega, rfl, le_refl _, by omega,
      by omega, Or.inr ⟨rfl, rfl, rfl⟩⟩

theorem civil_lt_of_month_lt (a b : Tm) (ha : valid_fields a) (hb : valid_fields b)
    (h : a.tm_year < b.tm_year ∨ (a.tm_year = b.tm_year ∧ a.tm_mon < b.tm_mon)) :
    civil_timestamp a < civil_timestamp b := by
  obtain ⟨a1, a2, a3, a4, a5, a6, a7, a8, a9, a10⟩ := ha
  obtain ⟨b1, b2, b3, b4, b5, b6, b7, b8, b9, b10⟩ := hb
  have hlt : tm_days a < tm_days b := by
    unfold tm_days
    exact days_from_civil_lt _ _ _ _ _ _ ⟨by omega, by omega⟩ a10 ⟨by omega, by omega⟩ b9
      (by omega)
  unfold civil_timestamp
  omega

theorem civil_ge_month_start (u c1 : Tm) (hu : valid_fields u) (hc : valid_fields c1)
    (h1 : c1.tm_mday = 1 ∧ c1.tm_hour = 0 ∧ c1.tm_min = 0 ∧ c1.tm_sec = 0)
    (h : c1.tm_year < u.tm_year ∨ (c1.tm_year = u.tm_year ∧ c1.tm_mon ≤ u.tm_mon)) :
    civil_timestamp c1 ≤ civil_timestamp u := by
  by_cases hsame : c1.tm_year = u.tm_year ∧ c1.tm_mon = u.tm_mon
  · obtain ⟨a1, a2, a3, a4, a5, a6, a7, a8, a9, a10⟩ := hu
    have hle : tm_days c1 ≤ tm_days u := by
      unfold tm_days days_from_civil
      rw [hsame.1, hsame.2]
      omega
    unfold civil_timestamp
    omega
  · exact le_of_lt (civil_lt_of_month_lt c1 u hc hu (by omega))

/-- Step 1 of `jcron_next`: the jump to the next admissible month. -/
theorem next_month_step_spec (P : jcron_pattern_t) (c c1 : Tm)
    (hP : bits_in 1 12 P.months) (hv : valid_fields c) (hs : c.tm_sec = 0)
    (hbit : P.months.testBit (c.tm_mon + 1).toNat = false)
    (h : next_month_step P c = LoopStep.next_iteration c1) :
    valid_fields c1 ∧ c1.tm_sec = 0 ∧ c.tm_year ≤ c1.tm_year ∧
      civil_timestamp c < civil_timestamp c1 ∧
      (1 ≤ c1.tm_year + 1900 → wday_ok c1) ∧ skips P c c1 := by
  have hv' := hv
  obtain ⟨a1, a2, a3, a4, a5, a6, a7, a8, a9, a10⟩ := hv'
  unfold next_month_step at h
  simp only [] at h
  rcases jcron_next_bit_32_spec P.months (c.tm_mon + 2) (by omega) (by omega) with
    ⟨hnb, hclear⟩ | ⟨r, hnb, hr1, hr2, hset, hclear⟩
  · rw [hnb, if_pos (by omega)] at h
    unfold jcron_first_bit_32 at h
    rcases jcron_next_bit_32_spec P.months 0 (by omega) (by omega) with
      ⟨hfb, _⟩ | ⟨r, hfb, _, hr2, hset, hclr0⟩
    · rw [hfb, if_pos (by omega)] at h
      exact LoopStep.noConfusion h
    · rw [hfb, if_neg (by omega)] at h
      have hr := hP r hset
      injection h with h
      subst h
      have hb := jcron_days_in_month_bounds (c.tm_year + 1 + 1900) (r : Int)
        (by omega) (by omega)
      have hvc : valid_fields
          { tm_sec := c.tm_sec, tm_min := 0, tm_hour := 0, tm_mday := 1,
            tm_mon := (r : Int) - 1, tm_year := c.tm_year + 1,
            tm_wday := calc_day_of_week (c.tm_year + 1 + 1900) ((r : Int) - 1 + 1) 1 } :=
        ⟨a1, a2, by simp, by simp, by simp, by simp, by simp; omega, by simp; omega,
          by simp, by simp; omega⟩
      refine ⟨hvc, hs, by simp, ?_, ?_, ?_⟩
      · exact civil_lt_of_month_lt _ _ hv hvc (Or.inl (by simp))
      · intro hy
        exact calc_day_of_week_eq _ _ _ hy ⟨by omega, by omega⟩
      · intro u hu hlo hhi hmatch
        have hm := hmatch.2.2.2.1
        have hu' := hu.1
        obtain ⟨u1, u2, u3, u4, u5, u6, u7, u8, u9, u10⟩ := hu'
        have w1 : ¬ (u.tm_year < c.tm_year ∨ (u.tm_year = c.tm_year ∧ u.tm_mon < c.tm_mon)) :=
          fun hh => by have := civil_lt_of_month_lt u c hu.1 hv hh; omega
        have w2 : ¬ (c.tm_year + 1 < u.tm_year ∨
            (c.tm_year + 1 = u.tm_year ∧ (r : Int) - 1 ≤ u.tm_mon)) :=
          fun hh => by
            have := civil_ge_month_start u _ hu.1 hvc ⟨rfl, rfl, rfl, hs⟩ hh
            omega
        by_cases hsame : u.tm_mon = c.tm_mon
        · by_cases hyr : u.tm_year = c.tm_year
          · rw [hsame, hbit] at hm
            exact Bool.noConfusion hm
          · have := hclr0 (u.tm_mon + 1).toNat (by omega) (by omega)
            rw [this] at hm
            exact Bool.noConfusion hm
        · by_cases hyr : u.tm_year = c.tm_year
          · have := hclear (u.tm_mon + 1).toNat (by omega) (by omega)
            rw [this] at hm
            exact Bool.noConfusion hm
          · have := hclr0 (u.tm_mon + 1).toNat (by omega) (by omega)
            rw [this] at hm
            exact Bool.noConfusion hm
  · rw [hnb, if_neg (by omega)] at h
    have hr := hP r hset
    injection h with h
    subst h
    have hb := jcron_days_in_month_bounds (c.tm_year + 1900) (r : Int)
      (by omega) (by omega)
    have hvc : valid_fields
        { tm_sec := c.tm_sec, tm_min := 0, tm_hour := 0, tm_mday := 1,
          tm_mon := (r : Int) - 1, tm_year := c.tm_year,
          tm_wday := calc_day_of_week (c.tm_year + 1900) ((r : Int) - 1 + 1) 1 } :=
      ⟨a1, a2, by simp, by simp, by simp, by simp, by simp; omega, by simp; omega,
        by simp, by simp; omega⟩
    refine ⟨hvc, hs, by simp, ?_, ?_, ?_⟩
    · exact civil_lt_of_month_lt _ _ hv hvc (Or.inr ⟨rfl, by simp; omega⟩)
    · intro hy
      exact calc_day_of_week_eq _ _ _ hy ⟨by omega, by omega⟩
    · intro u hu hlo hhi hmatch
      have hm := hmatch.2.2.2.1
      have hu' := hu.1
      obtain ⟨u1, u2, u3, u4, u5, u6, u7, u8, u9, u10⟩ := hu'
      have w1 : ¬ (u.tm_year < c.tm_year ∨ (u.tm_year = c.tm_year ∧ u.tm_mon < c.tm_mon)) :=
        fun hh => by have := civil_lt_of_month_lt u c hu.1 hv hh; omega
      have w2 : ¬ (c.tm_year < u.tm_year ∨
          (c.tm_year = u.tm_year ∧ (r : Int) - 1 ≤ u.tm_mon)) :=
        fun hh => by
          have := civil_ge_month_start u _ hu.1 hvc ⟨rfl, rfl, rfl, hs⟩ hh
          omega
      by_cases hsame : u.tm_mon = c.tm_mon
      · rw [hsame, hbit] at hm
        exact Bool.noConfusion hm
      · have := hclear (u.tm_mon + 1).toNat (by omega) (by omega)
        rw [this] at hm
        exact Bool.noConfusion hm

theorem tm_days_congr (a b : Tm) (h1 : a.tm_year = b.tm_year) (h2 : a.tm_mon = b.tm_mon)
    (h3 : a.tm_mday = b.tm_mday) : tm_days a = tm_days b := by
  unfold tm_days
  rw [h1, h2, h3]

/-- Step 2 of `jcron_next`: the jump to the start of the next day. -/
theorem next_day_step_spec (P : jcron_pattern_t) (c c1 : Tm)
    (hv : valid_fields c) (hs : c.tm_sec = 0)
    (hbit : wday_ok c → (P.days_of_month.testBit c.tm_mday.toNat = false ∨
      P.days_of_week.testBit c.tm_wday.toNat = false))
    (h : next_day_step c = LoopStep.next_iteration c1) :
    valid_fields c1 ∧ c1.tm_sec = 0 ∧ c.tm_year ≤ c1.tm_year ∧
      civil_timestamp c < civil_timestamp c1 ∧
      (1 ≤ c1.tm_year + 1900 → wday_ok c1) ∧ (wday_ok c → skips P c c1) := by
  have hv' := hv
  obtain ⟨a1, a2, a3, a4, a5, a6, a7, a8, a9, a10⟩ := hv'
  unfold next_day_step at h
  simp only [] at h
  injection h with h
  obtain ⟨m1, m2, m3, m4, m5, m6, m7, m8, m9, m10, m11, _, _⟩ :=
    month_overflow_spec { c with tm_mday := c.tm_mday + 1, tm_hour := 0, tm_min := 0 }
      ⟨a7, a8⟩ ⟨by simp; omega, by simp; omega⟩
  generalize month_overflow { c with tm_mday := c.tm_mday + 1, tm_hour := 0, tm_min := 0 } = t
    at h m1 m2 m3 m4 m5 m6 m7 m8 m9 m10 m11
  simp only [] at m1 m2 m3 m10 m11
  have hd : tm_days t = tm_days c + 1 := by
    rw [m9]; unfold tm_days days_from_civil; simp only []; omega
  subst h
  have hvc : valid_fields { t with
      tm_wday := calc_day_of_week_fast (t.tm_year + 1900) (t.tm_mon + 1) t.tm_mday } :=
    ⟨by simp; omega, by simp; omega, by simp; omega, by simp; omega, by simp; omega,
      by simp; omega, m5, m6, m7, m8⟩
  have hd' : tm_days { t with
      tm_wday := calc_day_of_week_fast (t.tm_year + 1900) (t.tm_mon + 1) t.tm_mday }
        = tm_days c + 1 := by
    rw [← hd]; exact tm_days_congr _ _ rfl rfl rfl
  refine ⟨hvc, by simp; omega, m10, ?_, ?_, ?_⟩
  · unfold civil_timestamp
    rw [hd']
    simp only []
    omega
  · intro hy
    exact calc_day_of_week_fast_eq _ _ _ hy ⟨by omega, by omega⟩ m7
  · intro hw u hu hlo hhi hmatch
    have hu' := hu.1
    obtain ⟨u1, u2, u3, u4, u5, u6, u7, u8, u9, u10⟩ := hu'
    have hdu : tm_days u = tm_days c := by
      unfold civil_timestamp at hlo hhi
      rw [hd'] at hhi
      simp only [] at hhi
      omega
    obtain ⟨e1, e2, e3⟩ := tm_days_inj u c hu.1 hv hdu
    have hwu : u.tm_wday = c.tm_wday := by
      have h1 := hu.2
      unfold wday_ok at h1 hw
      rw [h1, hw, hdu]
    rcases hbit hw with hb | hb
    · have := hmatch.2.2.1
      rw [e3, hb] at this
      exact Bool.noConfusion this
    · have := hmatch.2.2.2.2
      rw [hwu, hb] at this
      exact Bool.noConfusion this

/-- Step 3 of `jcron_next`: the jump to the next admissible hour. -/
theorem next_hour_step_spec (P : jcron_pattern_t) (c c1 : Tm)
    (hP : bits_in 0 23 P.hours) (hv : valid_fields c) (hs : c.tm_sec = 0)
    (hbit : P.hours.testBit c.tm_hour.toNat = false)
    (h : next_hour_step P c = LoopStep.next_iteration c1) :
    valid_fields c1 ∧ c1.tm_sec = 0 ∧ c.tm_year ≤ c1.tm_year ∧
      civil_timestamp c < civil_timestamp c1 ∧
      ((1 ≤ c.tm_year + 1900 → wday_ok c) → 1 ≤ c1.tm_year + 1900 → wday_ok c1) ∧
      skips P c c1 := by
  have hv' := hv
  obtain ⟨a1, a2, a3, a4, a5, a6, a7, a8, a9, a10⟩ := hv'
  unfold next_hour_step at h
  simp only [] at h
  rcases jcron_next_bit_32_spec P.hours (c.tm_hour + 1) (by omega) (by omega) with
    ⟨hnb, hclear⟩ | ⟨r, hnb, hr1, hr2, hset, hclear⟩
  · rw [hnb, if_pos (by omega)] at h
    unfold jcron_first_bit_32 at h
    rcases jcron_next_bit_32_spec P.hours 0 (by omega) (by omega) with
      ⟨hfb, _⟩ | ⟨r, hfb, _, hr2, hset, hclr0⟩
    · rw [hfb, if_pos (by omega)] at h
      exact LoopStep.noConfusion h
    · rw [hfb, if_neg (by omega)] at h
      have hr := hP r hset
      injection h with h
      obtain ⟨m1, m2, m3, m4, m5, m6, m7, m8, m9, m10, m11, _, _⟩ :=
        month_overflow_spec { c with tm_mday := c.tm_mday + 1 }
          ⟨a7, a8⟩ ⟨by simp; omega, by simp; omega⟩
      generalize month_overflow { c with tm_mday := c.tm_mday + 1 } = t
        at h m1 m2 m3 m4 m5 m6 m7 m8 m9 m10 m11
      simp only [] at m1 m2 m3 m10 m11
      have hd : tm_days t = tm_days c + 1 := by
        rw [m9]; unfold tm_days days_from_civil; simp only []; omega
      subst h
      have hvc : valid_fields { t with
          tm_wday := calc_day_of_week (t.tm_year + 1900) (t.tm_mon + 1) t.tm_mday,
          tm_hour := (r : Int), tm_min := 0 } :=
        ⟨by simp; omega, by simp; omega, by simp, by simp, by simp, by simp; omega,
          m5, m6, m7, m8⟩
      have hd' : tm_days { t with
          tm_wday := calc_day_of_week (t.tm_year + 1900) (t.tm_mon + 1) t.tm_mday,
          tm_hour := (r : Int), tm_min := 0 } = tm_days c + 1 := by
        rw [← hd]; exact tm_days_congr _ _ rfl rfl rfl
      refine ⟨hvc, by simp; omega, m10, ?_, ?_, ?_⟩
      · unfold civil_timestamp
        rw [hd']
        simp only []
        omega
      · intro _ hy
        exact calc_day_of_week_eq _ _ _ hy ⟨by omega, by omega⟩
      · intro u hu hlo hhi hmatch
        have hu' := hu.1
        obtain ⟨u1, u2, u3, u4, u5, u6, u7, u8, u9, u10⟩ := hu'
        have hm := hmatch.2.1
        unfold civil_timestamp at hlo hhi
        rw [hd'] at hhi
        simp only [] at hhi
        have hcase : (tm_days u = tm_days c ∧ c.tm_hour ≤ u.tm_hour) ∨
            (tm_days u = tm_days c + 1 ∧ u.tm_hour < (r : Int)) := by omega
        rcases hcase with ⟨_, hh⟩ | ⟨_, hh⟩
        · by_cases hsame : u.tm_hour = c.tm_hour
          · rw [hsame, hbit] at hm
            exact Bool.noConfusion hm
          · have := hclear u.tm_hour.toNat (by omega) (by omega)
            rw [this] at hm
            exact Bool.noConfusion hm
        · have := hclr0 u.tm_hour.toNat (by omega) (by omega)
          rw [this] at hm
          exact Bool.noConfusion hm
  · rw [hnb, if_neg (by omega)] at h
    have hr := hP r hset
    injection h with h
    subst h
    have hvc : valid_fields { c with tm_hour := (r : Int), tm_min := 0 } :=
      ⟨a1, a2, by simp, by simp, by simp, by simp; omega, a7, a8, a9, a10⟩
    have hd' : tm_days { c with tm_hour := (r : Int), tm_min := 0 } = tm_days c :=
      tm_days_congr _ _ rfl rfl rfl
    refine ⟨hvc, hs, le_refl _, ?_, ?_, ?_⟩
    · unfold civil_timestamp
      rw [hd']
      simp only []
      omega
    · intro hj hy
      have := hj hy
      unfold wday_ok at this ⊢
      rw [hd']
      exact this
    · intro u hu hlo hhi hmatch
      have hu' := hu.1
      obtain ⟨u1, u2, u3, u4, u5, u6, u7, u8, u9, u10⟩ := hu'
      have hm := hmatch.2.1
      unfold civil_timestamp at hlo hhi
      rw [hd'] at hhi
      simp only [] at hhi
      have hcase : c.tm_hour ≤ u.tm_hour ∧ u.tm_hour < (r : Int) := by omega
      by_cases hsame : u.tm_hour = c.tm_hour
      · rw [hsame, hbit] at hm
        exact Bool.noConfusion hm
      · have := hclear u.tm_hour.toNat (by omega) (by omega)
        rw [this] at hm
        exact Bool.noConfusion hm

/-- Step 4 of `jcron_next`: the jump to the next admissible minute. -/
theorem next_minute_step_spec (P : jcron_pattern_t) (c c1 : Tm)
    (hP : bits_in 0 59 P.minutes) (hv : valid_fields c) (hs : c.tm_sec = 0)
    (hbit : P.minutes.testBit c.tm_min.toNat = false)
    (h : next_minute_step P c = LoopStep.next_iteration c1) :
    valid_fields c1 ∧ c1.tm_sec = 0 ∧ c.tm_year ≤ c1.tm_year ∧
      civil_timestamp c < civil_timestamp c1 ∧
      ((1 ≤ c.tm_year + 1900 → wday_ok c) → 1 ≤ c1.tm_year + 1900 → wday_ok c1) ∧
      skips P c c1 := by
  have hv' := hv
  obtain ⟨a1, a2, a3, a4, a5, a6, a7, a8, a9, a10⟩ := hv'
  unfold next_minute_step at h
  simp only [] at h
  rcases jcron_next_bit_64_spec P.minutes (c.tm_min + 1) (by omega) (by omega) with
    ⟨hnb, hclear⟩ | ⟨r, hnb, hr1, hr2, hset, hclear⟩
  · rw [hnb, if_pos (by omega)] at h
    unfold jcron_first_bit_64 at h
    rcases jcron_next_bit_64_spec P.minutes 0 (by omega) (by omega) with
      ⟨hfb, _⟩ | ⟨r, hfb, _, hr2, hset, hclr0⟩
    · rw [hfb, if_pos (by omega)] at h
      exact LoopStep.noConfusion h
    · rw [hfb, if_neg (by omega)] at h
      have hr := hP r hset
      by_cases h23 : c.tm_hour + 1 > 23
      · rw [if_pos h23] at h
        injection h with h
        obtain ⟨m1, m2, m3, m4, m5, m6, m7, m8, m9, m10, m11, _, _⟩ :=
          month_overflow_spec { c with tm_hour := 0, tm_mday := c.tm_mday + 1 }
            ⟨a7, a8⟩ ⟨by simp; omega, by simp; omega⟩
        simp only [] at h
        generalize month_overflow
          { tm_sec := c.tm_sec, tm_min := c.tm_min, tm_hour := 0, tm_mday := c.tm_mday + 1,
            tm_mon := c.tm_mon, tm_year := c.tm_year, tm_wday := c.tm_wday } = t
          at h m1 m2 m3 m4 m5 m6 m7 m8 m9 m10 m11
        simp only [] at m1 m2 m3 m10 m11
        have hd : tm_days t = tm_days c + 1 := by
          rw [m9]; unfold tm_days days_from_civil; simp only []; omega
        subst h
        have hvc : valid_fields { t with
            tm_wday := calc_day_of_week (t.tm_year + 1900) (t.tm_mon + 1) t.tm_mday,
            tm_min := (r : Int) } :=
          ⟨by simp; omega, by simp; omega, by simp, by simp; omega, by simp; omega,
            by simp; omega, m5, m6, m7, m8⟩
        have hd' : tm_days { t with
            tm_wday := calc_day_of_week (t.tm_year + 1900) (t.tm_mon + 1) t.tm_mday,
            tm_min := (r : Int) } = tm_days c + 1 := by
          rw [← hd]; exact tm_days_congr _ _ rfl rfl rfl
        refine ⟨hvc, by simp; omega, m10, ?_, ?_, ?_⟩
        · unfold civil_timestamp
          rw [hd']
          simp only []
          omega
        · intro _ hy
          exact calc_day_of_week_eq _ _ _ hy ⟨by omega, by omega⟩
        · intro u hu hlo hhi hmatch
          have hu' := hu.1
          obtain ⟨u1, u2, u3, u4, u5, u6, u7, u8, u9, u10⟩ := hu'
          have hm := hmatch.1
          unfold civil_timestamp at hlo hhi
          rw [hd'] at hhi
          simp only [] at hhi
          have hcase : (c.tm_min ≤ u.tm_min) ∨ (u.tm_min < (r : Int)) := by omega
          rcases hcase with hh | hh
          · by_cases hsame : u.tm_min = c.tm_min
            · rw [hsame, hbit] at hm
              exact Bool.noConfusion hm
            · have := hclear u.tm_min.toNat (by omega) (by omega)
              rw [this] at hm
              exact Bool.noConfusion hm
          · have := hclr0 u.tm_min.toNat (by omega) (by omega)
            rw [this] at hm
            exact Bool.noConfusion hm
      · rw [if_neg h23] at h
        injection h with h
        subst h
        have hvc : valid_fields { c with tm_hour := c.tm_hour + 1, tm_min := (r : Int) } :=
          ⟨a1, a2, by simp, by simp; omega, by simp; omega, by simp; omega, a7, a8, a9, a10⟩
        have hd' : tm_days { c with tm_hour := c.tm_hour + 1, tm_min := (r : Int) }
            = tm_days c := tm_days_congr _ _ rfl rfl rfl
        refine ⟨hvc, hs, le_refl _, ?_, ?_, ?_⟩
        · unfold civil_timestamp
          rw [hd']
          simp only []
          omega
        · intro hj hy
          have := hj hy
          unfold wday_ok at this ⊢
          rw [hd']
          exact this
        · intro u hu hlo hhi hmatch
          have hu' := hu.1
          obtain ⟨u1, u2, u3, u4, u5, u6, u7, u8, u9, u10⟩ := hu'
          have hm := hmatch.1
          unfold civil_timestamp at hlo hhi
          rw [hd'] at hhi
          simp only [] at hhi
          have hcase : (c.tm_min ≤ u.tm_min) ∨ (u.tm_min < (r : Int)) := by omega
          rcases hcase with hh | hh
          · by_cases hsame : u.tm_min = c.tm_min
            · rw [hsame, hbit] at hm
              exact Bool.noConfusion hm
            · have := hclear u.tm_min.toNat (by omega) (by omega)
              rw [this] at hm
              exact Bool.noConfusion hm
          · have := hclr0 u.tm_min.toNat (by omega) (by omega)
            rw [this] at hm
            exact Bool.noConfusion hm
  · rw [hnb, if_neg (by omega)] at h
    have hr := hP r hset
    injection h with h
    subst h
    have hvc : valid_fields { c with tm_min := (r : Int) } :=
      ⟨a1, a2, by simp, by simp; omega, a5, a6, a7, a8, a9, a10⟩
    have hd' : tm_days { c with tm_min := (r : Int) } = tm_days c :=
      tm_days_congr _ _ rfl rfl rfl
    refine ⟨hvc, hs, le_refl _, ?_, ?_, ?_⟩
    · unfold civil_timestamp
      rw [hd']
      simp only []
      omega
    · intro hj hy
      have := hj hy
      unfold wday_ok at this ⊢
      rw [hd']
      exact this
    · intro u hu hlo hhi hmatch
      have hu' := hu.1
      obtain ⟨u1, u2, u3, u4, u5, u6, u7, u8, u9, u10⟩ := hu'
      have hm := hmatch.1
      unfold civil_timestamp at hlo hhi
      rw [hd'] at hhi
      simp only [] at hhi
      have hcase : c.tm_min ≤ u.tm_min ∧ u.tm_min < (r : Int) := by omega
      by_cases hsame : u.tm_min = c.tm_min
      · rw [hsame, hbit] at hm
        exact Bool.noConfusion hm
      · have := hclear u.tm_min.toNat (by omega) (by omega)
        rw [this] at hm
        exact Bool.noConfusion hm

/-! ## The loop of the forward solver -/

theorem next_body_step (P : jcron_pattern_t) (c c1 : Tm) (hP : mask_ranges P)
    (hv : valid_fields c) (hs : c.tm_sec = 0)
    (h : next_body P c = LoopStep.next_iteration c1) :
    valid_fields c1 ∧ c1.tm_sec = 0 ∧ c.tm_year ≤ c1.tm_year ∧
      civil_timestamp c < civil_timestamp c1 ∧
      ((1 ≤ c.tm_year + 1900 → wday_ok c) → 1 ≤ c1.tm_year + 1900 → wday_ok c1) ∧
      (wday_ok c → skips P c c1) := by
  have hv' := hv
  obtain ⟨a1, a2, a3, a4, a5, a6, a7, a8, a9, a10⟩ := hv'
  obtain ⟨p1, p2, p3, p4, p5⟩ := hP
  have hdim := jcron_days_in_month_bounds (c.tm_year + 1900) (c.tm_mon + 1) (by omega) (by omega)
  unfold next_body at h
  rw [shift_count_32 (c.tm_mon + 1) (by omega) (by omega)] at h
  split at h
  · rename_i hm
    rw [land_one_shiftLeft_eq_zero_iff] at hm
    obtain ⟨b1, b2, b3, b4, b5, b6⟩ := next_month_step_spec P c c1 p4 hv hs hm h
    exact ⟨b1, b2, b3, b4, fun _ => b5, fun _ => b6⟩
  · split at h
    · rename_i hd
      rw [jcron_test_bit_32_eq _ _ (by omega) (by omega)] at hd
      have hbit : wday_ok c → (P.days_of_month.testBit c.tm_mday.toNat = false ∨
          P.days_of_week.testBit c.tm_wday.toNat = false) := by
        intro hw
        obtain ⟨w1, w2⟩ := wday_ok_range hw
        rw [shift_count_32 c.tm_wday w1 (by omega)] at hd
        rw [Bool.or_eq_true] at hd
        rcases hd with hd | hd
        · left; simpa using hd
        · right
          rw [decide_eq_true_eq, land_one_shiftLeft_eq_zero_iff] at hd
          exact hd
      obtain ⟨b1, b2, b3, b4, b5, b6⟩ := next_day_step_spec P c c1 hv hs hbit h
      exact ⟨b1, b2, b3, b4, fun _ => b5, b6⟩
    · split at h
      · rename_i hh
        rw [jcron_test_bit_32_eq _ _ (by omega) (by omega)] at hh
        have hbit : P.hours.testBit c.tm_hour.toNat = false := by simpa using hh
        obtain ⟨b1, b2, b3, b4, b5, b6⟩ := next_hour_step_spec P c c1 p2 hv hs hbit h
        exact ⟨b1, b2, b3, b4, b5, fun _ => b6⟩
      · split at h
        · rename_i hmi
          rw [jcron_test_bit_64_eq _ _ (by omega) (by omega)] at hmi
          have hbit : P.minutes.testBit c.tm_min.toNat = false := by simpa using hmi
          obtain ⟨b1, b2, b3, b4, b5, b6⟩ := next_minute_step_spec P c c1 p1 hv hs hbit h
          exact ⟨b1, b2, b3, b4, b5, fun _ => b6⟩
        · exact LoopStep.noConfusion h

theorem next_body_found_eq (P : jcron_pattern_t) (c c1 : Tm)
    (h : next_body P c = LoopStep.found c1) : c1 = c := by
  unfold next_body at h
  split at h
  · unfold next_month_step at h
    simp only [] at h
    split at h
    · split at h <;> exact LoopStep.noConfusion h
    · exact LoopStep.noConfusion h
  · split at h
    · exact LoopStep.noConfusion h
    · split at h
      · unfold next_hour_step at h
        simp only [] at h
        split at h
        · split at h <;> exact LoopStep.noConfusion h
        · exact LoopStep.noConfusion h
      · split at h
        · unfold next_minute_step at h
          simp only [] at h
          split at h
          · split at h <;> exact LoopStep.noConfusion h
          · exact LoopStep.noConfusion h
        · injection h with h
          exact h.symm

/-- A record on which the loop body of `jcron_next` stops satisfies the masks, the weekday
being read as the shift count of the test, `tm_wday` modulo 32. -/
theorem next_body_found (P : jcron_pattern_t) (c c1 : Tm) (hv : valid_fields c)
    (h : next_body P c = LoopStep.found c1) :
    c1 = c ∧ fields_match P { c with tm_wday := c.tm_wday % 32 } := by
  obtain ⟨a1, a2, a3, a4, a5, a6, a7, a8, a9, a10⟩ := hv
  have hdim := jcron_days_in_month_bounds (c.tm_year + 1900) (c.tm_mon + 1) (by omega) (by omega)
  refine ⟨next_body_found_eq P c c1 h, ?_⟩
  unfold next_body at h
  rw [shift_count_32 (c.tm_mon + 1) (by omega) (by omega)] at h
  split at h
  · unfold next_month_step at h
    simp only [] at h
    split at h
    · split at h <;> exact LoopStep.noConfusion h
    · exact LoopStep.noConfusion h
  · rename_i hm
    split at h
    · exact LoopStep.noConfusion h
    · rename_i hd
      split at h
      · unfold next_hour_step at h
        simp only [] at h
        split at h
        · split at h <;> exact LoopStep.noConfusion h
        · exact LoopStep.noConfusion h
      · rename_i hh
        split at h
        · unfold next_minute_step at h
          simp only [] at h
          split at h
          · split at h <;> exact LoopStep.noConfusion h
          · exact LoopStep.noConfusion h
        · rename_i hmi
          rw [land_one_shiftLeft_eq_zero_iff] at hm
          rw [jcron_test_bit_32_eq _ _ (by omega) (by omega)] at hd hh
          rw [jcron_test_bit_64_eq _ _ (by omega) (by omega)] at hmi
          rw [Bool.or_eq_true, decide_eq_true_eq, land_one_shiftLeft_eq_zero_iff] at hd
          refine ⟨?_, ?_, ?_, ?_, ?_⟩
          · simpa using hmi
          · simpa using hh
          · by_contra hc; exact hd (Or.inl (by simpa using hc))
          · simpa using hm
          · by_contra hc; exact hd (Or.inr (by simpa using hc))

theorem fields_match_wday (P : jcron_pattern_t) (c : Tm) (hw : wday_ok c)
    (h : fields_match P { c with tm_wday := c.tm_wday % 32 }) : fields_match P c := by
  obtain ⟨w1, w2⟩ := wday_ok_range hw
  have e : c.tm_wday % 32 = c.tm_wday := by omega
  unfold fields_match at h ⊢
  simp only [] at h
  rw [e] at h
  exact h

theorem skips_trans (P : jcron_pattern_t) (a b c : Tm) (h1 : skips P a b) (h2 : skips P b c) :
    skips P a c := by
  intro u hu hlo hhi
  by_cases hub : civil_timestamp u < civil_timestamp b
  · exact h1 u hu hlo hub
  · exact h2 u hu (by omega) hhi

theorem skips_refl (P : jcron_pattern_t) (a : Tm) : skips P a a := by
  intro u _ hlo hhi
  omega

/-- The loop of `jcron_next`: when it ends on a record, the record is a valid calendar
instant not before the start, it satisfies all masks, and nothing in between does. -/
theorem next_loop_spec (P : jcron_pattern_t) (hP : mask_ranges P) :
    ∀ (n : Nat) (c cf : Tm), valid_fields c → c.tm_sec = 0 →
      (1 ≤ c.tm_year + 1900 → wday_ok c) → next_loop P n c = Except.ok cf →
      valid_fields cf ∧ cf.tm_sec = 0 ∧ c.tm_year ≤ cf.tm_year ∧
        (1 ≤ cf.tm_year + 1900 → wday_ok cf) ∧
        civil_timestamp c ≤ civil_timestamp cf ∧
        fields_match P { cf with tm_wday := cf.tm_wday % 32 } ∧
        (1 ≤ c.tm_year + 1900 → skips P c cf) := by
  intro n
  induction n with
  | zero => intro c cf _ _ _ h; exact Except.noConfusion h
  | succ k ih =>
    intro c cf hv hs hw h
    unfold next_loop at h
    split at h
    · rename_i c1 hb
      obtain ⟨b1, b2, b3, b4, b5, b6⟩ := next_body_step P c c1 hP hv hs hb
      obtain ⟨d1, d2, d3, d4, d5, d6, d7⟩ := ih c1 cf b1 b2 (b5 hw) h
      refine ⟨d1, d2, by omega, d4, by omega, d6, fun hy => ?_⟩
      exact skips_trans P c c1 cf (b6 (hw hy)) (d7 (by omega))
    · exact Except.noConfusion h
    · rename_i c1 hb
      obtain ⟨e1, e2⟩ := next_body_found P c c1 hv hb
      injection h with h
      subst h
      subst e1
      exact ⟨hv, hs, le_refl _, hw, le_refl _, e2, fun _ => skips_refl P _⟩

theorem next_loop_error (P : jcron_pattern_t) :
    ∀ (n : Nat) (c : Tm) (code : Int), next_loop P n c = Except.error code →
      code = JCRON_ERR_NO_MATCH := by
  intro n
  induction n with
  | zero => intro c code h; unfold next_loop at h; injection h with h; exact h.symm
  | succ k ih =>
    intro c code h
    unfold next_loop at h
    split at h
    · exact ih _ _ h
    · rename_i code1 hb
      injection h with h
      subst h
      unfold next_body at hb
      split at hb
      · unfold next_month_step at hb
        simp only [] at hb
        split at hb
        · split at hb
          · injection hb with hb; exact hb.symm
          · exact LoopStep.noConfusion hb
        · exact LoopStep.noConfusion hb
      · split at hb
        · exact LoopStep.noConfusion hb
        · split at hb
          · unfold next_hour_step at hb
            simp only [] at hb
            split at hb
            · split at hb
              · injection hb with hb; exact hb.symm
              · exact LoopStep.noConfusion hb
            · exact LoopStep.noConfusion hb
          · split at hb
            · unfold next_minute_step at hb
              simp only [] at hb
              split at hb
              · split at hb
                · injection hb with hb; exact hb.symm
                · exact LoopStep.noConfusion hb
              · exact LoopStep.noConfusion hb
            · exact LoopStep.noConfusion hb
    · exact Except.noConfusion h

/-- The record from which the solvers start: the decomposition of the reference instant with
the seconds cleared. -/
theorem start_record_spec (t0 : Int) :
    valid_fields { timestamp_to_tm t0 with tm_sec := 0 } ∧
      wday_ok { timestamp_to_tm t0 with tm_sec := 0 } ∧
      civil_timestamp { timestamp_to_tm t0 with tm_sec := 0 } = t0 - t0 % 60 := by
  obtain ⟨⟨hv, hw⟩, he⟩ := timestamp_to_tm_spec t0
  obtain ⟨a1, a2, a3, a4, a5, a6, a7, a8, a9, a10⟩ := hv
  refine ⟨⟨by simp, by simp, a3, a4, a5, a6, a7, a8, a9, a10⟩, ?_, ?_⟩
  · unfold wday_ok at hw ⊢
    rw [tm_days_congr { timestamp_to_tm t0 with tm_sec := 0 } (timestamp_to_tm t0) rfl rfl rfl]
    exact hw
  · have hsec : (timestamp_to_tm t0).tm_sec = t0 % 60 := by
      simp only [timestamp_to_tm]
      omega
    unfold civil_timestamp at he ⊢
    rw [tm_days_congr { timestamp_to_tm t0 with tm_sec := 0 } (timestamp_to_tm t0) rfl rfl rfl]
    simp only []
    omega

/-! ## A bound on the years the forward solver can cross -/

theorem year_potential_congr (P : jcron_pattern_t) (a b : Tm) (h1 : a.tm_year = b.tm_year)
    (h2 : a.tm_mon = b.tm_mon) (h3 : a.tm_mday = b.tm_mday) :
    year_potential P a = year_potential P b := by
  unfold year_potential month_credit
  rw [h1, h2, h3]

theorem month_credit_bounds (P : jcron_pattern_t) (c : Tm) (h : 1 ≤ c.tm_mday) :
    0 ≤ month_credit P c ∧ month_credit P c ≤ 29 := by
  unfold month_credit
  split
  · have := min_le_right c.tm_mday 28
    have := le_min h (by norm_num : (1 : Int) ≤ 28)
    omega
  · split <;> omega

/-- The potential after a day has been added and the month overflow check applied. -/
theorem potential_after_overflow (P : jcron_pattern_t) (c t : Tm)
    (hv : valid_fields c) (hset : P.months.testBit (c.tm_mon + 1).toNat = true)
    (ht : (t.tm_mday = 1 ∧
        c.tm_mday + 1 = jcron_days_in_month (c.tm_year + 1900) (c.tm_mon + 1) + 1 ∧
        ((t.tm_year = c.tm_year ∧ t.tm_mon = c.tm_mon + 1) ∨
          (t.tm_year = c.tm_year + 1 ∧ t.tm_mon = 0 ∧ c.tm_mon = 11))) ∨
      (t.tm_mon = c.tm_mon ∧ t.tm_year = c.tm_year ∧ t.tm_mday = c.tm_mday + 1)) :
    year_potential P t ≤ year_potential P c + 3 := by
  obtain ⟨a1, a2, a3, a4, a5, a6, a7, a8, a9, a10⟩ := hv
  have hdim := jcron_days_in_month_bounds (c.tm_year + 1900) (c.tm_mon + 1) (by omega) (by omega)
  have hc : month_credit P c = min c.tm_mday 28 := by
    unfold month_credit; rw [if_pos hset]
  rcases ht with ⟨t1, t2, t3⟩ | ⟨t1, t2, t3⟩
  · have hc28 : month_credit P c = 28 := by
      rw [hc]; exact min_eq_right (by omega)
    rcases t3 with ⟨t4, t5⟩ | ⟨t4, t5, t6⟩
    · have := month_credit_bounds P t (by omega)
      unfold year_potential
      omega
    · have hle : month_credit P t ≤ 1 := by
        unfold month_credit
        split
        · rw [t1]; exact min_le_left _ _
        · split
          · rename_i hnb
            rcases jcron_next_bit_32_spec P.months (t.tm_mon + 2) (by omega) (by omega) with
              ⟨_, hclear⟩ | ⟨r, hr, _⟩
            · have := hclear (c.tm_mon + 1).toNat (by omega) (by omega)
              rw [this] at hset
              exact Bool.noConfusion hset
            · omega
          · omega
      unfold year_potential
      omega
  · have hle : month_credit P t ≤ month_credit P c + 1 := by
      rw [hc]
      unfold month_credit
      rw [t1, if_pos hset, t3]
      have h1 := min_le_left (c.tm_mday + 1) 28
      have h2 := min_le_right (c.tm_mday + 1) 28
      rcases le_total c.tm_mday 28 with h | h
      · rw [min_eq_left h]; omega
      · rw [min_eq_right h]; omega
    unfold year_potential
    omega

theorem overflow_shape (c : Tm) (x : Tm) (hv : valid_fields c)
    (hx : x.tm_mday = c.tm_mday + 1 ∧ x.tm_mon = c.tm_mon ∧ x.tm_year = c.tm_year) :
    ((month_overflow x).tm_mday = 1 ∧
        c.tm_mday + 1 = jcron_days_in_month (c.tm_year + 1900) (c.tm_mon + 1) + 1 ∧
        (((month_overflow x).tm_year = c.tm_year ∧ (month_overflow x).tm_mon = c.tm_mon + 1) ∨
          ((month_overflow x).tm_year = c.tm_year + 1 ∧ (month_overflow x).tm_mon = 0 ∧
            c.tm_mon = 11))) ∨
      ((month_overflow x).tm_mon = c.tm_mon ∧ (month_overflow x).tm_year = c.tm_year ∧
        (month_overflow x).tm_mday = c.tm_mday + 1) := by
  obtain ⟨a1, a2, a3, a4, a5, a6, a7, a8, a9, a10⟩ := hv
  obtain ⟨x1, x2, x3⟩ := hx
  have := (month_overflow_spec x ⟨by omega, by omega⟩
    ⟨by omega, by rw [x1, x2, x3]; omega⟩).2.2.2.2.2.2.2.2.2.2.2.2
  rw [x1, x2, x3] at this
  exact this

/-- One pass through the loop body raises the potential by at most 3. -/
theorem next_body_potential (P : jcron_pattern_t) (c c1 : Tm) (hP : mask_ranges P)
    (hv : valid_fields c) (h : next_body P c = LoopStep.next_iteration c1) :
    year_potential P c1 ≤ year_potential P c + 3 := by
  have hv' := hv
  obtain ⟨a1, a2, a3, a4, a5, a6, a7, a8, a9, a10⟩ := hv'
  obtain ⟨p1, p2, p3, p4, p5⟩ := hP
  unfold next_body at h
  rw [shift_count_32 (c.tm_mon + 1) (by omega) (by omega)] at h
  split at h
  · rename_i hm
    rw [land_one_shiftLeft_eq_zero_iff] at hm
    have hcr : month_credit P c =
        if jcron_next_bit_32 P.months (c.tm_mon + 2) < 0 then 29 else 0 := by
      unfold month_credit
      rw [if_neg (by rw [hm]; exact Bool.noConfusion)]
    unfold next_month_step at h
    simp only [] at h
    rcases jcron_next_bit_32_spec P.months (c.tm_mon + 2) (by omega) (by omega) with
      ⟨hnb, hclear⟩ | ⟨r, hnb, hr1, hr2, hset, hclear⟩
    · rw [hnb, if_pos (by omega)] at h
      rw [hnb, if_pos (by omega)] at hcr
      unfold jcron_first_bit_32 at h
      rcases jcron_next_bit_32_spec P.months 0 (by omega) (by omega) with
        ⟨hfb, _⟩ | ⟨r, hfb, _, hr2, hset, hclr0⟩
      · rw [hfb, if_pos (by omega)] at h
        exact LoopStep.noConfusion h
      · rw [hfb, if_neg (by omega)] at h
        have hr := p4 r hset
        injection h with h
        subst h
        unfold year_potential
        rw [hcr]
        unfold month_credit
        simp only []
        have e : ((r : Int) - 1 + 1).toNat = r := by omega
        rw [e, if_pos hset]
        have := min_le_left (1 : Int) 28
        omega
    · rw [hnb, if_neg (by omega)] at h
      rw [hnb, if_neg (by omega)] at hcr
      have hr := p4 r hset
      injection h with h
      subst h
      unfold year_potential
      rw [hcr]
      unfold month_credit
      simp only []
      have e : ((r : Int) - 1 + 1).toNat = r := by omega
      rw [e, if_pos hset]
      have := min_le_left (1 : Int) 28
      omega
  · rename_i hm
    have hset : P.months.testBit (c.tm_mon + 1).toNat = true := by
      rw [land_one_shiftLeft_eq_zero_iff] at hm
      simpa using hm
    split at h
    · unfold next_day_step at h
      simp only [] at h
      injection h with h
      subst h
      have := potential_after_overflow P c _ hv hset
        (overflow_shape c { c with tm_mday := c.tm_mday + 1, tm_hour := 0, tm_min := 0 } hv
          ⟨rfl, rfl, rfl⟩)
      exact le_trans (le_of_eq (year_potential_congr P _ _ rfl rfl rfl)) this
    · split at h
      · unfold next_hour_step at h
        simp only [] at h
        split at h
        · split at h
          · exact LoopStep.noConfusion h
          · injection h with h
            subst h
            have := potential_after_overflow P c _ hv hset
              (overflow_shape c { c with tm_mday := c.tm_mday + 1 } hv ⟨rfl, rfl, rfl⟩)
            exact le_trans (le_of_eq (year_potential_congr P _ _ rfl rfl rfl)) this
        · injection h with h
          subst h
          exact le_trans (le_of_eq (year_potential_congr P _ c rfl rfl rfl)) (by omega)
      · split at h
        · unfold next_minute_step at h
          simp only [] at h
          split at h
          · split at h
            · exact LoopStep.noConfusion h
            · split at h
              · injection h with h
                subst h
                have := potential_after_overflow P c _ hv hset
                  (overflow_shape c { c with tm_hour := 0, tm_mday := c.tm_mday + 1 } hv
                    ⟨rfl, rfl, rfl⟩)
                exact le_trans (le_of_eq (year_potential_congr P _ _ rfl rfl rfl)) this
              · injection h with h
                subst h
                exact le_trans (le_of_eq (year_potential_congr P _ c rfl rfl rfl)) (by omega)
          · injection h with h
            subst h
            exact le_trans (le_of_eq (year_potential_congr P _ c rfl rfl rfl)) (by omega)
        · exact LoopStep.noConfusion h

theorem next_loop_potential (P : jcron_pattern_t) (hP : mask_ranges P) :
    ∀ (n : Nat) (c cf : Tm), valid_fields c → c.tm_sec = 0 →
      next_loop P n c = Except.ok cf →
      year_potential P cf ≤ year_potential P c + 3 * (n : Int) := by
  intro n
  induction n with
  | zero => intro c cf _ _ h; exact Except.noConfusion h
  | succ k ih =>
    intro c cf hv hs h
    unfold next_loop at h
    split at h
    · rename_i c1 hb
      obtain ⟨b1, b2, _⟩ := next_body_step P c c1 hP hv hs hb
      have h1 := next_body_potential P c c1 hP hv hb
      have h2 := ih c1 cf b1 b2 h
      push_cast
      omega
    · exact Except.noConfusion h
    · rename_i c1 hb
      have e1 := next_body_found_eq P c c1 hb
      injection h with h
      subst h
      subst e1
      push_cast
      omega

/-- Within its 10000 passes the loop crosses at most 1000 years. -/
theorem next_loop_year_bound (P : jcron_pattern_t) (hP : mask_ranges P) (c cf : Tm)
    (hv : valid_fields c) (hs : c.tm_sec = 0) (hw : 1 ≤ c.tm_year + 1900 → wday_ok c)
    (h : next_loop P 10000 c = Except.ok cf) :
    cf.tm_year ≤ c.tm_year + 1000 := by
  have h1 := next_loop_potential P hP 10000 c cf hv hs h
  obtain ⟨d1, _⟩ := next_loop_spec P hP 10000 c cf hv hs hw h
  have h2 := month_credit_bounds P cf d1.2.2.2.2.2.2.2.2.1
  have h3 := month_credit_bounds P c hv.2.2.2.2.2.2.2.2.1
  unfold year_potential at h1
  push_cast at h1
  omega

/-! ## The forward solver `jcron_next` -/

/-- When `jcron_next` returns `JCRON_OK`, its loop ended on a record and `next_time` is the
table-accelerated timestamp of that record. -/
theorem jcron_next_ok (t0 : Int) (P : jcron_pattern_t)
    (hok : (jcron_next t0 P).1 = JCRON_OK) :
    P.has_cron ≠ 0 ∧ ∃ tm1 : Tm,
      next_loop P 10000 { timestamp_to_tm t0 with tm_sec := 0 } = Except.ok tm1 ∧
      (jcron_next t0 P).2.next_time = tm_to_timestamp_ultra_fast tm1 := by
  unfold jcron_next at hok ⊢
  simp only [] at hok ⊢
  split at hok
  · exact absurd hok (by decide)
  · rename_i hc
    refine ⟨hc, ?_⟩
    rw [if_neg hc]
    split at hok
    · rename_i code hl
      have := next_loop_error P _ _ _ hl
      rw [this] at hok
      exact absurd hok (by decide)
    · rename_i tm1 hl
      exact ⟨tm1, hl, rfl⟩

/-- The common core of the properties of `jcron_next`: the record on which the loop ended. -/
theorem jcron_next_core (P : jcron_pattern_t) (hP : mask_ranges P) (t0 : Int) (tm1 : Tm)
    (hl : next_loop P 10000 { timestamp_to_tm t0 with tm_sec := 0 } = Except.ok tm1)
    (hy : 1970 ≤ tm1.tm_year + 1900 ∧ tm1.tm_year + 1900 ≤ 2099) :
    valid_tm tm1 ∧ tm1.tm_sec = 0 ∧ fields_match P tm1 ∧
      tm_to_timestamp_ultra_fast tm1 = civil_timestamp tm1 ∧
      t0 - t0 % 60 ≤ civil_timestamp tm1 ∧
      skips P { timestamp_to_tm t0 with tm_sec := 0 } tm1 := by
  obtain ⟨s1, s2, s3⟩ := start_record_spec t0
  obtain ⟨d1, d2, d3, d4, d5, d6, d7⟩ :=
    next_loop_spec P hP 10000 _ tm1 s1 rfl (fun _ => s2) hl
  have hb := next_loop_year_bound P hP _ tm1 s1 rfl (fun _ => s2) hl
  refine ⟨⟨d1, d4 (by omega)⟩, d2, fields_match_wday P tm1 (d4 (by omega)) d6, ?_, by omega,
    d7 (by omega)⟩
  exact tm_to_timestamp_ultra_fast_eq tm1 hy ⟨d1.2.2.2.2.2.2.1, d1.2.2.2.2.2.2.2.1⟩

theorem civil_timestamp_mod (tm : Tm) (h : tm.tm_sec = 0) : civil_timestamp tm % 60 = 0 := by
  unfold civil_timestamp
  omega


/-! ## The backward solver `jcron_prev` -/

/-- From 1969 on the closed-form conversion is exact. -/
theorem tm_to_timestamp_legacy_eq (tm : Tm) (hy : 1969 ≤ tm.tm_year + 1900)
    (hm : 0 ≤ tm.tm_mon ∧ tm.tm_mon ≤ 11) :
    tm_to_timestamp_legacy tm = civil_timestamp tm := by
  have hmc : tm.tm_mon + 1 = 1 ∨ tm.tm_mon + 1 = 2 ∨ tm.tm_mon + 1 = 3 ∨ tm.tm_mon + 1 = 4 ∨
      tm.tm_mon + 1 = 5 ∨ tm.tm_mon + 1 = 6 ∨ tm.tm_mon + 1 = 7 ∨ tm.tm_mon + 1 = 8 ∨
      tm.tm_mon + 1 = 9 ∨ tm.tm_mon + 1 = 10 ∨ tm.tm_mon + 1 = 11 ∨ tm.tm_mon + 1 = 12 := by
    omega
  unfold tm_to_timestamp_legacy civil_timestamp tm_days days_from_civil days_before_year
    days_before_month leap_day
  simp only [ne_eq, tmod_eq_zero_iff]
  rw [tdiv_of_nonneg _ 4 (by omega) (by omega), tdiv_of_nonneg _ 100 (by omega) (by omega),
    tdiv_of_nonneg _ 400 (by omega) (by omega)]
  rcases hmc with h | h | h | h | h | h | h | h | h | h | h | h <;> rw [h]
  · have ht : month_days.getD ((1 : Int) - 1).toNat 0 = 0 := by decide
    rw [ht]
    split_ifs <;> omega
  · have ht : month_days.getD ((2 : Int) - 1).toNat 0 = 31 := by decide
    rw [ht]
    split_ifs <;> omega
  · have ht : month_days.getD ((3 : Int) - 1).toNat 0 = 59 := by decide
    rw [ht]
    split_ifs <;> omega
  · have ht : month_days.getD ((4 : Int) - 1).toNat 0 = 90 := by decide
    rw [ht]
    split_ifs <;> omega
  · have ht : month_days.getD ((5 : Int) - 1).toNat 0 = 120 := by decide
    rw [ht]
    split_ifs <;> omega
  · have ht : month_days.getD ((6 : Int) - 1).toNat 0 = 151 := by decide
    rw [ht]
    split_ifs <;> omega
  · have ht : month_days.getD ((7 : Int) - 1).toNat 0 = 181 := by decide
    rw [ht]
    split_ifs <;> omega
  · have ht : month_days.getD ((8 : Int) - 1).toNat 0 = 212 := by decide
    rw [ht]
    split_ifs <;> omega
  · have ht : month_days.getD ((9 : Int) - 1).toNat 0 = 243 := by decide
    rw [ht]
    split_ifs <;> omega
  · have ht : month_days.getD ((10 : Int) - 1).toNat 0 = 273 := by decide
    rw [ht]
    split_ifs <;> omega
  · have ht : month_days.getD ((11 : Int) - 1).toNat 0 = 304 := by decide
    rw [ht]
    split_ifs <;> omega
  · have ht : month_days.getD ((12 : Int) - 1).toNat 0 = 334 := by decide
    rw [ht]
    split_ifs <;> omega

theorem tm_to_timestamp_select_eq (tm : Tm)
    (hy : 1969 ≤ tm.tm_year + 1900 ∧ tm.tm_year + 1900 ≤ 2099)
    (hm : 0 ≤ tm.tm_mon ∧ tm.tm_mon ≤ 11) :
    tm_to_timestamp_select tm = civil_timestamp tm := by
  unfold tm_to_timestamp_select
  split
  · exact tm_to_timestamp_ultra_fast_eq tm ⟨by omega, hy.2⟩ hm
  · exact tm_to_timestamp_legacy_eq tm hy.1 hm

/-- Without a modifier (both types at their sentinel) the post-processing is the identity. -/
theorem apply_sod_eod_modifiers_none (t : Int) (P : jcron_pattern_t)
    (h : P.sod_type < 0 ∧ P.eod_type < 0) : apply_sod_eod_modifiers t P = t := by
  unfold apply_sod_eod_modifiers
  simp only []
  rw [if_neg (by omega), if_neg (by omega), if_neg (by omega)]

/-- A record with valid fields whose timestamp is not before 1969 lies in 1969 or later. -/
theorem year_ge_of_civil (c : Tm) (hv : valid_fields c)
    (h : -31536000 ≤ civil_timestamp c) : 1969 ≤ c.tm_year + 1900 := by
  by_contra hc
  have hb : valid_fields ⟨0, 0, 0, 1, 0, 69, 3⟩ := by
    refine ⟨by decide, by decide, by decide, by decide, by decide, by decide, by decide,
      by decide, by decide, by decide⟩
  have := civil_lt_of_month_lt c ⟨0, 0, 0, 1, 0, 69, 3⟩ hv hb (Or.inl (by simp only []; omega))
  have e : civil_timestamp ⟨0, 0, 0, 1, 0, 69, 3⟩ = -31536000 := by decide
  omega

/-- A record with valid fields whose timestamp is before 2100 lies in 2099 or earlier. -/
theorem year_le_of_civil (c : Tm) (hv : valid_fields c)
    (h : civil_timestamp c < 4102444800) : c.tm_year + 1900 ≤ 2099 := by
  by_contra hc
  have hb : valid_fields ⟨0, 0, 0, 1, 0, 200, 5⟩ := by
    refine ⟨by decide, by decide, by decide, by decide, by decide, by decide, by decide,
      by decide, by decide, by decide⟩
  have hmon := hv.2.2.2.2.2.2.1
  have := civil_ge_month_start c ⟨0, 0, 0, 1, 0, 200, 5⟩ hv hb ⟨rfl, rfl, rfl, rfl⟩
    (by simp only []; omega)
  have e : civil_timestamp ⟨0, 0, 0, 1, 0, 200, 5⟩ = 4102444800 := by decide
  omega

/-- The first half of the loop body of `jcron_prev` moves a valid record one minute back. -/
theorem prev_minute_spec (c : Tm) (hv : valid_tm c) (hy : 2 ≤ c.tm_year + 1900) :
    valid_tm (prev_minute c) ∧ civil_timestamp (prev_minute c) = civil_timestamp c - 60 ∧
      (prev_minute c).tm_sec = c.tm_sec := by
  obtain ⟨hf, hw⟩ := hv
  obtain ⟨a1, a2, a3, a4, a5, a6, a7, a8, a9, a10⟩ := hf
  unfold prev_minute
  simp only []
  split
  · rename_i hmin
    split
    · rename_i hhour
      split
      · rename_i hday
        split
        · rename_i hmon
          -- back into December of the previous year
          have hdim : jcron_days_in_month (c.tm_year - 1 + 1900) (11 + 1) = 31 := by
            unfold jcron_days_in_month; simp
          have hd : tm_days
              { tm_sec := c.tm_sec, tm_min := 59, tm_hour := 23,
                tm_mday := jcron_days_in_month (c.tm_year - 1 + 1900) (11 + 1),
                tm_mon := 11, tm_year := c.tm_year - 1,
                tm_wday := calc_day_of_week (c.tm_year - 1 + 1900) (11 + 1)
                  (jcron_days_in_month (c.tm_year - 1 + 1900) (11 + 1)) } = tm_days c - 1 := by
            have hs := days_before_year_succ (c.tm_year - 1 + 1900)
            have hl := leap_day_cases (c.tm_year - 1 + 1900)
            have e : c.tm_year - 1 + 1900 + 1 = c.tm_year + 1900 := by omega
            rw [e] at hs
            have hm0 : c.tm_mon = 0 := by omega
            have hd1 : c.tm_mday = 1 := by omega
            unfold tm_days days_from_civil
            simp only []
            rw [hdim, hs, hm0, hd1]
            unfold days_before_month
            simp
            omega
          refine ⟨⟨⟨a1, a2, by simp, by simp, by simp, by simp, by simp, by simp,
            by simp only []; rw [hdim]; omega, by simp only []; exact le_refl _⟩, ?_⟩, ?_, rfl⟩
          · unfold wday_ok
            simp only []
            exact calc_day_of_week_eq _ _ _ (by omega) ⟨by omega, by omega⟩
          · unfold civil_timestamp
            rw [hd]
            simp only []
            omega
        · rename_i hmon
          have hb := jcron_days_in_month_bounds (c.tm_year + 1900) (c.tm_mon - 1 + 1)
            (by omega) (by omega)
          have hdim := jcron_days_in_month_eq (c.tm_year + 1900) (c.tm_mon - 1 + 1)
            (by omega) (by omega)
          have hd : tm_days
              { tm_sec := c.tm_sec, tm_min := 59, tm_hour := 23,
                tm_mday := jcron_days_in_month (c.tm_year + 1900) (c.tm_mon - 1 + 1),
                tm_mon := c.tm_mon - 1, tm_year := c.tm_year,
                tm_wday := calc_day_of_week (c.tm_year + 1900) (c.tm_mon - 1 + 1)
                  (jcron_days_in_month (c.tm_year + 1900) (c.tm_mon - 1 + 1)) }
              = tm_days c - 1 := by
            have hd1 : c.tm_mday = 1 := by omega
            have e : c.tm_mon - 1 + 1 + 1 = c.tm_mon + 1 := by omega
            rw [e] at hdim
            unfold tm_days days_from_civil
            simp only []
            rw [hdim, hd1]
            omega
          refine ⟨⟨⟨a1, a2, by simp, by simp, by simp, by simp, by simp only []; omega,
            by simp only []; omega, by simp only []; omega, by simp only []; exact le_refl _⟩,
            ?_⟩, ?_, rfl⟩
          · unfold wday_ok
            simp only []
            exact calc_day_of_week_eq _ _ _ (by omega) ⟨by omega, by omega⟩
          · unfold civil_timestamp
            rw [hd]
            simp only []
            omega
      · rename_i hday
        have hd : tm_days
            { tm_sec := c.tm_sec, tm_min := 59, tm_hour := 23, tm_mday := c.tm_mday - 1,
              tm_mon := c.tm_mon, tm_year := c.tm_year,
              tm_wday := calc_day_of_week (c.tm_year + 1900) (c.tm_mon + 1) (c.tm_mday - 1) }
            = tm_days c - 1 := by
          unfold tm_days days_from_civil
          simp only []
          omega
        refine ⟨⟨⟨a1, a2, by simp, by simp, by simp, by simp, a7, a8,
          by simp only []; omega, by simp only []; omega⟩, ?_⟩, ?_, rfl⟩
        · unfold wday_ok
          simp only []
          exact calc_day_of_week_eq _ _ _ (by omega) ⟨by omega, by omega⟩
        · unfold civil_timestamp
          rw [hd]
          simp only []
          omega
    · rename_i hhour
      have hd : tm_days { c with tm_min := 59, tm_hour := c.tm_hour - 1 } = tm_days c :=
        tm_days_congr _ _ rfl rfl rfl
      refine ⟨⟨⟨a1, a2, by simp, by simp, by simp only []; omega, by simp only []; omega,
        a7, a8, a9, a10⟩, ?_⟩, ?_, rfl⟩
      · unfold wday_ok at hw ⊢
        rw [hd]
        exact hw
      · unfold civil_timestamp
        rw [hd]
        simp only []
        omega
  · rename_i hmin
    have hd : tm_days { c with tm_min := c.tm_min - 1 } = tm_days c :=
      tm_days_congr _ _ rfl rfl rfl
    refine ⟨⟨⟨a1, a2, by simp only []; omega, by simp only []; omega, a5, a6,
      a7, a8, a9, a10⟩, ?_⟩, ?_, rfl⟩
    · unfold wday_ok at hw ⊢
      rw [hd]
      exact hw
    · unfold civil_timestamp
      rw [hd]
      simp only []
      omega

theorem prev_test_iff (P : jcron_pattern_t) (c : Tm) (hv : valid_tm c) :
    prev_test P c = true ↔ fields_match P c := by
  obtain ⟨⟨a1, a2, a3, a4, a5, a6, a7, a8, a9, a10⟩, hw⟩ := hv
  obtain ⟨w1, w2⟩ := wday_ok_range hw
  have hdim := jcron_days_in_month_bounds (c.tm_year + 1900) (c.tm_mon + 1) (by omega) (by omega)
  unfold prev_test fields_match
  rw [jcron_test_bit_32_eq _ _ (by omega) (by omega),
    jcron_test_bit_32_eq _ _ (by omega) (by omega),
    jcron_test_bit_64_eq _ _ (by omega) (by omega),
    shift_count_32 (c.tm_mon + 1) (by omega) (by omega),
    shift_count_32 c.tm_wday w1 (by omega)]
  simp only [Bool.and_eq_true, decide_eq_true_eq, ne_eq, land_one_shiftLeft_eq_zero_iff,
    Bool.not_eq_false]
  tauto

/-- The loop of `jcron_prev`: it walks back minute by minute and stops on the first record
that satisfies all masks. -/
theorem prev_loop_spec (P : jcron_pattern_t) :
    ∀ (n : Nat) (c cf : Tm), valid_tm c →
      60 * (n : Int) - 31536000 ≤ civil_timestamp c →
      prev_loop P n c = Except.ok cf →
      ∃ k : Nat, 1 ≤ k ∧ k ≤ n ∧ valid_tm cf ∧ cf.tm_sec = c.tm_sec ∧
        civil_timestamp cf = civil_timestamp c - 60 * (k : Int) ∧ fields_match P cf ∧
        ∀ j : Nat, 1 ≤ j → j < k →
          ¬ fields_match P (timestamp_to_tm (civil_timestamp c - 60 * (j : Int))) := by
  intro n
  induction n with
  | zero => intro c cf _ _ h; exact Except.noConfusion h
  | succ m ih =>
    intro c cf hv hlo h
    push_cast at hlo
    have hy := year_ge_of_civil c hv.1 (by omega)
    obtain ⟨p1, p2, p3⟩ := prev_minute_spec c hv (by omega)
    unfold prev_loop at h
    simp only [] at h
    split at h
    · rename_i ht
      injection h with h
      subst h
      refine ⟨1, le_refl _, by omega, p1, p3, by rw [p2]; simp, ?_, ?_⟩
      · exact (prev_test_iff P _ p1).1 ht
      · intro j h1 h2
        omega
    · rename_i ht
      obtain ⟨k, k1, k2, k3, k4, k5, k6, k7⟩ := ih (prev_minute c) cf p1 (by omega) h
      refine ⟨k + 1, by omega, by omega, k3, by rw [k4, p3], ?_, k6, ?_⟩
      · rw [k5, p2]; push_cast; omega
      · intro j h1 h2
        by_cases hj : j = 1
        · subst hj
          have e : civil_timestamp c - 60 * ((1 : Nat) : Int) = civil_timestamp (prev_minute c) := by
            rw [p2]; simp
          rw [e, timestamp_to_tm_civil _ p1]
          intro hm
          exact ht ((prev_test_iff P _ p1).2 hm)
        · have := k7 (j - 1) (by omega) (by omega)
          have e : civil_timestamp (prev_minute c) - 60 * ((j - 1 : Nat) : Int)
              = civil_timestamp c - 60 * (j : Int) := by
            rw [p2]
            have : ((j - 1 : Nat) : Int) = (j : Int) - 1 := by omega
            rw [this]
            omega
          rw [e] at this
          exact this

theorem prev_loop_error (P : jcron_pattern_t) :
    ∀ (n : Nat) (c : Tm) (code : Int), prev_loop P n c = Except.error code →
      code = JCRON_ERR_NO_MATCH := by
  intro n
  induction n with
  | zero => intro c code h; unfold prev_loop at h; injection h with h; exact h.symm
  | succ k ih =>
    intro c code h
    unfold prev_loop at h
    simp only [] at h
    split at h
    · exact Except.noConfusion h
    · exact ih _ _ h

/-- When `jcron_prev` returns `JCRON_OK`, its loop ended on a record and `prev_time` is the
selected timestamp of that record after modifier post-processing. -/
theorem jcron_prev_ok (t0 : Int) (P : jcron_pattern_t)
    (hok : (jcron_prev t0 P).1 = JCRON_OK) :
    P.has_cron ≠ 0 ∧ ∃ tm1 : Tm,
      prev_loop P 10000 { timestamp_to_tm t0 with tm_sec := 0 } = Except.ok tm1 ∧
      (jcron_prev t0 P).2.prev_time =
        apply_sod_eod_modifiers (tm_to_timestamp_select tm1) P := by
  unfold jcron_prev at hok ⊢
  simp only [] at hok ⊢
  split at hok
  · exact absurd hok (by decide)
  · rename_i hc
    refine ⟨hc, ?_⟩
    rw [if_neg hc]
    split at hok
    · rename_i code hl
      have := prev_loop_error P _ _ _ hl
      rw [this] at hok
      exact absurd hok (by decide)
    · rename_i tm1 hl
      exact ⟨tm1, hl, rfl⟩

/-- The common core of the properties of `jcron_prev` for a pattern without modifier and a
reference instant in the years 1970..2099. -/
theorem jcron_prev_core (P : jcron_pattern_t) (t0 : Int)
    (hmod : P.sod_type < 0 ∧ P.eod_type < 0)
    (hr : 0 ≤ t0 ∧ t0 < 4102444800)
    (hok : (jcron_prev t0 P).1 = JCRON_OK) :
    ∃ k : Nat, 1 ≤ k ∧
      (jcron_prev t0 P).2.prev_time = t0 - t0 % 60 - 60 * (k : Int) ∧
      fields_match P (timestamp_to_tm (jcron_prev t0 P).2.prev_time) ∧
      ∀ j : Nat, 1 ≤ j → j < k →
        ¬ fields_match P (timestamp_to_tm (t0 - t0 % 60 - 60 * (j : Int))) := by
  obtain ⟨_, tm1, hl, hn⟩ := jcron_prev_ok t0 P hok
  obtain ⟨s1, s2, s3⟩ := start_record_spec t0
  obtain ⟨k, k1, k2, k3, k4, k5, k6, k7⟩ :=
    prev_loop_spec P 10000 _ tm1 ⟨s1, s2⟩ (by rw [s3]; push_cast; omega) hl
  rw [s3] at k5
  have hy1 := year_ge_of_civil tm1 k3.1 (by omega)
  have hy2 := year_le_of_civil tm1 k3.1 (by omega)
  have hsel := tm_to_timestamp_select_eq tm1 ⟨hy1, hy2⟩
    ⟨k3.1.2.2.2.2.2.2.1, k3.1.2.2.2.2.2.2.2.1⟩
  rw [apply_sod_eod_modifiers_none _ _ hmod, hsel] at hn
  refine ⟨k, k1, by rw [hn, k5], ?_, ?_⟩
  · rw [hn, timestamp_to_tm_civil tm1 k3]
    exact k6
  · intro j h1 h2
    have := k7 j h1 h2
    rw [s3] at this
    exact this

/-! ## Numerals, items and lists of items -/

theorem isspace_toNat {c : Char} (h : isspace c = true) :
    c.toNat = 32 ∨ c.toNat = 9 ∨ c.toNat = 10 ∨ c.toNat = 11 ∨ c.toNat = 12 ∨ c.toNat = 13 := by
  unfold isspace at h
  simp only [Bool.or_eq_true, beq_iff_eq] at h
  rcases h with ((((h | h) | h) | h) | h) | h <;> subst h <;> decide

theorem isdigit_not_space {c : Char} (h : isdigit c = true) : isspace c = false := by
  cases hs : isspace c with
  | false => rfl
  | true =>
    have h1 := isspace_toNat hs
    unfold isdigit at h
    simp only [Bool.and_eq_true, decide_eq_true_eq] at h
    omega

theorem skip_whitespace_cons {c : Char} (cs : List Char) (h : isspace c = false) :
    skip_whitespace (c :: cs) = c :: cs := by
  simp [skip_whitespace, h]

theorem foldl_digits_ge (ds : List Char) :
    ∀ acc : Nat, acc ≤ ds.foldl (fun acc c => acc * 10 + (c.toNat - 48)) acc := by
  induction ds with
  | nil => intro acc; exact le_refl _
  | cons d ds ih =>
    intro acc
    simp only [List.foldl_cons]
    exact le_trans (by omega) (ih _)

/-- A text at whose head the digit loop of `parse_int` stops: while the value stays within
`int`, the loop computes the decimal value. -/
theorem parse_digits_append (ds rest : List Char) (hd : ∀ c ∈ ds, isdigit c = true)
    (hr : ∀ c, rest.head? = some c → isdigit c = false) :
    ∀ acc : Nat, ds.foldl (fun acc c => acc * 10 + (c.toNat - 48)) acc ≤ INT_MAX →
      parse_digits (acc : Int) (ds ++ rest) =
        (((ds.foldl (fun acc c => acc * 10 + (c.toNat - 48)) acc : Nat) : Int), rest) := by
  have hmax : INT_MAX = 2147483647 := rfl
  induction ds with
  | nil =>
    intro acc _
    cases rest with
    | nil => rfl
    | cons c cs =>
      have := hr c rfl
      simp [parse_digits, this]
  | cons d ds ih =>
    intro acc hacc
    have h1 : isdigit d = true := hd d (List.mem_cons_self _ _)
    have h2 : ∀ c ∈ ds, isdigit c = true := fun c hc => hd c (List.mem_cons_of_mem _ hc)
    have h3 : 48 ≤ d.toNat := by
      unfold isdigit at h1
      simp only [Bool.and_eq_true, decide_eq_true_eq] at h1
      omega
    simp only [List.foldl_cons] at hacc
    have h4 := foldl_digits_ge ds (acc * 10 + (d.toNat - 48))
    have e : int_wrap ((acc : Int) * 10 + ((d.toNat : Int) - 48)) =
        ((acc * 10 + (d.toNat - 48) : Nat) : Int) := by
      rw [int_wrap_eq (by omega) (by omega)]
      omega
    simp only [List.cons_append, parse_digits, h1, if_true, List.foldl_cons, e]
    exact ih h2 _ hacc

theorem parse_int_number (ds rest : List Char) (hn : is_number ds)
    (hr : ∀ c, rest.head? = some c → isdigit c = false) (hmax : decimal_value ds ≤ INT_MAX) :
    parse_int (ds ++ rest) = some ((decimal_value ds : Int), rest) := by
  obtain ⟨hne, hd⟩ := hn
  cases ds with
  | nil => exact absurd rfl hne
  | cons d ds =>
    have h1 : isdigit d = true := hd d (List.mem_cons_self _ _)
    have := parse_digits_append (d :: ds) rest hd hr 0 hmax
    simp only [parse_int, List.cons_append, h1, if_true]
    rw [← List.cons_append]
    exact congrArg some this

theorem loop_fuel_nat (n : Nat) : loop_fuel (n : Int) = 2 * n + 4 := by
  simp [loop_fuel]

theorem set_mask_bit_testBit {lo hi : Nat} (w : MaskPtr) (hw : w ≠ MaskPtr.null)
    (hhi : hi < mask_width w) {mask i : Nat} (h : bits_in lo hi mask) (h2 : i ≤ hi) (v : Nat) :
    (set_mask_bit w mask (i : Int)).testBit v = (mask.testBit v || decide (i = v)) := by
  rw [set_mask_bit_eq w hw mask i (by omega), Nat.testBit_mod_two_pow, Nat.testBit_or,
    testBit_one_shiftLeft]
  by_cases hv : v < mask_width w
  · simp [hv]
  · have h1 : mask.testBit v = false := by
      cases hb : mask.testBit v with
      | false => rfl
      | true => have := (h v hb).2; omega
    have h3 : ¬ i = v := by omega
    simp [hv, h1, h3]

/-- The bits that the loop `for (i = start; i <= stop; i += step)` sets while `i + step`
stays within `int`. -/
theorem set_bits_step_testBit {lo hi : Nat} (w : MaskPtr) (hw : w ≠ MaskPtr.null)
    (hhi : hi < mask_width w) (stop step : Nat) (hs : stop ≤ hi) (hstep : 1 ≤ step)
    (hint : step + hi ≤ INT_MAX) (v : Nat) :
    ∀ (fuel i mask : Nat), stop + 1 ≤ fuel + i → bits_in lo hi mask → lo ≤ i →
      ((set_bits_step w (stop : Int) (step : Int) fuel (i : Int) mask).testBit v = true ↔
        (mask.testBit v = true ∨ (i ≤ v ∧ v ≤ stop ∧ (v - i) % step = 0))) := by
  have hmax : INT_MAX = 2147483647 := rfl
  intro fuel
  induction fuel with
  | zero =>
    intro i mask hf _ _
    simp only [set_bits_step]
    constructor
    · intro h; exact Or.inl h
    · rintro (h | ⟨h1, h2, _⟩)
      · exact h
      · omega
  | succ n ih =>
    intro i mask hf hm hlo
    simp only [set_bits_step]
    split
    · rename_i hle0
      have hle : i ≤ stop := by omega
      have e : int_wrap ((i : Int) + (step : Int)) = ((i + step : Nat) : Int) := by
        rw [int_wrap_eq (by omega) (by omega)]
        omega
      have hm1 : bits_in lo hi (set_mask_bit w mask (i : Int)) :=
        set_mask_bit_bits w hw hhi hm hlo (le_trans hle hs)
      rw [e, ih (i + step) (set_mask_bit w mask (i : Int)) (by omega) hm1 (by omega),
        set_mask_bit_testBit w hw hhi hm (le_trans hle hs), Bool.or_eq_true, decide_eq_true_eq]
      constructor
      · rintro ((h | h) | ⟨h1, h2, h3⟩)
        · exact Or.inl h
        · subst h; exact Or.inr ⟨le_refl _, hle, by simp⟩
        · refine Or.inr ⟨by omega, h2, ?_⟩
          have e : v - i = (v - (i + step)) + step := by omega
          rw [e, Nat.add_mod_right]; exact h3
      · rintro (h | ⟨h1, h2, h3⟩)
        · exact Or.inl (Or.inl h)
        · by_cases hv : i = v
          · exact Or.inl (Or.inr hv)
          · have hpos : 0 < v - i := by omega
            have hge : step ≤ v - i := by
              by_contra hlt
              rw [Nat.mod_eq_of_lt (by omega)] at h3
              omega
            refine Or.inr ⟨by omega, h2, ?_⟩
            have e : v - i = (v - (i + step)) + step := by omega
            rw [e, Nat.add_mod_right] at h3; exact h3
    · rename_i hle0
      have hle : ¬ i ≤ stop := by omega
      constructor
      · intro h; exact Or.inl h
      · rintro (h | ⟨h1, h2, _⟩)
        · exact h
        · omega

theorem parse_range_end_text (lo hi : Nat) (it : FieldItem) (hs : it.shaped) (tail : List Char)
    (ht : ∀ c, tail.head? = some c → isdigit c = false ∧ c ≠ '-')
    (h1 : lo ≤ it.lo_val) (h2 : it.lo_val ≤ hi) (hmax : it.hi_val ≤ INT_MAX) :
    parse_range_end lo hi (it.lo_val : Int) (it.last_text ++ tail) =
      if it.hi_val < lo ∨ it.hi_val > hi ∨ it.hi_val < it.lo_val then none
      else some ((it.hi_val : Int), tail) := by
  obtain ⟨_, hm, _⟩ := hs
  unfold FieldItem.last_text
  cases hl : it.last with
  | none =>
    have e : it.hi_val = it.lo_val := by simp [FieldItem.hi_val, FieldItem.lo_val, hl]
    have hc : ¬ (it.hi_val < lo ∨ it.hi_val > hi ∨ it.hi_val < it.lo_val) := by omega
    rw [if_neg hc, e]
    simp only [List.nil_append]
    cases tail with
    | nil => rfl
    | cons c cs =>
      have hne : c ≠ '-' := (ht c rfl).2
      unfold parse_range_end
      split
      · rename_i heq
        injection heq with heq1 _
        exact absurd heq1 hne
      · rfl
  | some m =>
    have e : it.hi_val = decimal_value m := by simp [FieldItem.hi_val, hl]
    have hp := parse_int_number m tail (hm m hl) (fun c hc => (ht c hc).1) (by rw [← e]; exact hmax)
    simp only [List.cons_append, parse_range_end, hp, e]
    by_cases hc : decimal_value m < lo ∨ decimal_value m > hi ∨ decimal_value m < it.lo_val
    · rw [if_pos hc, if_pos (by omega)]
    · rw [if_neg hc, if_neg (by omega)]

theorem parse_step_text (it : FieldItem) (hs : it.shaped) (rest : List Char)
    (hr : ∀ c, rest.head? = some c → isdigit c = false ∧ c ≠ '/')
    (hmax : it.step_val ≤ INT_MAX) :
    parse_step (it.step_text ++ rest) =
      if it.step_val ≤ 0 then none else some ((it.step_val : Int), rest) := by
  obtain ⟨_, _, hst⟩ := hs
  unfold FieldItem.step_text
  cases hl : it.step with
  | none =>
    have e : it.step_val = 1 := by simp [FieldItem.step_val, hl]
    rw [e]
    simp only [List.nil_append]
    cases rest with
    | nil => rfl
    | cons c cs =>
      have hne : c ≠ '/' := (hr c rfl).2
      unfold parse_step
      split
      · rename_i heq
        injection heq with heq1 _
        exact absurd heq1 hne
      · rfl
  | some st =>
    have e : it.step_val = decimal_value st := by simp [FieldItem.step_val, hl]
    have hp := parse_int_number st rest (hst st hl) (fun c hc => (hr c hc).1)
      (by rw [← e]; exact hmax)
    simp only [List.cons_append, parse_step, hp, e]
    by_cases hc : decimal_value st ≤ 0
    · rw [if_pos hc, if_pos (by omega)]
    · rw [if_neg hc, if_neg (by omega)]

theorem item_tail_head (it : FieldItem) (rest : List Char)
    (hrest : rest = [] ∨ ∃ r, rest = ',' :: r) :
    (∀ c, rest.head? = some c → isdigit c = false ∧ c ≠ '/') ∧
    (∀ c, (it.step_text ++ rest).head? = some c → isdigit c = false ∧ c ≠ '-') ∧
    (∀ c, (it.last_text ++ (it.step_text ++ rest)).head? = some c → isdigit c = false) := by
  have h0 : ∀ c, rest.head? = some c → c = ',' := by
    intro c hc
    rcases hrest with h | ⟨r, h⟩
    · subst h; simp at hc
    · subst h; simp at hc; exact hc.symm
  have h1 : ∀ c, (it.step_text ++ rest).head? = some c → c = ',' ∨ c = '/' := by
    intro c hc
    unfold FieldItem.step_text at hc
    cases hst : it.step with
    | none => rw [hst] at hc; exact Or.inl (h0 c hc)
    | some st => rw [hst] at hc; simp at hc; exact Or.inr hc.symm
  refine ⟨?_, ?_, ?_⟩
  · intro c hc
    have := h0 c hc
    subst this
    exact ⟨by decide, by decide⟩
  · intro c hc
    rcases h1 c hc with h | h <;> subst h <;> exact ⟨by decide, by decide⟩
  · intro c hc
    unfold FieldItem.last_text at hc
    cases hl : it.last with
    | none =>
      rw [hl] at hc
      rcases h1 c hc with h | h <;> subst h <;> decide
    | some m =>
      rw [hl] at hc
      simp at hc
      subst hc
      decide

/-- One turn of the item loop of `parse_cron_field` on the text of an item that is followed
by the end of the token or by a comma, the numerals of the item being within `int`. -/
theorem parse_field_items_item (w : MaskPtr) (lo hi fuel : Nat) (it : FieldItem)
    (rest : List Char) (mask : Nat) (hs : it.shaped)
    (hrest : rest = [] ∨ ∃ r, rest = ',' :: r)
    (hmax : it.lo_val ≤ INT_MAX ∧ it.hi_val ≤ INT_MAX ∧ it.step_val ≤ INT_MAX) :
    parse_field_items w lo hi (fuel + 1) (it.text ++ rest) mask =
      if it.lo_val < lo ∨ it.lo_val > hi then (JCRON_ERR_INVALID_PATTERN, mask)
      else if it.hi_val < lo ∨ it.hi_val > hi ∨ it.hi_val < it.lo_val then
        (JCRON_ERR_INVALID_PATTERN, mask)
      else if it.step_val ≤ 0 then (JCRON_ERR_INVALID_PATTERN, mask)
      else
        if rest = [] then
          (JCRON_OK, set_bits_step w (it.hi_val : Int) (it.step_val : Int)
            (2 * it.hi_val + 4) (it.lo_val : Int) mask)
        else
          parse_field_items w lo hi fuel rest.tail
            (set_bits_step w (it.hi_val : Int) (it.step_val : Int)
              (2 * it.hi_val + 4) (it.lo_val : Int) mask) := by
  obtain ⟨hmax1, hmax2, hmax3⟩ := hmax
  obtain ⟨t1, t2, t3⟩ := item_tail_head it rest hrest
  have hfirst := hs.1
  have hp := parse_int_number it.first _ hfirst t3 hmax1
  have etext : it.text ++ rest = it.first ++ (it.last_text ++ (it.step_text ++ rest)) := by
    simp [FieldItem.text, List.append_assoc]
  obtain ⟨d, ds, hd⟩ : ∃ d ds, it.first = d :: ds := by
    cases hf : it.first with
    | nil => exact absurd hf hfirst.1
    | cons d ds => exact ⟨d, ds, rfl⟩
  have hdig : isdigit d = true := hfirst.2 d (by rw [hd]; exact List.mem_cons_self _ _)
  have hsk : skip_whitespace (it.text ++ rest) = it.text ++ rest := by
    rw [etext, hd, List.cons_append]
    exact skip_whitespace_cons _ (isdigit_not_space hdig)
  have hcons : ∃ c cs, it.text ++ rest = c :: cs := by
    rw [etext, hd]; exact ⟨d, _, rfl⟩
  obtain ⟨c0, cs0, hc0⟩ := hcons
  have hpi : parse_int (skip_whitespace (c0 :: cs0)) =
      some ((it.lo_val : Int), it.last_text ++ (it.step_text ++ rest)) := by
    rw [← hc0, hsk, etext, hp]; rfl
  rw [hc0]
  simp only [parse_field_items, hpi]
  by_cases hb1 : it.lo_val < lo ∨ it.lo_val > hi
  · rw [if_pos hb1, if_pos (by omega)]
  · rw [if_neg hb1, if_neg (by omega)]
    rw [parse_range_end_text lo hi it hs _ t2 (by omega) (by omega) hmax2]
    by_cases hb2 : it.hi_val < lo ∨ it.hi_val > hi ∨ it.hi_val < it.lo_val
    · rw [if_pos hb2, if_pos hb2]
    · rw [if_neg hb2, if_neg hb2]
      simp only []
      rw [parse_step_text it hs rest t1 hmax3]
      by_cases hb3 : it.step_val ≤ 0
      · rw [if_pos hb3, if_pos hb3]
      · rw [if_neg hb3, if_neg hb3]
        simp only [loop_fuel_nat]
        rcases hrest with h | ⟨r, h⟩
        · subst h; rfl
        · subst h
          rw [skip_whitespace_cons _ (by decide), if_neg (by simp)]
          rfl

theorem list_text_cons2 (it it2 : FieldItem) (rest : List FieldItem) :
    list_text (it :: it2 :: rest) = it.text ++ ',' :: list_text (it2 :: rest) := rfl

/-- The item loop on a list of items within the grammar whose steps keep the loop index
within `int`: it returns `JCRON_OK` and sets exactly the bits that the items cover. -/
theorem parse_field_items_list (w : MaskPtr) (hw : w ≠ MaskPtr.null) (lo hi : Nat)
    (hhi : hi < mask_width w) :
    ∀ (items : List FieldItem), items ≠ [] →
      (∀ it ∈ items, it.shaped ∧ it.good lo hi ∧ it.step_val + hi ≤ INT_MAX) →
      ∀ (fuel mask : Nat), items.length ≤ fuel → bits_in lo hi mask →
        ∃ M, parse_field_items w lo hi fuel (list_text items) mask = (JCRON_OK, M) ∧
          bits_in lo hi M ∧
          ∀ v, M.testBit v = true ↔ (mask.testBit v = true ∨ ∃ it ∈ items, it.sets v) := by
  have hmax : INT_MAX = 2147483647 := rfl
  have hwd : mask_width w ≤ 64 := by cases w <;> simp [mask_width]
  intro items
  induction items with
  | nil => intro h; exact absurd rfl h
  | cons it tl ih =>
    intro _ hall fuel mask hfuel hm
    obtain ⟨hs, ⟨hg1, hg2, hg3, hg4⟩, hint⟩ := hall it (List.mem_cons_self _ _)
    have hb1 : ¬ (it.lo_val < lo ∨ it.lo_val > hi) := by omega
    have hb2 : ¬ (it.hi_val < lo ∨ it.hi_val > hi ∨ it.hi_val < it.lo_val) := by omega
    have hb3 : ¬ it.step_val ≤ 0 := by omega
    have hm1 : bits_in lo hi
        (set_bits_step w (it.hi_val : Int) (it.step_val : Int) (2 * it.hi_val + 4)
          (it.lo_val : Int) mask) :=
      set_bits_step_bits w hw hhi _ _ hg3 hint _ _ _ hm hg1
    have hbits := fun v => @set_bits_step_testBit lo hi w hw hhi it.hi_val it.step_val hg3 hg4
      hint v (2 * it.hi_val + 4) it.lo_val mask (by omega) hm hg1
    have hmx : it.lo_val ≤ INT_MAX ∧ it.hi_val ≤ INT_MAX ∧ it.step_val ≤ INT_MAX :=
      ⟨by omega, by omega, by omega⟩
    cases fuel with
    | zero => simp at hfuel
    | succ n =>
      cases tl with
      | nil =>
        have h := parse_field_items_item w lo hi n it [] mask hs (Or.inl rfl) hmx
        rw [List.append_nil, if_neg hb1, if_neg hb2, if_neg hb3, if_pos rfl] at h
        refine ⟨_, h, hm1, fun v => ?_⟩
        rw [hbits v]
        simp [FieldItem.sets]
      | cons it2 rest =>
        have h := parse_field_items_item w lo hi n it (',' :: list_text (it2 :: rest)) mask hs
          (Or.inr ⟨_, rfl⟩) hmx
        rw [if_neg hb1, if_neg hb2, if_neg hb3, if_neg (by simp), List.tail_cons] at h
        have hall2 : ∀ x ∈ it2 :: rest,
            x.shaped ∧ x.good lo hi ∧ x.step_val + hi ≤ INT_MAX :=
          fun x hx => hall x (List.mem_cons_of_mem _ hx)
        obtain ⟨M, hM, hMb, hMv⟩ := ih (by simp) hall2 n _
          (by simp at hfuel ⊢; omega) hm1
        refine ⟨M, ?_, hMb, fun v => ?_⟩
        · rw [list_text_cons2, h, hM]
        · rw [hMv v, hbits v]
          constructor
          · rintro ((h1 | h1) | ⟨x, hx, hc⟩)
            · exact Or.inl h1
            · exact Or.inr ⟨it, List.mem_cons_self _ _, h1⟩
            · exact Or.inr ⟨x, List.mem_cons_of_mem _ hx, hc⟩
          · rintro (h1 | ⟨x, hx, hc⟩)
            · exact Or.inl (Or.inl h1)
            · rcases List.mem_cons.mp hx with hx1 | hx1
              · subst hx1; exact Or.inl (Or.inr hc)
              · exact Or.inr ⟨x, hx1, hc⟩

/-- The item loop on a list that holds an item outside the grammar returns
`JCRON_ERR_INVALID_PATTERN`, the numerals of the list being within `int`. -/
theorem parse_field_items_bad (w : MaskPtr) (lo hi : Nat) :
    ∀ (items : List FieldItem),
      (∀ it ∈ items, it.shaped ∧ it.lo_val ≤ INT_MAX ∧ it.hi_val ≤ INT_MAX ∧
        it.step_val ≤ INT_MAX) →
      (∃ it ∈ items, it.bad lo hi) →
      ∀ (fuel mask : Nat),
        (parse_field_items w lo hi fuel (list_text items) mask).1 =
          JCRON_ERR_INVALID_PATTERN := by
  intro items
  induction items with
  | nil => rintro _ ⟨it, hit, _⟩; simp at hit
  | cons it tl ih =>
    intro hall hbad fuel mask
    obtain ⟨hs, hmx⟩ := hall it (List.mem_cons_self _ _)
    cases fuel with
    | zero => rfl
    | succ n =>
      by_cases hb : it.bad lo hi
      · have key : ∀ rest, (rest = [] ∨ ∃ r, rest = ',' :: r) →
            (parse_field_items w lo hi (n + 1) (it.text ++ rest) mask).1 =
              JCRON_ERR_INVALID_PATTERN := by
          intro rest hrest
          rw [parse_field_items_item w lo hi n it rest mask hs hrest hmx]
          unfold FieldItem.bad at hb
          split_ifs <;> first | rfl | omega
        cases tl with
        | nil => simpa [list_text] using key [] (Or.inl rfl)
        | cons it2 rest => rw [list_text_cons2]; exact key _ (Or.inr ⟨_, rfl⟩)
      · have hbad2 : ∃ x ∈ tl, x.bad lo hi := by
          obtain ⟨x, hx, hxb⟩ := hbad
          rcases List.mem_cons.mp hx with hx1 | hx1
          · subst hx1; exact absurd hxb hb
          · exact ⟨x, hx1, hxb⟩
        cases tl with
        | nil => obtain ⟨x, hx, _⟩ := hbad2; simp at hx
        | cons it2 rest =>
          unfold FieldItem.bad at hb
          rw [list_text_cons2,
            parse_field_items_item w lo hi n it _ mask hs (Or.inr ⟨_, rfl⟩) hmx,
            if_neg (by omega), if_neg (by omega), if_neg (by omega), if_neg (by simp),
            List.tail_cons]
          exact ih (fun x hx => hall x (List.mem_cons_of_mem _ hx)) hbad2 n _

theorem list_text_head (items : List FieldItem) (hne : items ≠ [])
    (hall : ∀ it ∈ items, it.shaped) :
    ∃ d cs, list_text items = d :: cs ∧ isdigit d = true := by
  cases items with
  | nil => exact absurd rfl hne
  | cons it tl =>
    obtain ⟨⟨hn, hd⟩, _⟩ := hall it (List.mem_cons_self _ _)
    cases hf : it.first with
    | nil => exact absurd hf hn
    | cons d ds =>
      have hdig : isdigit d = true := hd d (by rw [hf]; exact List.mem_cons_self _ _)
      cases tl with
      | nil =>
        exact ⟨d, ds ++ (it.last_text ++ it.step_text),
          by simp [list_text, FieldItem.text, hf], hdig⟩
      | cons it2 rest =>
        exact ⟨d, ds ++ (it.last_text ++ it.step_text) ++ ',' :: list_text (it2 :: rest),
          by rw [list_text_cons2]; simp [FieldItem.text, hf], hdig⟩

theorem list_text_length (items : List FieldItem) (hall : ∀ it ∈ items, it.shaped) :
    items.length ≤ (list_text items).length := by
  induction items with
  | nil => simp
  | cons it tl ih =>
    have ih1 := ih (fun x hx => hall x (List.mem_cons_of_mem _ hx))
    cases tl with
    | nil =>
      obtain ⟨d, cs, h, _⟩ := list_text_head [it] (by simp) hall
      rw [h]; simp
    | cons it2 rest =>
      rw [list_text_cons2]
      simp only [List.length_append, List.length_cons] at ih1 ⊢
      omega

theorem parse_cron_field_digit (w : MaskPtr) (lo hi : Nat) (d : Char) (cs : List Char)
    (mask : Nat) (hd : isdigit d = true) :
    parse_cron_field (d :: cs) lo hi w mask =
      parse_field_items w lo hi ((d :: cs).length + 1) (d :: cs) mask := by
  have hne : d ≠ '*' := by
    intro h; subst h; exact absurd hd (by decide)
  unfold parse_cron_field
  rw [skip_whitespace_cons _ (isdigit_not_space hd)]
  split
  · rename_i heq
    injection heq with h1 _
    exact absurd h1 hne
  · rfl

/-- The function `parse_cron_field` on a list of items within the grammar. -/
theorem parse_cron_field_list (w : MaskPtr) (hw : w ≠ MaskPtr.null) (lo hi : Nat)
    (hhi : hi < mask_width w) (items : List FieldItem) (hne : items ≠ [])
    (hall : ∀ it ∈ items, it.shaped ∧ it.good lo hi ∧ it.step_val + hi ≤ INT_MAX)
    (mask : Nat) (hm : bits_in lo hi mask) :
    ∃ M, parse_cron_field (list_text items) lo hi w mask = (JCRON_OK, M) ∧
      ∀ v, M.testBit v = true ↔ (mask.testBit v = true ∨ ∃ it ∈ items, it.sets v) := by
  have hsh : ∀ it ∈ items, it.shaped := fun it h => (hall it h).1
  obtain ⟨d, cs, ht, hd⟩ := list_text_head items hne hsh
  have hlen := list_text_length items hsh
  obtain ⟨M, hM, _, hv⟩ := parse_field_items_list w hw lo hi hhi items hne hall
    ((list_text items).length + 1) mask (by omega) hm
  refine ⟨M, ?_, hv⟩
  rw [ht, parse_cron_field_digit w lo hi d cs mask hd, ← ht]
  exact hM

/-- The function `parse_cron_field` on a list that holds an item outside the grammar. -/
theorem parse_cron_field_bad (w : MaskPtr) (lo hi : Nat) (items : List FieldItem)
    (hall : ∀ it ∈ items, it.shaped ∧ it.lo_val ≤ INT_MAX ∧ it.hi_val ≤ INT_MAX ∧
      it.step_val ≤ INT_MAX)
    (hbad : ∃ it ∈ items, it.bad lo hi) (mask : Nat) :
    (parse_cron_field (list_text items) lo hi w mask).1 = JCRON_ERR_INVALID_PATTERN := by
  have hne : items ≠ [] := by
    rintro rfl
    obtain ⟨x, hx, _⟩ := hbad
    simp at hx
  obtain ⟨d, cs, ht, hd⟩ := list_text_head items hne (fun it h => (hall it h).1)
  rw [ht, parse_cron_field_digit w lo hi d cs mask hd, ← ht]
  exact parse_field_items_bad w lo hi items hall hbad _ _

/-- The function `parse_cron_field` on the token `*`. -/
theorem parse_cron_field_star (w : MaskPtr) (lo hi : Nat) (mask : Nat) :
    parse_cron_field ['*'] lo hi w mask =
      (JCRON_OK, set_bits_step w (hi : Int) 1 (2 * hi + 4) (lo : Int) mask) := by
  rw [← loop_fuel_nat]
  rfl

/-- The function `parse_cron_field` on a token `*/S`, the numeral `S` being within `int`. -/
theorem parse_cron_field_star_step (w : MaskPtr) (lo hi : Nat) (ds : List Char) (mask : Nat)
    (hn : is_number ds) (hmax : decimal_value ds ≤ INT_MAX) :
    parse_cron_field ('*' :: '/' :: ds) lo hi w mask =
      if decimal_value ds ≤ 0 then (JCRON_ERR_INVALID_PATTERN, mask)
      else (JCRON_OK, set_bits_step w (hi : Int) (decimal_value ds : Int) (2 * hi + 4)
        (lo : Int) mask) := by
  have hp := parse_int_number ds [] hn (by simp) hmax
  rw [List.append_nil] at hp
  unfold parse_cron_field
  rw [skip_whitespace_cons _ (by decide)]
  simp only [hp, loop_fuel_nat]
  by_cases hc : decimal_value ds ≤ 0
  · rw [if_pos hc, if_pos (by omega)]
  · rw [if_neg hc, if_neg (by omega)]

/-- For the forms `N`, `N-M` and `N-M/S` the covered values are the visited indices. -/
theorem covers_iff_sets (hi : Nat) (it : FieldItem) (h : it.last = none → it.step = none)
    (v : Nat) : it.covers hi v ↔ it.sets v := by
  have e : it.top hi = it.hi_val := by
    unfold FieldItem.top FieldItem.hi_val
    cases hl : it.last with
    | some m => rfl
    | none => rw [h hl]
  unfold FieldItem.covers FieldItem.sets
  rw [e]

/-! ## Range invariant of the compiled masks for texts with short numerals -/

theorem digit_run_ok_mono : ∀ (s : List Char) (k j : Nat), j ≤ k →
    digit_run_ok k s = true → digit_run_ok j s = true := by
  intro s
  induction s with
  | nil => intro k j _ _; rfl
  | cons c cs ih =>
    intro k j hjk h
    unfold digit_run_ok at h ⊢
    split
    · rename_i hd
      rw [if_pos hd, Bool.and_eq_true, decide_eq_true_eq] at h
      rw [Bool.and_eq_true, decide_eq_true_eq]
      exact ⟨by omega, ih (k + 1) (j + 1) (by omega) h.2⟩
    · rename_i hd
      rw [if_neg hd] at h
      exact h

theorem digit_run_ok_tail (c : Char) (cs : List Char) (k : Nat)
    (h : digit_run_ok k (c :: cs) = true) : digit_run_ok 0 cs = true := by
  unfold digit_run_ok at h
  split at h
  · rw [Bool.and_eq_true] at h
    exact digit_run_ok_mono cs _ 0 (Nat.zero_le _) h.2
  · exact h

theorem digit_run_ok_suffix : ∀ (a t : List Char), digit_run_ok 0 (a ++ t) = true →
    digit_run_ok 0 t = true := by
  intro a
  induction a with
  | nil => intro t h; exact h
  | cons c cs ih => intro t h; exact ih t (digit_run_ok_tail c _ 0 h)

theorem digit_run_ok_digits : ∀ (ds b : List Char) (k : Nat),
    (∀ c ∈ ds, isdigit c = true) → digit_run_ok k (ds ++ b) = true → k + ds.length ≤ 9 ∨ ds = [] := by
  intro ds
  induction ds with
  | nil => intro b k _ _; exact Or.inr rfl
  | cons d ds ih =>
    intro b k hd h
    have h1 : isdigit d = true := hd d (List.mem_cons_self _ _)
    rw [List.cons_append] at h
    unfold digit_run_ok at h
    rw [if_pos h1, Bool.and_eq_true, decide_eq_true_eq] at h
    left
    rcases ih b (k + 1) (fun c hc => hd c (List.mem_cons_of_mem _ hc)) h.2 with h2 | h2
    · simp only [List.length_cons]; omega
    · subst h2; simp only [List.length_cons, List.length_nil]; omega

/-- In a text with short numerals every run of digits has at most nine characters. -/
theorem short_numerals_run (s ds : List Char) (hs : short_numerals s) (hi : ds <:+: s)
    (hd : ∀ c ∈ ds, isdigit c = true) : ds.length ≤ 9 := by
  obtain ⟨a, b, e⟩ := hi
  rw [← e, List.append_assoc] at hs
  rcases digit_run_ok_digits ds b 0 hd (digit_run_ok_suffix a _ hs) with h | h
  · omega
  · subst h; simp

theorem short_numerals_piece (s t : List Char) (hs : short_numerals s) (ht : t <:+: s) :
    short_numerals t := by
  obtain ⟨a, b, e⟩ := ht
  rw [← e, List.append_assoc] at hs
  have h1 := digit_run_ok_suffix a _ hs
  unfold short_numerals
  clear hs e
  -- a prefix of a text with short numerals has short numerals
  have key : ∀ (t b : List Char) (k : Nat), digit_run_ok k (t ++ b) = true →
      digit_run_ok k t = true := by
    intro t
    induction t with
    | nil => intro b k _; rfl
    | cons c cs ih =>
      intro b k h
      rw [List.cons_append] at h
      unfold digit_run_ok at h ⊢
      split
      · rename_i hd
        rw [if_pos hd, Bool.and_eq_true] at h
        rw [Bool.and_eq_true]
        exact ⟨h.1, ih b _ h.2⟩
      · rename_i hd
        rw [if_neg hd] at h
        exact ih b _ h
  exact key t b 0 h1

theorem decimal_fold_lt (ds : List Char) (hd : ∀ c ∈ ds, isdigit c = true) :
    ∀ acc : Nat, ds.foldl (fun acc c => acc * 10 + (c.toNat - 48)) acc <
      (acc + 1) * 10 ^ ds.length := by
  induction ds with
  | nil => intro acc; simp
  | cons d ds ih =>
    intro acc
    have h1 : isdigit d = true := hd d (List.mem_cons_self _ _)
    have h3 : d.toNat ≤ 57 := by
      unfold isdigit at h1
      simp only [Bool.and_eq_true, decide_eq_true_eq] at h1
      omega
    have h4 := ih (fun c hc => hd c (List.mem_cons_of_mem _ hc)) (acc * 10 + (d.toNat - 48))
    simp only [List.foldl_cons, List.length_cons]
    have h5 : (acc * 10 + (d.toNat - 48) + 1) * 10 ^ ds.length ≤
        (acc + 1) * 10 ^ (ds.length + 1) := by
      rw [pow_succ, ← Nat.mul_assoc, Nat.mul_comm (acc + 1) (10 ^ ds.length),
        Nat.mul_comm _ (10 ^ ds.length), Nat.mul_assoc]
      exact Nat.mul_le_mul_left _ (by omega)
    omega

theorem decimal_value_lt (ds : List Char) (hd : ∀ c ∈ ds, isdigit c = true)
    (hl : ds.length ≤ 9) : decimal_value ds < 1000000000 := by
  have h := decimal_fold_lt ds hd 0
  have h2 : 10 ^ ds.length ≤ 10 ^ 9 := Nat.pow_le_pow_right (by norm_num) hl
  unfold decimal_value
  simp only [Nat.zero_add, Nat.one_mul] at h
  have h3 : (10 : Nat) ^ 9 = 1000000000 := by norm_num
  omega

/-- On a text with short numerals `parse_int` reads the value of a numeral below `10 ^ 9` and
leaves a suffix of the text. -/
theorem parse_int_short (p : List Char) (hp : short_numerals p) :
    parse_int p = none ∨ ∃ (n : Nat) (rest : List Char),
      parse_int p = some ((n : Int), rest) ∧ n < 1000000000 ∧ rest <:+ p := by
  cases p with
  | nil => exact Or.inl rfl
  | cons c cs =>
    by_cases hc : isdigit c = true
    · right
      have e : (c :: cs).takeWhile isdigit ++ (c :: cs).dropWhile isdigit = c :: cs :=
        List.takeWhile_append_dropWhile _ _
      have hd : ∀ x ∈ (c :: cs).takeWhile isdigit, isdigit x = true :=
        fun x hx => List.mem_takeWhile_imp hx
      have hne : (c :: cs).takeWhile isdigit ≠ [] := by
        rw [List.takeWhile_cons_of_pos hc]
        exact List.cons_ne_nil _ _
      have hr : ∀ x, ((c :: cs).dropWhile isdigit).head? = some x → isdigit x = false := by
        intro x hx
        have := List.head?_dropWhile_not isdigit (c :: cs)
        rw [hx] at this
        simpa using this
      have hlen : ((c :: cs).takeWhile isdigit).length ≤ 9 :=
        short_numerals_run (c :: cs) _ hp ( List.takeWhile_prefix _).isInfix hd
      have hv := decimal_value_lt _ hd hlen
      have hmax : INT_MAX = 2147483647 := rfl
      have h := parse_int_number _ _ ⟨hne, hd⟩ hr (by omega)
      rw [e] at h
      exact ⟨_, _, h, hv, List.dropWhile_suffix _⟩
    · left
      simp only [parse_int, hc]
      rfl

theorem skip_whitespace_suffix (p : List Char) : skip_whitespace p <:+ p := by
  induction p with
  | nil => exact List.suffix_refl _
  | cons c cs ih =>
    unfold skip_whitespace
    split
    · exact ih.trans (List.suffix_cons _ _)
    · exact List.suffix_refl _

theorem parse_range_end_short (lo hi n : Nat) (p : List Char) (hp : short_numerals p)
    (hn : n ≤ hi) :
    parse_range_end lo hi (n : Int) p = none ∨ ∃ (m : Nat) (rest : List Char),
      parse_range_end lo hi (n : Int) p = some ((m : Int), rest) ∧ m ≤ hi ∧ rest <:+ p := by
  unfold parse_range_end
  split
  · rename_i p1
    have hp1 : short_numerals p1 :=
      short_numerals_piece _ _ hp (List.suffix_cons _ _).isInfix
    rcases parse_int_short p1 hp1 with h | ⟨m, rest, h, _, hsuf⟩
    · left; simp only [h]
    · simp only [h]
      split
      · exact Or.inl rfl
      · rename_i hc
        exact Or.inr ⟨m, rest, rfl, by omega, hsuf.trans (List.suffix_cons _ _)⟩
  · exact Or.inr ⟨n, p, rfl, hn, List.suffix_refl _⟩

theorem parse_step_short (p : List Char) (hp : short_numerals p) :
    parse_step p = none ∨ ∃ (st : Nat) (rest : List Char),
      parse_step p = some ((st : Int), rest) ∧ st < 1000000000 ∧ rest <:+ p := by
  unfold parse_step
  split
  · rename_i p1
    have hp1 : short_numerals p1 :=
      short_numerals_piece _ _ hp (List.suffix_cons _ _).isInfix
    rcases parse_int_short p1 hp1 with h | ⟨m, rest, h, hm, hsuf⟩
    · left; simp only [h]
    · simp only [h]
      split
      · exact Or.inl rfl
      · exact Or.inr ⟨m, rest, rfl, hm, hsuf.trans (List.suffix_cons _ _)⟩
  · exact Or.inr ⟨1, p, rfl, by norm_num, List.suffix_refl _⟩

/-- The item loop on a text with short numerals sets bits between the bounds only. -/
theorem parse_field_items_bits {lo hi : Nat} (w : MaskPtr) (hw : w ≠ MaskPtr.null)
    (hhi : hi < mask_width w) :
    ∀ (fuel : Nat) (p : List Char) (mask : Nat), short_numerals p → bits_in lo hi mask →
      bits_in lo hi (parse_field_items w lo hi fuel p mask).2 := by
  have hmax : INT_MAX = 2147483647 := rfl
  have hwd : mask_width w ≤ 64 := by cases w <;> simp [mask_width]
  intro fuel
  induction fuel with
  | zero => intro p mask _ h; simpa [parse_field_items] using h
  | succ n ih =>
    intro p mask hp h
    unfold parse_field_items
    split
    · exact h
    · rename_i c cs
      have hq1 : short_numerals (skip_whitespace (c :: cs)) :=
        short_numerals_piece _ _ hp (skip_whitespace_suffix _).isInfix
      rcases parse_int_short _ hq1 with h1 | ⟨start, p1, h1, _, hs1⟩
      · simp only [h1]; exact h
      · simp only [h1]
        split
        · exact h
        · rename_i hrange
          have hq2 : short_numerals p1 := short_numerals_piece _ _ hq1 hs1.isInfix
          rcases parse_range_end_short lo hi start p1 hq2 (by omega) with
            h2 | ⟨stop, p2, h2, hstop, hs2⟩
          · simp only [h2]; exact h
          · simp only [h2]
            have hq3 : short_numerals p2 := short_numerals_piece _ _ hq2 hs2.isInfix
            rcases parse_step_short p2 hq3 with h3 | ⟨step, p3, h3, hstep, hs3⟩
            · simp only [h3]; exact h
            · simp only [h3]
              have hm := set_bits_step_bits w hw hhi stop step hstop (by omega)
                (loop_fuel (stop : Int)) start mask h (by omega)
              have hq4 : short_numerals (skip_whitespace p3) :=
                short_numerals_piece _ _ hq3
                  ((skip_whitespace_suffix _).trans hs3).isInfix
              split
              · exact hm
              · rename_i p4 heq
                rw [heq] at hq4
                exact ih _ _ (short_numerals_piece _ _ hq4 (List.suffix_cons _ _).isInfix) hm
              · exact hm

theorem parse_cron_field_bits {lo hi : Nat} (w : MaskPtr) (hw : w ≠ MaskPtr.null)
    (hhi : hi < mask_width w) (field : List Char) (mask : Nat) (hf : short_numerals field)
    (h : bits_in lo hi mask) : bits_in lo hi (parse_cron_field field lo hi w mask).2 := by
  have hmax : INT_MAX = 2147483647 := rfl
  have hwd : mask_width w ≤ 64 := by cases w <;> simp [mask_width]
  have hq : short_numerals (skip_whitespace field) :=
    short_numerals_piece _ _ hf (skip_whitespace_suffix _).isInfix
  unfold parse_cron_field
  split
  · rename_i p1 heq
    rw [heq] at hq
    split
    · rename_i p2
      have hq2 : short_numerals p2 := short_numerals_piece _ _ hq
        ((List.suffix_cons _ _).trans (List.suffix_cons _ _)).isInfix
      rcases parse_int_short p2 hq2 with h1 | ⟨step, p3, h1, hstep, _⟩
      · simp only [h1]; exact h
      · simp only [h1]
        split
        · exact h
        · exact set_bits_step_bits w hw hhi hi step (le_refl _) (by omega) _ lo mask h
            (le_refl _)
    · exact set_bits_step_bits w hw hhi hi 1 (le_refl _) (by omega) _ lo mask h (le_refl _)
  · exact parse_field_items_bits w hw hhi _ _ _ hq h

/-- Every token of `strtok` is a piece of the text. -/
theorem strtok_tokens_piece : ∀ (s cur t : List Char), t ∈ strtok_tokens s cur →
    t <:+: cur.reverse ++ s := by
  intro s
  induction s with
  | nil =>
    intro cur t ht
    unfold strtok_tokens at ht
    split at ht
    · simp at ht
    · simp only [List.mem_singleton] at ht
      subst ht
      rw [List.append_nil]
  | cons c cs ih =>
    intro cur t ht
    unfold strtok_tokens at ht
    split at ht
    · split at ht
      · rename_i hcur
        subst hcur
        have := ih [] t ht
        simp only [List.reverse_nil, List.nil_append] at this ⊢
        exact this.trans (List.suffix_cons _ _).isInfix
      · rcases List.mem_cons.mp ht with h | h
        · subst h
          exact (List.prefix_append _ _).isInfix
        · have := ih [] t h
          simp only [List.reverse_nil, List.nil_append] at this
          exact this.trans
            ((List.suffix_cons _ _).trans (List.suffix_append _ _)).isInfix
    · have := ih (c :: cur) t ht
      simp only [List.reverse_cons, List.append_assoc, List.singleton_append] at this
      exact this

theorem field_short (pattern : List Char) (hp : short_numerals pattern) (i : Nat) :
    short_numerals (((strtok_tokens (pattern.take 511) []).take 7).getD i []) := by
  rw [List.getD_eq_getElem?_getD]
  cases hg : ((strtok_tokens (pattern.take 511) []).take 7)[i]? with
  | none => rfl
  | some t =>
    have hmem : t ∈ (strtok_tokens (pattern.take 511) []).take 7 := List.getElem?_mem hg
    have h1 := strtok_tokens_piece _ [] t (List.mem_of_mem_take hmem)
    simp only [List.reverse_nil, List.nil_append] at h1
    exact short_numerals_piece _ _ hp (h1.trans ( List.take_prefix _ _).isInfix)

theorem parse_cron_tail_ranges (fields : List (List Char)) (out : jcron_pattern_t)
    (h : mask_ranges out) : mask_ranges (parse_cron_tail fields out).2 := by
  unfold parse_cron_tail
  split
  · obtain ⟨h1, h2, h3, h4, h5, _⟩ := parse_modifier_field_masks out (fields.getD 6 [])
    simp only [mask_ranges, h1, h2, h3, h4, h5]
    exact h
  · exact h

theorem parse_cron_body_ranges (pattern : List Char) (out : jcron_pattern_t)
    (hp : short_numerals pattern) (h : mask_ranges out) :
    mask_ranges (parse_cron_body pattern out).2 := by
  obtain ⟨h1, h2, h3, h4, h5⟩ := h
  have b1 := parse_cron_field_bits MaskPtr.mask_64 (by decide) (by decide) _ out.minutes
    (field_short pattern hp 1) h1
  have b2 := parse_cron_field_bits MaskPtr.mask_32 (by decide) (by decide) _ out.hours
    (field_short pattern hp 2) h2
  have b3 := parse_cron_field_bits MaskPtr.mask_32 (by decide) (by decide) _ out.days_of_month
    (field_short pattern hp 3) h3
  have b4 := parse_cron_field_bits MaskPtr.mask_16 (by decide) (by decide) _ out.months
    (field_short pattern hp 4) h4
  have b5 := parse_cron_field_bits MaskPtr.mask_8 (by decide) (by decide) _ out.days_of_week
    (field_short pattern hp 5) h5
  have b7 : bits_in 0 6 127 := bits_in_of_bounds (Nat.mod_one _) (by norm_num)
  unfold parse_cron_body
  simp only []
  split
  · exact ⟨h1, h2, h3, h4, h5⟩
  · split
    · exact ⟨b1, h2, h3, h4, h5⟩
    · split
      · exact ⟨b1, b2, h3, h4, h5⟩
      · split
        · exact ⟨b1, b2, b3, h4, h5⟩
        · split
          · exact ⟨b1, b2, b3, b4, h5⟩
          · split
            · split
              · exact ⟨b1, b2, b3, b4, h5⟩
              · exact parse_cron_tail_ranges _ _ ⟨b1, b2, b3, b4, b7⟩
            · split
              · exact ⟨b1, b2, b3, b4, b5⟩
              · exact parse_cron_tail_ranges _ _ ⟨b1, b2, b3, b4, b5⟩

theorem pattern_init_ranges : mask_ranges pattern_init :=
  ⟨bits_in_zero _ _, bits_in_zero _ _, bits_in_zero _ _, bits_in_zero _ _, bits_in_zero _ _⟩

/-- Whatever the return code, the masks that the compiler leaves for a text with short
numerals are within the ranges of their fields. -/
theorem jcron_parse_fuel_ranges :
    ∀ (fuel : Nat) (pattern : List Char), short_numerals pattern →
      mask_ranges (jcron_parse_fuel fuel pattern).2 := by
  intro fuel
  induction fuel with
  | zero => intro p _; exact pattern_init_ranges
  | succ n ih =>
    intro p hp
    unfold jcron_parse_fuel
    simp only []
    split
    · exact pattern_init_ranges
    · split
      · exact pattern_init_ranges
      · split
        · split
          · exact pattern_init_ranges
          · split
            · exact pattern_init_ranges
            · split
              · exact pattern_init_ranges
              · split
                · exact pattern_init_ranges
                · obtain ⟨a1, a2, a3, a4, a5⟩ := ih (List.takeWhile (fun c => c != '|') p)
                    (short_numerals_piece _ _ hp ( List.takeWhile_prefix _).isInfix)
                  obtain ⟨c1, c2, c3, c4, c5⟩ := ih (skip_whitespace
                    (List.drop 1 (List.dropWhile (fun c => c != '|') p)))
                    (short_numerals_piece _ _ hp
                      ((skip_whitespace_suffix _).trans
                        ((List.drop_suffix _ _).trans (List.dropWhile_suffix _))).isInfix)
                  exact ⟨bits_in_or a1 c1, bits_in_or a2 c2, bits_in_or a3 c3,
                    bits_in_or a4 c4, bits_in_or a5 c5⟩
        · exact parse_cron_body_ranges _ _ hp pattern_init_ranges

theorem jcron_parse_ranges (pattern : List Char) (hp : short_numerals pattern) :
    mask_ranges (jcron_parse pattern).2 :=
  jcron_parse_fuel_ranges _ _ hp

/-! ## The bit loop of `parse_cron_field` ends before its bound -/

theorem set_bits_step_exit (w : MaskPtr) (stop step : Int) (fuel : Nat) (i : Int) (mask : Nat)
    (h : stop < i) : set_bits_step w stop step fuel i mask = mask := by
  cases fuel with
  | zero => rfl
  | succ n =>
    unfold set_bits_step
    rw [if_neg (by omega)]

/-- With a step that keeps `i + step` within `int`, the index grows and the loop leaves the
range after at most `n` turns when `stop < i + n`. -/
theorem set_bits_step_fuel_up (w : MaskPtr) (stop step : Int) (hstop : stop ≤ 63)
    (h1 : 1 ≤ step) (h2 : step + stop ≤ 2147483647) :
    ∀ (n : Nat) (i : Int), 0 ≤ i → stop < i + n → ∀ (f1 f2 mask : Nat), n ≤ f1 → n ≤ f2 →
      set_bits_step w stop step f1 i mask = set_bits_step w stop step f2 i mask := by
  intro n
  induction n with
  | zero =>
    intro i _ hi f1 f2 mask _ _
    rw [set_bits_step_exit w stop step f1 i mask (by simpa using hi),
      set_bits_step_exit w stop step f2 i mask (by simpa using hi)]
  | succ n ih =>
    intro i h0 hi f1 f2 mask hf1 hf2
    obtain ⟨g1, rfl⟩ : ∃ k, f1 = k + 1 := ⟨f1 - 1, by omega⟩
    obtain ⟨g2, rfl⟩ : ∃ k, f2 = k + 1 := ⟨f2 - 1, by omega⟩
    unfold set_bits_step
    by_cases hle : i ≤ stop
    · rw [if_pos hle, if_pos hle, int_wrap_eq (by omega) (by omega)]
      exact ih (i + step) (by omega) (by push_cast at hi; omega) g1 g2 _ (by omega) (by omega)
    · rw [if_neg hle, if_neg hle]

/-- With a step that takes `i + step` beyond `int`, the index comes back negative, then two
below where it was or negative once more, and the loop leaves the range after at most `i + 3`
turns. -/
theorem set_bits_step_fuel_wrap (w : MaskPtr) (stop step : Int) (hstop : stop ≤ 63)
    (h1 : step ≤ 2147483647) (h2 : 2147483647 < step + stop) :
    ∀ (n : Nat) (i : Int), 0 ≤ i → i ≤ stop → i < n → ∀ (f1 f2 mask : Nat),
      i + 3 ≤ f1 → i + 3 ≤ f2 →
      set_bits_step w stop step f1 i mask = set_bits_step w stop step f2 i mask := by
  intro n
  induction n with
  | zero => intro i h0 _ hi; simp at hi; omega
  | succ n ih =>
    intro i h0 hle hi f1 f2 mask hf1 hf2
    obtain ⟨g1, rfl⟩ : ∃ k, f1 = k + 1 := ⟨f1 - 1, by omega⟩
    obtain ⟨g2, rfl⟩ : ∃ k, f2 = k + 1 := ⟨f2 - 1, by omega⟩
    unfold set_bits_step
    rw [if_pos hle, if_pos hle]
    by_cases hA : i + step ≤ 2147483647
    · rw [int_wrap_eq (by omega) hA,
        set_bits_step_exit w stop step g1 _ _ (by omega),
        set_bits_step_exit w stop step g2 _ _ (by omega)]
    · have eb : int_wrap (i + step) = i + step - 4294967296 := by
        unfold int_wrap
        omega
      rw [eb]
      obtain ⟨k1, rfl⟩ : ∃ k, g1 = k + 1 := ⟨g1 - 1, by omega⟩
      obtain ⟨k2, rfl⟩ : ∃ k, g2 = k + 1 := ⟨g2 - 1, by omega⟩
      unfold set_bits_step
      rw [if_pos (by omega), if_pos (by omega), int_wrap_eq (by omega) (by omega)]
      by_cases ha : 0 ≤ i + step - 4294967296 + step
      · exact ih _ ha (by omega) (by push_cast at hi; omega) k1 k2 _
          (by push_cast at hf1 ⊢; omega) (by push_cast at hf2 ⊢; omega)
      · obtain ⟨j1, rfl⟩ : ∃ k, k1 = k + 1 := ⟨k1 - 1, by push_cast at hf1; omega⟩
        obtain ⟨j2, rfl⟩ : ∃ k, k2 = k + 1 := ⟨k2 - 1, by push_cast at hf2; omega⟩
        unfold set_bits_step
        rw [if_pos (by omega), if_pos (by omega), int_wrap_eq (by omega) (by omega),
          set_bits_step_exit w stop step j1 _ _ (by omega),
          set_bits_step_exit w stop step j2 _ _ (by omega)]

/-- The bit loop `for (int i = start; i <= end; i += step)` of `parse_cron_field`, which runs
with `0 ≤ start ≤ end ≤ 59` and a step from 1 to `INT_MAX`, ends before `loop_fuel end`
turns: a larger bound gives the same mask. -/
theorem set_bits_step_fuel (w : MaskPtr) (stop step i : Int) (mask fuel : Nat)
    (hstop : stop ≤ 63) (h0 : 0 ≤ i) (hi : i ≤ stop) (h1 : 1 ≤ step)
    (h2 : step ≤ 2147483647) (hf : loop_fuel stop ≤ fuel) :
    set_bits_step w stop step fuel i mask =
      set_bits_step w stop step (loop_fuel stop) i mask := by
  have e : loop_fuel stop = 2 * stop.toNat + 4 := rfl
  by_cases hs : step + stop ≤ 2147483647
  · exact set_bits_step_fuel_up w stop step hstop h1 hs (stop.toNat + 1) i h0
      (by push_cast; omega) _ _ mask (by omega) (by omega)
  · exact set_bits_step_fuel_wrap w stop step hstop h2 (by omega) (stop.toNat + 1) i h0 hi
      (by push_cast; omega) _ _ mask (by omega) (by omega)


theorem parse_field_items_code (w : MaskPtr) (lo hi : Nat) :
    ∀ (fuel : Nat) (p : List Char) (mask : Nat),
      (parse_field_items w lo hi fuel p mask).1 = JCRON_OK ∨
        (parse_field_items w lo hi fuel p mask).1 = JCRON_ERR_INVALID_PATTERN := by
  intro fuel
  induction fuel with
  | zero => intro p mask; exact Or.inr rfl
  | succ n ih =>
    intro p mask
    unfold parse_field_items
    split
    · exact Or.inl rfl
    · split
      · exact Or.inr rfl
      · split
        · exact Or.inr rfl
        · split
          · exact Or.inr rfl
          · split
            · exact Or.inr rfl
            · simp only []
              split
              · exact Or.inl rfl
              · exact ih _ _
              · exact Or.inr rfl

theorem parse_cron_field_code (field : List Char) (lo hi : Nat) (w : MaskPtr) (mask : Nat) :
    (parse_cron_field field lo hi w mask).1 = JCRON_OK ∨
      (parse_cron_field field lo hi w mask).1 = JCRON_ERR_INVALID_PATTERN := by
  unfold parse_cron_field
  split
  · split
    · split
      · exact Or.inr rfl
      · split
        · exact Or.inr rfl
        · exact Or.inl rfl
    · exact Or.inl rfl
  · exact parse_field_items_code w lo hi _ _ _

/-- The cron body of `jcron_parse` on the record of the start, by the five field calls. -/
theorem parse_cron_body_eq (s : List Char) :
    parse_cron_body s pattern_init =
      if (cron_fields s).length < 6 then (JCRON_ERR_INVALID_PATTERN, pattern_init)
      else if (field_result CronField.minute s).1 ≠ JCRON_OK then
        ((field_result CronField.minute s).1,
          cron_record (field_result CronField.minute s).2 0 0 0 0)
      else if (field_result CronField.hour s).1 ≠ JCRON_OK then
        ((field_result CronField.hour s).1,
          cron_record (field_result CronField.minute s).2 (field_result CronField.hour s).2
            0 0 0)
      else if (field_result CronField.day_of_month s).1 ≠ JCRON_OK then
        ((field_result CronField.day_of_month s).1,
          cron_record (field_result CronField.minute s).2 (field_result CronField.hour s).2
            (field_result CronField.day_of_month s).2 0 0)
      else if (field_result CronField.month s).1 ≠ JCRON_OK then
        ((field_result CronField.month s).1,
          cron_record (field_result CronField.minute s).2 (field_result CronField.hour s).2
            (field_result CronField.day_of_month s).2 (field_result CronField.month s).2 0)
      else if (field_result CronField.day_of_week s).1 ≠ JCRON_OK then
        ((field_result CronField.day_of_week s).1,
          cron_record (field_result CronField.minute s).2 (field_result CronField.hour s).2
            (field_result CronField.day_of_month s).2 (field_result CronField.month s).2
            (field_result CronField.day_of_week s).2)
      else
        parse_cron_tail (cron_fields s)
          (cron_record (field_result CronField.minute s).2 (field_result CronField.hour s).2
            (field_result CronField.day_of_month s).2 (field_result CronField.month s).2
            (field_result CronField.day_of_week s).2) := by
  rfl
theorem parse_cron_tail_code (fields : List (List Char)) (out : jcron_pattern_t) :
    (parse_cron_tail fields out).1 = JCRON_OK := by
  unfold parse_cron_tail
  split <;> rfl

theorem parse_cron_tail_mask (f : CronField) (fields : List (List Char))
    (out : jcron_pattern_t) : f.mask (parse_cron_tail fields out).2 = f.mask out := by
  unfold parse_cron_tail
  split
  · obtain ⟨h1, h2, h3, h4, h5, _⟩ := parse_modifier_field_masks out (fields.getD 6 [])
    cases f <;> simp only [CronField.mask] <;> assumption
  · rfl

theorem cron_record_mask (f : CronField) (s : List Char) :
    f.mask (cron_record (field_result CronField.minute s).2 (field_result CronField.hour s).2
      (field_result CronField.day_of_month s).2 (field_result CronField.month s).2
      (field_result CronField.day_of_week s).2) = (field_result f s).2 := by
  cases f <;> rfl

/-- The cron body of `jcron_parse` returns `JCRON_OK` or `JCRON_ERR_INVALID_PATTERN`. -/
theorem parse_cron_body_code (s : List Char) :
    (parse_cron_body s pattern_init).1 = JCRON_OK ∨
      (parse_cron_body s pattern_init).1 = JCRON_ERR_INVALID_PATTERN := by
  have c1 := parse_cron_field_code (field_token CronField.minute s) 0 59 MaskPtr.mask_64 0
  have c2 := parse_cron_field_code (field_token CronField.hour s) 0 23 MaskPtr.mask_32 0
  have c3 := parse_cron_field_code (field_token CronField.day_of_month s) 1 31 MaskPtr.mask_32 0
  have c4 := parse_cron_field_code (field_token CronField.month s) 1 12 MaskPtr.mask_16 0
  have c5 := parse_cron_field_code (field_token CronField.day_of_week s) 0 6 MaskPtr.mask_8 0
  rw [parse_cron_body_eq]
  split_ifs with h0 h1 h2 h3 h4 h5
  · exact Or.inr rfl
  · exact c1
  · exact c2
  · exact c3
  · exact c4
  · exact c5
  · exact Or.inl (parse_cron_tail_code _ _)

/-- A cron body that returns `JCRON_OK` has six tokens, each of its five field calls
returned `JCRON_OK`, and its record is the record of the five masks after the modifier. -/
theorem parse_cron_body_ok (s : List Char)
    (h : (parse_cron_body s pattern_init).1 = JCRON_OK) :
    6 ≤ (cron_fields s).length ∧ (∀ f : CronField, (field_result f s).1 = JCRON_OK) ∧
      parse_cron_body s pattern_init =
        parse_cron_tail (cron_fields s)
          (cron_record (field_result CronField.minute s).2 (field_result CronField.hour s).2
            (field_result CronField.day_of_month s).2 (field_result CronField.month s).2
            (field_result CronField.day_of_week s).2) := by
  rw [parse_cron_body_eq] at h ⊢
  split_ifs at h ⊢ with h0 h1 h2 h3 h4 h5
  · exact absurd h (by decide)
  · exact absurd h h1
  · exact absurd h h2
  · exact absurd h h3
  · exact absurd h h4
  · exact absurd h h5
  · refine ⟨by omega, ?_, rfl⟩
    intro f
    cases f
    · exact not_not.mp h1
    · exact not_not.mp h2
    · exact not_not.mp h3
    · exact not_not.mp h4
    · exact not_not.mp h5

/-- Six tokens whose five field calls return `JCRON_OK` make the cron body return the
record of the five masks after the modifier. -/
theorem parse_cron_body_of_fields (s : List Char) (hlen : 6 ≤ (cron_fields s).length)
    (hall : ∀ f : CronField, (field_result f s).1 = JCRON_OK) :
    parse_cron_body s pattern_init =
      parse_cron_tail (cron_fields s)
        (cron_record (field_result CronField.minute s).2 (field_result CronField.hour s).2
          (field_result CronField.day_of_month s).2 (field_result CronField.month s).2
          (field_result CronField.day_of_week s).2) := by
  rw [parse_cron_body_eq, if_neg (by omega), if_neg (not_not.mpr (hall _)),
    if_neg (not_not.mpr (hall _)), if_neg (not_not.mpr (hall _)),
    if_neg (not_not.mpr (hall _)), if_neg (not_not.mpr (hall _))]

/-- The mask of a field after a cron body that returned `JCRON_OK`. -/
theorem parse_cron_body_mask (s : List Char)
    (h : (parse_cron_body s pattern_init).1 = JCRON_OK) (f : CronField) :
    f.mask (parse_cron_body s pattern_init).2 = (field_result f s).2 := by
  obtain ⟨_, _, e⟩ := parse_cron_body_ok s h
  rw [e, parse_cron_tail_mask, cron_record_mask]

theorem parse_modifier_no_digit (tag c0 c1 : Char) (rest : List Char) (type mv : Int)
    (unit : Char) (h : isdigit c1 = false) :
    (parse_modifier tag (c0 :: c1 :: rest) type mv unit).1 = JCRON_ERR_INVALID_PATTERN := by
  simp [parse_modifier, h]

theorem has_prefix4_cons {s : List Char} {a b c d : Char}
    (h : has_prefix4 s [a, b, c, d] = true) : ∃ rest, s = a :: b :: c :: d :: rest := by
  unfold has_prefix4 at h
  simp only [decide_eq_true_eq] at h
  match s, h with
  | [], h => simp at h
  | [_], h => simp at h
  | [_, _], h => simp at h
  | [_, _, _], h => simp at h
  | x :: y :: z :: u :: rest, h =>
    simp only [List.take, List.cons.injEq, and_true] at h
    obtain ⟨rfl, rfl, rfl, rfl⟩ := h
    exact ⟨rest, rfl⟩

/-- The function `jcron_parse` on a text without `|`: the prefixes `EOD:` and `SOD:` lead
to `JCRON_ERR_INVALID_PATTERN`, every other text to the cron body. -/
theorem jcron_parse_fuel_plain (n : Nat) (s : List Char) (hbar : s.contains '|' = false) :
    (has_prefix4 s ['E', 'O', 'D', ':'] = true ∧
        (jcron_parse_fuel (n + 1) s).1 = JCRON_ERR_INVALID_PATTERN) ∨
      (has_prefix4 s ['S', 'O', 'D', ':'] = true ∧
        (jcron_parse_fuel (n + 1) s).1 = JCRON_ERR_INVALID_PATTERN) ∨
      jcron_parse_fuel (n + 1) s = parse_cron_body s pattern_init := by
  by_cases h1 : has_prefix4 s ['E', 'O', 'D', ':'] = true
  · left
    refine ⟨h1, ?_⟩
    obtain ⟨rest, rfl⟩ := has_prefix4_cons h1
    simp only [jcron_parse_fuel, h1, if_true, jcron_parse_eod]
    exact parse_modifier_no_digit _ _ _ _ _ _ _ (by decide)
  · by_cases h2 : has_prefix4 s ['S', 'O', 'D', ':'] = true
    · right; left
      refine ⟨h2, ?_⟩
      obtain ⟨rest, rfl⟩ := has_prefix4_cons h2
      simp only [jcron_parse_fuel, h1, h2, if_true, jcron_parse_sod]
      exact parse_modifier_no_digit _ _ _ _ _ _ _ (by decide)
    · right; right
      simp only [jcron_parse_fuel, h1, h2, hbar]
      rfl

/-! ## Tokens -/

theorem strtok_tokens_pos (b : List Char) :
    ∀ cur : List Char, cur ≠ [] → 1 ≤ (strtok_tokens b cur).length := by
  induction b with
  | nil => intro cur h; simp [strtok_tokens, h]
  | cons c cs ih =>
    intro cur h
    unfold strtok_tokens
    split
    · simp [h]
    · exact ih _ (by simp)

/-- A prefix of a text has at most as many tokens as the text. -/
theorem strtok_tokens_mono (a b : List Char) :
    ∀ cur : List Char,
      (strtok_tokens a cur).length ≤ (strtok_tokens (a ++ b) cur).length := by
  induction a with
  | nil =>
    intro cur
    by_cases h : cur = []
    · subst h; simp [strtok_tokens]
    · have := strtok_tokens_pos b cur h
      simpa [strtok_tokens, h] using this
  | cons c cs ih =>
    intro cur
    rw [List.cons_append]
    unfold strtok_tokens
    split
    · split
      · exact ih _
      · simp only [List.length_cons]
        have := ih []
        omega
    · exact ih _

theorem strtok_tokens_take (s : List Char) (n : Nat) :
    (strtok_tokens (s.take n) []).length ≤ (strtok_tokens s []).length := by
  have := strtok_tokens_mono (s.take n) (s.drop n) []
  rwa [List.take_append_drop] at this

theorem strtok_tokens_takeWhile (s : List Char) (p : Char → Bool) :
    (strtok_tokens (s.takeWhile p) []).length ≤ (strtok_tokens s []).length := by
  have := strtok_tokens_mono (s.takeWhile p) (s.dropWhile p) []
  rwa [List.takeWhile_append_dropWhile] at this

theorem cron_fields_length (s : List Char) :
    (cron_fields s).length ≤ (strtok_tokens s []).length := by
  unfold cron_fields
  rw [List.length_take]
  have := strtok_tokens_take s 511
  omega

/-- The function `jcron_parse` returns `JCRON_OK` or `JCRON_ERR_INVALID_PATTERN`. -/
theorem jcron_parse_fuel_code :
    ∀ (n : Nat) (s : List Char),
      (jcron_parse_fuel n s).1 = JCRON_OK ∨
        (jcron_parse_fuel n s).1 = JCRON_ERR_INVALID_PATTERN := by
  intro n
  induction n with
  | zero => intro s; exact Or.inr rfl
  | succ n ih =>
    intro s
    by_cases hbar : s.contains '|' = false
    · rcases jcron_parse_fuel_plain n s hbar with ⟨_, h⟩ | ⟨_, h⟩ | h
      · exact Or.inr h
      · exact Or.inr h
      · rw [h]; exact parse_cron_body_code s
    · by_cases h1 : has_prefix4 s ['E', 'O', 'D', ':'] = true
      · obtain ⟨rest, rfl⟩ := has_prefix4_cons h1
        right
        simp only [jcron_parse_fuel, h1, if_true, jcron_parse_eod]
        exact parse_modifier_no_digit _ _ _ _ _ _ _ (by decide)
      · by_cases h2 : has_prefix4 s ['S', 'O', 'D', ':'] = true
        · obtain ⟨rest, rfl⟩ := has_prefix4_cons h2
          right
          simp only [jcron_parse_fuel, h1, h2, if_true, jcron_parse_sod]
          exact parse_modifier_no_digit _ _ _ _ _ _ _ (by decide)
        · have hb : s.contains '|' = true := by simpa using hbar
          have h1f : has_prefix4 s ['E', 'O', 'D', ':'] = false := by simpa using h1
          have h2f : has_prefix4 s ['S', 'O', 'D', ':'] = false := by simpa using h2
          simp only [jcron_parse_fuel, h1f, h2f, hb, if_true, if_false, Bool.false_eq_true]
          split_ifs with c1 c2 c3 c4
          · exact Or.inr rfl
          · exact Or.inr rfl
          · exact ih _
          · exact ih _
          · exact Or.inl rfl

/-- A text with fewer than six tokens is refused, whatever its shape. -/
theorem jcron_parse_fuel_few :
    ∀ (n : Nat) (s : List Char), (strtok_tokens s []).length < 6 →
      (jcron_parse_fuel n s).1 = JCRON_ERR_INVALID_PATTERN := by
  intro n
  induction n with
  | zero => intro s _; rfl
  | succ n ih =>
    intro s hs
    by_cases hbar : s.contains '|' = false
    · rcases jcron_parse_fuel_plain n s hbar with ⟨_, h⟩ | ⟨_, h⟩ | h
      · exact h
      · exact h
      · rw [h, parse_cron_body_eq, if_pos (by have := cron_fields_length s; omega)]
    · by_cases h1 : has_prefix4 s ['E', 'O', 'D', ':'] = true
      · obtain ⟨rest, rfl⟩ := has_prefix4_cons h1
        simp only [jcron_parse_fuel, h1, if_true, jcron_parse_eod]
        exact parse_modifier_no_digit _ _ _ _ _ _ _ (by decide)
      · by_cases h2 : has_prefix4 s ['S', 'O', 'D', ':'] = true
        · obtain ⟨rest, rfl⟩ := has_prefix4_cons h2
          simp only [jcron_parse_fuel, h1, h2, if_true, jcron_parse_sod]
          exact parse_modifier_no_digit _ _ _ _ _ _ _ (by decide)
        · have hb : s.contains '|' = true := by simpa using hbar
          have ht := strtok_tokens_takeWhile s (fun c => c != '|')
          have h3 := ih (s.takeWhile (fun c => c != '|')) (by omega)
          have h1f : has_prefix4 s ['E', 'O', 'D', ':'] = false := by simpa using h1
          have h2f : has_prefix4 s ['S', 'O', 'D', ':'] = false := by simpa using h2
          simp only [jcron_parse_fuel, h1f, h2f, hb, if_true, if_false, Bool.false_eq_true]
          split_ifs with c1 c2 c3 c4
          · rfl
          · rfl
          · exact h3
          · exact absurd (not_not.mp c3) (by rw [h3]; decide)
          · exact absurd (not_not.mp c3) (by rw [h3]; decide)
theorem strtok_tokens_length_le (s : List Char) :
    ∀ cur : List Char, (strtok_tokens s cur).length ≤ s.length + 1 := by
  induction s with
  | nil => intro cur; unfold strtok_tokens; split <;> simp
  | cons c cs ih =>
    intro cur
    unfold strtok_tokens
    split
    · split
      · have := ih []; simp only [List.length_cons]; omega
      · have := ih []; simp only [List.length_cons]; omega
    · have := ih (c :: cur); simp only [List.length_cons]; omega

theorem strtok_tokens_word (tok : List Char) (hnd : ∀ c ∈ tok, is_delim c = false) :
    ∀ cur : List Char, (cur ≠ [] ∨ tok ≠ []) →
      strtok_tokens tok cur = [cur.reverse ++ tok] := by
  induction tok with
  | nil =>
    intro cur h
    have hc : cur ≠ [] := by
      rcases h with h | h
      · exact h
      · exact absurd rfl h
    simp [strtok_tokens, hc]
  | cons c cs ih =>
    intro cur _
    have h1 : is_delim c = false := hnd c (List.mem_cons_self _ _)
    unfold strtok_tokens
    rw [if_neg (by simp [h1])]
    rw [ih (fun x hx => hnd x (List.mem_cons_of_mem _ hx)) (c :: cur) (Or.inl (by simp))]
    simp

/-- A text followed by a space and a word has the tokens of the text followed by the
word. -/
theorem strtok_tokens_append_word (a tok : List Char) (htok : tok ≠ [])
    (hnd : ∀ c ∈ tok, is_delim c = false) :
    ∀ cur : List Char,
      strtok_tokens (a ++ ' ' :: tok) cur = strtok_tokens a cur ++ [tok] := by
  have hw := strtok_tokens_word tok hnd [] (Or.inr htok)
  simp only [List.reverse_nil, List.nil_append] at hw
  induction a with
  | nil =>
    intro cur
    simp only [List.nil_append]
    unfold strtok_tokens
    rw [if_pos (by decide)]
    by_cases hc : cur = []
    · subst hc; simp [strtok_tokens, hw]
    · simp [strtok_tokens, hc, hw]
  | cons c cs ih =>
    intro cur
    rw [List.cons_append]
    unfold strtok_tokens
    split
    · split
      · exact ih []
      · rw [ih []]; rfl
    · exact ih _

theorem cron_fields_short (B : List Char) (hlen : B.length ≤ 511)
    (hsix : (strtok_tokens B []).length ≤ 7) : cron_fields B = strtok_tokens B [] := by
  unfold cron_fields
  rw [List.take_of_length_le hlen, List.take_of_length_le hsix]

theorem cron_fields_append_word (B tok : List Char) (htok : tok ≠ [])
    (hnd : ∀ c ∈ tok, is_delim c = false) (hlen : B.length + 1 + tok.length ≤ 511)
    (hsix : (strtok_tokens B []).length = 6) :
    cron_fields (B ++ ' ' :: tok) = cron_fields B ++ [tok] := by
  have e1 : (B ++ ' ' :: tok).take 511 = B ++ ' ' :: tok :=
    List.take_of_length_le (by simp; omega)
  have e2 : (strtok_tokens B [] ++ [tok]).take 7 = strtok_tokens B [] ++ [tok] :=
    List.take_of_length_le (by simp; omega)
  rw [cron_fields_short B (by omega) (by omega)]
  unfold cron_fields
  rw [e1, strtok_tokens_append_word B tok htok hnd, e2]

theorem field_result_append_word (B tok : List Char) (htok : tok ≠ [])
    (hnd : ∀ c ∈ tok, is_delim c = false) (hlen : B.length + 1 + tok.length ≤ 511)
    (hsix : (strtok_tokens B []).length = 6) (f : CronField) :
    field_result f (B ++ ' ' :: tok) = field_result f B := by
  have h6 : (cron_fields B).length = 6 := by
    rw [cron_fields_short B (by omega) (by omega)]; exact hsix
  have hi : f.index < (cron_fields B).length := by
    rw [h6]; cases f <;> decide
  unfold field_result field_token
  rw [cron_fields_append_word B tok htok hnd hlen hsix]
  rw [List.getD_eq_getElem?_getD, List.getD_eq_getElem?_getD, List.getElem?_append_left hi]

/-! ## Patterns without `|` -/

/-- A text that starts with `EOD:` or `SOD:` is refused: the whole text is handed to the
modifier parser, which finds the letter `O` where it expects a digit. -/
theorem jcron_parse_fuel_prefixed (n : Nat) (s lit : List Char)
    (hlit : lit = ['E', 'O', 'D', ':'] ∨ lit = ['S', 'O', 'D', ':'])
    (h : has_prefix4 s lit = true) :
    (jcron_parse_fuel (n + 1) s).1 = JCRON_ERR_INVALID_PATTERN := by
  rcases hlit with rfl | rfl
  · obtain ⟨rest, rfl⟩ := has_prefix4_cons h
    simp only [jcron_parse_fuel, h, if_true, jcron_parse_eod]
    exact parse_modifier_no_digit _ _ _ _ _ _ _ (by decide)
  · obtain ⟨rest, rfl⟩ := has_prefix4_cons h
    have h1 : has_prefix4 ('S' :: 'O' :: 'D' :: ':' :: rest) ['E', 'O', 'D', ':'] = false := by
      simp [has_prefix4]
    simp only [jcron_parse_fuel, h, h1, if_true, if_false, Bool.false_eq_true, jcron_parse_sod]
    exact parse_modifier_no_digit _ _ _ _ _ _ _ (by decide)

theorem contains_bar_false {s : List Char} (h : '|' ∉ s) : s.contains '|' = false := by
  simpa using h

/-- A pattern text without `|` that `jcron_parse` accepts is compiled by the cron body. -/
theorem jcron_parse_plain_ok (s : List Char) (hbar : '|' ∉ s)
    (h : (jcron_parse s).1 = JCRON_OK) : jcron_parse s = parse_cron_body s pattern_init := by
  unfold jcron_parse at h ⊢
  rcases jcron_parse_fuel_plain s.length s (contains_bar_false hbar) with ⟨_, e⟩ | ⟨_, e⟩ | e
  · rw [e] at h; exact absurd h (by decide)
  · rw [e] at h; exact absurd h (by decide)
  · exact e

/-- After a successful `jcron_parse` of a text without `|`, the mask of a field is the
result of `parse_cron_field` on the token of the field. -/
theorem jcron_parse_field_mask (s : List Char) (P : jcron_pattern_t) (hbar : '|' ∉ s)
    (h : jcron_parse s = (JCRON_OK, P)) (f : CronField) :
    field_result f s = (JCRON_OK, f.mask P) := by
  have hc : (jcron_parse s).1 = JCRON_OK := by rw [h]
  have e := jcron_parse_plain_ok s hbar hc
  have hb : (parse_cron_body s pattern_init).1 = JCRON_OK := by rw [← e]; exact hc
  have h1 := (parse_cron_body_ok s hb).2.1 f
  have h2 := parse_cron_body_mask s hb f
  rw [← e, h] at h2
  exact Prod.ext h1 h2.symm

/-- A pattern text without `|` one of whose field calls fails is refused. -/
theorem jcron_parse_plain_invalid (s : List Char) (hbar : '|' ∉ s) (f : CronField)
    (hf : (field_result f s).1 ≠ JCRON_OK) :
    (jcron_parse s).1 = JCRON_ERR_INVALID_PATTERN := by
  rcases jcron_parse_fuel_code (s.length + 1) s with h | h
  · have e := jcron_parse_plain_ok s hbar h
    have hb : (parse_cron_body s pattern_init).1 = JCRON_OK := by rw [← e]; exact h
    exact absurd ((parse_cron_body_ok s hb).2.1 f) hf
  · exact h

/-- A six-token pattern text without `|` that compiles, followed by a space and a seventh
token: the result is the record of the six tokens after the modifier call on the seventh. -/
theorem jcron_parse_seventh (B tok : List Char) (PB : jcron_pattern_t) (hbar : '|' ∉ B)
    (hbt : '|' ∉ tok) (htok : tok ≠ []) (hnd : ∀ c ∈ tok, is_delim c = false)
    (hlen : B.length + 1 + tok.length ≤ 511) (hsix : (strtok_tokens B []).length = 6)
    (hB : jcron_parse B = (JCRON_OK, PB)) :
    jcron_parse (B ++ ' ' :: tok) = (JCRON_OK, parse_modifier_field PB tok) ∧
      PB = cron_record PB.minutes PB.hours PB.days_of_month PB.months PB.days_of_week := by
  have hc : (jcron_parse B).1 = JCRON_OK := by rw [hB]
  have e := jcron_parse_plain_ok B hbar hc
  have hb : (parse_cron_body B pattern_init).1 = JCRON_OK := by rw [← e]; exact hc
  obtain ⟨h6, hall, hrec⟩ := parse_cron_body_ok B hb
  have hf6 : cron_fields B = strtok_tokens B [] := cron_fields_short B (by omega) (by omega)
  have hPB : PB = cron_record (field_result CronField.minute B).2
      (field_result CronField.hour B).2 (field_result CronField.day_of_month B).2
      (field_result CronField.month B).2 (field_result CronField.day_of_week B).2 := by
    have h1 : (parse_cron_body B pattern_init).2 = PB := by rw [← e, hB]
    rw [← h1, hrec]
    unfold parse_cron_tail
    rw [if_neg (by rw [hf6, hsix]; decide)]
  have hfr := field_result_append_word B tok htok hnd hlen hsix
  have hbar2 : '|' ∉ B ++ ' ' :: tok := by
    intro hm
    rcases List.mem_append.mp hm with h1 | h1
    · exact hbar h1
    · rcases List.mem_cons.mp h1 with h2 | h2
      · exact absurd h2 (by decide)
      · exact hbt h2
  have hlenB : 5 ≤ B.length := by
    have := strtok_tokens_length_le B []
    omega
  have htake : (B ++ ' ' :: tok).take 4 = B.take 4 :=
    List.take_append_of_le_length (by omega)
  have hpre : ∀ lit, has_prefix4 (B ++ ' ' :: tok) lit = has_prefix4 B lit := by
    intro lit; unfold has_prefix4; rw [htake]
  have hcf := cron_fields_append_word B tok htok hnd hlen hsix
  have hbody : parse_cron_body (B ++ ' ' :: tok) pattern_init =
      (JCRON_OK, parse_modifier_field PB tok) := by
    rw [parse_cron_body_of_fields _ (by rw [hcf]; simp; omega)
      (fun f => by rw [hfr f]; exact hall f)]
    rw [hfr, hfr, hfr, hfr, hfr, ← hPB, hcf]
    unfold parse_cron_tail
    have hl : (cron_fields B ++ [tok]).length ≥ 7 := by simp; omega
    rw [if_pos hl, List.getD_eq_getElem?_getD,
      List.getElem?_append_right (by rw [hf6, hsix]), hf6, hsix]
    rfl
  have hno : ∀ lit, lit = ['E', 'O', 'D', ':'] ∨ lit = ['S', 'O', 'D', ':'] →
      has_prefix4 (B ++ ' ' :: tok) lit = true → False := by
    intro lit hlit p
    rw [hpre] at p
    have q := jcron_parse_fuel_prefixed B.length B lit hlit p
    unfold jcron_parse at hc
    rw [q] at hc
    exact absurd hc (by decide)
  refine ⟨?_, ?_⟩
  · unfold jcron_parse
    rcases jcron_parse_fuel_plain (B ++ ' ' :: tok).length (B ++ ' ' :: tok)
      (contains_bar_false hbar2) with ⟨p, _⟩ | ⟨p, _⟩ | e2
    · exact absurd p (fun p => hno _ (Or.inl rfl) p)
    · exact absurd p (fun p => hno _ (Or.inr rfl) p)
    · rw [e2]; exact hbody
  · rw [hPB]; rfl

/-! ## The five fields -/

theorem field_ptr_ne_null (f : CronField) : f.ptr ≠ MaskPtr.null := by
  cases f <;> decide

theorem field_hi_lt_width (f : CronField) : f.hi < mask_width f.ptr := by
  cases f <;> decide

theorem field_lo_le_hi (f : CronField) : f.lo ≤ f.hi := by
  cases f <;> decide

/-! ## The seventh token -/

theorem parse_modifier_field_tag (out : jcron_pattern_t) (d U : Char)
    (hd : isdigit d = true) (hU : U = 'H' ∨ U = 'D' ∨ U = 'W' ∨ U = 'M') :
    parse_modifier_field out ['S', d, U] =
        { out with
          sod_type := (d.toNat : Int) - 48, sod_modifier := (d.toNat : Int) - 48, sod_unit := U } ∧
      parse_modifier_field out ['E', d, U] =
        { out with
          eod_type := (d.toNat : Int) - 48, eod_modifier := (d.toNat : Int) - 48, eod_unit := U } := by
  rcases hU with rfl | rfl | rfl | rfl <;>
    simp [parse_modifier_field, jcron_parse_sod, jcron_parse_eod, parse_modifier, hd]

theorem modifier_token_chars (t d U : Char) (ht : t = 'S' ∨ t = 'E') (hd : isdigit d = true)
    (hU : U = 'H' ∨ U = 'D' ∨ U = 'W' ∨ U = 'M') :
    '|' ∉ [t, d, U] ∧ ∀ c ∈ [t, d, U], is_delim c = false := by
  have hd1 : d ≠ '|' := by intro h; subst h; exact absurd hd (by decide)
  have hd2 : is_delim d = false := by
    cases h : is_delim d with
    | false => rfl
    | true =>
      have h1 : isspace d = true := by
        unfold is_delim at h
        unfold isspace
        simp only [Bool.or_eq_true, beq_iff_eq] at h ⊢
        rcases h with h | h
        · exact Or.inl (Or.inl (Or.inl (Or.inl (Or.inl h))))
        · exact Or.inl (Or.inl (Or.inl (Or.inl (Or.inr h))))
      rw [isdigit_not_space hd] at h1
      exact absurd h1 (by decide)
  constructor
  · intro hm
    simp only [List.mem_cons, List.mem_singleton, List.not_mem_nil, or_false] at hm
    rcases hm with h | h | h
    · rcases ht with rfl | rfl <;> exact absurd h (by decide)
    · exact hd1 h.symm
    · rcases hU with rfl | rfl | rfl | rfl <;> exact absurd h (by decide)
  · intro c hc
    simp only [List.mem_cons, List.mem_singleton, List.not_mem_nil, or_false] at hc
    rcases hc with rfl | rfl | rfl
    · rcases ht with rfl | rfl <;> decide
    · exact hd2
    · rcases hU with rfl | rfl | rfl | rfl <;> decide

/-! ## Recurrence of weekdays -/

theorem year_span_full :
    ∀ r ∈ List.range 400, year_span false r 12 = 127 ∧ year_span true r 12 = 127 := by
  decide!

theorem leap_span_full : ∀ r ∈ List.range 400, leap_span r 40 = 127 := by
  decide!

theorem year_span_testBit (shift : Bool) (r t : Nat) :
    ∀ n : Nat, (year_span shift r n).testBit t = true →
      ∃ k : Nat, k < n ∧
        ((days_before_year ((r : Int) + ((k : Int) + 1)) +
          (if shift then leap_day ((r : Int) + ((k : Int) + 1)) else 0)) % 7).toNat = t := by
  intro n
  induction n with
  | zero => intro h; simp [year_span] at h
  | succ n ih =>
    intro h
    unfold year_span at h
    rw [Nat.testBit_or, Bool.or_eq_true, testBit_one_shiftLeft, decide_eq_true_eq] at h
    rcases h with h | h
    · obtain ⟨k, hk, e⟩ := ih h
      exact ⟨k, by omega, e⟩
    · exact ⟨n, by omega, h⟩

theorem leap_span_testBit (r t : Nat) :
    ∀ n : Nat, (leap_span r n).testBit t = true →
      ∃ k : Nat, k < n ∧ leap_day ((r : Int) + ((k : Int) + 1)) = 1 ∧
        (days_before_year ((r : Int) + ((k : Int) + 1)) % 7).toNat = t := by
  intro n
  induction n with
  | zero => intro h; simp [leap_span] at h
  | succ n ih =>
    intro h
    unfold leap_span at h
    rw [Nat.testBit_or, Bool.or_eq_true] at h
    rcases h with h | h
    · obtain ⟨k, hk, e⟩ := ih h
      exact ⟨k, by omega, e⟩
    · split at h
      · rename_i hl
        rw [testBit_one_shiftLeft, decide_eq_true_eq] at h
        exact ⟨n, by omega, hl, h⟩
      · simp at h

theorem testBit_127 (t : Nat) (h : t < 7) : (127 : Nat).testBit t = true := by
  interval_cases t <;> decide

theorem days_before_year_period (x q : Int) :
    days_before_year (x + 400 * q) = days_before_year x + 146097 * q := by
  unfold days_before_year
  omega

theorem leap_day_period (x q : Int) : leap_day (x + 400 * q) = leap_day x := by
  unfold leap_day
  have h4 : (x + 400 * q) % 4 = x % 4 := by omega
  have h100 : (x + 400 * q) % 100 = x % 100 := by omega
  have h400 : (x + 400 * q) % 400 = x % 400 := by omega
  rw [h4, h100, h400]
theorem residue_of_testBit (x : Int) (t : Nat) (h : (x % 7).toNat = t) :
    x % 7 = (t : Int) := by
  omega

/-- Among the twelve years after any year, the first of a given month falls on every
weekday. -/
theorem weekday_within_12 (y0 m d w : Int) (hw : 0 ≤ w ∧ w ≤ 6) :
    ∃ k : Int, 1 ≤ k ∧ k ≤ 12 ∧ (days_from_civil (y0 + k) m d + 4) % 7 = w := by
  obtain ⟨r, hr, hr0⟩ : ∃ r : Nat, (r : Int) = y0 % 400 ∧ r < 400 :=
    ⟨(y0 % 400).toNat, by omega, by omega⟩
  have hy0 : y0 = (r : Int) + 400 * (y0 / 400) := by omega
  obtain ⟨fA, fB⟩ := year_span_full r (List.mem_range.mpr hr0)
  by_cases hm2 : m ≤ 2
  · -- January and February: no leap day before the date
    obtain ⟨t, ht, et⟩ : ∃ t : Nat, t < 7 ∧ (t : Int) = (w - (31 * (m - 1) + (d - 1) + 4)) % 7 :=
      ⟨((w - (31 * (m - 1) + (d - 1) + 4)) % 7).toNat, by omega, by omega⟩
    have hb : (year_span false r 12).testBit t = true := by rw [fA]; exact testBit_127 t ht
    obtain ⟨k, hk, e⟩ := year_span_testBit false r t 12 hb
    simp only [Bool.false_eq_true, if_false, add_zero] at e
    have e2 := residue_of_testBit _ t e
    refine ⟨(k : Int) + 1, by omega, by omega, ?_⟩
    have hp := days_before_year_period ((r : Int) + ((k : Int) + 1)) (y0 / 400)
    have hyk : y0 + ((k : Int) + 1) = (r : Int) + ((k : Int) + 1) + 400 * (y0 / 400) := by omega
    unfold days_from_civil days_before_month
    rw [if_pos hm2, hyk, hp]
    omega
  · obtain ⟨t, ht, et⟩ : ∃ t : Nat, t < 7 ∧
        (t : Int) = (w - ((153 * (m - 3) + 2) / 5 + 59 + (d - 1) + 4)) % 7 :=
      ⟨((w - ((153 * (m - 3) + 2) / 5 + 59 + (d - 1) + 4)) % 7).toNat, by omega, by omega⟩
    have hb : (year_span true r 12).testBit t = true := by rw [fB]; exact testBit_127 t ht
    obtain ⟨k, hk, e⟩ := year_span_testBit true r t 12 hb
    simp only [if_true] at e
    have e2 := residue_of_testBit _ t e
    refine ⟨(k : Int) + 1, by omega, by omega, ?_⟩
    have hp := days_before_year_period ((r : Int) + ((k : Int) + 1)) (y0 / 400)
    have hl := leap_day_period ((r : Int) + ((k : Int) + 1)) (y0 / 400)
    have hyk : y0 + ((k : Int) + 1) = (r : Int) + ((k : Int) + 1) + 400 * (y0 / 400) := by omega
    unfold days_from_civil days_before_month
    rw [if_neg hm2, hyk, hp, hl]
    have := leap_day_cases ((r : Int) + ((k : Int) + 1))
    omega

/-- Among the forty years after any year, the 29th of February falls on every weekday. -/
theorem leap_weekday_within_40 (y0 w : Int) (hw : 0 ≤ w ∧ w ≤ 6) :
    ∃ k : Int, 1 ≤ k ∧ k ≤ 40 ∧ leap_day (y0 + k) = 1 ∧
      (days_from_civil (y0 + k) 2 29 + 4) % 7 = w := by
  obtain ⟨r, hr, hr0⟩ : ∃ r : Nat, (r : Int) = y0 % 400 ∧ r < 400 :=
    ⟨(y0 % 400).toNat, by omega, by omega⟩
  have hy0 : y0 = (r : Int) + 400 * (y0 / 400) := by omega
  have fC := leap_span_full r (List.mem_range.mpr hr0)
  obtain ⟨t, ht, et⟩ : ∃ t : Nat, t < 7 ∧ (t : Int) = (w - (31 + 28 + 4)) % 7 :=
    ⟨((w - (31 + 28 + 4)) % 7).toNat, by omega, by omega⟩
  have hb : (leap_span r 40).testBit t = true := by rw [fC]; exact testBit_127 t ht
  obtain ⟨k, hk, hleap, e⟩ := leap_span_testBit r t 40 hb
  have e2 := residue_of_testBit _ t e
  have hp := days_before_year_period ((r : Int) + ((k : Int) + 1)) (y0 / 400)
  have hl := leap_day_period ((r : Int) + ((k : Int) + 1)) (y0 / 400)
  have hyk : y0 + ((k : Int) + 1) = (r : Int) + ((k : Int) + 1) + 400 * (y0 / 400) := by omega
  refine ⟨(k : Int) + 1, by omega, by omega, ?_, ?_⟩
  · rw [hyk, hl]; exact hleap
  · unfold days_from_civil days_before_month
    rw [if_pos (by decide), hyk, hp]
    omega

/-! ## Progress of the forward solver -/

theorem next_loop_mono (P : jcron_pattern_t) :
    ∀ (n k : Nat) (c cf : Tm), next_loop P n c = Except.ok cf →
      next_loop P (n + k) c = Except.ok cf := by
  intro n
  induction n with
  | zero => intro k c cf h; exact Except.noConfusion h
  | succ n ih =>
    intro k c cf h
    have e : n + 1 + k = (n + k) + 1 := by omega
    rw [e]
    unfold next_loop at h ⊢
    split at h
    · exact ih k _ cf h
    · exact Except.noConfusion h
    · exact h

theorem first_bit_32_nonneg (mask : Nat) (i : Nat) (hi : i < 32) (h : mask.testBit i = true) :
    ¬ jcron_first_bit_32 mask < 0 := by
  unfold jcron_first_bit_32
  rcases jcron_next_bit_32_spec mask 0 (le_refl _) (by decide) with ⟨_, hz⟩ | ⟨r, hr, _⟩
  · rw [hz i (by simp) hi] at h; exact absurd h (by decide)
  · rw [hr]; omega

theorem first_bit_64_nonneg (mask : Nat) (i : Nat) (hi : i < 64) (h : mask.testBit i = true) :
    ¬ jcron_first_bit_64 mask < 0 := by
  unfold jcron_first_bit_64
  rcases jcron_next_bit_64_spec mask 0 (le_refl _) (by decide) with ⟨_, hz⟩ | ⟨r, hr, _⟩
  · rw [hz i (by simp) hi] at h; exact absurd h (by decide)
  · rw [hr]; omega

/-- With a bit in each of the masks of the months, hours and minutes, no pass of the loop of
`jcron_next` ends the search. -/
theorem next_body_no_stop (P : jcron_pattern_t) (c : Tm) (code : Int)
    (hm : ∃ i, i < 32 ∧ P.months.testBit i = true)
    (hh : ∃ i, i < 32 ∧ P.hours.testBit i = true)
    (hmi : ∃ i, i < 64 ∧ P.minutes.testBit i = true) :
    next_body P c ≠ LoopStep.stop code := by
  obtain ⟨i1, hi1, hb1⟩ := hm
  obtain ⟨i2, hi2, hb2⟩ := hh
  obtain ⟨i3, hi3, hb3⟩ := hmi
  have f1 := first_bit_32_nonneg P.months i1 hi1 hb1
  have f2 := first_bit_32_nonneg P.hours i2 hi2 hb2
  have f3 := first_bit_64_nonneg P.minutes i3 hi3 hb3
  intro h
  unfold next_body at h
  split at h
  · unfold next_month_step at h
    simp only [] at h
    split_ifs at h
  · split at h
    · unfold next_day_step at h; exact LoopStep.noConfusion h
    · split at h
      · unfold next_hour_step at h
        simp only [] at h
        split_ifs at h
      · split at h
        · unfold next_minute_step at h
          simp only [] at h
          split_ifs at h
        · exact LoopStep.noConfusion h

theorem match_bits (P : jcron_pattern_t) (u : Tm) (hu : valid_fields u)
    (hm : fields_match P u) :
    (∃ i, i < 32 ∧ P.months.testBit i = true) ∧ (∃ i, i < 32 ∧ P.hours.testBit i = true) ∧
      (∃ i, i < 64 ∧ P.minutes.testBit i = true) := by
  obtain ⟨a1, a2, a3, a4, a5, a6, a7, a8, a9, a10⟩ := hu
  obtain ⟨m1, m2, m3, m4, m5⟩ := hm
  exact ⟨⟨_, by omega, m4⟩, ⟨_, by omega, m2⟩, ⟨_, by omega, m1⟩⟩

/-- The loop of `jcron_next` reaches a matching instant that lies ahead: with a match `u` at
or after the record `c`, fewer than `n` minutes away, `n` passes end on a record. -/
theorem next_loop_reaches (P : jcron_pattern_t) (hP : mask_ranges P) (u : Tm)
    (hu : valid_tm u) (hmu : fields_match P u) :
    ∀ (n : Nat) (c : Tm), valid_fields c → c.tm_sec = 0 → 1 ≤ c.tm_year + 1900 →
      wday_ok c → civil_timestamp c ≤ civil_timestamp u →
      civil_timestamp u - civil_timestamp c < 60 * (n : Int) →
      ∃ cf, next_loop P n c = Except.ok cf := by
  obtain ⟨bm, bh, bmi⟩ := match_bits P u hu.1 hmu
  intro n
  induction n with
  | zero => intro c _ _ _ _ h1 h2; simp at h2; omega
  | succ n ih =>
    intro c hv hs hy hw h1 h2
    unfold next_loop
    cases hb : next_body P c with
    | next_iteration c1 =>
      obtain ⟨b1, b2, b3, b4, b5, b6⟩ := next_body_step P c c1 hP hv hs hb
      have hsk : civil_timestamp c1 ≤ civil_timestamp u := by
        by_contra hc
        exact b6 hw u hu h1 (by omega) hmu
      have m0 := civil_timestamp_mod c hs
      have m1 := civil_timestamp_mod c1 b2
      exact ih c1 b1 b2 (by omega) (b5 (fun _ => hw) (by omega)) hsk
        (by push_cast at h2 ⊢; omega)
    | stop code => exact absurd hb (next_body_no_stop P c code bm bh bmi)
    | found c1 => exact ⟨c1, rfl⟩
theorem next_body_good (P : jcron_pattern_t) (c : Tm) (hv : valid_fields c)
    (hw : wday_ok c)
    (hm : ¬ P.months &&& (1 <<< ((c.tm_mon + 1) % 32).toNat) = 0)
    (hd : ¬ (!jcron_test_bit_32 P.days_of_month c.tm_mday
      || decide (P.days_of_week &&& (1 <<< (c.tm_wday % 32).toNat) = 0)) = true) :
    day_good P c := by
  obtain ⟨a1, a2, a3, a4, a5, a6, a7, a8, a9, a10⟩ := hv
  obtain ⟨w1, w2⟩ := wday_ok_range hw
  have hdim := jcron_days_in_month_bounds (c.tm_year + 1900) (c.tm_mon + 1) (by omega) (by omega)
  rw [shift_count_32 (c.tm_mon + 1) (by omega) (by omega)] at hm
  rw [shift_count_32 c.tm_wday w1 (by omega)] at hd
  rw [land_one_shiftLeft_eq_zero_iff] at hm
  rw [jcron_test_bit_32_eq _ _ (by omega) (by omega)] at hd
  rw [Bool.or_eq_true, decide_eq_true_eq, land_one_shiftLeft_eq_zero_iff] at hd
  refine ⟨by simpa using hm, ?_, ?_⟩
  · by_contra hc; exact hd (Or.inl (by simpa using hc))
  · by_contra hc; exact hd (Or.inr (by simpa using hc))

/-- A pass of the loop of `jcron_next` on a date that does not satisfy the day-level masks
ends at midnight. -/
theorem next_body_bad_day (P : jcron_pattern_t) (c c1 : Tm) (hv : valid_fields c)
    (hw : wday_ok c) (hg : ¬ day_good P c) (h : next_body P c = LoopStep.next_iteration c1) :
    c1.tm_hour = 0 ∧ c1.tm_min = 0 := by
  unfold next_body at h
  split at h
  · unfold next_month_step at h
    simp only [] at h
    split_ifs at h <;> injection h with h <;> subst h <;> exact ⟨rfl, rfl⟩
  · rename_i hm
    split at h
    · unfold next_day_step at h
      simp only [] at h
      injection h with h
      subst h
      have := month_overflow_spec { c with tm_mday := c.tm_mday + 1, tm_hour := 0, tm_min := 0 }
      obtain ⟨a1, a2, a3, a4, a5, a6, a7, a8, a9, a10⟩ := hv
      have hdim := jcron_days_in_month_bounds (c.tm_year + 1900) (c.tm_mon + 1) (by omega)
        (by omega)
      obtain ⟨_, b2, b3, _⟩ := this ⟨a7, a8⟩ ⟨by simp only []; omega, by simp only []; omega⟩
      exact ⟨b3, b2⟩
    · rename_i hd
      exact absurd (next_body_good P c hv hw hm hd) hg

theorem testBit_four (i : Nat) (h : (4 : Nat).testBit i = true) : i = 2 := by
  have e : (4 : Nat) = 2 ^ 2 := rfl
  rw [e, Nat.testBit_two_pow] at h
  exact (of_decide_eq_true h).symm

theorem days_in_february (y : Int) : jcron_days_in_month y 2 ≤ 29 := by
  unfold jcron_days_in_month
  simp
  split <;> omega

theorem next_body_bad_day_feb (P : jcron_pattern_t) (c c1 : Tm) (hv : valid_fields c)
    (hw : wday_ok c) (hP : P.months = 4) (hg : ¬ day_good P c)
    (h : next_body P c = LoopStep.next_iteration c1) :
    feb_measure c + 1 ≤ feb_measure c1 := by
  obtain ⟨a1, a2, a3, a4, a5, a6, a7, a8, a9, a10⟩ := hv
  have hdim := jcron_days_in_month_bounds (c.tm_year + 1900) (c.tm_mon + 1) (by omega) (by omega)
  have hsc := shift_count_32 (c.tm_mon + 1) (by omega) (by omega)
  unfold next_body at h
  split at h
  · rename_i hm
    rw [hsc, land_one_shiftLeft_eq_zero_iff, hP] at hm
    have hmon : c.tm_mon ≠ 1 := by
      intro e
      rw [e] at hm
      exact absurd hm (by decide)
    have hfirst : jcron_first_bit_32 4 = 2 := by decide
    unfold next_month_step at h
    simp only [] at h
    rw [hP, hfirst] at h
    rcases jcron_next_bit_32_spec 4 (c.tm_mon + 2) (by omega) (by omega) with
      ⟨e, _⟩ | ⟨r, e, r1, _, r3, _⟩
    · rw [e] at h
      rw [if_pos (by decide), if_neg (by decide)] at h
      injection h with h
      subst h
      unfold feb_measure
      simp only []
      split_ifs <;> omega
    · have r2 := testBit_four r r3
      subst r2
      rw [e] at h
      rw [if_neg (by decide)] at h
      injection h with h
      subst h
      unfold feb_measure
      simp only []
      have hm0 : c.tm_mon = 0 := by omega
      rw [if_pos hm0]
      split_ifs <;> omega
  · rename_i hm
    have hm' := hm
    rw [hsc, land_one_shiftLeft_eq_zero_iff, hP] at hm
    have hmon : c.tm_mon = 1 := by
      have := testBit_four (c.tm_mon + 1).toNat (by simpa using hm)
      omega
    have hfeb := days_in_february (c.tm_year + 1900)
    rw [hmon] at a10
    norm_num at a10
    split at h
    · unfold next_day_step at h
      simp only [] at h
      injection h with h
      subst h
      have hsh := overflow_shape c
        { c with tm_mday := c.tm_mday + 1, tm_hour := 0, tm_min := 0 }
        ⟨a1, a2, a3, a4, a5, a6, a7, a8, a9, by rw [hmon]; norm_num; exact a10⟩
        ⟨rfl, rfl, rfl⟩
      unfold feb_measure
      simp only []
      rcases hsh with ⟨s1, s2, s3 | s3⟩ | ⟨s1, s2, s3⟩
      · rw [s1, s3.1, s3.2, hmon]; norm_num; omega
      · omega
      · rw [s1, s2, s3, hmon]; norm_num; omega
    · rename_i hd
      exact absurd (next_body_good P c
        ⟨a1, a2, a3, a4, a5, a6, a7, a8, a9, by rw [hmon]; norm_num; exact a10⟩ hw hm' hd) hg
theorem civil_day_bounds (c : Tm) (hv : valid_fields c) :
    tm_days c * 86400 ≤ civil_timestamp c ∧ civil_timestamp c < tm_days c * 86400 + 86400 := by
  obtain ⟨a1, a2, a3, a4, a5, a6, _⟩ := hv
  unfold civil_timestamp
  constructor <;> omega

theorem tm_days_le_of_civil (c u : Tm) (hc : valid_fields c) (hu : valid_fields u)
    (h : civil_timestamp c ≤ civil_timestamp u) : tm_days c ≤ tm_days u := by
  have h1 := civil_day_bounds c hc
  have h2 := civil_day_bounds u hu
  omega

theorem feb_measure_congr (a b : Tm) (h1 : a.tm_year = b.tm_year) (h2 : a.tm_mon = b.tm_mon)
    (h3 : a.tm_mday = b.tm_mday) : feb_measure a = feb_measure b := by
  unfold feb_measure
  rw [h1, h2, h3]

theorem day_measure_congr (P : jcron_pattern_t) (a b : Tm) (h1 : a.tm_year = b.tm_year)
    (h2 : a.tm_mon = b.tm_mon) (h3 : a.tm_mday = b.tm_mday) :
    day_measure P a = day_measure P b := by
  unfold day_measure
  rw [feb_measure_congr a b h1 h2 h3, tm_days_congr a b h1 h2 h3]

theorem feb_measure_bounds (c : Tm) (hv : valid_fields c) :
    32 * c.tm_year ≤ feb_measure c ∧ feb_measure c ≤ 32 * c.tm_year + 30 := by
  obtain ⟨a1, a2, a3, a4, a5, a6, a7, a8, a9, a10⟩ := hv
  unfold feb_measure
  split_ifs with h0 h1
  · omega
  · rw [h1] at a10
    have := days_in_february (c.tm_year + 1900)
    norm_num at a10
    omega
  · omega

/-- The measure of the date does not decrease with the instant. -/
theorem day_measure_mono (P : jcron_pattern_t) (c u : Tm) (hc : valid_fields c)
    (hu : valid_fields u) (h : civil_timestamp c ≤ civil_timestamp u) :
    day_measure P c ≤ day_measure P u := by
  have hd := tm_days_le_of_civil c u hc hu h
  unfold day_measure
  split
  · have bc := feb_measure_bounds c hc
    have bu := feb_measure_bounds u hu
    obtain ⟨a1, a2, a3, a4, a5, a6, a7, a8, a9, a10⟩ := hc
    obtain ⟨b1, b2, b3, b4, b5, b6, b7, b8, b9, b10⟩ := hu
    by_cases hy : c.tm_year < u.tm_year
    · omega
    · by_cases hy2 : u.tm_year < c.tm_year
      · have := days_from_civil_lt (u.tm_year + 1900) (u.tm_mon + 1) u.tm_mday
          (c.tm_year + 1900) (c.tm_mon + 1) c.tm_mday ⟨by omega, by omega⟩ b10
          ⟨by omega, by omega⟩ a9 (Or.inl (by omega))
        unfold tm_days at hd
        omega
      · have hyy : c.tm_year = u.tm_year := by omega
        by_cases hm : u.tm_mon < c.tm_mon
        · have := days_from_civil_lt (u.tm_year + 1900) (u.tm_mon + 1) u.tm_mday
            (c.tm_year + 1900) (c.tm_mon + 1) c.tm_mday ⟨by omega, by omega⟩ b10
            ⟨by omega, by omega⟩ a9 (Or.inr ⟨by omega, by omega⟩)
          unfold tm_days at hd
          omega
        · by_cases hm2 : c.tm_mon < u.tm_mon
          · unfold feb_measure at bc bu ⊢
            rw [hyy]
            split_ifs at bc bu ⊢ <;> omega
          · have hmm : c.tm_mon = u.tm_mon := by omega
            have hdd : c.tm_mday ≤ u.tm_mday := by
              unfold tm_days days_from_civil at hd
              rw [hyy, hmm] at hd
              omega
            unfold feb_measure
            rw [hyy, hmm]
            split_ifs <;> omega
  · exact hd

/-- A pass of the loop of `jcron_next` on a date that does not satisfy the day-level masks
raises the measure of the date. -/
theorem next_body_bad_day_measure (P : jcron_pattern_t) (c c1 : Tm) (hP : mask_ranges P)
    (hv : valid_fields c) (hs : c.tm_sec = 0) (hw : wday_ok c) (hg : ¬ day_good P c)
    (h : next_body P c = LoopStep.next_iteration c1) :
    tm_days c < tm_days c1 ∧ day_measure P c + 1 ≤ day_measure P c1 := by
  obtain ⟨b1, b2, _, b4, _, _⟩ := next_body_step P c c1 hP hv hs h
  obtain ⟨z1, z2⟩ := next_body_bad_day P c c1 hv hw hg h
  have hd : tm_days c < tm_days c1 := by
    have h1 := civil_day_bounds c hv
    have h2 : civil_timestamp c1 = tm_days c1 * 86400 := by
      unfold civil_timestamp; rw [z1, z2, b2]; omega
    omega
  refine ⟨hd, ?_⟩
  unfold day_measure
  split
  · rename_i h4
    exact next_body_bad_day_feb P c c1 hv hw h4 hg h
  · omega
/-- When a pass of the loop of `jcron_next` moves to a later date that satisfies the
day-level masks, a matching instant lies ahead on that date. -/
theorem arrival_match (P : jcron_pattern_t) (c c1 u : Tm) (hv : valid_fields c)
    (hv1 : valid_fields c1) (hw1 : wday_ok c1)
    (hsk : skips P c c1) (hd : tm_days c < tm_days c1) (hu : valid_fields u)
    (hmu : fields_match P u) (hg : day_good P c1) :
    ∃ u1, valid_tm u1 ∧ fields_match P u1 ∧ civil_timestamp c1 ≤ civil_timestamp u1 ∧
      civil_timestamp u1 - civil_timestamp c1 < 86400 := by
  obtain ⟨a1, a2, a3, a4, a5, a6, a7, a8, a9, a10⟩ := hv1
  obtain ⟨b1, b2, b3, b4, b5, b6, b7, b8, b9, b10⟩ := hu
  obtain ⟨m1, m2, m3, m4, m5⟩ := hmu
  obtain ⟨g1, g2, g3⟩ := hg
  have hvu : valid_fields { c1 with tm_hour := u.tm_hour, tm_min := u.tm_min } :=
    ⟨a1, a2, b3, b4, b5, b6, a7, a8, a9, a10⟩
  have hwu : wday_ok { c1 with tm_hour := u.tm_hour, tm_min := u.tm_min } := by
    unfold wday_ok at hw1 ⊢
    rw [tm_days_congr { c1 with tm_hour := u.tm_hour, tm_min := u.tm_min } c1 rfl rfl rfl]
    exact hw1
  have hmatch : fields_match P { c1 with tm_hour := u.tm_hour, tm_min := u.tm_min } :=
    ⟨m1, m2, g2, g1, g3⟩
  have hday : tm_days { c1 with tm_hour := u.tm_hour, tm_min := u.tm_min } = tm_days c1 :=
    tm_days_congr _ _ rfl rfl rfl
  have k1 := civil_day_bounds c hv
  have k2 := civil_day_bounds c1 ⟨a1, a2, a3, a4, a5, a6, a7, a8, a9, a10⟩
  have k3 := civil_day_bounds _ hvu
  rw [hday] at k3
  refine ⟨_, ⟨hvu, hwu⟩, hmatch, ?_, by omega⟩
  by_contra hc
  exact hsk _ ⟨hvu, hwu⟩ (by omega) (by omega) hmatch

/-- The loop of `jcron_next` from a record on whose date a match lies ahead whenever the date
satisfies the day-level masks: with a match `u` at or after the record, the loop ends on a
record within as many passes as the measure of the date has to grow, and 1441 more. -/
theorem next_loop_days (P : jcron_pattern_t) (hP : mask_ranges P) (u : Tm)
    (hu : valid_tm u) (hmu : fields_match P u) :
    ∀ (n : Nat) (c : Tm), valid_fields c → c.tm_sec = 0 → 1 ≤ c.tm_year + 1900 →
      wday_ok c → civil_timestamp c ≤ civil_timestamp u →
      (day_good P c → ∃ u1, valid_tm u1 ∧ fields_match P u1 ∧
        civil_timestamp c ≤ civil_timestamp u1 ∧
        civil_timestamp u1 - civil_timestamp c < 86400) →
      day_measure P u - day_measure P c + 1441 ≤ (n : Int) →
      ∃ cf, next_loop P n c = Except.ok cf := by
  obtain ⟨bm, bh, bmi⟩ := match_bits P u hu.1 hmu
  intro n
  induction n with
  | zero =>
    intro c hv _ _ _ h1 _ h2
    have := day_measure_mono P c u hv hu.1 h1
    simp at h2
    omega
  | succ n ih =>
    intro c hv hs hy hw h1 harr h2
    have hmono := day_measure_mono P c u hv hu.1 h1
    by_cases hg : day_good P c
    · obtain ⟨u1, e1, e2, e3, e4⟩ := harr hg
      obtain ⟨cf, hcf⟩ := next_loop_reaches P hP u1 e1 e2 1440 c hv hs hy hw e3 (by omega)
      have hk : n + 1 = 1440 + (n + 1 - 1440) := by push_cast at h2; omega
      rw [hk]
      exact ⟨cf, next_loop_mono P 1440 _ c cf hcf⟩
    · unfold next_loop
      cases hb : next_body P c with
      | next_iteration c1 =>
        obtain ⟨b1, b2, b3, b4, b5, b6⟩ := next_body_step P c c1 hP hv hs hb
        obtain ⟨d1, d2⟩ := next_body_bad_day_measure P c c1 hP hv hs hw hg hb
        have hw1 : wday_ok c1 := b5 (fun _ => hw) (by omega)
        have hsk : civil_timestamp c1 ≤ civil_timestamp u := by
          by_contra hc
          exact b6 hw u hu h1 (by omega) hmu
        exact ih c1 b1 b2 (by omega) hw1 hsk
          (fun hg1 => arrival_match P c c1 u hv b1 hw1 (b6 hw) d1 hu.1 hmu hg1)
          (by push_cast at h2 ⊢; omega)
      | stop code => exact absurd hb (next_body_no_stop P c code bm bh bmi)
      | found c1 => exact ⟨c1, rfl⟩

/-- The loop of `jcron_next` from any record: with a match `u` at or after the record, the
loop ends on a record within as many passes as the measure of the date has to grow, and 1441
more, and one more for each minute that is left of the day of the record. -/
theorem next_loop_start (P : jcron_pattern_t) (hP : mask_ranges P) (u : Tm)
    (hu : valid_tm u) (hmu : fields_match P u) :
    ∀ (k n : Nat) (c : Tm), valid_fields c → c.tm_sec = 0 → 1 ≤ c.tm_year + 1900 →
      wday_ok c → civil_timestamp c ≤ civil_timestamp u →
      tm_days c * 86400 + 86400 - civil_timestamp c ≤ 60 * (k : Int) →
      day_measure P u - day_measure P c + 1441 + (k : Int) ≤ (n : Int) →
      ∃ cf, next_loop P n c = Except.ok cf := by
  obtain ⟨bm, bh, bmi⟩ := match_bits P u hu.1 hmu
  intro k
  induction k with
  | zero =>
    intro n c hv _ _ _ _ h2 _
    have := civil_day_bounds c hv
    simp at h2
    omega
  | succ k ih =>
    intro n c hv hs hy hw h1 h2 h3
    have hmono := day_measure_mono P c u hv hu.1 h1
    cases n with
    | zero => push_cast at h3; omega
    | succ n =>
      unfold next_loop
      cases hb : next_body P c with
      | next_iteration c1 =>
        obtain ⟨b1, b2, b3, b4, b5, b6⟩ := next_body_step P c c1 hP hv hs hb
        have hw1 : wday_ok c1 := b5 (fun _ => hw) (by omega)
        have hsk : civil_timestamp c1 ≤ civil_timestamp u := by
          by_contra hc
          exact b6 hw u hu h1 (by omega) hmu
        have hm1 := day_measure_mono P c c1 hv b1 (le_of_lt b4)
        have hdle := tm_days_le_of_civil c c1 hv b1 (le_of_lt b4)
        have m0 := civil_timestamp_mod c hs
        have m1 := civil_timestamp_mod c1 b2
        by_cases hsame : tm_days c1 = tm_days c
        · obtain ⟨t1, t2, t3⟩ := tm_days_inj c1 c b1 hv hsame
          have hmeq := day_measure_congr P c1 c t1 t2 t3
          exact ih n c1 b1 b2 (by omega) hw1 hsk (by push_cast at h2 ⊢; omega)
            (by push_cast at h3 ⊢; omega)
        · have hd : tm_days c < tm_days c1 := by omega
          exact next_loop_days P hP u hu hmu n c1 b1 b2 (by omega) hw1 hsk
            (fun hg1 => arrival_match P c c1 u hv b1 hw1 (b6 hw) hd hu.1 hmu hg1)
            (by push_cast at h3 ⊢; omega)
      | stop code => exact absurd hb (next_body_no_stop P c code bm bh bmi)
      | found c1 => exact ⟨c1, rfl⟩

/-! ## A match close ahead, and the 10000 passes -/

theorem days_in_month_other (y1 y2 m : Int) (hm : m ≠ 2) :
    jcron_days_in_month y1 m = jcron_days_in_month y2 m := by
  unfold jcron_days_in_month
  simp [hm]

theorem days_in_month_ge_30 (y m : Int) (h1 : 1 ≤ m) (h2 : m ≤ 12) (hm : m ≠ 2) :
    30 ≤ jcron_days_in_month y m := by
  unfold jcron_days_in_month
  rw [if_neg (by omega)]
  simp only [hm, false_and, if_false]
  have : m = 1 ∨ m = 3 ∨ m = 4 ∨ m = 5 ∨ m = 6 ∨ m = 7 ∨ m = 8 ∨ m = 9 ∨ m = 10 ∨ m = 11 ∨
      m = 12 := by omega
  rcases this with h | h | h | h | h | h | h | h | h | h | h <;> subst h <;> decide

theorem days_in_leap_february (y : Int) (h : leap_day y = 1) : jcron_days_in_month y 2 = 29 := by
  unfold jcron_days_in_month
  rw [jcron_is_leap_year_eq, h]
  simp

theorem tm_days_year_bounds (c : Tm) (hv : valid_fields c) :
    days_before_year (c.tm_year + 1900) ≤ tm_days c ∧
      tm_days c < days_before_year (c.tm_year + 1900 + 1) := by
  obtain ⟨a1, a2, a3, a4, a5, a6, a7, a8, a9, a10⟩ := hv
  have hb := days_before_month_bounds (c.tm_year + 1900) (c.tm_mon + 1) (by omega) (by omega)
  have hs := days_before_year_succ (c.tm_year + 1900)
  unfold tm_days days_from_civil
  constructor <;> omega

theorem days_before_year_13 (y k : Int) (h0 : 0 ≤ k) (hk : k ≤ 12) :
    days_before_year (y + k + 1) - days_before_year y ≤ 4758 := by
  unfold days_before_year
  omega

/-- A match moved to another year and month: the record with the time of day, the day of
the month and the weekday of `u` in the year `k ≥ 1` years after that of `c`. -/
theorem relocated_match (P : jcron_pattern_t) (c u : Tm) (hc : valid_fields c)
    (hu : valid_tm u) (hmu : fields_match P u) (k mon : Int) (hk : 1 ≤ k)
    (hmon : 0 ≤ mon ∧ mon ≤ 11) (hbit : P.months.testBit (mon + 1).toNat = true)
    (hday : u.tm_mday ≤ jcron_days_in_month (c.tm_year + k + 1900) (mon + 1))
    (hwd : (days_from_civil (c.tm_year + 1900 + k) (mon + 1) u.tm_mday + 4) % 7 = u.tm_wday) :
    valid_tm { u with tm_year := c.tm_year + k, tm_mon := mon } ∧
      fields_match P { u with tm_year := c.tm_year + k, tm_mon := mon } ∧
      civil_timestamp c ≤ civil_timestamp { u with tm_year := c.tm_year + k, tm_mon := mon } := by
  obtain ⟨⟨b1, b2, b3, b4, b5, b6, b7, b8, b9, b10⟩, _⟩ := hu
  obtain ⟨m1, m2, m3, m4, m5⟩ := hmu
  have hv : valid_fields { u with tm_year := c.tm_year + k, tm_mon := mon } :=
    ⟨b1, b2, b3, b4, b5, b6, hmon.1, hmon.2, b9, hday⟩
  refine ⟨⟨hv, ?_⟩, ⟨m1, m2, m3, hbit, m5⟩, ?_⟩
  · unfold wday_ok tm_days
    simp only []
    rw [← hwd]
    congr 3
    omega
  · exact le_of_lt (civil_lt_of_month_lt c _ hc hv (Or.inl (by simp only []; omega)))

theorem days_in_february_ge (y : Int) : 28 ≤ jcron_days_in_month y 2 := by
  unfold jcron_days_in_month
  simp only []
  split_ifs <;> first | omega | decide

theorem other_month_bit (mask : Nat) (h2 : mask.testBit 2 = true) (h4 : mask ≠ 4) :
    ∃ i : Nat, i ≠ 2 ∧ mask.testBit i = true := by
  by_contra hc
  apply h4
  apply Nat.eq_of_testBit_eq
  intro i
  by_cases hi : i = 2
  · subst hi
    rw [h2]
    decide
  · have h1 : mask.testBit i = false := by
      cases hb : mask.testBit i with
      | false => rfl
      | true => exact absurd ⟨i, hi, hb⟩ hc
    rw [h1]
    cases hb : (4 : Nat).testBit i with
    | false => rfl
    | true => exact absurd (testBit_four i hb) hi

/-- A match close ahead.  When some instant satisfies the masks of `P`, one does that is at
or after the record `c` and whose date is at most 4758 steps of the measure of dates
ahead of that of `c`. -/
theorem near_match (P : jcron_pattern_t) (hP : mask_ranges P) (c u : Tm)
    (hc : valid_fields c) (hu : valid_tm u) (hmu : fields_match P u) :
    ∃ u1, valid_tm u1 ∧ fields_match P u1 ∧ civil_timestamp c ≤ civil_timestamp u1 ∧
      day_measure P u1 - day_measure P c ≤ 4758 := by
  have hu0 := hu
  have hmu0 := hmu
  obtain ⟨⟨b1, b2, b3, b4, b5, b6, b7, b8, b9, b10⟩, hwu⟩ := hu
  obtain ⟨m1, m2, m3, m4, m5⟩ := hmu
  have hw : 0 ≤ u.tm_wday ∧ u.tm_wday ≤ 6 := by
    unfold wday_ok at hwu
    omega
  have hcb := tm_days_year_bounds c hc
  have hfc := feb_measure_bounds c hc
  by_cases hfeb : u.tm_mon + 1 = 2 ∧ 29 ≤ u.tm_mday
  · obtain ⟨hf1, hf2⟩ := hfeb
    have hmon : u.tm_mon = 1 := by omega
    have hd29 : u.tm_mday = 29 := by
      have := days_in_february (u.tm_year + 1900)
      rw [hf1] at b10
      omega
    by_cases h4 : P.months = 4
    · -- February only: the next 29th of February on the weekday of the match
      obtain ⟨k, k1, k2, k3, k4⟩ := leap_weekday_within_40 (c.tm_year + 1900) u.tm_wday hw
      have hdim := days_in_leap_february (c.tm_year + 1900 + k) k3
      obtain ⟨r1, r2, r3⟩ := relocated_match P c u hc hu0 hmu0 k 1 k1 ⟨by omega, by omega⟩
        (by
          have e : u.tm_mon + 1 = 1 + 1 := by omega
          rw [← e]
          exact m4)
        (by
          have e : c.tm_year + k + 1900 = c.tm_year + 1900 + k := by omega
          rw [e]
          have e2 : (1 : Int) + 1 = 2 := rfl
          rw [e2, hdim, hd29])
        (by
          have e2 : (1 : Int) + 1 = 2 := rfl
          rw [e2, hd29]
          exact k4)
      refine ⟨_, r1, r2, r3, ?_⟩
      have hfu := feb_measure_bounds _ r1.1
      unfold day_measure
      rw [if_pos h4, if_pos h4]
      simp only [] at hfu
      omega
    · -- another month is allowed: the 29th of that month on the weekday of the match
      rw [hf1] at m4
      have e2 : (2 : Int).toNat = 2 := rfl
      rw [e2] at m4
      obtain ⟨i, hi2, hib⟩ := other_month_bit P.months m4 h4
      obtain ⟨i1, i12⟩ := hP.2.2.2.1 i hib
      obtain ⟨k, k1, k2, k3⟩ :=
        weekday_within_12 (c.tm_year + 1900) ((i : Int) - 1 + 1) u.tm_mday u.tm_wday hw
      have hdim := days_in_month_ge_30 (c.tm_year + k + 1900) ((i : Int) - 1 + 1)
        (by omega) (by omega) (by omega)
      obtain ⟨r1, r2, r3⟩ := relocated_match P c u hc hu0 hmu0 k ((i : Int) - 1) k1
        ⟨by omega, by omega⟩
        (by
          have e : ((i : Int) - 1 + 1).toNat = i := by omega
          rw [e]
          exact hib)
        (by omega) k3
      refine ⟨_, r1, r2, r3, ?_⟩
      have hub := tm_days_year_bounds _ r1.1
      simp only [] at hub
      have hyb := days_before_year_13 (c.tm_year + 1900) k (by omega) k2
      have e : c.tm_year + k + 1900 + 1 = c.tm_year + 1900 + k + 1 := by omega
      rw [e] at hub
      unfold day_measure
      rw [if_neg h4, if_neg h4]
      omega
  · -- the same month and day recur on the weekday of the match within twelve years
    obtain ⟨k, k1, k2, k3⟩ :=
      weekday_within_12 (c.tm_year + 1900) (u.tm_mon + 1) u.tm_mday u.tm_wday hw
    have hday : u.tm_mday ≤ jcron_days_in_month (c.tm_year + k + 1900) (u.tm_mon + 1) := by
      by_cases hm : u.tm_mon + 1 = 2
      · rw [hm]
        have := days_in_february_ge (c.tm_year + k + 1900)
        omega
      · rw [days_in_month_other (c.tm_year + k + 1900) (u.tm_year + 1900) (u.tm_mon + 1) hm]
        exact b10
    obtain ⟨r1, r2, r3⟩ := relocated_match P c u hc hu0 hmu0 k u.tm_mon k1 ⟨b7, b8⟩ m4 hday k3
    refine ⟨_, r1, r2, r3, ?_⟩
    have hub := tm_days_year_bounds _ r1.1
    have hfu := feb_measure_bounds _ r1.1
    simp only [] at hub hfu
    have hyb := days_before_year_13 (c.tm_year + 1900) k (by omega) k2
    have e : c.tm_year + k + 1900 + 1 = c.tm_year + 1900 + k + 1 := by omega
    rw [e] at hub
    unfold day_measure
    split_ifs
    · omega
    · omega

/-- A record with valid fields whose timestamp is not before 0001-01-01T00:00:00 lies in the
year 1 or later. -/
theorem year_ge_one_of_civil (c : Tm) (hv : valid_fields c)
    (h : -62135596800 ≤ civil_timestamp c) : 1 ≤ c.tm_year + 1900 := by
  by_contra hc
  have hb : valid_fields ⟨0, 0, 0, 1, 0, -1899, 1⟩ := by
    refine ⟨by decide, by decide, by decide, by decide, by decide, by decide, by decide,
      by decide, by decide, by decide⟩
  have := civil_lt_of_month_lt c ⟨0, 0, 0, 1, 0, -1899, 1⟩ hv hb (Or.inl (by simp only []; omega))
  have e : civil_timestamp ⟨0, 0, 0, 1, 0, -1899, 1⟩ = -62135596800 := by decide
  omega

/-- The loop of `jcron_next` with its 10000 passes, started at a record of the year 1 or
later: when some instant satisfies the masks, the loop ends on a record. -/
theorem next_loop_finds_from (P : jcron_pattern_t) (hP : mask_ranges P) (c u : Tm)
    (hv : valid_fields c) (hs : c.tm_sec = 0) (hy : 1 ≤ c.tm_year + 1900) (hw : wday_ok c)
    (hu : valid_tm u) (hmu : fields_match P u) :
    ∃ cf, next_loop P 10000 c = Except.ok cf := by
  obtain ⟨u1, e1, e2, e3, e4⟩ := near_match P hP c u hv hu hmu
  have hb := civil_day_bounds c hv
  exact next_loop_start P hP u1 e1 e2 1440 10000 c hv hs hy hw e3 (by omega)
    (by push_cast; omega)

/-- The loop of `jcron_next` with its 10000 passes, started at the record of an instant `t0`
of the year 1 or later: when some instant satisfies the masks, the loop ends on a record. -/
theorem next_loop_finds (P : jcron_pattern_t) (hP : mask_ranges P) (t0 : Int)
    (ht : -62135596800 ≤ t0) (u : Int) (hmu : fields_match P (timestamp_to_tm u)) :
    ∃ cf, next_loop P 10000 { timestamp_to_tm t0 with tm_sec := 0 } = Except.ok cf := by
  obtain ⟨s1, s2, s3⟩ := start_record_spec t0
  obtain ⟨hvu, _⟩ := timestamp_to_tm_spec u
  have hy := year_ge_one_of_civil _ s1 (by rw [s3]; omega)
  exact next_loop_finds_from P hP _ _ s1 rfl hy s2 hvu hmu

/-- The return code of `jcron_next` when the loop ends on a record. -/
theorem jcron_next_code_ok (t0 : Int) (P : jcron_pattern_t) (hc : P.has_cron ≠ 0) (cf : Tm)
    (h : next_loop P 10000 { timestamp_to_tm t0 with tm_sec := 0 } = Except.ok cf) :
    (jcron_next t0 P).1 = JCRON_OK := by
  unfold jcron_next
  simp only []
  rw [if_neg hc, h]

/-- The return code of `jcron_next` when the loop ends on an error code. -/
theorem jcron_next_code_error (t0 : Int) (P : jcron_pattern_t) (hc : P.has_cron ≠ 0)
    (code : Int)
    (h : next_loop P 10000 { timestamp_to_tm t0 with tm_sec := 0 } = Except.error code) :
    (jcron_next t0 P).1 = code := by
  unfold jcron_next
  simp only []
  rw [if_neg hc, h]

theorem testBit_two_pow_30 (i : Nat) (h : (1073741824 : Nat).testBit i = true) : i = 30 := by
  have e : (1073741824 : Nat) = 2 ^ 30 := by norm_num
  rw [e, Nat.testBit_two_pow] at h
  exact (of_decide_eq_true h).symm

/-- An impossible pattern: with February as the only month and 30 as the only day of the
month, `jcron_next` returns `JCRON_ERR_NO_MATCH` from every instant. -/
theorem jcron_next_february_30 (t0 : Int) (P : jcron_pattern_t) (hP : mask_ranges P)
    (hc : P.has_cron ≠ 0) (hm : P.months = 4) (hd : P.days_of_month = 1073741824) :
    (jcron_next t0 P).1 = JCRON_ERR_NO_MATCH := by
  obtain ⟨s1, s2, _⟩ := start_record_spec t0
  cases h : next_loop P 10000 { timestamp_to_tm t0 with tm_sec := 0 } with
  | error code =>
    rw [jcron_next_code_error t0 P hc code h]
    exact next_loop_error P _ _ _ h
  | ok cf =>
    exfalso
    obtain ⟨d1, _, _, _, _, d6, _⟩ := next_loop_spec P hP 10000 _ cf s1 rfl (fun _ => s2) h
    obtain ⟨_, _, _, _, _, _, a7, a8, a9, a10⟩ := d1
    obtain ⟨_, _, m3, m4, _⟩ := d6
    simp only [] at m3 m4
    rw [hm] at m4
    rw [hd] at m3
    have e1 := testBit_four _ m4
    have e2 := testBit_two_pow_30 _ m3
    have e3 : cf.tm_mon + 1 = 2 := by omega
    rw [e3] at a10
    have := days_in_february (cf.tm_year + 1900)
    omega

theorem calc_day_of_week_fast_ge (y m d : Int) : -6 ≤ calc_day_of_week_fast y m d := by
  unfold calc_day_of_week_fast
  simp only []
  generalize (if m < 3 then y - 1 else y) + (if m < 3 then y - 1 else y).tdiv 4 -
    (if m < 3 then y - 1 else y).tdiv 100 + (if m < 3 then y - 1 else y).tdiv 400 +
    ([0, 3, 2, 5, 0, 3, 5, 1, 4, 6, 2, 4] : List Int).getD (m - 1).toNat 0 + d = x
  by_cases hx : 0 ≤ x
  · rw [tmod_of_nonneg x 7 hx (by omega)]
    omega
  · rw [tmod_of_neg x 7 (by omega) (by omega)]
    omega

theorem calc_day_of_week_fast_nonpos (y m d : Int) (hy : y ≤ -100) (hm : 1 ≤ m ∧ m ≤ 12)
    (hd : 1 ≤ d ∧ d ≤ 31) : calc_day_of_week_fast y m d ≤ 0 := by
  unfold calc_day_of_week_fast
  simp only []
  have ht : ([0, 3, 2, 5, 0, 3, 5, 1, 4, 6, 2, 4] : List Int).getD (m - 1).toNat 0 ≤ 6 := by
    have : m = 1 ∨ m = 2 ∨ m = 3 ∨ m = 4 ∨ m = 5 ∨ m = 6 ∨ m = 7 ∨ m = 8 ∨ m = 9 ∨ m = 10 ∨
        m = 11 ∨ m = 12 := by omega
    rcases this with h | h | h | h | h | h | h | h | h | h | h | h <;> subst h <;> decide
  generalize ([0, 3, 2, 5, 0, 3, 5, 1, 4, 6, 2, 4] : List Int).getD (m - 1).toNat 0 = t at ht
  have hx : (if m < 3 then y - 1 else y) ≤ -100 := by split <;> omega
  generalize (if m < 3 then y - 1 else y) = x at hx
  rw [tdiv_of_neg x 4 (by omega) (by omega), tdiv_of_neg x 100 (by omega) (by omega),
    tdiv_of_neg x 400 (by omega) (by omega), tmod_of_neg _ 7 (by omega) (by omega)]
  omega

theorem testBit_8190 (i : Nat) (h1 : 1 ≤ i) (h2 : i ≤ 12) : (8190 : Nat).testBit i = true := by
  interval_cases i <;> rfl

theorem testBit_two (i : Nat) (h : i ≠ 1) : (2 : Nat).testBit i = false := by
  have e : (2 : Nat) = 2 ^ 1 := rfl
  rw [e, Nat.testBit_two_pow]
  exact decide_eq_false (fun hc => h hc.symm)

/-- One pass of the loop of `jcron_next` for a pattern with every month allowed and Monday
as the only weekday, on a record whose weekday field is not 1: the jump to the next day. -/
theorem next_body_monday (P : jcron_pattern_t) (c : Tm) (hm : P.months = 8190)
    (hd : P.days_of_week = 2) (hv : valid_fields c) (hw : (c.tm_wday % 32).toNat ≠ 1) :
    next_body P c = next_day_step c := by
  obtain ⟨_, _, _, _, _, _, a7, a8, _, _⟩ := hv
  unfold next_body
  have h1 : ¬ (P.months &&& (1 <<< ((c.tm_mon + 1) % 32).toNat) = 0) := by
    rw [land_one_shiftLeft_eq_zero_iff, hm, testBit_8190 _ (by omega) (by omega)]
    simp
  have h2 : P.days_of_week &&& (1 <<< (c.tm_wday % 32).toNat) = 0 := by
    rw [land_one_shiftLeft_eq_zero_iff, hd]
    exact testBit_two _ hw
  rw [if_neg h1, h2]
  simp

/-- The loop of `jcron_next` in the years before -100, for a pattern with every month allowed
and Monday as the only weekday: the weekday that `calc_day_of_week_fast` computes there is
never positive, so every pass is a jump to the next day and the loop runs out of passes. -/
theorem next_loop_monday_far_past (P : jcron_pattern_t) (hm : P.months = 8190)
    (hd : P.days_of_week = 2) :
    ∀ (n : Nat) (c : Tm), valid_fields c → (c.tm_wday % 32).toNat ≠ 1 →
      c.tm_year + 1900 + (n : Int) ≤ -100 →
      next_loop P n c = Except.error JCRON_ERR_NO_MATCH := by
  intro n
  induction n with
  | zero => intro c _ _ _; rfl
  | succ k ih =>
    intro c hv hw hy
    have hv' := hv
    obtain ⟨a1, a2, a3, a4, a5, a6, a7, a8, a9, a10⟩ := hv'
    unfold next_loop
    rw [next_body_monday P c hm hd hv hw]
    unfold next_day_step
    simp only []
    obtain ⟨o1, o2, o3, _, o5, o6, o7, o8, _, _, o11, _⟩ :=
      month_overflow_spec { c with tm_mday := c.tm_mday + 1, tm_hour := 0, tm_min := 0 }
        ⟨a7, a8⟩ ⟨by simp only []; omega, by simp only []; omega⟩
    simp only [] at o1 o2 o3 o11
    have hdim := jcron_days_in_month_bounds
      ((month_overflow { c with tm_mday := c.tm_mday + 1, tm_hour := 0, tm_min := 0 }).tm_year
        + 1900)
      ((month_overflow { c with tm_mday := c.tm_mday + 1, tm_hour := 0, tm_min := 0 }).tm_mon
        + 1) (by omega) (by omega)
    apply ih
    · exact ⟨by simp only []; omega, by simp only []; omega, by simp only []; omega,
        by simp only []; omega, by simp only []; omega, by simp only []; omega, o5, o6, o7, o8⟩
    · have := calc_day_of_week_fast_nonpos
        ((month_overflow { c with tm_mday := c.tm_mday + 1, tm_hour := 0, tm_min := 0 }).tm_year
          + 1900)
        ((month_overflow { c with tm_mday := c.tm_mday + 1, tm_hour := 0, tm_min := 0 }).tm_mon
          + 1)
        (month_overflow { c with tm_mday := c.tm_mday + 1, tm_hour := 0, tm_min := 0 }).tm_mday
        (by push_cast at hy; omega) ⟨by omega, by omega⟩ ⟨o7, by omega⟩
      have hge := calc_day_of_week_fast_ge
        ((month_overflow { c with tm_mday := c.tm_mday + 1, tm_hour := 0, tm_min := 0 }).tm_year
          + 1900)
        ((month_overflow { c with tm_mday := c.tm_mday + 1, tm_hour := 0, tm_min := 0 }).tm_mon
          + 1)
        (month_overflow { c with tm_mday := c.tm_mday + 1, tm_hour := 0, tm_min := 0 }).tm_mday
      simp only []
      omega
    · simp only []
      push_cast at hy
      omega

/-! ## Bit searches in the words of the specification -/

theorem jcron_next_bit_32_ge (mask : Nat) (s : Int) (h : 32 ≤ s) :
    jcron_next_bit_32 mask s = -1 := by
  unfold jcron_next_bit_32 jcron_next_bit_32_branchless
  rw [if_pos h]

theorem jcron_next_bit_64_ge (mask : Nat) (s : Int) (h : 64 ≤ s) :
    jcron_next_bit_64 mask s = -1 := by
  unfold jcron_next_bit_64 jcron_next_bit_64_branchless
  rw [if_pos h]

theorem testBit_false_of_lt_two_pow {mask w j : Nat} (hm : mask < 2 ^ w) (hj : w ≤ j) :
    mask.testBit j = false :=
  Nat.testBit_lt_two_pow (lt_of_lt_of_le hm (Nat.pow_le_pow_right (by decide) hj))

/-- The result of a bit search, in the words of the specification: `-1` exactly when the
start is at or beyond the width or no bit from the start on is set, and otherwise the
smallest index of a set bit from the start on. -/
theorem next_bit_result (w : Nat) (mask : Nat) (b r : Int) (hm : mask < 2 ^ w)
    (hge : (w : Int) ≤ b → r = -1)
    (hlt : b < (w : Int) →
      (r = -1 ∧ ∀ j : Nat, b.toNat ≤ j → j < w → mask.testBit j = false) ∨
      (∃ k : Nat, r = (k : Int) ∧ b.toNat ≤ k ∧ k < w ∧ mask.testBit k = true ∧
        ∀ j : Nat, b.toNat ≤ j → j < k → mask.testBit j = false)) :
    (r = -1 ↔ ((w : Int) ≤ b ∨ ∀ j : Nat, b.toNat ≤ j → mask.testBit j = false)) ∧
      (r ≠ -1 → ∃ k : Nat, r = (k : Int) ∧ b.toNat ≤ k ∧ mask.testBit k = true ∧
        ∀ j : Nat, b.toNat ≤ j → j < k → mask.testBit j = false) := by
  by_cases hw : (w : Int) ≤ b
  · have hr := hge hw
    exact ⟨⟨fun _ => Or.inl hw, fun _ => hr⟩, fun h => absurd hr h⟩
  · rcases hlt (by omega) with ⟨hr, hz⟩ | ⟨k, hr, hk1, hk2, hk3, hk4⟩
    · refine ⟨⟨fun _ => Or.inr ?_, fun _ => hr⟩, fun h => absurd hr h⟩
      intro j hj
      by_cases hjw : j < w
      · exact hz j hj hjw
      · exact testBit_false_of_lt_two_pow hm (by omega)
    · refine ⟨⟨fun h => ?_, fun h => ?_⟩, fun _ => ⟨k, hr, hk1, hk3, hk4⟩⟩
      · omega
      · rcases h with h | h
        · exact absurd h hw
        · rw [h k hk1] at hk3; exact absurd hk3 (by decide)

/-! ## Alternation -/

/-- On a text without `|` the function `jcron_parse` does not call itself: the bound on the
depth of the recursion plays no part. -/
theorem jcron_parse_fuel_indep (n m : Nat) (s : List Char) (hbar : s.contains '|' = false) :
    jcron_parse_fuel (n + 1) s = jcron_parse_fuel (m + 1) s := by
  simp only [jcron_parse_fuel, hbar]
  rfl

theorem jcron_parse_fuel_eq (n : Nat) (s : List Char) (hbar : '|' ∉ s) :
    jcron_parse_fuel (n + 1) s = jcron_parse s :=
  jcron_parse_fuel_indep n s.length s (contains_bar_false hbar)

theorem takeWhile_bar (A B : List Char) (hA : '|' ∉ A) :
    (A ++ '|' :: B).takeWhile (fun c => c != '|') = A ∧
      (A ++ '|' :: B).dropWhile (fun c => c != '|') = '|' :: B := by
  induction A with
  | nil => simp
  | cons a as ih =>
    have h1 : a ≠ '|' := fun h => hA (by rw [h]; exact List.mem_cons_self _ _)
    have h2 : '|' ∉ as := fun h => hA (List.mem_cons_of_mem _ h)
    obtain ⟨i1, i2⟩ := ih h2
    simp only [List.cons_append, List.takeWhile_cons, List.dropWhile_cons, bne_iff_ne, ne_eq,
      h1, not_false_eq_true, if_true, decide_True]
    exact ⟨by rw [i1], i2⟩

theorem skip_whitespace_id (B : List Char) (h : ∀ c, B.head? = some c → isspace c = false) :
    skip_whitespace B = B := by
  cases B with
  | nil => rfl
  | cons c cs => exact skip_whitespace_cons cs (h c rfl)

/-- A text that `jcron_parse` accepts has at least five characters and neither of the
prefixes `EOD:` and `SOD:`. -/
theorem jcron_parse_ok_shape (s : List Char) (h : (jcron_parse s).1 = JCRON_OK) :
    5 ≤ s.length ∧ has_prefix4 s ['E', 'O', 'D', ':'] = false ∧
      has_prefix4 s ['S', 'O', 'D', ':'] = false := by
  have hlen : 5 ≤ s.length := by
    by_contra hc
    have h6 : (strtok_tokens s []).length < 6 := by
      have := strtok_tokens_length_le s []
      omega
    have := jcron_parse_fuel_few (s.length + 1) s h6
    unfold jcron_parse at h
    rw [this] at h
    exact absurd h (by decide)
  refine ⟨hlen, ?_, ?_⟩
  · cases hp : has_prefix4 s ['E', 'O', 'D', ':'] with
    | false => rfl
    | true =>
      have := jcron_parse_fuel_prefixed s.length s _ (Or.inl rfl) hp
      unfold jcron_parse at h
      rw [this] at h
      exact absurd h (by decide)
  · cases hp : has_prefix4 s ['S', 'O', 'D', ':'] with
    | false => rfl
    | true =>
      have := jcron_parse_fuel_prefixed s.length s _ (Or.inr rfl) hp
      unfold jcron_parse at h
      rw [this] at h
      exact absurd h (by decide)

/-! ## The backward solver gives up after 10000 minutes -/

theorem prev_test_day_one (P : jcron_pattern_t) (c : Tm) (hP : P.days_of_month = 2)
    (hd : 2 ≤ c.tm_mday) (hd2 : c.tm_mday ≤ 31) : prev_test P c = false := by
  have h : jcron_test_bit_32 P.days_of_month c.tm_mday = false := by
    obtain ⟨k, hk⟩ : ∃ k : Nat, c.tm_mday = (k : Int) := ⟨c.tm_mday.toNat, by omega⟩
    have hk2 : 2 ≤ k := by omega
    have hk3 : ((k : Int) % 32).toNat = k := by omega
    unfold jcron_test_bit_32
    rw [hP, hk, hk3]
    have hz : 2 &&& (1 <<< k) = 0 := by
      apply Nat.eq_of_testBit_eq
      intro j
      rw [Nat.testBit_and, testBit_one_shiftLeft, Nat.zero_testBit]
      have h2 : (2 : Nat).testBit j = decide (1 = j) := by
        have : (2 : Nat) = 2 ^ 1 := rfl
        rw [this, Nat.testBit_two_pow]
      rw [h2]
      by_cases h1 : 1 = j
      · subst h1
        have : ¬ k = 1 := by omega
        simp [this]
      · simp [h1]
    rw [hz]
    rfl
  unfold prev_test
  rw [h]
  simp

/-- With the day-of-month mask of day 1 alone, the loop of `jcron_prev` that starts at least
`n` minutes and one day after the start of the month makes its `n` passes without a match. -/
theorem prev_loop_month_gap (P : jcron_pattern_t) (hP : P.days_of_month = 2) :
    ∀ (n : Nat) (c : Tm), 0 ≤ c.tm_min → c.tm_min ≤ 59 → 0 ≤ c.tm_hour → c.tm_hour ≤ 23 →
      c.tm_mday ≤ 31 →
      (n : Int) + 1440 ≤ (c.tm_mday - 1) * 1440 + c.tm_hour * 60 + c.tm_min →
      prev_loop P n c = Except.error JCRON_ERR_NO_MATCH := by
  intro n
  induction n with
  | zero => intro c _ _ _ _ _ _; rfl
  | succ n ih =>
    intro c h1 h2 h3 h4 h6 h5
    have hshape : 0 ≤ (prev_minute c).tm_min ∧ (prev_minute c).tm_min ≤ 59 ∧
        0 ≤ (prev_minute c).tm_hour ∧ (prev_minute c).tm_hour ≤ 23 ∧
        (prev_minute c).tm_mday ≤ 31 ∧ 2 ≤ (prev_minute c).tm_mday ∧
        (c.tm_mday - 1) * 1440 + c.tm_hour * 60 + c.tm_min - 1 =
          ((prev_minute c).tm_mday - 1) * 1440 + (prev_minute c).tm_hour * 60 +
            (prev_minute c).tm_min := by
      unfold prev_minute
      simp only []
      by_cases a1 : c.tm_min - 1 < 0
      · rw [if_pos a1]
        by_cases a2 : c.tm_hour - 1 < 0
        · rw [if_pos a2]
          have a3 : ¬ c.tm_mday - 1 < 1 := by push_cast at h5; omega
          rw [if_neg a3]
          push_cast at h5
          refine ⟨?_, ?_, ?_, ?_, ?_, ?_, ?_⟩ <;> simp only [] <;> omega
        · rw [if_neg a2]
          push_cast at h5
          refine ⟨?_, ?_, ?_, ?_, ?_, ?_, ?_⟩ <;> simp only [] <;> omega
      · rw [if_neg a1]
        push_cast at h5
        refine ⟨?_, ?_, ?_, ?_, ?_, ?_, ?_⟩ <;> simp only [] <;> omega
    obtain ⟨s1, s2, s3, s4, s7, s5, s6⟩ := hshape
    unfold prev_loop
    simp only []
    rw [prev_test_day_one P _ hP s5 s7]
    simp only [Bool.false_eq_true, if_false]
    apply ih _ s1 s2 s3 s4 s7
    push_cast at h5 ⊢
    omega

theorem jcron_prev_error (t0 : Int) (P : jcron_pattern_t) (code : Int) (hc : P.has_cron ≠ 0)
    (h : prev_loop P 10000 { timestamp_to_tm t0 with tm_sec := 0 } = Except.error code) :
    (jcron_prev t0 P).1 = code := by
  unfold jcron_prev
  simp only []
  rw [if_neg hc, h]

/-! ## The record after a failed compilation -/

theorem parse_modifier_no_digit_eq (tag c0 c1 : Char) (rest : List Char) (type mv : Int)
    (unit : Char) (h : isdigit c1 = false) :
    parse_modifier tag (c0 :: c1 :: rest) type mv unit =
      (JCRON_ERR_INVALID_PATTERN, type, mv, unit) := by
  simp [parse_modifier, h]

/-- The fields of a record that a failed `jcron_parse` may have written: the three flags and
the five masks; every other field has the value of the start. -/
theorem jcron_parse_fuel_error_record :
    ∀ (n : Nat) (s : List Char), (jcron_parse_fuel n s).1 ≠ JCRON_OK →
      (jcron_parse_fuel n s).2 =
        { pattern_init with
          minutes := (jcron_parse_fuel n s).2.minutes
          hours := (jcron_parse_fuel n s).2.hours
          days_of_month := (jcron_parse_fuel n s).2.days_of_month
          months := (jcron_parse_fuel n s).2.months
          days_of_week := (jcron_parse_fuel n s).2.days_of_week
          is_eod_pattern := (jcron_parse_fuel n s).2.is_eod_pattern
          is_sod_pattern := (jcron_parse_fuel n s).2.is_sod_pattern
          has_cron := (jcron_parse_fuel n s).2.has_cron } := by
  intro n s herr
  cases n with
  | zero => rfl
  | succ n =>
    by_cases h1 : has_prefix4 s ['E', 'O', 'D', ':'] = true
    · obtain ⟨rest, rfl⟩ := has_prefix4_cons h1
      simp only [jcron_parse_fuel, h1, if_true, jcron_parse_eod,
        parse_modifier_no_digit_eq 'E' 'E' 'O' _ _ _ _ (by decide)]
    · have h1f : has_prefix4 s ['E', 'O', 'D', ':'] = false := by simpa using h1
      by_cases h2 : has_prefix4 s ['S', 'O', 'D', ':'] = true
      · obtain ⟨rest, rfl⟩ := has_prefix4_cons h2
        simp only [jcron_parse_fuel, h1f, h2, if_true, if_false, Bool.false_eq_true,
          jcron_parse_sod, parse_modifier_no_digit_eq 'S' 'S' 'O' _ _ _ _ (by decide)]
      · have h2f : has_prefix4 s ['S', 'O', 'D', ':'] = false := by simpa using h2
        by_cases hb : s.contains '|' = true
        · rw [jcron_parse_fuel] at herr ⊢
          simp only [h1f, h2f, hb, if_true, if_false, Bool.false_eq_true] at herr ⊢
          split_ifs at herr ⊢ with c1 c2 c3 c4
          · rfl
          · rfl
          · rfl
          · rfl
          · exact absurd rfl herr
        · have hbf : s.contains '|' = false := by simpa using hb
          have e : jcron_parse_fuel (n + 1) s = parse_cron_body s pattern_init := by
            rw [jcron_parse_fuel]
            simp only [h1f, h2f, hbf, if_false, Bool.false_eq_true]
          rw [e] at herr ⊢
          rw [parse_cron_body_eq] at herr ⊢
          split_ifs at herr ⊢ with c0 c1 c2 c3 c4 c5
          · rfl
          · rfl
          · rfl
          · rfl
          · rfl
          · rfl
          · exact absurd (parse_cron_tail_code _ _) herr

/-! ## Backward bit searches -/

theorem testBit_top (n x : Nat) (h1 : 2 ^ n ≤ x) (h2 : x < 2 ^ (n + 1)) :
    x.testBit n = true := by
  have hd : x / 2 ^ n = 1 := by
    apply Nat.div_eq_of_lt_le
    · omega
    · rw [pow_succ] at h2
      omega
  rw [Nat.testBit_to_div_mod, hd]
  rfl

theorem builtin_clz_spec : ∀ (w x : Nat), x ≠ 0 → x < 2 ^ w →
    builtin_clz w x < w ∧ x.testBit (w - 1 - builtin_clz w x) = true ∧
      ∀ j, w - 1 - builtin_clz w x < j → x.testBit j = false := by
  intro w
  induction w with
  | zero => intro x h0 h1; simp at h1; exact absurd h1 h0
  | succ n ih =>
    intro x h0 h1
    unfold builtin_clz
    split
    · rename_i hb
      refine ⟨by omega, by simpa using hb, ?_⟩
      intro j hj
      exact Nat.testBit_lt_two_pow
        (lt_of_lt_of_le h1 (Nat.pow_le_pow_right (by decide) (by omega)))
    · rename_i hb
      have hlt : x < 2 ^ n := by
        by_contra hc
        exact hb (testBit_top n x (by omega) h1)
      obtain ⟨i1, i2, i3⟩ := ih x h0 hlt
      refine ⟨by omega, ?_, ?_⟩
      · have e : n + 1 - 1 - (1 + builtin_clz n x) = n - 1 - builtin_clz n x := by omega
        rw [e]
        exact i2
      · intro j hj
        exact i3 j (by omega)

/-- The highest set bit: what `jcron_last_bit_w` returns for a mask of width `w`. -/
theorem last_bit_result (w : Nat) (mask : Nat) (r : Int) (hm : mask < 2 ^ w)
    (hr : r = if mask = 0 then -1 else ((w : Int) - 1) - (builtin_clz w mask : Int)) :
    (r = -1 ↔ mask = 0) ∧
      (r ≠ -1 → ∃ k : Nat, r = (k : Int) ∧ k < w ∧ mask.testBit k = true ∧
        ∀ j : Nat, k < j → mask.testBit j = false) := by
  by_cases h0 : mask = 0
  · rw [if_pos h0] at hr
    exact ⟨⟨fun _ => h0, fun _ => hr⟩, fun h => absurd hr h⟩
  · rw [if_neg h0] at hr
    obtain ⟨c1, c2, c3⟩ := builtin_clz_spec w mask h0 hm
    have hk : r = ((w - 1 - builtin_clz w mask : Nat) : Int) := by omega
    refine ⟨⟨fun h => ?_, fun h => absurd h h0⟩, fun _ => ⟨_, hk, by omega, c2, c3⟩⟩
    omega

theorem cut_mask_testBit (w mask b j : Nat) (hb : b < w) :
    (mask &&& ((1 <<< b) % 2 ^ w - 1)).testBit j = (mask.testBit j && decide (j < b)) := by
  rw [one_shiftLeft_mod _ _ hb, Nat.one_shiftLeft, Nat.testBit_and,
    Nat.testBit_two_pow_sub_one]

theorem cut_mask_lt (w mask b : Nat) (hb : b < w) :
    mask &&& ((1 <<< b) % 2 ^ w - 1) < 2 ^ w := by
  rw [one_shiftLeft_mod _ _ hb, Nat.one_shiftLeft]
  have h1 : mask &&& (2 ^ b - 1) ≤ 2 ^ b - 1 := Nat.and_le_right
  have h2 : 2 ^ b < 2 ^ w := Nat.pow_lt_pow_right (by norm_num) hb
  have h3 : 0 < 2 ^ b := Nat.two_pow_pos b
  omega

/-- The result of a backward bit search, in the words of the specification: the largest
index of a set bit below `b`, or `-1` when there is none. -/
theorem prev_bit_result (w : Nat) (mask : Nat) (b r : Int) (hm : mask < 2 ^ w)
    (hr : r = if b ≤ 0 then -1 else
      (if (if b < (w : Int) then mask &&& ((1 <<< b.toNat) % 2 ^ w - 1) else mask) = 0 then -1
        else ((w : Int) - 1) - (builtin_clz w
          (if b < (w : Int) then mask &&& ((1 <<< b.toNat) % 2 ^ w - 1) else mask) : Int))) :
    (r = -1 ↔ ∀ j : Nat, (j : Int) < b → mask.testBit j = false) ∧
      (r ≠ -1 → ∃ k : Nat, r = (k : Int) ∧ (k : Int) < b ∧ mask.testBit k = true ∧
        ∀ j : Nat, k < j → (j : Int) < b → mask.testBit j = false) := by
  by_cases hb0 : b ≤ 0
  · rw [if_pos hb0] at hr
    refine ⟨⟨fun _ j hj => ?_, fun _ => hr⟩, fun h => absurd hr h⟩
    omega
  · rw [if_neg hb0] at hr
    by_cases hbw : b < (w : Int)
    · simp only [if_pos hbw] at hr
      have hbn : b.toNat < w := by omega
      have hcut := fun j => cut_mask_testBit w mask b.toNat j hbn
      obtain ⟨l1, l2⟩ := last_bit_result w _ r (cut_mask_lt w mask b.toNat hbn) hr
      constructor
      · rw [l1]
        constructor
        · intro h j hj
          have := hcut j
          rw [h, Nat.zero_testBit] at this
          have hjb : j < b.toNat := by omega
          simpa [hjb] using this.symm
        · intro h
          apply Nat.eq_of_testBit_eq
          intro j
          rw [hcut j, Nat.zero_testBit]
          by_cases hjb : j < b.toNat
          · rw [h j (by omega)]
            rfl
          · simp [hjb]
      · intro hne
        obtain ⟨k, k1, k2, k3, k4⟩ := l2 hne
        rw [hcut k] at k3
        simp only [Bool.and_eq_true, decide_eq_true_eq] at k3
        refine ⟨k, k1, by omega, k3.1, ?_⟩
        intro j hj1 hj2
        have := k4 j hj1
        rw [hcut j] at this
        have hjb : j < b.toNat := by omega
        simpa [hjb] using this
    · simp only [if_neg hbw] at hr
      obtain ⟨l1, l2⟩ := last_bit_result w _ r hm hr
      constructor
      · rw [l1]
        constructor
        · intro h j _
          rw [h, Nat.zero_testBit]
        · intro h
          apply Nat.eq_of_testBit_eq
          intro j
          rw [Nat.zero_testBit]
          by_cases hjw : j < w
          · exact h j (by omega)
          · exact testBit_false_of_lt_two_pow hm (by omega)
      · intro hne
        obtain ⟨k, k1, k2, k3, k4⟩ := l2 hne
        exact ⟨k, k1, by omega, k3, fun j hj _ => k4 j hj⟩

/-! ## The closed-form conversion -/

/-- The function `tm_to_timestamp_fast` has the body of `tm_to_timestamp_legacy`. -/
theorem tm_to_timestamp_fast_eq_legacy (tm : Tm) :
    tm_to_timestamp_fast tm = tm_to_timestamp_legacy tm := rfl

/-- The start record of `jcron_next` at the timestamp of a valid record with second 0 is
that record. -/
theorem start_record_of_civil (tm : Tm) (hv : valid_tm tm) (hs : tm.tm_sec = 0) :
    { timestamp_to_tm (civil_timestamp tm) with tm_sec := 0 } = tm := by
  rw [timestamp_to_tm_civil tm hv]
  cases tm
  simp only [] at hs
  subst hs
  rfl

/-- A record that satisfies the masks ends the loop of `jcron_next` in its first pass. -/
theorem next_body_match (P : jcron_pattern_t) (c : Tm) (hv : valid_tm c)
    (hm : fields_match P c) : next_body P c = LoopStep.found c := by
  obtain ⟨⟨a1, a2, a3, a4, a5, a6, a7, a8, a9, a10⟩, hw⟩ := hv
  obtain ⟨m1, m2, m3, m4, m5⟩ := hm
  have hdim := jcron_days_in_month_bounds (c.tm_year + 1900) (c.tm_mon + 1) (by omega) (by omega)
  obtain ⟨w1, w2⟩ := wday_ok_range hw
  unfold next_body
  rw [shift_count_32 (c.tm_mon + 1) (by omega) (by omega),
    shift_count_32 c.tm_wday w1 (by omega)]
  have h1 : ¬ (P.months &&& (1 <<< (c.tm_mon + 1).toNat) = 0) := by
    rw [land_one_shiftLeft_eq_zero_iff, m4]
    simp
  have h2 : ¬ (P.days_of_week &&& (1 <<< c.tm_wday.toNat) = 0) := by
    rw [land_one_shiftLeft_eq_zero_iff, m5]
    simp
  rw [if_neg h1, jcron_test_bit_32_eq _ _ (by omega) (by omega), m3,
    jcron_test_bit_32_eq _ _ (by omega) (by omega), m2,
    jcron_test_bit_64_eq _ _ (by omega) (by omega), m1]
  simp [h2]

/-! ## The end-of-month modifier -/

/-- A record with valid fields whose timestamp is not negative lies in 1970 or later. -/
theorem year_ge_1970_of_civil (c : Tm) (hv : valid_fields c)
    (h : 0 ≤ civil_timestamp c) : 1970 ≤ c.tm_year + 1900 := by
  by_contra hc
  have hb : valid_fields ⟨0, 0, 0, 1, 0, 70, 4⟩ := by
    refine ⟨by decide, by decide, by decide, by decide, by decide, by decide, by decide,
      by decide, by decide, by decide⟩
  have := civil_lt_of_month_lt c ⟨0, 0, 0, 1, 0, 70, 4⟩ hv hb (Or.inl (by simp only []; omega))
  have e : civil_timestamp ⟨0, 0, 0, 1, 0, 70, 4⟩ = 0 := by decide
  omega

/-- From 1969 to 2099 the table-accelerated conversion, with its fallback to the closed form
below 1970, is exact. -/
theorem tm_to_timestamp_ultra_fast_exact (tm : Tm)
    (hy : 1969 ≤ tm.tm_year + 1900 ∧ tm.tm_year + 1900 ≤ 2099)
    (hm : 0 ≤ tm.tm_mon ∧ tm.tm_mon ≤ 11) :
    tm_to_timestamp_ultra_fast tm = civil_timestamp tm := by
  by_cases h : 1970 ≤ tm.tm_year + 1900
  · exact tm_to_timestamp_ultra_fast_eq tm ⟨h, hy.2⟩ hm
  · have e : tm_to_timestamp_ultra_fast tm = tm_to_timestamp_fast tm := by
      unfold tm_to_timestamp_ultra_fast
      simp only []
      rw [if_pos (Or.inl (by omega))]
    rw [e, tm_to_timestamp_fast_eq_legacy, tm_to_timestamp_legacy_eq tm hy.1 hm]

/-- The post-processing of a matched instant by an end-of-month modifier `E<d>M` without a
start-of-period modifier: the result is 23:59:59 on the last day of the month `d` months
before the month of the instant. -/
theorem apply_eod_month (P : jcron_pattern_t) (tm : Tm) (d : Int) (hv : valid_tm tm)
    (hy : 1970 ≤ tm.tm_year + 1900 ∧ tm.tm_year + 1900 ≤ 2099) (hd : 0 ≤ d ∧ d ≤ 9)
    (hs : P.sod_type = -1) (ht : P.eod_type = d) (hm : P.eod_modifier = d)
    (hu : P.eod_unit = 'M') :
    apply_sod_eod_modifiers (civil_timestamp tm) P =
      month_end_timestamp (months_back_year (tm.tm_year + 1900) (tm.tm_mon + 1) d)
        (months_back_month (tm.tm_year + 1900) (tm.tm_mon + 1) d) := by
  have hv0 := hv
  obtain ⟨⟨a1, a2, a3, a4, a5, a6, a7, a8, a9, a10⟩, _⟩ := hv
  have hs0 : ¬ (P.sod_type ≥ 0) := by omega
  have ht0 : P.eod_type ≥ 0 := by omega
  unfold apply_sod_eod_modifiers
  simp only [hs0, ht0, if_false, if_true, timestamp_to_tm_civil tm hv0, hu, hm,
    show ¬ ('M' = 'H') by decide, show ¬ ('M' = 'D') by decide,
    show ¬ ('M' = 'W') by decide]
  unfold month_end_timestamp months_back_year months_back_month
  by_cases hneg : tm.tm_mon - d < 0
  · simp only [if_pos hneg]
    rw [tm_to_timestamp_ultra_fast_exact _ ⟨by simp only []; omega, by simp only []; omega⟩
      ⟨by simp only []; omega, by simp only []; omega⟩]
    have e1 : (12 * (tm.tm_year + 1900) + (tm.tm_mon + 1 - 1) - d) / 12 =
        tm.tm_year - 1 + 1900 := by omega
    have e2 : (12 * (tm.tm_year + 1900) + (tm.tm_mon + 1 - 1) - d) % 12 + 1 =
        tm.tm_mon - d + 12 + 1 := by omega
    rw [e1, e2]
    unfold civil_timestamp tm_days
    simp only []
  · simp only [if_neg hneg]
    rw [tm_to_timestamp_ultra_fast_exact _ ⟨by simp only []; omega, by simp only []; omega⟩
      ⟨by simp only []; omega, by simp only []; omega⟩]
    have e1 : (12 * (tm.tm_year + 1900) + (tm.tm_mon + 1 - 1) - d) / 12 =
        tm.tm_year + 1900 := by omega
    have e2 : (12 * (tm.tm_year + 1900) + (tm.tm_mon + 1 - 1) - d) % 12 + 1 =
        tm.tm_mon - d + 1 := by omega
    rw [e1, e2]
    unfold civil_timestamp tm_days
    simp only []

/-- The core of the end-of-month claim, for a pattern whose modifier fields are those of a
suffix `E<d>M`. -/
theorem jcron_prev_eod_month_core (P : jcron_pattern_t) (t0 d : Int) (hd : 0 ≤ d ∧ d ≤ 9)
    (hmod : P.sod_type = -1 ∧ P.eod_type = d ∧ P.eod_modifier = d ∧ P.eod_unit = 'M')
    (hrange : 31536000 ≤ t0 ∧ t0 < 4102444800)
    (hok : (jcron_prev t0 P).1 = JCRON_OK) :
    ∃ tm1 : Tm, prev_loop P 10000 { timestamp_to_tm t0 with tm_sec := 0 } = Except.ok tm1 ∧
      valid_tm tm1 ∧ tm1.tm_sec = 0 ∧ fields_match P tm1 ∧ civil_timestamp tm1 < t0 ∧
      (jcron_prev t0 P).2.prev_time =
        month_end_timestamp (months_back_year (tm1.tm_year + 1900) (tm1.tm_mon + 1) d)
          (months_back_month (tm1.tm_year + 1900) (tm1.tm_mon + 1) d) := by
  obtain ⟨_, tm1, hl, hn⟩ := jcron_prev_ok t0 P hok
  obtain ⟨s1, s2, s3⟩ := start_record_spec t0
  obtain ⟨k, k1, k2, k3, k4, k5, k6, _⟩ :=
    prev_loop_spec P 10000 _ tm1 ⟨s1, s2⟩ (by rw [s3]; push_cast; omega) hl
  rw [s3] at k5
  have hlo := year_ge_1970_of_civil tm1 k3.1 (by rw [k5]; omega)
  have hhi := year_le_of_civil tm1 k3.1 (by rw [k5]; omega)
  refine ⟨tm1, hl, k3, k4, k6, by rw [k5]; omega, ?_⟩
  rw [hn, tm_to_timestamp_select_eq tm1 ⟨by omega, hhi⟩
    ⟨k3.1.2.2.2.2.2.2.1, k3.1.2.2.2.2.2.2.2.1⟩]
  exact apply_eod_month P tm1 d k3 ⟨hlo, hhi⟩ hd hmod.1 hmod.2.1 hmod.2.2.1 hmod.2.2.2

theorem digit_value_bounds (c : Char) (h : isdigit c = true) :
    0 ≤ (c.toNat : Int) - 48 ∧ (c.toNat : Int) - 48 ≤ 9 := by
  unfold isdigit at h
  simp only [Bool.and_eq_true, decide_eq_true_eq] at h
  omega

/-! ## The first token of a cron pattern -/

theorem strtok_tokens_skip (w x : List Char) (hw : ∀ c ∈ w, is_delim c = true) :
    strtok_tokens (w ++ x) [] = strtok_tokens x [] := by
  induction w with
  | nil => rfl
  | cons c cs ih =>
    have h1 : is_delim c = true := hw c (List.mem_cons_self _ _)
    rw [List.cons_append, strtok_tokens, if_pos h1, if_pos rfl]
    exact ih (fun d hd => hw d (List.mem_cons_of_mem _ hd))

theorem strtok_tokens_first (t r : List Char) (ht : ∀ c ∈ t, is_delim c = false)
    (hr : ∀ c, r.head? = some c → is_delim c = true) :
    ∀ cur : List Char, (cur ≠ [] ∨ t ≠ []) →
      strtok_tokens (t ++ r) cur = (cur.reverse ++ t) :: strtok_tokens r [] := by
  induction t with
  | nil =>
    intro cur h
    have hc : cur ≠ [] := by
      rcases h with h | h
      · exact h
      · exact absurd rfl h
    cases r with
    | nil => simp [strtok_tokens, hc]
    | cons c cs =>
      have h1 : is_delim c = true := hr c rfl
      simp [strtok_tokens, hc, h1]
  | cons c cs ih =>
    intro cur _
    have h1 : is_delim c = false := ht c (List.mem_cons_self _ _)
    rw [List.cons_append, strtok_tokens, if_neg (by rw [h1]; decide)]
    rw [ih (fun d hd => ht d (List.mem_cons_of_mem _ hd)) (c :: cur) (Or.inl (by simp))]
    simp

/-- The tokens of a text that starts, after delimiters, with the token `t`. -/
theorem cron_fields_first (w t r : List Char) (hw : ∀ c ∈ w, is_delim c = true)
    (ht : t ≠ [] ∧ ∀ c ∈ t, is_delim c = false)
    (hr : ∀ c, r.head? = some c → is_delim c = true) (hlen : (w ++ t ++ r).length < 512) :
    cron_fields (w ++ t ++ r) = t :: (strtok_tokens r []).take 6 := by
  have e : (w ++ t ++ r).take 511 = w ++ (t ++ r) := by
    rw [List.take_of_length_le (by omega), List.append_assoc]
  unfold cron_fields
  rw [e, strtok_tokens_skip w _ hw, strtok_tokens_first t r ht.2 hr [] (Or.inr ht.1)]
  simp

/-- The six-field part of `jcron_parse` does not read the first token. -/
theorem parse_cron_body_first (s1 s2 a b : List Char) (X : List (List Char))
    (out : jcron_pattern_t) (h1 : cron_fields s1 = a :: X) (h2 : cron_fields s2 = b :: X) :
    parse_cron_body s1 out = parse_cron_body s2 out := by
  unfold cron_fields at h1 h2
  unfold parse_cron_body parse_cron_tail
  simp only [h1, h2, List.length_cons, List.getD_cons_succ]

/-- A text without `|` and without the prefixes `EOD:` and `SOD:` goes to the six-field
part of `jcron_parse`. -/
theorem jcron_parse_plain (s : List Char) (hbar : '|' ∉ s)
    (h1 : has_prefix4 s ['E', 'O', 'D', ':'] = false)
    (h2 : has_prefix4 s ['S', 'O', 'D', ':'] = false) :
    jcron_parse s = parse_cron_body s pattern_init := by
  unfold jcron_parse
  rcases jcron_parse_fuel_plain s.length s (contains_bar_false hbar) with ⟨e, _⟩ | ⟨e, _⟩ | e
  · rw [h1] at e; exact absurd e (by decide)
  · rw [h2] at e; exact absurd e (by decide)
  · exact e

/-! ## The properties of the library surface

Each theorem below settles one numbered claim of the specification; its comment restates the
claim.  `P` accepted by `jcron_parse` means `jcron_parse s = (JCRON_OK, P)` for some text `s`;
"the matched calendar record" of `jcron_next` is the record on which its loop ends. -/

theorem year_range_of_loop (P : jcron_pattern_t) (c cf : Tm)
    (h : next_loop P 10000 c = Except.ok cf)
    (hy : 1970 ≤ cf.tm_year + 1900 ∧ cf.tm_year + 1900 ≤ 2099) :
    ∀ tm1 : Tm, next_loop P 10000 c = Except.ok tm1 →
      1970 ≤ tm1.tm_year + 1900 ∧ tm1.tm_year + 1900 ≤ 2099 := by
  intro tm1 h1
  rw [h] at h1
  injection h1 with h1
  subst h1
  exact hy

set_option maxRecDepth 100000 in
/-- Claim C3 as stated fails: `* * * * * *` from 2025-10-23T10:00:30 returns
2025-10-23T10:00:00, thirty seconds before the reference instant. -/
theorem jcron_next_ge_counterexample :
    (jcron_parse "* * * * * *".toList).1 = JCRON_OK ∧
    (jcron_next 1761213630 (jcron_parse "* * * * * *".toList).2).1 = JCRON_OK ∧
    (jcron_next 1761213630 (jcron_parse "* * * * * *".toList).2).2.next_time < 1761213630 := by
  decide

/-- Claim C3, amended.  For every pattern `P` accepted by `jcron_parse`, whose five masks lie
within the ranges of their fields, and every timestamp `t0` whose matched calendar record
lies in the years 1970..2099: whenever `jcron_next t0 P` returns `JCRON_OK`, `next_time` is
not before the start of the minute of `t0`, that is `next_time ≥ t0 - t0 mod 60`; so
`next_time ≥ t0` when `t0` is a multiple of 60. -/
theorem jcron_next_ge_minute (s : List Char) (P : jcron_pattern_t) (t0 : Int)
    (_hparse : jcron_parse s = (JCRON_OK, P)) (hranges : mask_ranges P)
    (hok : (jcron_next t0 P).1 = JCRON_OK)
    (hyear : ∀ tm1 : Tm,
      next_loop P 10000 { timestamp_to_tm t0 with tm_sec := 0 } = Except.ok tm1 →
      1970 ≤ tm1.tm_year + 1900 ∧ tm1.tm_year + 1900 ≤ 2099) :
    t0 - t0 % 60 ≤ (jcron_next t0 P).2.next_time ∧
      (t0 % 60 = 0 → t0 ≤ (jcron_next t0 P).2.next_time) := by
  obtain ⟨_, tm1, hl, hn⟩ := jcron_next_ok t0 P hok
  obtain ⟨_, _, _, c4, c5, _⟩ := jcron_next_core P hranges t0 tm1 hl (hyear tm1 hl)
  rw [hn, c4]
  exact ⟨c5, fun h => by omega⟩

set_option maxRecDepth 100000 in
/-- Claim C3, amended, at `* */5 * * * *` from 2025-10-23T10:03:20. -/
theorem jcron_next_ge_minute_witness :
    jcron_parse "* */5 * * * *".toList = (JCRON_OK, (jcron_parse "* */5 * * * *".toList).2) ∧
    mask_ranges (jcron_parse "* */5 * * * *".toList).2 ∧
    (1761213800 : Int) - 1761213800 % 60 ≤
      (jcron_next 1761213800 (jcron_parse "* */5 * * * *".toList).2).2.next_time :=
  ⟨by decide, mask_ranges_of_bounds _ (by decide),
    (jcron_next_ge_minute "* */5 * * * *".toList (jcron_parse "* */5 * * * *".toList).2
      1761213800 (by decide) (mask_ranges_of_bounds _ (by decide)) (by decide)
      (year_range_of_loop _ _ ⟨0, 5, 10, 23, 9, 125, 4⟩ rfl (by decide))).1⟩

set_option maxRecDepth 100000 in
/-- Claim C4 fails on the code: for `* 45 * * * *` (no modifier) from 2025-10-23T10:00:00,
`jcron_next` returns `JCRON_OK` with `next_time` = 2025-10-23T10:45:00, whose fields satisfy
all five masks, and `jcron_matches` returns 0 on that instant: it keeps only the low 32 bits
of the 64-bit minute mask. -/
theorem jcron_matches_next_minute_45 :
    jcron_parse "* 45 * * * *".toList = (JCRON_OK, (jcron_parse "* 45 * * * *".toList).2) ∧
    (jcron_parse "* 45 * * * *".toList).2.sod_type = -1 ∧
    (jcron_parse "* 45 * * * *".toList).2.eod_type = -1 ∧
    jcron_next 1761213600 (jcron_parse "* 45 * * * *".toList).2 =
      (JCRON_OK, { result_zero with next_time := 1761216300 }) ∧
    jcron_matches 1761216300 (jcron_parse "* 45 * * * *".toList).2 = 0 := by
  decide

set_option maxRecDepth 100000 in
/-- Claim C5 fails on the code: for `* 45 * * * *` (with `has_cron` set) and the instant
2025-10-23T14:45:00, every field bit is set in its mask, and `jcron_matches` returns 0. -/
theorem jcron_matches_minute_45 :
    (jcron_parse "* 45 * * * *".toList).2.has_cron = 1 ∧
    fields_match (jcron_parse "* 45 * * * *".toList).2 (timestamp_to_tm 1761230700) ∧
    jcron_matches 1761230700 (jcron_parse "* 45 * * * *".toList).2 = 0 := by
  refine ⟨by decide, ?_, by decide⟩
  unfold fields_match
  decide

set_option maxRecDepth 100000 in
/-- Claim C6 fails on the code: for `* * * * * *` from 2025-10-23T10:00:00 and a count of 2,
`jcron_next_n` returns `JCRON_OK` and both results carry the same `next_time`. -/
theorem jcron_next_n_repeats :
    (jcron_parse "* * * * * *".toList).1 = JCRON_OK ∧
    jcron_next_n 1761213600 (jcron_parse "* * * * * *".toList).2 2 =
      (JCRON_OK, [{ result_zero with next_time := 1761213600 },
                  { result_zero with next_time := 1761213600 }]) := by
  decide

/-- Claim C7 (`jcron_prev` returns the greatest earlier match).  For every pattern `P` with
`has_cron` set and no SOD/EOD modifier (so in particular for every such pattern accepted by
`jcron_parse`) and every minute-aligned `t0` in the years 1970..2099: if `jcron_prev t0 P`
returns `JCRON_OK`, then `prev_time` is minute-aligned, strictly less than `t0`, its UTC
calendar fields satisfy all five masks of `P`, and no minute-aligned instant strictly between
`prev_time` and `t0` does. -/
theorem jcron_prev_greatest (P : jcron_pattern_t) (t0 : Int)
    (hcron : P.has_cron = 1) (hmod : P.sod_type = -1 ∧ P.eod_type = -1)
    (halign : t0 % 60 = 0) (hrange : 0 ≤ t0 ∧ t0 < 4102444800)
    (hok : (jcron_prev t0 P).1 = JCRON_OK) :
    (jcron_prev t0 P).2.prev_time % 60 = 0 ∧ (jcron_prev t0 P).2.prev_time < t0 ∧
      fields_match P (timestamp_to_tm (jcron_prev t0 P).2.prev_time) ∧
      ∀ u : Int, u % 60 = 0 → (jcron_prev t0 P).2.prev_time < u → u < t0 →
        ¬ fields_match P (timestamp_to_tm u) := by
  have _hc : P.has_cron ≠ 0 := by omega
  obtain ⟨k, k1, k2, k3, k4⟩ := jcron_prev_core P t0 ⟨by omega, by omega⟩ hrange hok
  refine ⟨by omega, by omega, k3, ?_⟩
  intro u hu hlo hhi
  have := k4 ((t0 - u) / 60).toNat (by omega) (by omega)
  have e : t0 - t0 % 60 - 60 * (((t0 - u) / 60).toNat : Int) = u := by omega
  rw [e] at this
  exact this

set_option maxRecDepth 100000 in
/-- Claim C7 at the pattern `* 0 0 * * *` from 2025-10-23T01:30:00: the result is
2025-10-23T00:00:00, it matches, and 2025-10-23T01:00:00 in between does not. -/
theorem jcron_prev_greatest_witness :
    (jcron_prev 1761183000 (jcron_parse "* 0 0 * * *".toList).2).2.prev_time = 1761177600 ∧
    fields_match (jcron_parse "* 0 0 * * *".toList).2
      (timestamp_to_tm (jcron_prev 1761183000 (jcron_parse "* 0 0 * * *".toList).2).2.prev_time) ∧
    ¬ fields_match (jcron_parse "* 0 0 * * *".toList).2 (timestamp_to_tm 1761181200) :=
  ⟨by decide,
    (jcron_prev_greatest (jcron_parse "* 0 0 * * *".toList).2 1761183000
      (by decide) (by decide) (by decide) (by decide) (by decide)).2.2.1,
    (jcron_prev_greatest (jcron_parse "* 0 0 * * *".toList).2 1761183000
      (by decide) (by decide) (by decide) (by decide) (by decide)).2.2.2
      1761181200 (by decide) (by decide) (by decide)⟩

set_option maxRecDepth 100000 in
/-- Claim C8 as stated fails: the accepted pattern `0 0 10 * * * S2H` from
2025-10-23T10:30:00 makes `jcron_prev` return `JCRON_OK` with `prev_time` =
2025-10-23T12:00:00 (the matched 10:00 plus two hours), which is after the reference. -/
theorem jcron_prev_lt_counterexample :
    (jcron_parse "0 0 10 * * * S2H".toList).1 = JCRON_OK ∧
    jcron_prev 1761215400 (jcron_parse "0 0 10 * * * S2H".toList).2 =
      (JCRON_OK, { result_zero with prev_time := 1761220800 }) ∧
    ¬ ((jcron_prev 1761215400 (jcron_parse "0 0 10 * * * S2H".toList).2).2.prev_time
        < 1761215400) := by
  decide

/-- Claim C8, amended.  For every pattern `P` without SOD/EOD modifier (in particular every
such pattern accepted by `jcron_parse`) and every timestamp `t0` in the years 1970..2099:
whenever `jcron_prev t0 P` returns `JCRON_OK`, `prev_time < t0`. -/
theorem jcron_prev_lt (P : jcron_pattern_t) (t0 : Int)
    (hmod : P.sod_type = -1 ∧ P.eod_type = -1) (hrange : 0 ≤ t0 ∧ t0 < 4102444800)
    (hok : (jcron_prev t0 P).1 = JCRON_OK) :
    (jcron_prev t0 P).2.prev_time < t0 := by
  obtain ⟨k, k1, k2, _, _⟩ := jcron_prev_core P t0 ⟨by omega, by omega⟩ hrange hok
  omega

set_option maxRecDepth 100000 in
/-- Claim C8, amended, at `* * * * * *` from 2025-10-23T10:05:20. -/
theorem jcron_prev_lt_witness :
    (jcron_prev 1761213920 (jcron_parse "* * * * * *".toList).2).1 = JCRON_OK ∧
    (jcron_prev 1761213920 (jcron_parse "* * * * * *".toList).2).2.prev_time < 1761213920 :=
  ⟨by decide,
    jcron_prev_lt (jcron_parse "* * * * * *".toList).2 1761213920
      (by decide) (by decide) (by decide)⟩

set_option maxRecDepth 100000 in
/-- Claim C9 fails on the code: the accepted pattern `0 0 10 * * * S2H` carries the modifier
`S2H` (type 2, value 2, unit `H`), and from 2025-10-23T10:00:00 `jcron_next` returns
`JCRON_OK` with `next_time` = 2025-10-23T10:00:00, the cron-matched instant itself, not that
instant plus 2 * 3600 seconds. -/
theorem jcron_next_drops_modifier :
    (jcron_parse "0 0 10 * * * S2H".toList).1 = JCRON_OK ∧
    (jcron_parse "0 0 10 * * * S2H".toList).2.sod_type = 2 ∧
    (jcron_parse "0 0 10 * * * S2H".toList).2.sod_modifier = 2 ∧
    (jcron_parse "0 0 10 * * * S2H".toList).2.sod_unit = 'H' ∧
    jcron_next 1761213600 (jcron_parse "0 0 10 * * * S2H".toList).2 =
      (JCRON_OK, { result_zero with next_time := 1761213600 }) ∧
    apply_sod_eod_modifiers 1761213600 (jcron_parse "0 0 10 * * * S2H".toList).2
      = 1761213600 + 2 * 3600 := by
  decide

/-- C13: `jcron_parse("* * * * * *")` returns `JCRON_OK`, and for each of the five cron
fields, when the token of the field is `*`, then after a successful `jcron_parse` of a
pattern without `|` the mask of the field has exactly the bits `lo..hi` of the admissible
values. -/
theorem jcron_parse_star_mask :
    (jcron_parse "* * * * * *".toList).1 = JCRON_OK ∧
      ∀ (s : List Char) (P : jcron_pattern_t) (f : CronField), '|' ∉ s →
        jcron_parse s = (JCRON_OK, P) → field_token f s = ['*'] →
        ∀ v : Nat, (f.mask P).testBit v = true ↔ (f.lo ≤ v ∧ v ≤ f.hi) := by
  refine ⟨by rfl, ?_⟩
  intro s P f hbar hok htok v
  have hres := jcron_parse_field_mask s P hbar hok f
  unfold field_result at hres
  rw [htok, parse_cron_field_star] at hres
  have e := (Prod.mk.inj hres).2
  have hmax : INT_MAX = 2147483647 := rfl
  have hw := field_hi_lt_width f
  have hwd : mask_width f.ptr ≤ 64 := by cases f <;> decide
  have hb := set_bits_step_testBit f.ptr (field_ptr_ne_null f) (field_hi_lt_width f) f.hi
    1 (le_refl _) (le_refl _) (by omega) v (2 * f.hi + 4) f.lo 0 (by omega)
    (bits_in_zero f.lo f.hi) (le_refl _)
  rw [← e]
  simp only [Nat.cast_one] at hb
  rw [hb]
  simp [Nat.mod_one]

/-- In the pattern `* 0 12 * * *` the day of month is `*`: bit 31 of its mask is set and
bit 0 is not. -/
theorem jcron_parse_star_mask_witness :
    jcron_parse "* 0 12 * * *".toList = (JCRON_OK, (jcron_parse "* 0 12 * * *".toList).2) ∧
      (jcron_parse "* 0 12 * * *".toList).2.days_of_month.testBit 31 = true ∧
      ¬ (jcron_parse "* 0 12 * * *".toList).2.days_of_month.testBit 0 = true := by
  have h := jcron_parse_star_mask.2 "* 0 12 * * *".toList
    (jcron_parse "* 0 12 * * *".toList).2 CronField.day_of_month (by decide) (by rfl) (by rfl)
  exact ⟨by rfl, (h 31).mpr (by decide), fun h0 => absurd ((h 0).mp h0) (by decide)⟩

set_option maxRecDepth 100000 in
/-- C15: code defect.  A field token that continues after `*` or `*/S` is not refused: the
patterns `* *x * * * *` and `* */5,99 * * * *` compile with `JCRON_OK` (the rest of the
token is not read), and so does the token `5,` with nothing after the comma, while the list
path refuses the stray character of `* 5x * * * *`. -/
theorem jcron_parse_star_stray :
    (jcron_parse "* *x * * * *".toList).1 = JCRON_OK ∧
      (jcron_parse "* *x * * * *".toList).2.minutes = 1152921504606846975 ∧
      (jcron_parse "* */5,99 * * * *".toList).1 = JCRON_OK ∧
      (jcron_parse "* 5, * * * *".toList).1 = JCRON_OK ∧
      (jcron_parse "* 5x * * * *".toList).1 = JCRON_ERR_INVALID_PATTERN := by
  refine ⟨by rfl, by decide, by rfl, by rfl, by rfl⟩

set_option maxRecDepth 100000 in
/-- C16: code defect.  The token `5/10` of the minute field is within the grammar and covers
15, but `jcron_parse` sets bit 5 only: the end of an item without `-M` stays at `N`. -/
theorem jcron_parse_open_step :
    jcron_parse "* 5/10 * * * *".toList =
        (JCRON_OK, (jcron_parse "* 5/10 * * * *".toList).2) ∧
      field_token CronField.minute "* 5/10 * * * *".toList =
        list_text [⟨['5'], none, some ['1', '0']⟩] ∧
      FieldItem.covers CronField.minute.hi ⟨['5'], none, some ['1', '0']⟩ 15 ∧
      (jcron_parse "* 5/10 * * * *".toList).2.minutes.testBit 15 = false ∧
      (jcron_parse "* 5/10 * * * *".toList).2.minutes = 32 := by
  refine ⟨by rfl, by rfl, by decide, by decide, by decide⟩

/-- C17: every text with fewer than six tokens, when split at runs of space and tab, is
refused by `jcron_parse` with `JCRON_ERR_INVALID_PATTERN`. -/
theorem jcron_parse_few_tokens (s : List Char) (h : (strtok_tokens s []).length < 6) :
    (jcron_parse s).1 = JCRON_ERR_INVALID_PATTERN :=
  jcron_parse_fuel_few _ s h

/-- The five-field text `0 12 * * 1` is refused. -/
theorem jcron_parse_few_tokens_witness :
    (strtok_tokens "0 12 * * 1".toList []).length < 6 ∧
      (jcron_parse "0 12 * * 1".toList).1 = JCRON_ERR_INVALID_PATTERN :=
  ⟨by decide, jcron_parse_few_tokens "0 12 * * 1".toList (by decide)⟩

/-- C18: code defect.  Every text that starts with `EOD:` or `SOD:` is refused, the
modifier-only patterns `EOD:E0M` and `SOD:S0W` among them: `jcron_parse` hands the whole
text, prefix included, to `jcron_parse_eod` and `jcron_parse_sod`. -/
theorem jcron_parse_modifier_only :
    (jcron_parse "EOD:E0M".toList).1 = JCRON_ERR_INVALID_PATTERN ∧
      (jcron_parse "SOD:S0W".toList).1 = JCRON_ERR_INVALID_PATTERN ∧
      (jcron_parse_eod "E0M".toList (-1) (-1) (Char.ofNat 0)).1 = JCRON_OK ∧
      ∀ rest : List Char,
        (jcron_parse ('E' :: 'O' :: 'D' :: ':' :: rest)).1 = JCRON_ERR_INVALID_PATTERN ∧
        (jcron_parse ('S' :: 'O' :: 'D' :: ':' :: rest)).1 = JCRON_ERR_INVALID_PATTERN := by
  refine ⟨by rfl, by rfl, by rfl, fun rest => ⟨?_, ?_⟩⟩
  · exact jcron_parse_fuel_prefixed _ _ _ (Or.inl rfl) (by simp [has_prefix4])
  · exact jcron_parse_fuel_prefixed _ _ _ (Or.inr rfl) (by simp [has_prefix4])

set_option maxRecDepth 1000000 in
/-- C19 as stated fails: `long_body` is a valid six-field cron body of 511 characters, and
for the text `long_body ++ " S2H"` the modifier lies beyond the 511 characters that
`jcron_parse` copies into its buffer: the result is `JCRON_OK` with `sod_type = -1`. -/
theorem jcron_parse_modifier_suffix_counterexample :
    long_body.length = 511 ∧ '|' ∉ long_body ∧ (strtok_tokens long_body []).length = 6 ∧
      (jcron_parse long_body).1 = JCRON_OK ∧
      (jcron_parse (long_body ++ " S2H".toList)).1 = JCRON_OK ∧
      (jcron_parse (long_body ++ " S2H".toList)).2.sod_type = -1 := by
  refine ⟨by decide, by decide, by decide, by decide, by decide, by decide⟩

/-- C19, amended.  For every six-field cron body `B` without `|` that `jcron_parse` compiles
into `PB`, every decimal digit `d` and every unit `U` in `H`, `D`, `W`, `M`, when the text
`B ++ " S<d><U>"` is shorter than 512 characters: `jcron_parse` returns `JCRON_OK` for it,
with the record `PB` in which `sod_type = sod_modifier = d` and `sod_unit = U`; so the five
masks are those of `B`, `has_cron = 1` and `eod_type = -1`.  Symmetrically for
`B ++ " E<d><U>"` and the EOD fields, with `sod_type = -1`. -/
theorem jcron_parse_modifier_suffix (B : List Char) (PB : jcron_pattern_t) (d U : Char)
    (hbar : '|' ∉ B) (hsix : (strtok_tokens B []).length = 6)
    (hB : jcron_parse B = (JCRON_OK, PB)) (hlen : B.length + 4 < 512)
    (hd : isdigit d = true) (hU : U = 'H' ∨ U = 'D' ∨ U = 'W' ∨ U = 'M') :
    jcron_parse (B ++ [' ', 'S', d, U]) =
        (JCRON_OK,
          { PB with
            sod_type := (d.toNat : Int) - 48, sod_modifier := (d.toNat : Int) - 48, sod_unit := U }) ∧
      jcron_parse (B ++ [' ', 'E', d, U]) =
        (JCRON_OK,
          { PB with
            eod_type := (d.toNat : Int) - 48, eod_modifier := (d.toNat : Int) - 48, eod_unit := U }) ∧
      PB.has_cron = 1 ∧ PB.sod_type = -1 ∧ PB.eod_type = -1 := by
  obtain ⟨s1, s2⟩ := modifier_token_chars 'S' d U (Or.inl rfl) hd hU
  obtain ⟨e1, e2⟩ := modifier_token_chars 'E' d U (Or.inr rfl) hd hU
  obtain ⟨hS, hrec⟩ := jcron_parse_seventh B ['S', d, U] PB hbar s1 (by simp) s2
    (by simp; omega) hsix hB
  obtain ⟨hE, _⟩ := jcron_parse_seventh B ['E', d, U] PB hbar e1 (by simp) e2
    (by simp; omega) hsix hB
  obtain ⟨m1, m2⟩ := parse_modifier_field_tag PB d U hd hU
  rw [m1] at hS
  rw [m2] at hE
  refine ⟨hS, hE, ?_, ?_, ?_⟩ <;> rw [hrec] <;> rfl

set_option maxRecDepth 100000 in
/-- C19, amended, at the body `0 0 10 * * *` with the digit 2 and the unit `H`. -/
theorem jcron_parse_modifier_suffix_witness :
    jcron_parse "0 0 10 * * *".toList = (JCRON_OK, (jcron_parse "0 0 10 * * *".toList).2) ∧
      (jcron_parse "0 0 10 * * * S2H".toList).1 = JCRON_OK ∧
      (jcron_parse "0 0 10 * * * S2H".toList).2.sod_type = 2 ∧
      (jcron_parse "0 0 10 * * * S2H".toList).2.sod_unit = 'H' ∧
      (jcron_parse "0 0 10 * * * S2H".toList).2.hours =
        (jcron_parse "0 0 10 * * *".toList).2.hours := by
  have h := (jcron_parse_modifier_suffix "0 0 10 * * *".toList
    (jcron_parse "0 0 10 * * *".toList).2 '2' 'H' (by decide) (by decide) (by rfl) (by decide)
    (by decide) (by decide)).1
  have e : "0 0 10 * * *".toList ++ [' ', 'S', '2', 'H'] = "0 0 10 * * * S2H".toList := by
    decide
  rw [e] at h
  refine ⟨by rfl, ?_, ?_, ?_, ?_⟩
  all_goals (rw [h]; try rfl)

/-- C20: code defect.  The seventh token `S2X` has a character after the digit that is not a
unit: `jcron_parse_sod` returns `JCRON_ERR_INVALID_PATTERN` for it, but `jcron_parse` does
not read that return code and returns `JCRON_OK` with `sod_unit = 'X'`. -/
theorem jcron_parse_bad_unit :
    (jcron_parse "0 0 10 * * *".toList).1 = JCRON_OK ∧
      (jcron_parse_sod "S2X".toList (-1) (-1) (Char.ofNat 0)).1 = JCRON_ERR_INVALID_PATTERN ∧
      (jcron_parse "0 0 10 * * * S2X".toList).1 = JCRON_OK ∧
      (jcron_parse "0 0 10 * * * S2X".toList).2.sod_type = 2 ∧
      (jcron_parse "0 0 10 * * * S2X".toList).2.sod_unit = 'X' ∧
      (jcron_parse "0 0 10 * * * E1Q".toList).1 = JCRON_OK := by
  refine ⟨by rfl, by rfl, by rfl, by rfl, by rfl, by rfl⟩

/-! ## Claims C21 to C30 -/

/-- Claim C21 (alternation is a bitwise OR).  For all texts `A` and `B` without `|`, each shorter
than 256 bytes, `B` without leading whitespace, that `jcron_parse` compiles into `PA` and
`PB`: `jcron_parse(A ++ "|" ++ B)` returns `JCRON_OK` with `has_cron = 1`, each of the five
masks the bitwise OR of the masks of `PA` and `PB`, and the WOY, SOD and EOD modifier fields
those of `PA`. -/
theorem jcron_parse_alternation (A B : List Char) (PA PB : jcron_pattern_t)
    (hA : '|' ∉ A) (hB : '|' ∉ B) (hlA : A.length < 256) (hlB : B.length < 256)
    (hws : ∀ c, B.head? = some c → isspace c = false)
    (hpA : jcron_parse A = (JCRON_OK, PA)) (hpB : jcron_parse B = (JCRON_OK, PB)) :
    jcron_parse (A ++ '|' :: B) =
      (JCRON_OK,
        { pattern_init with
          has_cron := 1
          minutes := PA.minutes ||| PB.minutes
          hours := PA.hours ||| PB.hours
          days_of_month := PA.days_of_month ||| PB.days_of_month
          months := PA.months ||| PB.months
          days_of_week := PA.days_of_week ||| PB.days_of_week
          woy_modifier := PA.woy_modifier
          sod_type := PA.sod_type
          sod_modifier := PA.sod_modifier
          sod_unit := PA.sod_unit
          eod_type := PA.eod_type
          eod_modifier := PA.eod_modifier
          eod_unit := PA.eod_unit }) := by
  have hcA : (jcron_parse A).1 = JCRON_OK := by rw [hpA]
  obtain ⟨hlen, hp1, hp2⟩ := jcron_parse_ok_shape A hcA
  obtain ⟨htw, hdw⟩ := takeWhile_bar A B hA
  have htake : (A ++ '|' :: B).take 4 = A.take 4 := List.take_append_of_le_length (by omega)
  have hq1 : has_prefix4 (A ++ '|' :: B) ['E', 'O', 'D', ':'] = false := by
    unfold has_prefix4 at hp1 ⊢; rw [htake]; exact hp1
  have hq2 : has_prefix4 (A ++ '|' :: B) ['S', 'O', 'D', ':'] = false := by
    unfold has_prefix4 at hp2 ⊢; rw [htake]; exact hp2
  have hc : (A ++ '|' :: B).contains '|' = true := by simp
  have hfuel : (A ++ '|' :: B).length = (A.length + B.length) + 1 := by
    simp; omega
  unfold jcron_parse
  rw [hfuel]
  rw [jcron_parse_fuel]
  simp only [hq1, hq2, hc, htw, hdw, List.drop_one, List.tail_cons,
    skip_whitespace_id B hws, if_true, if_false, Bool.false_eq_true]
  rw [if_neg (by omega), if_neg (by omega)]
  have eA : jcron_parse_fuel (A.length + B.length + 1) A = (JCRON_OK, PA) := by
    rw [jcron_parse_fuel_eq _ A hA, hpA]
  have eB : jcron_parse_fuel (A.length + B.length + 1) B = (JCRON_OK, PB) := by
    rw [jcron_parse_fuel_eq _ B hB, hpB]
  rw [eA, eB]
  simp

/-- Claim C21 at the alternation `* 0 9 * * *|* 30 17 * * *`: it has the hours 9 and 17 and the
minutes 0 and 30. -/
theorem jcron_parse_alternation_witness :
    jcron_parse "* 0 9 * * *".toList = (JCRON_OK, (jcron_parse "* 0 9 * * *".toList).2) ∧
      jcron_parse "* 30 17 * * *".toList =
        (JCRON_OK, (jcron_parse "* 30 17 * * *".toList).2) ∧
      (jcron_parse "* 0 9 * * *|* 30 17 * * *".toList).1 = JCRON_OK ∧
      (jcron_parse "* 0 9 * * *|* 30 17 * * *".toList).2.hours =
        (jcron_parse "* 0 9 * * *".toList).2.hours |||
          (jcron_parse "* 30 17 * * *".toList).2.hours := by
  have h := jcron_parse_alternation "* 0 9 * * *".toList "* 30 17 * * *".toList
    (jcron_parse "* 0 9 * * *".toList).2 (jcron_parse "* 30 17 * * *".toList).2
    (by decide) (by decide) (by decide) (by decide) (by decide) (by rfl) (by rfl)
  have e : "* 0 9 * * *".toList ++ '|' :: "* 30 17 * * *".toList =
      "* 0 9 * * *|* 30 17 * * *".toList := by decide
  rw [e] at h
  refine ⟨by rfl, by rfl, ?_, ?_⟩
  all_goals (rw [h])

set_option maxRecDepth 100000 in
/-- Claim C22 (wildcard stability), a defect of the code.  For the pattern of `* * * * * *` and
the instant 2025-10-23T10:45:00, whose calendar fields satisfy all five masks, the vector
forms of `jcron_simd_bitmask_match`, through which `jcron_matches` goes in a build with AVX2
or with NEON, return 0: the 64-bit minutes mask is copied into an array of `uint32_t`, and
the vector shift of 1 by the minute 45 is 0.  The scalar form, with the shift count taken
modulo 32, returns 1 on the same arguments. -/
theorem jcron_matches_wildcard :
    (jcron_parse "* * * * * *".toList).1 = JCRON_OK ∧
      (timestamp_to_tm 1761216300).tm_min = 45 ∧
      fields_match (jcron_parse "* * * * * *".toList).2 (timestamp_to_tm 1761216300) ∧
      jcron_simd_bitmask_match_avx2 (pattern_masks (jcron_parse "* * * * * *".toList).2)
        (time_values (timestamp_to_tm 1761216300)) = 0 ∧
      jcron_simd_bitmask_match_neon (pattern_masks (jcron_parse "* * * * * *".toList).2)
        (time_values (timestamp_to_tm 1761216300)) = 0 ∧
      jcron_simd_bitmask_match (pattern_masks (jcron_parse "* * * * * *".toList).2)
        (time_values (timestamp_to_tm 1761216300)) = 1 ∧
      jcron_matches 1761216300 (jcron_parse "* * * * * *".toList).2 = 1 := by
  refine ⟨by decide, by decide, ?_, by decide, by decide, by decide, by decide⟩
  unfold fields_match
  decide

set_option maxRecDepth 100000 in
/-- Claim C23 as stated, for every `t0`, fails in the far past.  For the pattern `* * * * * 1`
(every minute of every Monday) and `t0 = -699999913600`, a Tuesday of the proleptic year
-20213, `jcron_next` returns `JCRON_ERR_NO_MATCH`: in negative years the weekday computed by
`calc_day_of_week_fast` is never positive, so no pass of the loop sees a Monday (the shift
`1 << tm.tm_wday` by a negative count, reduced modulo 32, selects a bit above the weekday
mask).  Yet the instant `-699999395220`, the Monday six days after `t0`, satisfies all five
masks of the pattern. -/
theorem jcron_next_bound_counterexample :
    jcron_parse "* * * * * 1".toList = (JCRON_OK, (jcron_parse "* * * * * 1".toList).2) ∧
    (jcron_parse "* * * * * 1".toList).2.has_cron = 1 ∧
    (jcron_next (-699999913600) (jcron_parse "* * * * * 1".toList).2).1 = JCRON_ERR_NO_MATCH ∧
    (-699999913600 : Int) ≤ -699999395220 ∧
    fields_match (jcron_parse "* * * * * 1".toList).2 (timestamp_to_tm (-699999395220)) :=
  ⟨by decide, by decide,
    jcron_next_code_error (-699999913600) (jcron_parse "* * * * * 1".toList).2 (by decide)
      JCRON_ERR_NO_MATCH
      (next_loop_monday_far_past (jcron_parse "* * * * * 1".toList).2 (by decide) (by decide)
        10000 _ (start_record_spec (-699999913600)).1 (by decide) (by decide)),
    by decide, by unfold fields_match; decide⟩

/-- Claim C23, amended to reference instants of the years 1 to 9999.  For every pattern `P` that
`jcron_parse` accepted with `has_cron` set, whose five masks lie within the ranges of their
fields, and every `t0` from 0001-01-01T00:00:00Z to 9999-12-31T23:59:59Z: if `jcron_next t0 P` returns `JCRON_ERR_NO_MATCH`, then no instant at
all has UTC calendar fields that satisfy the five masks of `P`; and if some instant does,
`jcron_next t0 P` returns `JCRON_OK`.  The 10000 passes of the loop are enough: a date that
satisfies the masks recurs on the same weekday within 12 years (40 years for the 29th of
February), and the loop reaches it in fewer than 7640 passes. -/
theorem jcron_next_bound_sufficient (s : List Char) (P : jcron_pattern_t) (t0 : Int)
    (_hparse : jcron_parse s = (JCRON_OK, P)) (hranges : mask_ranges P)
    (hcron : P.has_cron = 1)
    (hlo : -62135596800 ≤ t0) (_hhi : t0 ≤ 253402300799) :
    ((jcron_next t0 P).1 = JCRON_ERR_NO_MATCH →
        ∀ u : Int, ¬ fields_match P (timestamp_to_tm u)) ∧
      (∀ u : Int, fields_match P (timestamp_to_tm u) → (jcron_next t0 P).1 = JCRON_OK) := by
  have hP := hranges
  have hc : P.has_cron ≠ 0 := by omega
  have hfind : ∀ u : Int, fields_match P (timestamp_to_tm u) →
      (jcron_next t0 P).1 = JCRON_OK := by
    intro u hmu
    obtain ⟨cf, hcf⟩ := next_loop_finds P hP t0 hlo u hmu
    exact jcron_next_code_ok t0 P hc cf hcf
  refine ⟨?_, hfind⟩
  intro hno u hmu
  have hok := hfind u hmu
  rw [hno] at hok
  exact absurd hok (by decide)

set_option maxRecDepth 100000 in
/-- Claim C23 at the two patterns it names, from 2025-10-23T10:00:00Z.  The pattern `* 0 0 29 2 1`
(the 29th of February on a Monday) is satisfied at 2044-02-29T00:00:00Z, so `jcron_next`
returns `JCRON_OK`; the pattern `* * * 30 2 *` (the 30th of February) makes `jcron_next`
return `JCRON_ERR_NO_MATCH`, and no instant satisfies it. -/
theorem jcron_next_bound_sufficient_witness :
    (jcron_parse "* 0 0 29 2 1".toList = (JCRON_OK, (jcron_parse "* 0 0 29 2 1".toList).2) ∧
      fields_match (jcron_parse "* 0 0 29 2 1".toList).2 (timestamp_to_tm 2340316800) ∧
      (jcron_next 1761213600 (jcron_parse "* 0 0 29 2 1".toList).2).1 = JCRON_OK) ∧
    (jcron_parse "* * * 30 2 *".toList = (JCRON_OK, (jcron_parse "* * * 30 2 *".toList).2) ∧
      (jcron_next 1761213600 (jcron_parse "* * * 30 2 *".toList).2).1 = JCRON_ERR_NO_MATCH ∧
      ∀ u : Int, ¬ fields_match (jcron_parse "* * * 30 2 *".toList).2 (timestamp_to_tm u)) :=
  ⟨⟨by decide, by unfold fields_match; decide,
      (jcron_next_bound_sufficient "* 0 0 29 2 1".toList (jcron_parse "* 0 0 29 2 1".toList).2
        1761213600 (by decide) (mask_ranges_of_bounds _ (by decide)) (by decide) (by decide)
        (by decide)).2 2340316800
        (by unfold fields_match; decide)⟩,
    ⟨by decide,
      jcron_next_february_30 1761213600 (jcron_parse "* * * 30 2 *".toList).2
        (mask_ranges_of_bounds _ (by decide)) (by decide) (by decide)
        (by decide),
      (jcron_next_bound_sufficient "* * * 30 2 *".toList (jcron_parse "* * * 30 2 *".toList).2
        1761213600 (by decide) (mask_ranges_of_bounds _ (by decide)) (by decide) (by decide)
        (by decide)).1
        (jcron_next_february_30 1761213600 (jcron_parse "* * * 30 2 *".toList).2
          (mask_ranges_of_bounds _ (by decide)) (by decide) (by decide)
          (by decide))⟩⟩

set_option maxRecDepth 100000 in
/-- Claim C24 (the bound of `jcron_prev`), a defect of the code.  The pattern `0 0 0 1 * *`
matches at midnight of the first day of every month.  From 2025-10-15T00:00:00 its previous
occurrence, 2025-10-01T00:00:00, lies 20160 minutes back; `jcron_prev` steps back one minute
per pass, gives up after 10000 passes and returns `JCRON_ERR_NO_MATCH`. -/
theorem jcron_prev_monthly :
    (jcron_parse "0 0 0 1 * *".toList).1 = JCRON_OK ∧
      (jcron_parse "0 0 0 1 * *".toList).2.has_cron = 1 ∧
      (1759276800 : Int) < 1760486400 ∧ (1759276800 : Int) % 60 = 0 ∧
      timestamp_to_tm 1759276800 = ⟨0, 0, 0, 1, 9, 125, 3⟩ ∧
      timestamp_to_tm 1760486400 = ⟨0, 0, 0, 15, 9, 125, 3⟩ ∧
      fields_match (jcron_parse "0 0 0 1 * *".toList).2 (timestamp_to_tm 1759276800) ∧
      (jcron_prev 1760486400 (jcron_parse "0 0 0 1 * *".toList).2).1 = JCRON_ERR_NO_MATCH := by
  refine ⟨by decide, by decide, by decide, by decide, by decide, by decide, ?_, ?_⟩
  · unfold fields_match
    decide
  · exact jcron_prev_error 1760486400 (jcron_parse "0 0 0 1 * *".toList).2 _ (by decide)
      (prev_loop_month_gap (jcron_parse "0 0 0 1 * *".toList).2 (by decide) 10000
        { timestamp_to_tm 1760486400 with tm_sec := 0 } (by decide) (by decide) (by decide)
        (by decide) (by decide) (by decide))

set_option maxRecDepth 100000 in
/-- Claim C25 (atomicity of the compiler) as stated fails: `jcron_parse` clears the record behind
`out` before it looks at the pattern and fills it in place.  For `* 5 99 * * *`, refused at
the hour field, the record after the call has `has_cron = 1`, `minutes` with bit 5 and the
modifier sentinels `-1`: a caller who held a zeroed record, or the record of the start, finds
it changed. -/
theorem jcron_parse_atomic_counterexample :
    (jcron_parse "* 5 99 * * *".toList).1 = JCRON_ERR_INVALID_PATTERN ∧
      (jcron_parse "* 5 99 * * *".toList).2.has_cron = 1 ∧
      (jcron_parse "* 5 99 * * *".toList).2.minutes = 32 ∧
      (jcron_parse "* 5 99 * * *".toList).2.eod_type = -1 ∧
      (jcron_parse "* 5 99 * * *".toList).2 ≠ pattern_zero ∧
      (jcron_parse "* 5 99 * * *".toList).2 ≠ pattern_init := by
  refine ⟨by decide, by decide, by decide, by decide, by decide, by decide⟩

/-- Claim C25, amended.  For every text on which `jcron_parse` returns an error code, the record
behind `out` after the call is the record of the start (every field zero, the four modifier
fields `eod_type`, `sod_type`, `eod_modifier`, `sod_modifier` at `-1`) except for the flags
`is_eod_pattern`, `is_sod_pattern`, `has_cron` and the five masks, which may have been written
before the failure. -/
theorem jcron_parse_error_record (s : List Char) (h : (jcron_parse s).1 ≠ JCRON_OK) :
    (jcron_parse s).2 =
        { pattern_init with
          minutes := (jcron_parse s).2.minutes
          hours := (jcron_parse s).2.hours
          days_of_month := (jcron_parse s).2.days_of_month
          months := (jcron_parse s).2.months
          days_of_week := (jcron_parse s).2.days_of_week
          is_eod_pattern := (jcron_parse s).2.is_eod_pattern
          is_sod_pattern := (jcron_parse s).2.is_sod_pattern
          has_cron := (jcron_parse s).2.has_cron } :=
  jcron_parse_fuel_error_record _ s h

set_option maxRecDepth 100000 in
/-- Claim C25, amended, at `* 5 99 * * *`: the modifier fields are those of the start. -/
theorem jcron_parse_error_record_witness :
    (jcron_parse "* 5 99 * * *".toList).1 ≠ JCRON_OK ∧
      (jcron_parse "* 5 99 * * *".toList).2.sod_type = -1 ∧
      (jcron_parse "* 5 99 * * *".toList).2.woy_modifier = 0 :=
  ⟨by decide,
    (congrArg jcron_pattern_t.sod_type
      (jcron_parse_error_record "* 5 99 * * *".toList (by decide))).trans rfl,
    (congrArg jcron_pattern_t.woy_modifier
      (jcron_parse_error_record "* 5 99 * * *".toList (by decide))).trans rfl⟩

set_option maxRecDepth 100000 in
/-- Claim C26 (leading whitespace), a defect of the code.  `jcron_parse` tests the prefixes `EOD:`
and `SOD:` on the text as it is given, without trimming: `EOD:E0M * * * * *` is taken as an
EOD pattern and refused, while the same text after one space is compiled as a cron pattern and
accepted; for `EOD:E0M` alone the flag `is_eod_pattern` is 1, after one space it is 0.  The
text after a `|` is trimmed before it is compiled. -/
theorem jcron_parse_leading_space :
    (jcron_parse "EOD:E0M * * * * *".toList).1 = JCRON_ERR_INVALID_PATTERN ∧
      (jcron_parse " EOD:E0M * * * * *".toList).1 = JCRON_OK ∧
      (jcron_parse "EOD:E0M".toList).2.is_eod_pattern = 1 ∧
      (jcron_parse " EOD:E0M".toList).2.is_eod_pattern = 0 ∧
      jcron_parse "* * * * * *|  * 5 * * * *".toList =
        jcron_parse "* * * * * *|* 5 * * * *".toList := by
  refine ⟨by decide, by decide, by decide, by decide, by decide⟩

/-- Claim C27 (leap years).  For every integer year `y`, `jcron_days_in_month(y, 2)` is 29 exactly
when `jcron_is_leap_year(y)` is non-zero, and 28 otherwise, where `jcron_is_leap_year(y)` is
non-zero exactly when `y mod 4 = 0` and `y mod 100 ≠ 0`, or `y mod 400 = 0`. -/
theorem jcron_leap_year_correct (y : Int) :
    (jcron_days_in_month y 2 = 29 ↔ jcron_is_leap_year y ≠ 0) ∧
      (jcron_is_leap_year y ≠ 0 ↔ ((y % 4 = 0 ∧ y % 100 ≠ 0) ∨ y % 400 = 0)) ∧
      (jcron_is_leap_year y = 0 → jcron_days_in_month y 2 = 28) := by
  have hl : jcron_is_leap_year y = leap_day y := jcron_is_leap_year_eq y
  have hd : jcron_days_in_month y 2 = if jcron_is_leap_year y ≠ 0 then 29 else 28 := by
    unfold jcron_days_in_month
    simp
  refine ⟨?_, ?_, ?_⟩
  · rw [hd]; split <;> simp_all
  · rw [hl]; unfold leap_day; split <;> simp_all
  · intro h; rw [hd]; simp [h]

/-- Claim C28 (the n-th weekday of a month), a defect of the code.  `jcron_get_nth_weekday` is a
stub that returns 0 for every argument. For the example of the header, the second Monday of
October 2025, it returns 0 and not 13: October 6 and October 13 of 2025 are Mondays (weekday
1) and no earlier day of the month is. -/
theorem jcron_get_nth_weekday_stub :
    jcron_get_nth_weekday 2025 10 1 2 = 0 ∧
      (∀ year month weekday n : Int, jcron_get_nth_weekday year month weekday n = 0) ∧
      (days_from_civil 2025 10 6 + 4) % 7 = 1 ∧ (days_from_civil 2025 10 13 + 4) % 7 = 1 ∧
      jcron_days_in_month 2025 10 = 31 := by
  refine ⟨rfl, fun _ _ _ _ => rfl, by decide, by decide, by decide⟩

set_option maxRecDepth 100000 in
/-- Claim C29 (the result record), a defect of the code.  `jcron_next` clears the result record
and then stores `next_time` only: whatever the arguments, `out.time` is the all-zero record
and `out.error_code` is 0. For `* * * * * *` from 2025-10-23T10:00:00 it returns `JCRON_OK`
with `next_time = 1761213600`, whose calendar record has day 23 of month index 9 in year 125,
while `out.time` has day 0. -/
theorem jcron_next_time_unfilled :
    (∀ (t0 : Int) (P : jcron_pattern_t),
        (jcron_next t0 P).2.time = ⟨0, 0, 0, 0, 0, 0, 0⟩ ∧ (jcron_next t0 P).2.error_code = 0) ∧
      (jcron_next 1761213600 (jcron_parse "* * * * * *".toList).2).1 = JCRON_OK ∧
      (jcron_next 1761213600 (jcron_parse "* * * * * *".toList).2).2.next_time = 1761213600 ∧
      timestamp_to_tm 1761213600 = ⟨0, 0, 10, 23, 9, 125, 4⟩ ∧
      (jcron_next 1761213600 (jcron_parse "* * * * * *".toList).2).2.time ≠
        timestamp_to_tm 1761213600 := by
  refine ⟨?_, by decide, by decide, by decide, by decide⟩
  intro t0 P
  unfold jcron_next
  simp only []
  split
  · exact ⟨rfl, rfl⟩
  · split
    · exact ⟨rfl, rfl⟩
    · exact ⟨rfl, rfl⟩

/-- Claim C30 (bit searches).  For the widths 32 and 64, every mask of that width and every start
bit `b ≥ 0`: `jcron_next_bit_w(mask, b)` returns `-1` exactly when `b ≥ w` or no bit of `mask`
with index `≥ b` is set; otherwise it returns the smallest index `i ≥ b` at which `mask` has a
set bit.  `jcron_first_bit_w(mask)` equals `jcron_next_bit_w(mask, 0)`. -/
theorem jcron_next_bit_correct (mask : Nat) (b : Int) (hb : 0 ≤ b) :
    (mask < 2 ^ 32 →
      (jcron_next_bit_32 mask b = -1 ↔
        ((32 : Int) ≤ b ∨ ∀ j : Nat, b.toNat ≤ j → mask.testBit j = false)) ∧
      (jcron_next_bit_32 mask b ≠ -1 →
        ∃ k : Nat, jcron_next_bit_32 mask b = (k : Int) ∧ b.toNat ≤ k ∧
          mask.testBit k = true ∧ ∀ j : Nat, b.toNat ≤ j → j < k → mask.testBit j = false) ∧
      jcron_first_bit_32 mask = jcron_next_bit_32 mask 0) ∧
    (mask < 2 ^ 64 →
      (jcron_next_bit_64 mask b = -1 ↔
        ((64 : Int) ≤ b ∨ ∀ j : Nat, b.toNat ≤ j → mask.testBit j = false)) ∧
      (jcron_next_bit_64 mask b ≠ -1 →
        ∃ k : Nat, jcron_next_bit_64 mask b = (k : Int) ∧ b.toNat ≤ k ∧
          mask.testBit k = true ∧ ∀ j : Nat, b.toNat ≤ j → j < k → mask.testBit j = false) ∧
      jcron_first_bit_64 mask = jcron_next_bit_64 mask 0) := by
  constructor
  · intro hm
    obtain ⟨h1, h2⟩ := next_bit_result 32 mask b (jcron_next_bit_32 mask b) hm
      (fun h => jcron_next_bit_32_ge mask b h)
      (fun h => jcron_next_bit_32_spec mask b hb h)
    exact ⟨h1, h2, rfl⟩
  · intro hm
    obtain ⟨h1, h2⟩ := next_bit_result 64 mask b (jcron_next_bit_64 mask b) hm
      (fun h => jcron_next_bit_64_ge mask b h)
      (fun h => jcron_next_bit_64_spec mask b hb h)
    exact ⟨h1, h2, rfl⟩

/-- Claim C30 at the mask with the bits 3 and 5, searched from bit 4: the result is 5; from bit 6
the result is -1. -/
theorem jcron_next_bit_correct_witness :
    (0 : Int) ≤ 4 ∧ (40 : Nat) < 2 ^ 32 ∧ jcron_next_bit_32 40 4 = 5 ∧
      jcron_next_bit_32 40 4 ≠ -1 := by
  have h := (jcron_next_bit_correct 40 4 (by decide)).1 (by decide)
  refine ⟨by decide, by decide, by decide, ?_⟩
  intro h1
  rcases h.1.mp h1 with h2 | h2
  · exact absurd h2 (by decide)
  · exact absurd (h2 5 (by decide)) (by decide)

/-! ## Claims C31 to C40 -/

/-- Claim C31 (backward bit searches).  For the widths 32 and 64, every mask of that width
and every integer `b`: `jcron_prev_bit_w(mask, b)` returns the largest index `i < b` at which
`mask` has a set bit, and `-1` exactly when there is none; it returns `-1` whenever `b ≤ 0`
and `jcron_last_bit_w(mask)` whenever `b ≥ w`.  `jcron_last_bit_w(mask)` returns the highest
index of a set bit, and `-1` exactly for the zero mask. -/
theorem jcron_prev_bit_correct (mask : Nat) (b : Int) :
    (mask < 2 ^ 32 →
      (jcron_prev_bit_32 mask b = -1 ↔ ∀ j : Nat, (j : Int) < b → mask.testBit j = false) ∧
      (jcron_prev_bit_32 mask b ≠ -1 →
        ∃ k : Nat, jcron_prev_bit_32 mask b = (k : Int) ∧ (k : Int) < b ∧
          mask.testBit k = true ∧
          ∀ j : Nat, k < j → (j : Int) < b → mask.testBit j = false) ∧
      (b ≤ 0 → jcron_prev_bit_32 mask b = -1) ∧
      (32 ≤ b → jcron_prev_bit_32 mask b = jcron_last_bit_32 mask) ∧
      (jcron_last_bit_32 mask = -1 ↔ mask = 0) ∧
      (jcron_last_bit_32 mask ≠ -1 →
        ∃ k : Nat, jcron_last_bit_32 mask = (k : Int) ∧ k < 32 ∧ mask.testBit k = true ∧
          ∀ j : Nat, k < j → mask.testBit j = false)) ∧
    (mask < 2 ^ 64 →
      (jcron_prev_bit_64 mask b = -1 ↔ ∀ j : Nat, (j : Int) < b → mask.testBit j = false) ∧
      (jcron_prev_bit_64 mask b ≠ -1 →
        ∃ k : Nat, jcron_prev_bit_64 mask b = (k : Int) ∧ (k : Int) < b ∧
          mask.testBit k = true ∧
          ∀ j : Nat, k < j → (j : Int) < b → mask.testBit j = false) ∧
      (b ≤ 0 → jcron_prev_bit_64 mask b = -1) ∧
      (64 ≤ b → jcron_prev_bit_64 mask b = jcron_last_bit_64 mask) ∧
      (jcron_last_bit_64 mask = -1 ↔ mask = 0) ∧
      (jcron_last_bit_64 mask ≠ -1 →
        ∃ k : Nat, jcron_last_bit_64 mask = (k : Int) ∧ k < 64 ∧ mask.testBit k = true ∧
          ∀ j : Nat, k < j → mask.testBit j = false)) := by
  constructor
  · intro hm
    obtain ⟨p1, p2⟩ := prev_bit_result 32 mask b (jcron_prev_bit_32 mask b) hm rfl
    obtain ⟨l1, l2⟩ := last_bit_result 32 mask (jcron_last_bit_32 mask) hm rfl
    refine ⟨p1, p2, ?_, ?_, l1, l2⟩
    · intro h
      unfold jcron_prev_bit_32
      rw [if_pos h]
    · intro h
      unfold jcron_prev_bit_32
      rw [if_neg (by omega)]
      simp only []
      rw [if_neg (by omega)]
  · intro hm
    obtain ⟨p1, p2⟩ := prev_bit_result 64 mask b (jcron_prev_bit_64 mask b) hm rfl
    obtain ⟨l1, l2⟩ := last_bit_result 64 mask (jcron_last_bit_64 mask) hm rfl
    refine ⟨p1, p2, ?_, ?_, l1, l2⟩
    · intro h
      unfold jcron_prev_bit_64
      rw [if_pos h]
    · intro h
      unfold jcron_prev_bit_64
      rw [if_neg (by omega)]
      simp only []
      rw [if_neg (by omega)]

/-- Claim C31 at the mask with the bits 3 and 5: searched below bit 5 the result is 3, the
highest set bit is 5, and below bit 3 there is none. -/
theorem jcron_prev_bit_correct_witness :
    (40 : Nat) < 2 ^ 32 ∧ jcron_prev_bit_32 40 5 = 3 ∧ jcron_last_bit_32 40 = 5 ∧
      jcron_prev_bit_32 40 3 = -1 ∧ jcron_prev_bit_32 40 40 = jcron_last_bit_32 40 :=
  ⟨by decide, by decide, by decide,
    ((jcron_prev_bit_correct 40 3).1 (by decide)).1.mpr (by
      intro j hj
      have hj3 : j < 3 := by omega
      interval_cases j <;> rfl),
    ((jcron_prev_bit_correct 40 40).1 (by decide)).2.2.2.1 (by decide)⟩

/-- Claim C32 (calendar round trip inside the table band).  For every timestamp `t` with
`0 ≤ t < 4102444800`, from 1970-01-01T00:00:00Z up to but excluding 2100-01-01T00:00:00Z,
converting `t` to the broken-down UTC record and back with `tm_to_timestamp_select` returns
`t`. -/
theorem tm_to_timestamp_round_trip (t : Int) (h0 : 0 ≤ t) (h1 : t < 4102444800) :
    tm_to_timestamp_select (timestamp_to_tm t) = t := by
  obtain ⟨hv, he⟩ := timestamp_to_tm_spec t
  have hlo := year_ge_of_civil _ hv.1 (by rw [he]; omega)
  have hhi := year_le_of_civil _ hv.1 (by rw [he]; exact h1)
  rw [tm_to_timestamp_select_eq _ ⟨hlo, hhi⟩ ⟨hv.1.2.2.2.2.2.2.1, hv.1.2.2.2.2.2.2.2.1⟩]
  exact he

/-- Claim C32 at 2025-10-23T10:00:00Z and at the last second of the band. -/
theorem tm_to_timestamp_round_trip_witness :
    ((0 : Int) ≤ 1761213600 ∧ (1761213600 : Int) < 4102444800 ∧
      timestamp_to_tm 1761213600 = ⟨0, 0, 10, 23, 9, 125, 4⟩ ∧
      tm_to_timestamp_select (timestamp_to_tm 1761213600) = 1761213600) ∧
    tm_to_timestamp_select (timestamp_to_tm 4102444799) = 4102444799 :=
  ⟨⟨by decide, by decide, by decide,
      tm_to_timestamp_round_trip 1761213600 (by decide) (by decide)⟩,
    tm_to_timestamp_round_trip 4102444799 (by decide) (by decide)⟩

set_option maxRecDepth 100000 in
/-- Claim C33 (the table against the closed form), a defect of the code.  The table
`DAYS_SINCE_1970[131]` has 130 initialisers, so its entry for 2100 is 0 and not 47482, the
number of days from 1970-01-01 to 2100-01-01.  `tm_to_timestamp_ultra_fast` and
`tm_to_timestamp_select` use the table for every year up to 2100: for 2100-01-01T00:00:00
they return 0, while the closed form `tm_to_timestamp_fast` returns 4102444800.  For the
years 1970 to 2099 the table is right and the two conversions agree. -/
theorem tm_to_timestamp_ultra_fast_2100 :
    tm_to_timestamp_ultra_fast ⟨0, 0, 0, 1, 0, 200, 5⟩ = 0 ∧
      tm_to_timestamp_select ⟨0, 0, 0, 1, 0, 200, 5⟩ = 0 ∧
      tm_to_timestamp_fast ⟨0, 0, 0, 1, 0, 200, 5⟩ = 4102444800 ∧
      timestamp_to_tm 4102444800 = ⟨0, 0, 0, 1, 0, 200, 5⟩ ∧
      DAYS_SINCE_1970.getD (2100 - 1970) 0 = 0 ∧ days_before_year 2100 = 47482 ∧
      (∀ i : Nat, i < 130 →
        DAYS_SINCE_1970.getD i 0 = days_before_year (1970 + (i : Int))) ∧
      (∀ tm : Tm, 1970 ≤ tm.tm_year + 1900 → tm.tm_year + 1900 ≤ 2099 →
        0 ≤ tm.tm_mon → tm.tm_mon ≤ 11 →
        tm_to_timestamp_ultra_fast tm = tm_to_timestamp_fast tm) := by
  refine ⟨by decide, by decide, by decide, by decide, by decide, by decide,
    DAYS_SINCE_1970_eq, ?_⟩
  intro tm h1 h2 h3 h4
  rw [tm_to_timestamp_ultra_fast_eq tm ⟨h1, h2⟩ ⟨h3, h4⟩, tm_to_timestamp_fast_eq_legacy,
    tm_to_timestamp_legacy_eq tm (by omega) ⟨h3, h4⟩]

set_option maxRecDepth 100000 in
/-- Claim C34 (the closed form outside the table band), a defect of the code.  The closed
form divides `year - 1969`, `year - 1901` and `year - 1601` with the truncating division of
C, which rounds the wrong way for years before 1969.  For 1968-01-01T00:00:00, whose Unix
timestamp is -63158400, `tm_to_timestamp_fast` and `tm_to_timestamp_legacy` return
-63072000, one day late; so they do for 1968-12-31T23:59:59.  From 1969 on the closed form
is exact. -/
theorem tm_to_timestamp_fast_1968 :
    tm_to_timestamp_fast ⟨0, 0, 0, 1, 0, 68, 1⟩ = -63072000 ∧
      tm_to_timestamp_legacy ⟨0, 0, 0, 1, 0, 68, 1⟩ = -63072000 ∧
      civil_timestamp ⟨0, 0, 0, 1, 0, 68, 1⟩ = -63158400 ∧
      timestamp_to_tm (-63158400) = ⟨0, 0, 0, 1, 0, 68, 1⟩ ∧
      timestamp_to_tm (-63072000) = ⟨0, 0, 0, 2, 0, 68, 2⟩ ∧
      tm_to_timestamp_fast ⟨59, 59, 23, 31, 11, 68, 2⟩ = -31449601 ∧
      civil_timestamp ⟨59, 59, 23, 31, 11, 68, 2⟩ = -31536001 ∧
      (∀ tm : Tm, 1969 ≤ tm.tm_year + 1900 → 0 ≤ tm.tm_mon → tm.tm_mon ≤ 11 →
        tm_to_timestamp_fast tm = civil_timestamp tm) := by
  refine ⟨by decide, by decide, by decide, by decide, by decide, by decide, by decide, ?_⟩
  intro tm h1 h3 h4
  rw [tm_to_timestamp_fast_eq_legacy, tm_to_timestamp_legacy_eq tm h1 ⟨h3, h4⟩]

/-- Claim C35 (weekday correctness).  For every valid Gregorian date `(y, m, d)` with
`y ≥ 1970`, `calc_day_of_week_fast(y, m, d)` lies in 0..6 and is the weekday of the date
with Sunday = 0, that is, the number of days from 1970-01-01 to the date, plus 4, modulo
7. -/
theorem calc_day_of_week_fast_correct (y m d : Int) (hy : 1970 ≤ y) (hm : 1 ≤ m ∧ m ≤ 12)
    (hd : 1 ≤ d ∧ d ≤ jcron_days_in_month y m) :
    0 ≤ calc_day_of_week_fast y m d ∧ calc_day_of_week_fast y m d ≤ 6 ∧
      calc_day_of_week_fast y m d = (days_from_civil y m d + 4) % 7 := by
  have h := calc_day_of_week_fast_eq y m d (by omega) hm hd.1
  rw [h]
  refine ⟨by omega, by omega, rfl⟩

/-- Claim C35 at 2025-10-23, a Thursday: the routine returns 4, the weekday of the record
that the conversion from the timestamp of that day gives. -/
theorem calc_day_of_week_fast_correct_witness :
    (1970 : Int) ≤ 2025 ∧ (23 : Int) ≤ jcron_days_in_month 2025 10 ∧
      calc_day_of_week_fast 2025 10 23 = 4 ∧ (timestamp_to_tm 1761213600).tm_wday = 4 ∧
      calc_day_of_week_fast 2025 10 23 = (days_from_civil 2025 10 23 + 4) % 7 :=
  ⟨by decide, by decide, by decide, by decide,
    (calc_day_of_week_fast_correct 2025 10 23 (by decide) (by decide) (by decide)).2.2⟩

/-- Claim C36 (the seconds token is accepted and ignored).  Two pattern texts shorter than
512 bytes, without `|` and without the prefixes `EOD:` and `SOD:`, that differ only in
their first token: after the same run `w` of spaces and tabs the one has the token `t1`,
the other the token `t2` (non-empty, without space or tab), and both go on with the same
text `r` (empty, or starting with a space or tab).  `jcron_parse` returns the same code and
the same compiled pattern for both. -/
theorem jcron_parse_seconds_ignored (w t1 t2 r : List Char)
    (hw : ∀ c ∈ w, is_delim c = true)
    (ht1 : t1 ≠ [] ∧ ∀ c ∈ t1, is_delim c = false)
    (ht2 : t2 ≠ [] ∧ ∀ c ∈ t2, is_delim c = false)
    (hr : ∀ c, r.head? = some c → is_delim c = true)
    (hbar1 : '|' ∉ w ++ t1 ++ r) (hbar2 : '|' ∉ w ++ t2 ++ r)
    (hlen1 : (w ++ t1 ++ r).length < 512) (hlen2 : (w ++ t2 ++ r).length < 512)
    (hp1 : has_prefix4 (w ++ t1 ++ r) ['E', 'O', 'D', ':'] = false ∧
      has_prefix4 (w ++ t1 ++ r) ['S', 'O', 'D', ':'] = false)
    (hp2 : has_prefix4 (w ++ t2 ++ r) ['E', 'O', 'D', ':'] = false ∧
      has_prefix4 (w ++ t2 ++ r) ['S', 'O', 'D', ':'] = false) :
    jcron_parse (w ++ t1 ++ r) = jcron_parse (w ++ t2 ++ r) := by
  rw [jcron_parse_plain _ hbar1 hp1.1 hp1.2, jcron_parse_plain _ hbar2 hp2.1 hp2.2]
  exact parse_cron_body_first _ _ t1 t2 _ pattern_init
    (cron_fields_first w t1 r hw ht1 hr hlen1) (cron_fields_first w t2 r hw ht2 hr hlen2)

set_option maxRecDepth 100000 in
/-- Claim C36 at `0 30 9 * * 1-5` and `banana 30 9 * * 1-5`: both are accepted with the
same compiled pattern. -/
theorem jcron_parse_seconds_ignored_witness :
    (jcron_parse "0 30 9 * * 1-5".toList).1 = JCRON_OK ∧
      jcron_parse "0 30 9 * * 1-5".toList = jcron_parse "banana 30 9 * * 1-5".toList :=
  ⟨by decide,
    jcron_parse_seconds_ignored [] "0".toList "banana".toList " 30 9 * * 1-5".toList
      (by decide) (by decide) (by decide) (by decide) (by decide) (by decide) (by decide)
      (by decide) (by decide) (by decide)⟩

/-- Claim C37 (EOD month anchoring as reported by `jcron_prev`).  For every six-field cron
body `B` that `jcron_parse` accepts, every decimal digit `d`, the pattern `P` compiled from
`B ++ " E<d>M"`, and every `t0` in the years 1971..2099: if `jcron_prev t0 P` returns
`JCRON_OK`, then the loop ended on the record `tm1` of the cron-matched minute, a valid
instant before `t0` that satisfies the masks of `P`, and `prev_time` is the timestamp of
23:59:59 UTC on the last day, per `jcron_days_in_month`, of the month that lies `d` months
before the month of `tm1`. -/
theorem jcron_prev_eod_month (B : List Char) (PB : jcron_pattern_t) (dc : Char) (t0 : Int)
    (hbar : '|' ∉ B) (hsix : (strtok_tokens B []).length = 6)
    (hB : jcron_parse B = (JCRON_OK, PB)) (hlen : B.length + 4 < 512)
    (hd : isdigit dc = true) (hrange : 31536000 ≤ t0 ∧ t0 < 4102444800)
    (hok : (jcron_prev t0 (jcron_parse (B ++ [' ', 'E', dc, 'M'])).2).1 = JCRON_OK) :
    (jcron_parse (B ++ [' ', 'E', dc, 'M'])).1 = JCRON_OK ∧
    ∃ tm1 : Tm,
      prev_loop (jcron_parse (B ++ [' ', 'E', dc, 'M'])).2 10000
        { timestamp_to_tm t0 with tm_sec := 0 } = Except.ok tm1 ∧
      valid_tm tm1 ∧ tm1.tm_sec = 0 ∧
      fields_match (jcron_parse (B ++ [' ', 'E', dc, 'M'])).2 tm1 ∧
      civil_timestamp tm1 < t0 ∧
      (jcron_prev t0 (jcron_parse (B ++ [' ', 'E', dc, 'M'])).2).2.prev_time =
        month_end_timestamp
          (months_back_year (tm1.tm_year + 1900) (tm1.tm_mon + 1) ((dc.toNat : Int) - 48))
          (months_back_month (tm1.tm_year + 1900) (tm1.tm_mon + 1) ((dc.toNat : Int) - 48)) := by
  obtain ⟨e1, e2⟩ := modifier_token_chars 'E' dc 'M' (Or.inr rfl) hd (Or.inr (Or.inr (Or.inr rfl)))
  obtain ⟨hE, hrec⟩ := jcron_parse_seventh B ['E', dc, 'M'] PB hbar e1 (by simp) e2
    (by simp; omega) hsix hB
  obtain ⟨_, m2⟩ := parse_modifier_field_tag PB dc 'M' hd (Or.inr (Or.inr (Or.inr rfl)))
  rw [m2] at hE
  have hs : PB.sod_type = -1 := by rw [hrec]; rfl
  rw [hE] at hok ⊢
  exact ⟨rfl, jcron_prev_eod_month_core _ t0 _ (digit_value_bounds dc hd)
    ⟨hs, rfl, rfl, rfl⟩ hrange hok⟩

set_option maxRecDepth 100000 in
/-- Claim C37 at the pattern `* * * * * * E3M` from 2025-01-15T00:00:00Z: the cron-matched
minute is 2025-01-14T23:59, in January 2025, and `prev_time` is 2024-10-31T23:59:59Z, the
end of the month three months before. -/
theorem jcron_prev_eod_month_witness :
    jcron_parse "* * * * * *".toList = (JCRON_OK, (jcron_parse "* * * * * *".toList).2) ∧
      (jcron_prev 1736899200 (jcron_parse "* * * * * * E3M".toList).2).1 = JCRON_OK ∧
      (jcron_prev 1736899200 (jcron_parse "* * * * * * E3M".toList).2).2.prev_time =
        month_end_timestamp 2024 10 ∧
      month_end_timestamp 2024 10 = 1730419199 ∧
      timestamp_to_tm 1730419199 = ⟨59, 59, 23, 31, 9, 124, 4⟩ := by
  have e : "* * * * * *".toList ++ [' ', 'E', '3', 'M'] = "* * * * * * E3M".toList := by
    decide
  have hok : (jcron_prev 1736899200 (jcron_parse "* * * * * * E3M".toList).2).1 = JCRON_OK := by
    decide
  have h := jcron_prev_eod_month "* * * * * *".toList (jcron_parse "* * * * * *".toList).2 '3'
    1736899200 (by decide) (by decide) (by rfl) (by decide) (by decide) (by decide)
    (by rw [e]; exact hok)
  rw [e] at h
  obtain ⟨_, tm1, hl, _, _, _, _, hp⟩ := h
  have hloop : prev_loop (jcron_parse "* * * * * * E3M".toList).2 10000
      { timestamp_to_tm 1736899200 with tm_sec := 0 } = Except.ok ⟨0, 59, 23, 14, 0, 125, 2⟩ := by
    rfl
  rw [hloop] at hl
  injection hl with hl
  subst hl
  exact ⟨by rfl, hok, hp, by decide, by decide⟩

/-- Claim C39 (the modifier value), a defect of the code.  When no unit letter follows the
digit, `jcron_parse_sod` and `jcron_parse_eod` return `JCRON_OK` and write 0 to
`out_modifier`, not the digit: for `S2` and `E2` the type is 2, the modifier 0 and the unit
`D`.  When a unit letter `H`, `D`, `W` or `M` follows, the modifier is the digit. -/
theorem jcron_parse_modifier_value :
    jcron_parse_sod "S2".toList (-1) (-1) '\x00' = (JCRON_OK, 2, 0, 'D') ∧
      jcron_parse_eod "E2".toList (-1) (-1) '\x00' = (JCRON_OK, 2, 0, 'D') ∧
      jcron_parse_sod "S2D".toList (-1) (-1) '\x00' = (JCRON_OK, 2, 2, 'D') ∧
      (jcron_parse "* * * * * * S2".toList).1 = JCRON_OK ∧
      (jcron_parse "* * * * * * S2".toList).2.sod_type = 2 ∧
      (jcron_parse "* * * * * * S2".toList).2.sod_modifier = 0 ∧
      (∀ (c1 : Char) (rest : List Char) (type mv : Int) (unit : Char), isdigit c1 = true →
        (jcron_parse_sod ('S' :: c1 :: rest) type mv unit).1 = JCRON_OK →
        (jcron_parse_sod ('S' :: c1 :: rest) type mv unit).2.1 = (c1.toNat : Int) - 48 ∧
        (jcron_parse_sod ('S' :: c1 :: rest) type mv unit).2.2.1 =
          (if rest = [] then 0 else (c1.toNat : Int) - 48)) ∧
      (∀ (c1 : Char) (rest : List Char) (type mv : Int) (unit : Char), isdigit c1 = true →
        (jcron_parse_eod ('E' :: c1 :: rest) type mv unit).1 = JCRON_OK →
        (jcron_parse_eod ('E' :: c1 :: rest) type mv unit).2.1 = (c1.toNat : Int) - 48 ∧
        (jcron_parse_eod ('E' :: c1 :: rest) type mv unit).2.2.1 =
          (if rest = [] then 0 else (c1.toNat : Int) - 48)) := by
  refine ⟨by decide, by decide, by decide, by decide, by decide, by decide, ?_, ?_⟩
  · intro c1 rest type mv unit hd hok
    unfold jcron_parse_sod parse_modifier at hok ⊢
    simp only [hd, ne_eq, not_true_eq_false, or_self, if_false] at hok ⊢
    cases rest with
    | nil => exact ⟨rfl, rfl⟩
    | cons u us =>
      simp only [] at hok ⊢
      rw [if_neg (List.cons_ne_nil u us)]
      by_cases hu : u ≠ 'H' ∧ u ≠ 'D' ∧ u ≠ 'W' ∧ u ≠ 'M'
      · rw [if_pos hu] at hok
        have h : JCRON_ERR_INVALID_PATTERN = JCRON_OK := hok
        exact absurd h (by decide)
      · rw [if_neg hu]
        exact ⟨rfl, rfl⟩
  · intro c1 rest type mv unit hd hok
    unfold jcron_parse_eod parse_modifier at hok ⊢
    simp only [hd, ne_eq, not_true_eq_false, or_self, if_false] at hok ⊢
    cases rest with
    | nil => exact ⟨rfl, rfl⟩
    | cons u us =>
      simp only [] at hok ⊢
      rw [if_neg (List.cons_ne_nil u us)]
      by_cases hu : u ≠ 'H' ∧ u ≠ 'D' ∧ u ≠ 'W' ∧ u ≠ 'M'
      · rw [if_pos hu] at hok
        have h : JCRON_ERR_INVALID_PATTERN = JCRON_OK := hok
        exact absurd h (by decide)
      · rw [if_neg hu]
        exact ⟨rfl, rfl⟩

/-- Claim C40 (the two weekday routines agree).  For every year `y ≥ 1`, month `m` in 1..12
and day `d` in 1..31, `calc_day_of_week(y, m, d)` (Zeller form) equals
`calc_day_of_week_fast(y, m, d)` (Sakamoto form), and both lie in 0..6. -/
theorem calc_day_of_week_agree (y m d : Int) (hy : 1 ≤ y) (hm : 1 ≤ m ∧ m ≤ 12)
    (hd : 1 ≤ d ∧ d ≤ 31) :
    calc_day_of_week y m d = calc_day_of_week_fast y m d ∧
      0 ≤ calc_day_of_week y m d ∧ calc_day_of_week y m d ≤ 6 ∧
      0 ≤ calc_day_of_week_fast y m d ∧ calc_day_of_week_fast y m d ≤ 6 := by
  rw [calc_day_of_week_eq y m d hy hm, calc_day_of_week_fast_eq y m d hy hm hd.1]
  refine ⟨rfl, ?_, ?_, ?_, ?_⟩ <;> omega

/-- Claim C40 at 2000-02-29, a Tuesday, and at 0001-01-01, a Monday. -/
theorem calc_day_of_week_agree_witness :
    (calc_day_of_week 2000 2 29 = 2 ∧ calc_day_of_week_fast 2000 2 29 = 2 ∧
      calc_day_of_week 2000 2 29 = calc_day_of_week_fast 2000 2 29) ∧
    (calc_day_of_week 1 1 1 = 1 ∧ calc_day_of_week 1 1 1 = calc_day_of_week_fast 1 1 1) :=
  ⟨⟨by decide, by decide,
      (calc_day_of_week_agree 2000 2 29 (by decide) (by decide) (by decide)).1⟩,
    ⟨by decide, (calc_day_of_week_agree 1 1 1 (by decide) (by decide) (by decide)).1⟩⟩

end JCron
